import Mathlib

/-!
# Front-matter scanner

A shallow embedding of `src/extract_front_matter.cpp` (the scanner behind
`extract_front_matter_cpp`) and theorems about it.

Conventions of the embedding.

* A `std::string` / `const char*` buffer is a `List Char`; every `Char` stands for one
  byte.  `byteAt str i` is `str[i]`; an index past the end reads the NUL byte, as the
  terminator of `c_str()` does.
* Offsets (`size_t`) are natural numbers.  Buffers are far shorter than `2^64`, so the
  sums `pos + k` of the source never wrap.  The two subtractions that may wrap
  (`pos - 1`, `pos - 2` at `pos = 0`) only feed `is_newline`, which answers `false` for
  every index `>= len`; they are modelled by an explicit guard.
* A loop `while (pos < len) { ... }` is `while_lt`, run with fuel `len - pos`.  Every
  loop body of the source advances its cursor, so this fuel is never exhausted before
  the loop condition fails (`while_lt_fuel_irrelevant` and the `_body_advances` theorems).
* The five-field result list is the structure `Result`; the strings of `format` and
  `fence_type` are kept as strings.
* The statements speak of lines: `splitLines` cuts a text at its LFs, `fence_line`,
  `is_blank_line`, `is_separator_line` and `pep_line_ok` are the line tests of the
  scanner, and `scan_block` is the scan for the closing fence, line by line.
* The namespace `CodeCpp` holds `src/code.cpp`, the other version of the scanner: its
  line scans count lines and bytes against two ceilings, its `unwrap_comments` copies
  byte by byte, and its result list has no `format`.  Helpers whose text is the same in
  both files are not repeated there.
-/

namespace FrontMatter

/-! ## Buffers and cursor primitives -/

/-- The byte `str[i]`; NUL when `i` is not an index of `str`. -/
def byteAt (str : List Char) (i : Nat) : Char := str.getD i (Char.ofNat 0)

/-- The `std::string::substr(start, n)` of the source. -/
def substr (s : List Char) (start n : Nat) : List Char := (s.drop start).take n

/-- The test `memcmp(a + apos, b, n) == 0`: the `n` bytes of `a` from `apos` equal the
first `n` bytes of `b`. -/
def memcmp_eq (a : List Char) (apos : Nat) (b : List Char) (n : Nat) : Bool :=
  (List.range n).all (fun k => byteAt a (apos + k) == byteAt b k)

/-- Helper `is_whitespace` (lines 14-16): space or tab. -/
def is_whitespace (c : Char) : Bool := c == ' ' || c == '\t'

/-- Helper `is_newline` (lines 19-24): LF, or CR immediately followed by LF. -/
def is_newline (str : List Char) (pos len : Nat) : Bool :=
  if pos ≥ len then false
  else if byteAt str pos == '\n' then true
  else if byteAt str pos == '\r' && decide (pos + 1 < len) && byteAt str (pos + 1) == '\n' then true
  else false

/-- The loop `while (i < len && cond(i)) i++`, run with `fuel` iterations at most. -/
def scan_while (cond : Nat → Bool) (len : Nat) : Nat → Nat → Nat
  | 0, i => i
  | fuel + 1, i => if decide (i < len) && cond i then scan_while cond len fuel (i + 1) else i

/-- The inline loop `while (i < len && is_whitespace(str[i])) i++` that follows every
fence and marker test of the source. -/
def skip_ws (str : List Char) (i len : Nat) : Nat :=
  scan_while (fun j => is_whitespace (byteAt str j)) len (len - i) i

/-- Helper `skip_to_next_line` (lines 27-39). -/
def skip_to_next_line (str : List Char) (pos len : Nat) : Nat :=
  let pos1 := scan_while (fun j => !is_newline str j len) len (len - pos) pos
  if pos1 < len then
    if byteAt str pos1 == '\r' && decide (pos1 + 1 < len) && byteAt str (pos1 + 1) == '\n' then
      pos1 + 2
    else if byteAt str pos1 == '\n' then
      pos1 + 1
    else pos1
  else pos1

/-- The test `is_newline(str, pos - k, len)` for an offset `pos` that may be smaller than
`k`: in `size_t` the difference then wraps to an index `>= len`, for which `is_newline`
answers `false`. -/
def is_newline_back (str : List Char) (pos k len : Nat) : Bool :=
  decide (k ≤ pos) && is_newline str (pos - k) len

/-! ## Loops -/

/-- One iteration of a `while (pos < len)` loop either returns from the function or
goes round again with a new cursor and state. -/
inductive Step (σ ρ : Type) where
  | done (r : ρ) : Step σ ρ
  | next (pos : Nat) (s : σ) : Step σ ρ

/-- The loop `while (pos < len) { body }` followed by `exit`; `fuel` bounds the number
of iterations. -/
def while_lt {σ ρ : Type} (len : Nat) (body : Nat → σ → Step σ ρ) (exit : σ → ρ) :
    Nat → Nat → σ → ρ
  | 0, _, s => exit s
  | fuel + 1, pos, s =>
    if pos < len then
      match body pos s with
      | Step.done r => r
      | Step.next pos1 s1 => while_lt len body exit fuel pos1 s1
    else exit s

/-- Every iteration of `body` that goes round again moves the cursor forward. -/
def Advances {σ ρ : Type} (len : Nat) (body : Nat → σ → Step σ ρ) : Prop :=
  ∀ pos s pos1 s1, pos < len → body pos s = Step.next pos1 s1 → pos < pos1

/-! ## Fence classifiers -/

/-- Helper `validate_fence` (lines 43-83): the offset after the fence line, `0` if the
line at `pos` is not a fence. -/
def validate_fence (str : List Char) (pos len : Nat) (fence_chars : List Char)
    (is_opening : Bool) : Nat :=
  if is_opening && pos != 0 then 0
  else if !is_opening && decide (pos > 0) && !is_newline str (pos - 1) len
      && !(decide (pos ≥ 2) && is_newline str (pos - 2) len) then 0
  else if pos + 3 > len then 0
  else if !memcmp_eq str pos fence_chars 3 then 0
  else
    let i := skip_ws str (pos + 3) len
    if i ≥ len then i
    else if is_newline str i len then
      if byteAt str i == '\r' && decide (i + 1 < len) && byteAt str (i + 1) == '\n' then i + 2
      else i + 1
    else 0

/-- Loop body of `find_closing_fence` (lines 90-106). -/
def find_closing_fence_body (str : List Char) (start_pos len : Nat) (fence_chars : List Char)
    (pos : Nat) (_ : Unit) : Step Unit Nat :=
  let at_line_start := pos == start_pos || is_newline_back str pos 1 len
    || (decide (pos ≥ 2) && is_newline str (pos - 2) len)
  if at_line_start && decide (pos + 3 ≤ len)
      && decide (validate_fence str pos len fence_chars false > 0) then
    Step.done pos
  else Step.next (skip_to_next_line str pos len) ()

/-- Helper `find_closing_fence` (lines 87-109): the offset where the closing fence line
starts (also stored in `content_end`), `0` if there is none. -/
def find_closing_fence (str : List Char) (start_pos len : Nat) (fence_chars : List Char) : Nat :=
  while_lt len (find_closing_fence_body str start_pos len fence_chars) (fun _ => 0)
    (len - start_pos) start_pos ()

/-- Loop body of `trim_leading_empty_lines` (lines 116-139). -/
def trim_leading_empty_lines_body (body : List Char) (len : Nat) (pos : Nat) (_ : Unit) :
    Step Unit (List Char) :=
  let line_start := pos
  let pos1 := skip_ws body pos len
  if pos1 ≥ len then Step.done []
  else if byteAt body pos1 == '\n' then Step.next (pos1 + 1) ()
  else if byteAt body pos1 == '\r' && decide (pos1 + 1 < len) && byteAt body (pos1 + 1) == '\n' then
    Step.next (pos1 + 2) ()
  else Step.done (body.drop line_start)

/-- Helper `trim_leading_empty_lines` (lines 112-142). -/
def trim_leading_empty_lines (body : List Char) : List Char :=
  while_lt body.length (trim_leading_empty_lines_body body body.length) (fun _ => [])
    body.length 0 ()

/-- Helper `check_comment_fence` (lines 146-162): the matched length (`0` if none) and
the comment marker written to `out_prefix` (left as it was, here empty, if none). -/
def check_comment_fence (str : List Char) (pos len : Nat) (fence_chars : List Char) :
    Nat × List Char :=
  if decide (pos + 5 ≤ len) && byteAt str pos == '#' && byteAt str (pos + 1) == ' '
      && memcmp_eq str (pos + 2) fence_chars 3 then
    (5, ['#', ' '])
  else if decide (pos + 6 ≤ len) && byteAt str pos == '#' && byteAt str (pos + 1) == Char.ofNat 39
      && byteAt str (pos + 2) == ' ' && memcmp_eq str (pos + 3) fence_chars 3 then
    (6, ['#', Char.ofNat 39, ' '])
  else (0, [])

/-- The test closing every marker-line check of the source:
`p >= len || data[p] == '\n' || (data[p] == '\r' && p + 1 < len && data[p + 1] == '\n')`. -/
def line_ends_at (data : List Char) (p len : Nat) : Bool :=
  decide (p ≥ len) || byteAt data p == '\n'
    || (byteAt data p == '\r' && decide (p + 1 < len) && byteAt data (p + 1) == '\n')

/-- Loop body of `find_comment_closing_fence` (lines 247-273). -/
def find_comment_closing_fence_body (str : List Char) (start_pos len : Nat)
    (fence_chars pfx : List Char) (pos : Nat) (_ : Unit) : Step Unit Nat :=
  let at_line_start := pos == start_pos || is_newline_back str pos 1 len
    || (decide (pos ≥ 2) && is_newline str (pos - 2) len)
  let (fence_len, found_pfx) := check_comment_fence str pos len fence_chars
  if at_line_start && decide (fence_len > 0) && found_pfx == pfx then
    let check_pos := skip_ws str (pos + fence_len) len
    if decide (check_pos ≥ len) || is_newline str check_pos len then Step.done pos
    else Step.next (skip_to_next_line str pos len) ()
  else Step.next (skip_to_next_line str pos len) ()

/-- Helper `find_comment_closing_fence` (lines 244-277): the offset where the closing
fence line starts (also stored in `content_end`), `0` if there is none. -/
def find_comment_closing_fence (str : List Char) (start_pos len : Nat)
    (fence_chars pfx : List Char) : Nat :=
  while_lt len (find_comment_closing_fence_body str start_pos len fence_chars pfx) (fun _ => 0)
    (len - start_pos) start_pos ()

/-! ## Comment unwrapper -/

/-- Lines 196-198 and 211-213 of `unwrap_comments`: step over the `\r` and the `\n` that
end a dropped marker line. -/
def skip_cr_lf (data : List Char) (pos len : Nat) : Nat :=
  let pos1 := if decide (pos < len) && byteAt data pos == '\r' then pos + 1 else pos
  if decide (pos1 < len) && byteAt data pos1 == '\n' then pos1 + 1 else pos1

/-- Lines 220-237 of `unwrap_comments`: find the end of the line, step over its
terminator and append the segment from `line_content_start` to the result. -/
def unwrap_copy_line (data : List Char) (len line_content_start pos : Nat)
    (result : List Char) : Step (List Char) (List Char) :=
  let pos1 := scan_while (fun j => byteAt data j != '\n' && byteAt data j != '\r') len (len - pos) pos
  let pos2 :=
    if pos1 < len then
      if byteAt data pos1 == '\r' && decide (pos1 + 1 < len) && byteAt data (pos1 + 1) == '\n' then
        pos1 + 2
      else pos1 + 1
    else pos1
  let result1 :=
    if pos2 > line_content_start then
      result ++ substr data line_content_start (pos2 - line_content_start)
    else result
  Step.next pos2 result1

/-- Loop body of `unwrap_comments` (lines 174-238); `pfx` is the C string `prefix`. -/
def unwrap_comments_body (data pfx : List Char) (len : Nat) (pos : Nat) (result : List Char) :
    Step (List Char) (List Char) :=
  let pfx_len := pfx.length
  if decide (pos + pfx_len ≤ len) && memcmp_eq data pos pfx pfx_len then
    unwrap_copy_line data len (pos + pfx_len) (pos + pfx_len) result
  else if byteAt data pos == '#' && byteAt pfx 0 == '#' then
    let check_pos := pos + 1
    let roxy := pfx_len == 3 && byteAt pfx 1 == Char.ofNat 39 && decide (check_pos < len)
      && byteAt data check_pos == Char.ofNat 39
    let check_pos1 := if roxy then skip_ws data (check_pos + 1) len else check_pos
    if roxy && (decide (check_pos1 ≥ len) || byteAt data check_pos1 == '\n'
        || byteAt data check_pos1 == '\r') then
      Step.next (skip_cr_lf data check_pos1 len) result
    else if pfx_len == 2 && byteAt pfx 1 == ' ' then
      let check_pos2 := skip_ws data check_pos1 len
      if decide (check_pos2 ≥ len) || byteAt data check_pos2 == '\n'
          || byteAt data check_pos2 == '\r' then
        Step.next (skip_cr_lf data check_pos2 len) result
      else unwrap_copy_line data len pos pos result
    else unwrap_copy_line data len pos pos result
  else unwrap_copy_line data len pos pos result

/-- Helper `unwrap_comments` (lines 165-241). -/
def unwrap_comments (content pfx : List Char) : List Char :=
  while_lt content.length (unwrap_comments_body content pfx content.length) (fun result => result)
    content.length 0 []

/-! ## Body trimmer for comment-wrapped dialects -/

/-- Lines 299-302 of `trim_leading_comment_lines`: step over the terminator of an empty
line. -/
def skip_empty_line_end (data : List Char) (pos len : Nat) : Nat :=
  if pos < len then
    if byteAt data pos == '\r' then pos + 2 else pos + 1
  else pos

/-- Lines 316-320 and 335-339 of `trim_leading_comment_lines`: step over the terminator
of a bare marker line. -/
def skip_marker_line_end (data : List Char) (pos len : Nat) : Nat :=
  if pos < len then
    if byteAt data pos == '\r' then pos + 2
    else if byteAt data pos == '\n' then pos + 1
    else pos
  else pos

/-- Loop body of `trim_leading_comment_lines` (lines 288-346). -/
def trim_leading_comment_lines_body (body pfx : List Char) (len : Nat) (pos : Nat) (_ : Unit) :
    Step Unit (List Char) :=
  let pfx_len := pfx.length
  let line_start := pos
  let pos1 := skip_ws body pos len
  if line_ends_at body pos1 len then
    Step.next (skip_empty_line_end body pos1 len) ()
  else
    let hash := pfx_len == 2 && byteAt pfx 0 == '#' && byteAt pfx 1 == ' '
      && byteAt body pos1 == '#'
    if hash && line_ends_at body (skip_ws body (pos1 + 1) len) len then
      Step.next (skip_marker_line_end body (skip_ws body (pos1 + 1) len) len) ()
    else
      let roxy := pfx_len == 3 && byteAt pfx 0 == '#' && byteAt pfx 1 == Char.ofNat 39
        && byteAt pfx 2 == ' ' && decide (pos1 + 2 ≤ len) && byteAt body pos1 == '#'
        && byteAt body (pos1 + 1) == Char.ofNat 39
      if roxy && line_ends_at body (skip_ws body (pos1 + 2) len) len then
        Step.next (skip_marker_line_end body (skip_ws body (pos1 + 2) len) len) ()
      else Step.done (body.drop line_start)

/-- Helper `trim_leading_comment_lines` (lines 281-350). -/
def trim_leading_comment_lines (body pfx : List Char) : List Char :=
  while_lt body.length (trim_leading_comment_lines_body body pfx body.length) (fun _ => [])
    body.length 0 ()

/-! ## Result record and the PEP 723 dialect -/

/-- The named list returned by `extract_front_matter_cpp`. -/
structure Result where
  found : Bool
  format : String
  fence_type : String
  content : List Char
  body : List Char
  deriving DecidableEq, Repr

/-- The record pushed on every non-match: `found = false`, `format = "none"`,
`fence_type = "none"`, `content = ""`, `body = text`. -/
def not_found (text : List Char) : Result := Result.mk false "none" "none" [] text

def PEP723_OPENING_LEN : Nat := 12

def PEP723_OPENING_CHECK_LEN : Nat := 13

def PEP723_CLOSING_LEN : Nat := 5

/-- Helper `is_pep723_opening` (lines 353-368). -/
def is_pep723_opening (str : List Char) (pos len : Nat) : Bool :=
  if pos + PEP723_OPENING_CHECK_LEN > len then false
  else if byteAt str pos != '#' then false
  else if byteAt str (pos + 1) != ' ' then false
  else if byteAt str (pos + 2) != '/' || byteAt str (pos + 3) != '/'
      || byteAt str (pos + 4) != '/' then false
  else if byteAt str (pos + 5) != ' ' then false
  else if byteAt str (pos + 6) != 's' || byteAt str (pos + 7) != 'c' || byteAt str (pos + 8) != 'r'
      || byteAt str (pos + 9) != 'i' || byteAt str (pos + 10) != 'p'
      || byteAt str (pos + 11) != 't' then false
  else
    let i := skip_ws str (pos + PEP723_OPENING_LEN) len
    decide (i ≥ len) || is_newline str i len

/-- Helper `is_pep723_closing` (lines 371-384). -/
def is_pep723_closing (str : List Char) (pos len : Nat) : Bool :=
  if pos + PEP723_CLOSING_LEN > len then false
  else if byteAt str pos != '#' then false
  else if byteAt str (pos + 1) != ' ' then false
  else if byteAt str (pos + 2) != '/' || byteAt str (pos + 3) != '/'
      || byteAt str (pos + 4) != '/' then false
  else
    let i := skip_ws str (pos + PEP723_CLOSING_LEN) len
    decide (i ≥ len) || is_newline str i len

/-- Loop body of `extract_pep723` (lines 407-459). -/
def extract_pep723_body (text : List Char) (len content_start : Nat) (pos : Nat) (_ : Unit) :
    Step Unit Result :=
  if is_pep723_closing text pos len then
    let content :=
      if pos > content_start then
        unwrap_comments (substr text content_start (pos - content_start)) ['#', ' ']
      else []
    let body_start := skip_to_next_line text pos len
    let body :=
      if body_start < len then trim_leading_comment_lines (text.drop body_start) ['#', ' ']
      else []
    Step.done (Result.mk true "toml" "toml_pep723" content body)
  else if byteAt text pos != '#' then Step.done (not_found text)
  else if decide (pos + 1 < len) && byteAt text (pos + 1) != '\n' && byteAt text (pos + 1) != '\r'
      && byteAt text (pos + 1) != ' ' then
    Step.done (not_found text)
  else Step.next (skip_to_next_line text pos len) ()

/-- Helper `extract_pep723` (lines 387-468). -/
def extract_pep723 (text : List Char) : Result :=
  let len := text.length
  if !is_pep723_opening text 0 len then not_found text
  else
    let content_start := skip_to_next_line text 0 len
    while_lt len (extract_pep723_body text len content_start) (fun _ => not_found text)
      (len - content_start) content_start ()

/-! ## Dispatcher -/

/-- The local variables of `extract_front_matter_cpp` that an accepted opening fence
sets (lines 493-498). -/
structure Opening where
  fence_chars : List Char
  format : String
  fence_type : String
  comment_pfx : List Char
  opening_end : Nat
  is_comment_wrapped : Bool
  deriving DecidableEq, Repr

/-- Lines 500-520 (`fence = "---"`) and 522-543 (`fence = "+++"`) of
`extract_front_matter_cpp`: a comment-wrapped opening fence at offset 0; `fmt`,
`ft_comment`, `ft_roxy` are the strings the block assigns. -/
def comment_opening (str : List Char) (len : Nat) (fence : List Char)
    (fmt ft_comment ft_roxy : String) : Option Opening :=
  let (comment_fence_len, comment_pfx) := check_comment_fence str 0 len fence
  if comment_fence_len > 0 then
    let check_pos := skip_ws str comment_fence_len len
    if decide (check_pos ≥ len) || is_newline str check_pos len then
      some (Opening.mk fence fmt (if comment_pfx == ['#', ' '] then ft_comment else ft_roxy)
        comment_pfx (skip_to_next_line str 0 len) true)
    else none
  else none

/-- Lines 545-553 (`fence = "---"`) and 555-563 (`fence = "+++"`): a bare opening fence
at offset 0. -/
def bare_opening (str : List Char) (len : Nat) (fence : List Char) (fmt : String) :
    Option Opening :=
  let opening_end := validate_fence str 0 len fence true
  if opening_end > 0 then some (Opening.mk fence fmt fmt [] opening_end false) else none

/-- Lines 492-563 of `extract_front_matter_cpp`: the dialects are tried in the order
comment-wrapped YAML, comment-wrapped TOML, bare YAML, bare TOML; `none` is the state
`fence_chars == nullptr` of line 566. -/
def detect_opening (str : List Char) (len : Nat) : Option Opening :=
  match comment_opening str len ['-', '-', '-'] "yaml" "yaml_comment" "yaml_roxy" with
  | some o => some o
  | none =>
    match comment_opening str len ['+', '+', '+'] "toml" "toml_comment" "toml_roxy" with
    | some o => some o
    | none =>
      match bare_opening str len ['-', '-', '-'] "yaml" with
      | some o => some o
      | none => bare_opening str len ['+', '+', '+'] "toml"

/-- Lines 576-583: the closing-fence search of the dialect of `o`. -/
def closing_start_of (str : List Char) (len : Nat) (o : Opening) : Nat :=
  if o.is_comment_wrapped then
    find_comment_closing_fence str o.opening_end len o.fence_chars o.comment_pfx
  else find_closing_fence str o.opening_end len o.fence_chars

/-- Lines 595-623: content, body and the result record once the closing fence is found
at `closing_start` (`content_end` holds the same offset). -/
def assemble (text : List Char) (o : Opening) (closing_start : Nat) : Result :=
  let len := text.length
  let content_end := closing_start
  let content :=
    if content_end > o.opening_end then
      let raw := substr text o.opening_end (content_end - o.opening_end)
      if o.is_comment_wrapped then unwrap_comments raw o.comment_pfx else raw
    else []
  let body_start := skip_to_next_line text closing_start len
  let body :=
    if body_start < len then
      if o.is_comment_wrapped then trim_leading_comment_lines (text.drop body_start) o.comment_pfx
      else trim_leading_empty_lines (text.drop body_start)
    else []
  Result.mk true o.format o.fence_type content body

/-- The exported `extract_front_matter_cpp` (lines 471-624). -/
def extract_front_matter_cpp (text : List Char) : Result :=
  let len := text.length
  if len == 0 then Result.mk false "none" "none" [] []
  else if is_pep723_opening text 0 len then extract_pep723 text
  else
    match detect_opening text len with
    | none => not_found text
    | some o =>
      let closing_start := closing_start_of text len o
      if closing_start == 0 then not_found text
      else assemble text o closing_start

/-! ## Suffixes, lines and fence lines: the vocabulary of the statements -/

/-- The number of leading positions of `s` at which the remaining suffix satisfies `f`. -/
def scan_suffix (f : List Char → Bool) : List Char → Nat
  | [] => 0
  | c :: t => if f (c :: t) then scan_suffix f t + 1 else 0

/-- The suffix `s` starts with a line terminator: LF, or CR LF. -/
def starts_newline : List Char → Bool
  | [] => false
  | c :: t => c == '\n' || (c == '\r' && t.head? == some '\n')

/-- The suffix `s` is at the end of a line: it is empty or starts with a terminator. -/
def ends_line (s : List Char) : Bool := s.isEmpty || starts_newline s

/-- The length of the first line of `s`, its LF included. -/
def line_len : List Char → Nat
  | [] => 0
  | c :: t => if c = '\n' then 1 else line_len t + 1

/-- The lines of `s`, each with its terminating LF; only the last may lack one. -/
def splitLines : List Char → List (List Char)
  | [] => []
  | c :: cs =>
    if c = '\n' then [c] :: splitLines cs
    else
      match splitLines cs with
      | [] => [[c]]
      | l :: ls => (c :: l) :: ls

/-- The suffix `s` begins with a fence line: the literal `lit`, then only spaces and
tabs up to the end of the line (LF, CR LF or the end of the text). -/
def fence_line (lit s : List Char) : Bool :=
  lit.isPrefixOf s && ends_line ((s.drop lit.length).dropWhile is_whitespace)

/-- The length of the line terminator at the start of `s`: 2 for CR LF, 0 at the end of
the text, 1 otherwise (LF). -/
def term_len : List Char → Nat
  | [] => 0
  | c :: t => if c = '\r' ∧ t.head? = some '\n' then 2 else 1

/-- The length of a fence line at the start of `s` whose literal has `n` bytes: the
literal, the run of spaces and tabs, and the terminator. -/
def fence_line_len (n : Nat) (s : List Char) : Nat :=
  n + ((s.drop n).takeWhile is_whitespace).length
    + term_len ((s.drop n).dropWhile is_whitespace)

/-- The offset of the first line of `ls` that is a fence line of literal `lit`. -/
def first_fence (lit : List Char) : List (List Char) → Option Nat
  | [] => none
  | l :: ls =>
    if fence_line lit l then some 0
    else (first_fence lit ls).map (fun k => l.length + k)

/-- The offset `pos` is the start of a line after the first: the byte before it is LF. -/
def LineStart (str : List Char) (pos : Nat) : Prop :=
  1 ≤ pos ∧ pos ≤ str.length ∧ byteAt str (pos - 1) = '\n'

/-- The line `l` (without terminator) is the glyph `g` followed only by spaces and tabs. -/
def glyph_then_blanks (g l : List Char) : Bool :=
  g.isPrefixOf l && (l.drop g.length).all is_whitespace

/-- The remainder `text.substr(body_start)` of lines 606-609, before it is trimmed:
everything after the closing fence line of the dialect detected on `text` (empty when
no opening fence is detected). -/
def after_closing_fence (text : List Char) : List Char :=
  match detect_opening text text.length with
  | none => []
  | some o =>
    text.drop (skip_to_next_line text (closing_start_of text text.length o) text.length)

/-- The seven opening literals of the dispatcher: the bare glyphs, the comment-wrapped
glyphs and the PEP 723 opening. -/
def opening_literals : List (List Char) :=
  [['-', '-', '-'], ['+', '+', '+'],
   ['#', ' ', '-', '-', '-'], ['#', Char.ofNat 39, ' ', '-', '-', '-'],
   ['#', ' ', '+', '+', '+'], ['#', Char.ofNat 39, ' ', '+', '+', '+'],
   ['#', ' ', '/', '/', '/', ' ', 's', 'c', 'r', 'i', 'p', 't']]

/-- The closing literal that belongs to an opening literal: the same literal, except
for the PEP 723 dialect, which closes with `# ///`. -/
def closing_literal (op : List Char) : List Char :=
  if op = ['#', ' ', '/', '/', '/', ' ', 's', 'c', 'r', 'i', 'p', 't'] then
    ['#', ' ', '/', '/', '/']
  else op

/-- The content of `long_block n`: `n` lines `x`. -/
def x_lines (n : Nat) : List Char := (List.replicate n ['x', '\n']).flatten

/-- A text with `n` content lines `x` between a bare `---` opening fence and its closing
fence, followed by a body line. -/
def long_block (n : Nat) : List Char :=
  (['-', '-', '-'] ++ ['\n'])
    ++ (x_lines n ++ ((['-', '-', '-'] ++ ['\n']) ++ ['b', 'o', 'd', 'y', '\n']))

/-- The opening-fence state that lines 500-563 assign for each opening literal of the
comment-wrapped and bare dialects (`none` for the PEP 723 literal, which is handled
before them). -/
def opening_of (lit : List Char) (opening_end : Nat) : Option Opening :=
  if lit = ['#', ' ', '-', '-', '-'] then
    some (Opening.mk ['-', '-', '-'] "yaml" "yaml_comment" ['#', ' '] opening_end true)
  else if lit = ['#', Char.ofNat 39, ' ', '-', '-', '-'] then
    some (Opening.mk ['-', '-', '-'] "yaml" "yaml_roxy" ['#', Char.ofNat 39, ' '] opening_end true)
  else if lit = ['#', ' ', '+', '+', '+'] then
    some (Opening.mk ['+', '+', '+'] "toml" "toml_comment" ['#', ' '] opening_end true)
  else if lit = ['#', Char.ofNat 39, ' ', '+', '+', '+'] then
    some (Opening.mk ['+', '+', '+'] "toml" "toml_roxy" ['#', Char.ofNat 39, ' '] opening_end true)
  else if lit = ['-', '-', '-'] then
    some (Opening.mk ['-', '-', '-'] "yaml" "yaml" [] opening_end false)
  else if lit = ['+', '+', '+'] then
    some (Opening.mk ['+', '+', '+'] "toml" "toml" [] opening_end false)
  else none

/-- The opening literal of each dialect with the `format` and `fence_type` strings the
dispatcher returns for it. -/
def dialect_table : List (List Char × String × String) :=
  [(['-', '-', '-'], "yaml", "yaml"),
   (['+', '+', '+'], "toml", "toml"),
   (['#', ' ', '-', '-', '-'], "yaml", "yaml_comment"),
   (['#', Char.ofNat 39, ' ', '-', '-', '-'], "yaml", "yaml_roxy"),
   (['#', ' ', '+', '+', '+'], "toml", "toml_comment"),
   (['#', Char.ofNat 39, ' ', '+', '+', '+'], "toml", "toml_roxy"),
   (['#', ' ', '/', '/', '/', ' ', 's', 'c', 'r', 'i', 'p', 't'], "toml", "toml_pep723")]

/-! ## Vocabulary of the line-level statements -/

/-- The PEP 723 opening literal `# /// script`. -/
def pep723_opening_literal : List Char :=
  ['#', ' ', '/', '/', '/', ' ', 's', 'c', 'r', 'i', 'p', 't']

/-- The PEP 723 closing literal `# ///`. -/
def pep723_closing_literal : List Char := ['#', ' ', '/', '/', '/']

/-- The line `l` (with its terminator, if any) is blank: only spaces and tabs before the
end of the line. -/
def is_blank_line (l : List Char) : Bool := ends_line (l.dropWhile is_whitespace)

/-- The line `l` is a bare marker line for the comment marker `p`: the marker without
its trailing space (`#` for `# `, `#'` for `#' `), with only spaces and tabs before and
after it on the line. -/
def is_bare_marker_line (p l : List Char) : Bool :=
  fence_line p.dropLast (l.dropWhile is_whitespace)

/-- The line `l` is a separator line for the marker `p`: blank, or a bare marker line. -/
def is_separator_line (p l : List Char) : Bool := is_blank_line l || is_bare_marker_line p l

/-- The length of the first segment of `s` as `unwrap_comments` reads it: up to and
including the first LF, CR LF, or CR that is not followed by LF. -/
def seg_len : List Char → Nat
  | [] => 0
  | c :: t => if c = '\n' ∨ (c = '\r' ∧ t.head? ≠ some '\n') then 1 else seg_len t + 1

/-- The segments of `s` as `unwrap_comments` reads them: a segment ends at LF, at CR LF,
or at a CR that is not followed by LF; only the last may lack a terminator. -/
def splitSegments : List Char → List (List Char)
  | [] => []
  | c :: cs =>
    if c = '\n' ∨ (c = '\r' ∧ cs.head? ≠ some '\n') then [c] :: splitSegments cs
    else
      match splitSegments cs with
      | [] => [[c]]
      | l :: ls => (c :: l) :: ls

/-- The suffix `s` is at the end of a segment: it is empty or starts with LF or CR. -/
def ends_seg : List Char → Bool
  | [] => true
  | c :: _ => c == '\n' || c == '\r'

/-- The segment `seg` is the marker `m` followed only by spaces and tabs up to the end
of the segment. -/
def is_bare_marker_seg (m seg : List Char) : Bool :=
  m.isPrefixOf seg && ends_seg ((seg.drop m.length).dropWhile is_whitespace)

/-- What `unwrap_comments` keeps of one segment for the marker `p`: the segment without
its leading `p`; nothing when the segment is the bare marker (`p` without its trailing
space); the segment itself otherwise. -/
def unwrap_line (p seg : List Char) : List Char :=
  if p.isPrefixOf seg then seg.drop p.length
  else if is_bare_marker_seg p.dropLast seg then []
  else seg

/-- The scan of the lines after an opening fence: the lines are accumulated until the
first fence line of the literal `closing`; a line that is not a closing fence and fails
`ok` aborts the scan. The result is the accumulated raw content and the text after the
closing fence line. -/
def scan_block (closing : List Char) (ok : List Char → Bool) (acc : List Char) :
    List (List Char) → Option (List Char × List Char)
  | [] => none
  | l :: ls =>
    if fence_line closing l then some (acc, ls.flatten)
    else if ok l then scan_block closing ok (acc ++ l) ls
    else none

/-- The line grammar of a PEP 723 block (lines 447-455 of `extract_pep723`): the line
begins with `#`, and the byte after the `#`, if there is one, is a space, LF or CR. -/
def pep_line_ok : List Char → Bool
  | [] => false
  | c :: t =>
    c == '#' && (match t with
      | [] => true
      | d :: _ => d == '\n' || d == '\r' || d == ' ')

/-- The text `s` with every LF replaced by CR LF. -/
def crlf : List Char → List Char
  | [] => []
  | c :: t => if c = '\n' then '\r' :: '\n' :: crlf t else c :: crlf t

/-- The comment marker of a dialect, by its `fence_type` string: `#' ` for the roxygen
dialects, none for the bare dialects, `# ` for the others (lines 496-563 and the two
calls of lines 429 and 464 in `extract_pep723`). -/
def marker_of (ft : String) : List Char :=
  if ft = "yaml_roxy" ∨ ft = "toml_roxy" then ['#', Char.ofNat 39, ' ']
  else if ft = "yaml" ∨ ft = "toml" then []
  else ['#', ' ']

/-! ## The closing-fence search of `code.cpp`

The file `code.cpp` is the other version of the scanner in the repository. Its helpers
`is_whitespace`, `is_newline` and `skip_to_next_line` (lines 18-43) are the same text as
those of `extract_front_matter.cpp` and are shared with the definitions above; its
`validate_fence` compares the glyph byte by byte, and its `find_closing_fence` counts
lines and bytes against two ceilings. -/

namespace CodeCpp

/-- The constant `MAX_FRONT_MATTER_SIZE` (line 7 of `code.cpp`). -/
def MAX_FRONT_MATTER_SIZE : Nat := 1048576

/-- The constant `MAX_FRONT_MATTER_LINES` (line 8 of `code.cpp`). -/
def MAX_FRONT_MATTER_LINES : Nat := 10000

/-- Helper `validate_fence` of `code.cpp` (lines 47-87). -/
def validate_fence (str : List Char) (pos len : Nat) (fence_chars : List Char)
    (is_opening : Bool) : Nat :=
  if is_opening && pos != 0 then 0
  else if !is_opening && decide (pos > 0) && !is_newline str (pos - 1) len
      && !(decide (pos ≥ 2) && is_newline str (pos - 2) len) then 0
  else if pos + 3 > len then 0
  else if byteAt str pos != byteAt fence_chars 0 || byteAt str (pos + 1) != byteAt fence_chars 1
      || byteAt str (pos + 2) != byteAt fence_chars 2 then 0
  else
    let i := skip_ws str (pos + 3) len
    if i ≥ len then i
    else if is_newline str i len then
      if byteAt str i == '\r' && decide (i + 1 < len) && byteAt str (i + 1) == '\n' then i + 2
      else i + 1
    else 0

/-- Loop body of `find_closing_fence` of `code.cpp` (lines 96-120); the state is the
pair `(line_count, content_size)`. -/
def find_closing_fence_body (str : List Char) (start_pos len : Nat) (fence_chars : List Char)
    (pos : Nat) (st : Nat × Nat) : Step (Nat × Nat) Nat :=
  let at_line_start := pos == start_pos || is_newline_back str pos 1 len
    || (decide (pos ≥ 2) && is_newline str (pos - 2) len)
  if at_line_start && decide (pos + 3 ≤ len)
      && decide (validate_fence str pos len fence_chars false > 0) then
    Step.done pos
  else
    let line_start := pos
    let pos1 := skip_to_next_line str pos len
    let line_count := st.1 + 1
    let content_size := st.2 + (pos1 - line_start)
    if decide (line_count > MAX_FRONT_MATTER_LINES)
        || decide (content_size > MAX_FRONT_MATTER_SIZE) then
      Step.done 0
    else Step.next pos1 (line_count, content_size)

/-- Helper `find_closing_fence` of `code.cpp` (lines 91-123): the offset of the closing
fence line (also stored in `content_end`), `0` when there is none or a ceiling is
exceeded. -/
def find_closing_fence (str : List Char) (start_pos len : Nat) (fence_chars : List Char) : Nat :=
  while_lt len (find_closing_fence_body str start_pos len fence_chars) (fun _ => 0)
    (len - start_pos) start_pos (0, 0)

end CodeCpp

/-! ## Loop cursors stay inside the buffer -/

/-- Every iteration of `body` that goes round again leaves the cursor inside the buffer
or at its end. -/
def Bounded {σ ρ : Type} (len : Nat) (body : Nat → σ → Step σ ρ) : Prop :=
  ∀ pos s pos1 s1, pos < len → body pos s = Step.next pos1 s1 → pos1 ≤ len

/-! ## The rest of `code.cpp`

The helpers `trim_leading_empty_lines`, `is_pep723_opening` and `is_pep723_closing` of
`code.cpp` (lines 126-156 and 356-387) are the same text as those of
`extract_front_matter.cpp` and are shared with the definitions above. The result list of
`code.cpp` has four fields: there is no `format`. -/

namespace CodeCpp

/-- The bytes read by a chain `str[i1] == c1 && str[i2] == c2 && ...`: the tests are
evaluated from left to right, and the chain stops after the first test that fails. -/
def chain_reads (str : List Char) : List (Nat × Char) → List Nat
  | [] => []
  | t :: rest => t.1 :: (if byteAt str t.1 == t.2 then chain_reads str rest else [])

/-- The value of a chain `str[i1] == c1 && str[i2] == c2 && ...`. -/
def chain_holds (str : List Char) : List (Nat × Char) → Bool
  | [] => true
  | t :: rest => byteAt str t.1 == t.2 && chain_holds str rest

/-- Helper `check_comment_fence` of `code.cpp` (lines 160-176): the matched length (`0`
if none) and the comment marker written to `out_prefix` (left as it was, here empty, if
none). -/
def check_comment_fence (str : List Char) (pos len : Nat) (fence_chars : List Char) :
    Nat × List Char :=
  if decide (pos + 5 ≤ len) && byteAt str pos == '#' && byteAt str (pos + 1) == ' '
      && byteAt str (pos + 2) == byteAt fence_chars 0
      && byteAt str (pos + 3) == byteAt fence_chars 1
      && byteAt str (pos + 4) == byteAt fence_chars 2 then
    (5, ['#', ' '])
  else if decide (pos + 5 ≤ len) && byteAt str pos == '#'
      && byteAt str (pos + 1) == Char.ofNat 39 && byteAt str (pos + 2) == ' '
      && byteAt str (pos + 3) == byteAt fence_chars 0
      && byteAt str (pos + 4) == byteAt fence_chars 1
      && byteAt str (pos + 5) == byteAt fence_chars 2 then
    (6, ['#', Char.ofNat 39, ' '])
  else (0, [])

/-- The byte tests of the first condition of `check_comment_fence` (lines 162-163), in
the order of the source. -/
def hash_chain (pos : Nat) (fence_chars : List Char) : List (Nat × Char) :=
  [(pos, '#'), (pos + 1, ' '), (pos + 2, byteAt fence_chars 0),
   (pos + 3, byteAt fence_chars 1), (pos + 4, byteAt fence_chars 2)]

/-- The byte tests of the second condition of `check_comment_fence` (lines 169-170), in
the order of the source. -/
def roxy_chain (pos : Nat) (fence_chars : List Char) : List (Nat × Char) :=
  [(pos, '#'), (pos + 1, Char.ofNat 39), (pos + 2, ' '), (pos + 3, byteAt fence_chars 0),
   (pos + 4, byteAt fence_chars 1), (pos + 5, byteAt fence_chars 2)]

/-- The indices of `str` that a call of `check_comment_fence` reads, in order: each
condition reads nothing when its length guard fails, and the second condition is only
evaluated when the first is false. -/
def check_comment_fence_reads (str : List Char) (pos len : Nat) (fence_chars : List Char) :
    List Nat :=
  let r1 := if pos + 5 ≤ len then chain_reads str (hash_chain pos fence_chars) else []
  if decide (pos + 5 ≤ len) && chain_holds str (hash_chain pos fence_chars) then r1
  else r1 ++ (if pos + 5 ≤ len then chain_reads str (roxy_chain pos fence_chars) else [])

/-- Lines 233-242 of `unwrap_comments` in `code.cpp`: the rest of the line is copied to
the result byte by byte, up to and including its LF or CR LF; `fuel` bounds the number
of iterations. The cursor and the result after the loop are returned. -/
def copy_line (content : List Char) (len : Nat) : Nat → Nat → List Char → Nat × List Char
  | 0, pos, result => (pos, result)
  | fuel + 1, pos, result =>
    if pos < len then
      let c := byteAt content pos
      let pos1 := pos + 1
      let result1 := result ++ [c]
      if c == '\n' || (c == '\r' && decide (pos1 < len) && byteAt content pos1 == '\n') then
        if c == '\r' then (pos1 + 1, result1 ++ [byteAt content pos1])
        else (pos1, result1)
      else copy_line content len fuel pos1 result1
    else (pos, result)

/-- The copy loop of `unwrap_comments` started at `pos`, as one step of the outer
loop. -/
def copy_rest (content : List Char) (len pos : Nat) (result : List Char) :
    Step (List Char) (List Char) :=
  Step.next (copy_line content len (len - pos) pos result).1
    (copy_line content len (len - pos) pos result).2

/-- Loop body of `unwrap_comments` in `code.cpp` (lines 187-243); `pfx` is the C string
`prefix`. -/
def unwrap_comments_body (content pfx : List Char) (len : Nat) (pos : Nat)
    (result : List Char) : Step (List Char) (List Char) :=
  let pfx_len := pfx.length
  if decide (pos + pfx_len ≤ len) && substr content pos pfx_len == pfx then
    copy_rest content len (pos + pfx_len) result
  else if byteAt content pos == '#' && byteAt pfx 0 == '#' then
    let check_pos := pos + 1
    let roxy := pfx_len == 3 && byteAt pfx 1 == Char.ofNat 39 && decide (check_pos < len)
      && byteAt content check_pos == Char.ofNat 39
    let check_pos1 := if roxy then skip_ws content (check_pos + 1) len else check_pos
    if roxy && (decide (check_pos1 ≥ len) || byteAt content check_pos1 == '\n'
        || byteAt content check_pos1 == '\r') then
      Step.next (skip_cr_lf content check_pos1 len) result
    else if pfx_len == 2 && byteAt pfx 1 == ' ' then
      let check_pos2 := skip_ws content check_pos1 len
      if decide (check_pos2 ≥ len) || byteAt content check_pos2 == '\n'
          || byteAt content check_pos2 == '\r' then
        Step.next (skip_cr_lf content check_pos2 len) result
      else copy_rest content len pos result
    else copy_rest content len pos result
  else copy_rest content len pos result

/-- Helper `unwrap_comments` of `code.cpp` (lines 179-246). -/
def unwrap_comments (content pfx : List Char) : List Char :=
  while_lt content.length (unwrap_comments_body content pfx content.length)
    (fun result => result) content.length 0 []

/-- The end of an iteration of the three line scans of `code.cpp` (lines 111-119,
281-289 and 458-470): the cursor moves to the next line, the line and its bytes are
counted, and the scan is given up with `abort` when a ceiling is exceeded. -/
def count_line {ρ : Type} (str : List Char) (len pos : Nat) (st : Nat × Nat) (abort : ρ) :
    Step (Nat × Nat) ρ :=
  let line_start := pos
  let pos1 := skip_to_next_line str pos len
  let line_count := st.1 + 1
  let content_size := st.2 + (pos1 - line_start)
  if decide (line_count > MAX_FRONT_MATTER_LINES)
      || decide (content_size > MAX_FRONT_MATTER_SIZE) then
    Step.done abort
  else Step.next pos1 (line_count, content_size)

/-- Loop body of `find_comment_closing_fence` in `code.cpp` (lines 255-290); the state
is the pair `(line_count, content_size)`. -/
def find_comment_closing_fence_body (str : List Char) (start_pos len : Nat)
    (fence_chars pfx : List Char) (pos : Nat) (st : Nat × Nat) : Step (Nat × Nat) Nat :=
  let at_line_start := pos == start_pos || is_newline_back str pos 1 len
    || (decide (pos ≥ 2) && is_newline str (pos - 2) len)
  let (fence_len, found_pfx) := check_comment_fence str pos len fence_chars
  if at_line_start && decide (fence_len > 0) && found_pfx == pfx then
    let check_pos := skip_ws str (pos + fence_len) len
    if decide (check_pos ≥ len) || is_newline str check_pos len then Step.done pos
    else count_line str len pos st 0
  else count_line str len pos st 0

/-- Helper `find_comment_closing_fence` of `code.cpp` (lines 249-293). -/
def find_comment_closing_fence (str : List Char) (start_pos len : Nat)
    (fence_chars pfx : List Char) : Nat :=
  while_lt len (find_comment_closing_fence_body str start_pos len fence_chars pfx)
    (fun _ => 0) (len - start_pos) start_pos (0, 0)

/-- Lines 345-352 of `trim_leading_comment_lines` in `code.cpp`: what is returned once
the loop is left with the cursor at `pos`. -/
def trim_finish (body pfx : List Char) (len pos : Nat) (had_blank_line : Bool) : List Char :=
  if had_blank_line || decide (pos ≥ len) then
    if pos < len then body.drop pos else []
  else unwrap_comments (body.drop pos) pfx

/-- Loop body of `trim_leading_comment_lines` in `code.cpp` (lines 303-343); the state
is the cursor after the iteration and the flag `had_blank_line`. The `break` of line 342
leaves the loop with the cursor after the leading spaces and tabs of the line. -/
def trim_leading_comment_lines_body (body pfx : List Char) (len : Nat) (pos : Nat)
    (st : Nat × Bool) : Step (Nat × Bool) (List Char) :=
  let pfx_len := pfx.length
  let had_blank_line := st.2
  let pos1 := skip_ws body pos len
  if line_ends_at body pos1 len then
    Step.next (skip_empty_line_end body pos1 len) (skip_empty_line_end body pos1 len, true)
  else
    let after_pfx := skip_ws body (pos1 + pfx_len) len
    if decide (pos1 + pfx_len ≤ len) && substr body pos1 pfx_len == pfx
        && line_ends_at body after_pfx len then
      Step.next (skip_marker_line_end body after_pfx len)
        (skip_marker_line_end body after_pfx len, had_blank_line)
    else Step.done (trim_finish body pfx len pos1 had_blank_line)

/-- Helper `trim_leading_comment_lines` of `code.cpp` (lines 296-353). -/
def trim_leading_comment_lines (body pfx : List Char) : List Char :=
  while_lt body.length (trim_leading_comment_lines_body body pfx body.length)
    (fun st => trim_finish body pfx body.length st.1 st.2) body.length 0 (0, false)

/-- The named list returned by `extract_front_matter_cpp` of `code.cpp`. -/
structure Result where
  found : Bool
  fence_type : String
  content : List Char
  body : List Char
  deriving DecidableEq, Repr

/-- The record pushed on every non-match of `code.cpp`. -/
def not_found (text : List Char) : Result := Result.mk false "none" [] text

/-- Loop body of `extract_pep723` in `code.cpp` (lines 411-471); the state is the pair
`(line_count, content_size)`. -/
def extract_pep723_body (text : List Char) (len content_start : Nat) (pos : Nat)
    (st : Nat × Nat) : Step (Nat × Nat) Result :=
  if is_pep723_closing text pos len then
    let content :=
      if pos > content_start then
        unwrap_comments (substr text content_start (pos - content_start)) ['#', ' ']
      else []
    let body_start := skip_to_next_line text pos len
    let body :=
      if body_start < len then trim_leading_empty_lines (text.drop body_start)
      else []
    Step.done (Result.mk true "toml" content body)
  else if byteAt text pos != '#' then Step.done (not_found text)
  else if decide (pos + 1 < len) && byteAt text (pos + 1) != '\n' && byteAt text (pos + 1) != '\r'
      && byteAt text (pos + 1) != ' ' then
    Step.done (not_found text)
  else count_line text len pos st (not_found text)

/-- Helper `extract_pep723` of `code.cpp` (lines 390-479). -/
def extract_pep723 (text : List Char) : Result :=
  let len := text.length
  if !is_pep723_opening text 0 len then not_found text
  else
    let content_start := skip_to_next_line text 0 len
    while_lt len (extract_pep723_body text len content_start) (fun _ => not_found text)
      (len - content_start) content_start (0, 0)

/-- The local variables of `extract_front_matter_cpp` in `code.cpp` that an accepted
opening fence sets (lines 503-507). -/
structure Opening where
  fence_chars : List Char
  fence_type : String
  comment_pfx : List Char
  opening_end : Nat
  is_comment_wrapped : Bool
  deriving DecidableEq, Repr

/-- Lines 510-523 (`fence = "---"`) and 527-539 (`fence = "+++"`) of `code.cpp`: a
comment-wrapped opening fence at offset 0. -/
def comment_opening (str : List Char) (len : Nat) (fence : List Char) (ft : String) :
    Option Opening :=
  let (comment_fence_len, comment_pfx) := check_comment_fence str 0 len fence
  if comment_fence_len > 0 then
    let check_pos := skip_ws str comment_fence_len len
    if decide (check_pos ≥ len) || is_newline str check_pos len then
      some (Opening.mk fence ft comment_pfx (skip_to_next_line str 0 len) true)
    else none
  else none

/-- Lines 543-549 (`fence = "---"`) and 552-558 (`fence = "+++"`) of `code.cpp`: a bare
opening fence at offset 0. -/
def bare_opening (str : List Char) (len : Nat) (fence : List Char) (ft : String) :
    Option Opening :=
  let opening_end := validate_fence str 0 len fence true
  if opening_end > 0 then some (Opening.mk fence ft [] opening_end false) else none

/-- Lines 509-558 of `code.cpp`: the dialects are tried in the order comment-wrapped
YAML, comment-wrapped TOML, bare YAML, bare TOML; `none` is the state
`fence_chars == nullptr` of line 561. -/
def detect_opening (str : List Char) (len : Nat) : Option Opening :=
  match comment_opening str len ['-', '-', '-'] "yaml" with
  | some o => some o
  | none =>
    match comment_opening str len ['+', '+', '+'] "toml" with
    | some o => some o
    | none =>
      match bare_opening str len ['-', '-', '-'] "yaml" with
      | some o => some o
      | none => bare_opening str len ['+', '+', '+'] "toml"

/-- Lines 573-577 of `code.cpp`: the closing-fence search of the dialect of `o`. -/
def closing_start_of (str : List Char) (len : Nat) (o : Opening) : Nat :=
  if o.is_comment_wrapped then
    find_comment_closing_fence str o.opening_end len o.fence_chars o.comment_pfx
  else find_closing_fence str o.opening_end len o.fence_chars

/-- Lines 588-615 of `code.cpp`: content, body and the result record once the closing
fence is found at `closing_start` (`content_end` holds the same offset). -/
def assemble (text : List Char) (o : Opening) (closing_start : Nat) : Result :=
  let len := text.length
  let content_end := closing_start
  let content :=
    if content_end > o.opening_end then
      let raw := substr text o.opening_end (content_end - o.opening_end)
      if o.is_comment_wrapped then unwrap_comments raw o.comment_pfx else raw
    else []
  let body_start := skip_to_next_line text closing_start len
  let body :=
    if body_start < len then
      if o.is_comment_wrapped then trim_leading_comment_lines (text.drop body_start) o.comment_pfx
      else trim_leading_empty_lines (text.drop body_start)
    else []
  Result.mk true o.fence_type content body

/-- The exported `extract_front_matter_cpp` of `code.cpp` (lines 482-616). -/
def extract_front_matter_cpp (text : List Char) : Result :=
  let len := text.length
  if len == 0 then Result.mk false "none" [] []
  else if is_pep723_opening text 0 len then extract_pep723 text
  else
    match detect_opening text len with
    | none => not_found text
    | some o =>
      let closing_start := closing_start_of text len o
      if closing_start == 0 then not_found text
      else assemble text o closing_start

end CodeCpp

/-! ## Comparing the two versions: CR and LF, ceilings, results -/

/-- Every CR of `s` is immediately followed by LF. -/
def cr_before_lf (s : List Char) : Prop :=
  ∀ a b, s = a ++ '\r' :: b → b.head? = some '\n'

/-- The state `(line_count, content_size)` of a line scan of `code.cpp` at the cursor
`pos` cannot reach a ceiling before the end of the buffer: the lines counted so far and
the lines still ahead are at most 10000, the bytes counted so far and the bytes still
ahead at most 1048576. -/
def under_ceilings (str : List Char) (pos : Nat) (st : Nat × Nat) : Prop :=
  pos ≤ str.length ∧ st.1 + (splitLines (str.drop pos)).length ≤ 10000
    ∧ st.2 + (str.length - pos) ≤ 1048576

namespace CodeCpp

/-- The opening-fence state of `code.cpp` that corresponds to the state `o` of
`extract_front_matter.cpp`: the `fence_type` of `code.cpp` is the `format` of the newer
version. -/
def of_opening (o : FrontMatter.Opening) : Opening :=
  Opening.mk o.fence_chars o.format o.comment_pfx o.opening_end o.is_comment_wrapped

/-- The results of the two versions agree on detection: the same `found`, and the same
`content` when every CR of the text is followed by LF. -/
def same_detection (text : List Char) (rc : Result) (r : FrontMatter.Result) : Prop :=
  rc.found = r.found ∧ (cr_before_lf text → rc.content = r.content)

end CodeCpp

end FrontMatter

namespace FrontMatter

/-! ## Reading a buffer through its suffixes -/

theorem byteAt_drop (str : List Char) (pos k : Nat) :
    byteAt (str.drop pos) k = byteAt str (pos + k) := by
  simp [byteAt, List.getD_eq_getElem?_getD, List.getElem?_drop]

theorem byteAt_nil (k : Nat) : byteAt [] k = Char.ofNat 0 := by
  simp [byteAt]

theorem byteAt_cons_zero (c : Char) (t : List Char) : byteAt (c :: t) 0 = c := by
  simp [byteAt]

theorem byteAt_cons_succ (c : Char) (t : List Char) (k : Nat) :
    byteAt (c :: t) (k + 1) = byteAt t k := by
  simp [byteAt]

theorem drop_eq_cons {str : List Char} {pos : Nat} (h : pos < str.length) :
    str.drop pos = byteAt str pos :: str.drop (pos + 1) := by
  rw [List.drop_eq_getElem_cons h]
  simp [byteAt, List.getD_eq_getElem?_getD, List.getElem?_eq_getElem h]

theorem byteAt_of_drop_eq {str : List Char} {pos : Nat} {c : Char} {t : List Char}
    (h : str.drop pos = c :: t) : byteAt str pos = c ∧ str.drop (pos + 1) = t ∧ pos < str.length := by
  have hlt : pos < str.length := by
    by_contra hge
    rw [List.drop_of_length_le (by omega)] at h
    exact absurd h (by simp)
  rw [drop_eq_cons hlt] at h
  simp only [List.cons.injEq] at h
  exact ⟨h.1, h.2, hlt⟩

theorem scan_while_eq_scan_suffix (str : List Char) (cond : Nat → Bool) (f : List Char → Bool)
    (hc : ∀ j, j < str.length → cond j = f (str.drop j)) :
    ∀ fuel i, str.length - i ≤ fuel →
      scan_while cond str.length fuel i = i + scan_suffix f (str.drop i) := by
  intro fuel
  induction fuel with
  | zero =>
    intro i h
    have : str.drop i = [] := List.drop_of_length_le (by omega)
    simp [scan_while, this, scan_suffix]
  | succ n ih =>
    intro i h
    by_cases hi : i < str.length
    · have hd := drop_eq_cons hi
      rw [scan_while, hc i hi, hd, scan_suffix]
      by_cases hf : f (byteAt str i :: str.drop (i + 1)) = true
      · simp only [hi, decide_True, hf, Bool.and_self, if_true]
        rw [ih (i + 1) (by omega)]
        omega
      · simp [hf]
    · have : str.drop i = [] := List.drop_of_length_le (by omega)
      simp [scan_while, this, scan_suffix, hi]

theorem scan_suffix_le (f : List Char → Bool) (s : List Char) : scan_suffix f s ≤ s.length := by
  induction s with
  | nil => simp [scan_suffix]
  | cons c t ih =>
    rw [scan_suffix]
    split
    · simp; omega
    · simp

theorem scan_suffix_ws (s : List Char) :
    scan_suffix (fun u => is_whitespace (byteAt u 0)) s = (s.takeWhile is_whitespace).length := by
  induction s with
  | nil => simp [scan_suffix]
  | cons c t ih =>
    rw [scan_suffix, List.takeWhile_cons]
    simp only [byteAt_cons_zero]
    by_cases h : is_whitespace c = true
    · simp [h, ih]
    · simp [h]

/-- The whitespace loop stops right after the run of spaces and tabs at `i`. -/
theorem skip_ws_eq (str : List Char) (i : Nat) :
    skip_ws str i str.length = i + ((str.drop i).takeWhile is_whitespace).length := by
  unfold skip_ws
  rw [scan_while_eq_scan_suffix str _ (fun u => is_whitespace (byteAt u 0)) _ _ _ (le_refl _),
    scan_suffix_ws]
  intro j _
  simp [byteAt_drop]

theorem drop_length_takeWhile (p : Char → Bool) (l : List Char) :
    l.drop (l.takeWhile p).length = l.dropWhile p := by
  induction l with
  | nil => simp
  | cons c t ih =>
    rw [List.takeWhile_cons, List.dropWhile_cons]
    by_cases h : p c = true
    · simp [h, ih]
    · simp [h]

theorem drop_skip_ws (str : List Char) (i : Nat) :
    str.drop (skip_ws str i str.length) = (str.drop i).dropWhile is_whitespace := by
  rw [skip_ws_eq, ← List.drop_drop, drop_length_takeWhile]

theorem is_newline_eq (str : List Char) (pos : Nat) :
    is_newline str pos str.length = starts_newline (str.drop pos) := by
  unfold is_newline
  by_cases h : pos < str.length
  · rw [drop_eq_cons h, starts_newline]
    by_cases h1 : pos + 1 < str.length
    · rw [drop_eq_cons h1]
      by_cases a : byteAt str pos = '\n' <;> by_cases b : byteAt str pos = '\r' <;>
        by_cases c : byteAt str (pos + 1) = '\n' <;> simp [h, h1, a, b, c, Nat.not_le.mpr]
    · have : str.drop (pos + 1) = [] := List.drop_of_length_le (by omega)
      by_cases a : byteAt str pos = '\n' <;> simp [h, h1, a, this, Nat.not_le.mpr]
  · have : str.drop pos = [] := List.drop_of_length_le (by omega)
    simp [this, starts_newline, Nat.not_lt.mp h]

theorem line_ends_at_eq (str : List Char) (p : Nat) :
    line_ends_at str p str.length = ends_line (str.drop p) := by
  unfold line_ends_at ends_line
  by_cases h : p < str.length
  · rw [drop_eq_cons h, starts_newline]
    by_cases h1 : p + 1 < str.length
    · rw [drop_eq_cons h1]
      by_cases a : byteAt str p = '\n' <;> by_cases b : byteAt str p = '\r' <;>
        by_cases c : byteAt str (p + 1) = '\n' <;> simp [h, h1, a, b, c, Nat.not_le.mpr]
    · have : str.drop (p + 1) = [] := List.drop_of_length_le (by omega)
      by_cases a : byteAt str p = '\n' <;> simp [h, h1, a, this, Nat.not_le.mpr]
  · have : str.drop p = [] := List.drop_of_length_le (by omega)
    simp [this, Nat.not_lt.mp h]

theorem end_or_newline_eq (str : List Char) (p : Nat) :
    (decide (p ≥ str.length) || is_newline str p str.length) = ends_line (str.drop p) := by
  rw [is_newline_eq]
  unfold ends_line
  by_cases h : p < str.length
  · rw [drop_eq_cons h]
    simp [Nat.not_le.mpr h]
  · have : str.drop p = [] := List.drop_of_length_le (by omega)
    simp [this, Nat.not_lt.mp h]

end FrontMatter

namespace FrontMatter

/-! ## Line skipping -/

theorem line_len_le (s : List Char) : line_len s ≤ s.length := by
  induction s with
  | nil => simp [line_len]
  | cons c t ih =>
    rw [line_len]
    split
    · simp
    · simp; omega

theorem line_len_pos {s : List Char} (h : s ≠ []) : 0 < line_len s := by
  cases s with
  | nil => exact absurd rfl h
  | cons c t =>
    rw [line_len]
    split <;> omega

/-- The tail of `skip_to_next_line` (lines 31-37), read on the suffix at the cursor. -/
theorem line_end_step (s : List Char) :
    (let k := scan_suffix (fun u => !starts_newline u) s
     if k < s.length then
       if byteAt s k == '\r' && decide (k + 1 < s.length) && byteAt s (k + 1) == '\n' then k + 2
       else if byteAt s k == '\n' then k + 1
       else k
     else k) = line_len s := by
  induction s with
  | nil => simp [scan_suffix, line_len]
  | cons c t ih =>
    rw [scan_suffix, line_len]
    by_cases hnl : starts_newline (c :: t) = true
    · simp only [hnl, Bool.not_true, Bool.false_eq_true, if_false]
      rw [starts_newline] at hnl
      by_cases hc : c = '\n'
      · subst hc
        simp [byteAt_cons_zero]
      · simp only [hc, beq_iff_eq, false_or, Bool.and_eq_true, Bool.or_eq_true, decide_eq_true_eq] at hnl
        obtain ⟨hcr, ht⟩ := hnl
        subst hcr
        cases t with
        | nil => simp at ht
        | cons d u =>
          simp only [List.head?_cons, Option.some.injEq] at ht
          subst ht
          simp [byteAt_cons_zero, byteAt_cons_succ, line_len]
    · have hc : c ≠ '\n' := by
        intro hc
        apply hnl
        simp [starts_newline, hc]
      simp only [hnl, Bool.not_false, if_true, hc, if_false]
      simp only [byteAt_cons_succ, List.length_cons, Nat.add_lt_add_iff_right] at ih ⊢
      rw [← ih]
      split
      · split
        · rfl
        · split <;> rfl
      · rfl

/-- The helper `skip_to_next_line` lands right after the first LF at or after `pos`, or at the end
of the buffer when there is none. -/
theorem skip_to_next_line_eq (str : List Char) (pos : Nat) :
    skip_to_next_line str pos str.length = pos + line_len (str.drop pos) := by
  unfold skip_to_next_line
  rw [scan_while_eq_scan_suffix str _ (fun u => !starts_newline u)
    (fun j _ => by rw [is_newline_eq]) _ _ (le_refl _)]
  by_cases hp : pos ≤ str.length
  · have h := line_end_step (str.drop pos)
    simp only [byteAt_drop, List.length_drop] at h
    rw [← h]
    have e1 : ∀ k, (pos + k < str.length) = (k < str.length - pos) := by
      intro k; apply propext; omega
    have e2 : ∀ k, (pos + k + 1 < str.length) = (k + 1 < str.length - pos) := by
      intro k; apply propext; omega
    simp only [e1, e2, Nat.add_assoc]
    split
    · split
      · rfl
      · split <;> rfl
    · rfl
  · have : str.drop pos = [] := List.drop_of_length_le (by omega)
    simp [this, scan_suffix, line_len]
    omega

theorem skip_to_next_line_gt {str : List Char} {pos : Nat} (h : pos < str.length) :
    pos < skip_to_next_line str pos str.length := by
  rw [skip_to_next_line_eq]
  have : str.drop pos ≠ [] := by
    rw [drop_eq_cons h]; simp
  have := line_len_pos this
  omega

theorem skip_to_next_line_le {str : List Char} {pos : Nat} (h : pos ≤ str.length) :
    skip_to_next_line str pos str.length ≤ str.length := by
  rw [skip_to_next_line_eq]
  have := line_len_le (str.drop pos)
  simp only [List.length_drop] at this
  omega

/-! ## The `while (pos < len)` loops never run out of fuel -/

theorem while_lt_fuel_irrelevant {σ ρ : Type} {len : Nat} {body : Nat → σ → Step σ ρ}
    {exit : σ → ρ} (hadv : Advances len body) :
    ∀ fuel1 fuel2 pos s, len - pos ≤ fuel1 → len - pos ≤ fuel2 →
      while_lt len body exit fuel1 pos s = while_lt len body exit fuel2 pos s := by
  intro fuel1
  induction fuel1 with
  | zero =>
    intro fuel2 pos s h1 _
    cases fuel2 with
    | zero => rfl
    | succ m => simp [while_lt, Nat.not_lt.mpr (show len ≤ pos by omega)]
  | succ n ih =>
    intro fuel2 pos s h1 h2
    by_cases hp : pos < len
    · cases fuel2 with
      | zero => omega
      | succ m =>
        simp only [while_lt, hp, if_true]
        cases hb : body pos s with
        | done r => rfl
        | next pos1 s1 =>
          have := hadv pos s pos1 s1 hp hb
          exact ih m pos1 s1 (by omega) (by omega)
    · cases fuel2 with
      | zero => simp [while_lt, hp]
      | succ m => simp [while_lt, hp]

/-- One iteration of the loop, for a loop whose body advances. -/
theorem while_lt_step {σ ρ : Type} {len : Nat} {body : Nat → σ → Step σ ρ} {exit : σ → ρ}
    (hadv : Advances len body) (fuel pos : Nat) (s : σ) (hf : len - pos ≤ fuel) (hp : pos < len) :
    while_lt len body exit fuel pos s =
      match body pos s with
      | Step.done r => r
      | Step.next pos1 s1 => while_lt len body exit (len - pos1) pos1 s1 := by
  cases fuel with
  | zero => omega
  | succ m =>
    simp only [while_lt, hp, if_true]
    cases hb : body pos s with
    | done r => rfl
    | next pos1 s1 =>
      have := hadv pos s pos1 s1 hp hb
      exact while_lt_fuel_irrelevant hadv m _ pos1 s1 (by omega) (le_refl _)

theorem while_lt_exit {σ ρ : Type} {len : Nat} {body : Nat → σ → Step σ ρ} {exit : σ → ρ}
    (fuel pos : Nat) (s : σ) (hp : len ≤ pos) :
    while_lt len body exit fuel pos s = exit s := by
  cases fuel with
  | zero => rfl
  | succ m => simp [while_lt, Nat.not_lt.mpr hp]

end FrontMatter

namespace FrontMatter

/-! ## C1: a non-match is a no-op -/

theorem pep723_body_done (text : List Char) (len content_start pos : Nat) (r : Result)
    (hb : extract_pep723_body text len content_start pos () = Step.done r)
    (hr : r.found = false) : r = not_found text := by
  unfold extract_pep723_body at hb
  split at hb
  · simp only [Step.done.injEq] at hb
    subst hb
    simp at hr
  · split at hb
    · simp only [Step.done.injEq] at hb
      exact hb.symm
    · split at hb
      · simp only [Step.done.injEq] at hb
        exact hb.symm
      · simp at hb

theorem pep723_loop_not_found (text : List Char) (len content_start : Nat) :
    ∀ fuel pos,
      (while_lt len (extract_pep723_body text len content_start) (fun _ => not_found text)
        fuel pos ()).found = false →
      while_lt len (extract_pep723_body text len content_start) (fun _ => not_found text)
        fuel pos () = not_found text := by
  intro fuel
  induction fuel with
  | zero => intro pos _; rfl
  | succ n ih =>
    intro pos h
    simp only [while_lt] at h ⊢
    by_cases hp : pos < len
    · simp only [hp, if_true] at h ⊢
      cases hb : extract_pep723_body text len content_start pos () with
      | done r =>
        simp only [hb] at h ⊢
        exact pep723_body_done text len content_start pos r hb h
      | next pos1 s1 =>
        simp only [hb] at h ⊢
        exact ih _ h
    · simp [hp]

theorem extract_pep723_not_found (text : List Char) (h : (extract_pep723 text).found = false) :
    extract_pep723 text = not_found text := by
  unfold extract_pep723 at h ⊢
  simp only at h ⊢
  split
  · rfl
  · rename_i h1
    simp only [h1, if_false] at h
    exact pep723_loop_not_found text _ _ _ _ h

theorem extract_not_found (text : List Char) (h : (extract_front_matter_cpp text).found = false) :
    extract_front_matter_cpp text = not_found text := by
  unfold extract_front_matter_cpp at h ⊢
  simp only at h ⊢
  split
  · rename_i h0
    have : text = [] := by
      simpa using h0
    subst this
    rfl
  · rename_i h0
    simp only [h0, if_false] at h
    split
    · rename_i h1
      simp only [h1, if_true] at h
      exact extract_pep723_not_found text h
    · rename_i h1
      simp only [h1, if_false] at h
      split
      · rfl
      · rename_i o ho
        simp only [ho] at h
        split
        · rfl
        · rename_i h2
          simp only [h2, if_false] at h
          simp [assemble] at h

/-- C1: whenever `extract_front_matter_cpp` reports `found = false`, `format` and
`fence_type` are `"none"`, `content` is empty and `body` is the input text, byte for
byte; the empty text yields `found = false` with empty content and empty body. -/
theorem not_found_returns_text (text : List Char)
    (h : (extract_front_matter_cpp text).found = false) :
    ((extract_front_matter_cpp text).format = "none"
      ∧ (extract_front_matter_cpp text).fence_type = "none"
      ∧ (extract_front_matter_cpp text).content = []
      ∧ (extract_front_matter_cpp text).body = text)
    ∧ extract_front_matter_cpp [] = Result.mk false "none" "none" [] [] := by
  rw [extract_not_found text h]
  exact ⟨⟨rfl, rfl, rfl, rfl⟩, rfl⟩

theorem not_found_returns_text_witness :
    (extract_front_matter_cpp "---x\n---\nHello\n".toList).found = false
    ∧ (extract_front_matter_cpp "---x\n---\nHello\n".toList).body = "---x\n---\nHello\n".toList :=
  ⟨by decide, (not_found_returns_text "---x\n---\nHello\n".toList (by decide)).1.2.2.2⟩

end FrontMatter

namespace FrontMatter

/-! ## Literal tests -/

theorem memcmp_eq_succ (a : List Char) (apos : Nat) (c : Char) (t : List Char) (n : Nat) :
    memcmp_eq a apos (c :: t) (n + 1) = (byteAt a apos == c && memcmp_eq a (apos + 1) t n) := by
  unfold memcmp_eq
  rw [List.range_succ_eq_map]
  simp only [List.all_cons, List.all_map, Nat.add_zero, byteAt_cons_zero]
  congr 1
  have : ((fun k => byteAt a (apos + k) == byteAt (c :: t) k) ∘ Nat.succ)
      = (fun k => byteAt a (apos + 1 + k) == byteAt t k) := by
    funext k
    simp [byteAt_cons_succ, Nat.add_assoc, Nat.add_comm 1 k]
  rw [this]

/-- The guard `pos + n <= len` together with `memcmp(str + pos, lit, n) == 0` says that
the literal is a prefix of the suffix at `pos`. -/
theorem memcmp_eq_iff_pfx (a : List Char) :
    ∀ (lit : List Char) (apos : Nat), apos ≤ a.length →
      ((apos + lit.length ≤ a.length ∧ memcmp_eq a apos lit lit.length = true)
        ↔ lit <+: a.drop apos) := by
  intro lit
  induction lit with
  | nil =>
    intro apos h
    simp [memcmp_eq, h]
  | cons c t ih =>
    intro apos h
    by_cases hlt : apos < a.length
    · rw [drop_eq_cons hlt, List.length_cons, memcmp_eq_succ, List.cons_prefix_cons,
        ← ih (apos + 1) (by omega)]
      simp only [Bool.and_eq_true, beq_iff_eq]
      constructor
      · rintro ⟨h1, h2, h3⟩
        exact ⟨h2.symm, by omega, h3⟩
      · rintro ⟨h1, h2, h3⟩
        exact ⟨by omega, h1.symm, h3⟩
    · have hd : a.drop apos = [] := List.drop_of_length_le (by omega)
      rw [hd]
      simp
      intro h1
      omega

theorem prefix_drop_length {lit s : List Char} (h : lit <+: s) : lit ++ s.drop lit.length = s := by
  obtain ⟨t, rfl⟩ := h
  simp

end FrontMatter

namespace FrontMatter

/-! ## `validate_fence` on the suffix at the cursor -/

/-- Lines 68-82 of `validate_fence`: the value returned once the glyph and the
whitespace run have been read. -/
theorem fence_tail_eq (str : List Char) (i : Nat) :
    (if i ≥ str.length then i
     else if is_newline str i str.length then
       if byteAt str i == '\r' && decide (i + 1 < str.length) && byteAt str (i + 1) == '\n' then i + 2
       else i + 1
     else 0)
    = if ends_line (str.drop i) then i + term_len (str.drop i) else 0 := by
  rw [is_newline_eq]
  unfold ends_line
  by_cases h : i < str.length
  · rw [drop_eq_cons h]
    simp only [ge_iff_le, Nat.not_le.mpr h, if_false, List.isEmpty_cons, Bool.false_or]
    by_cases hn : starts_newline (byteAt str i :: str.drop (i + 1)) = true
    · simp only [hn, if_true, term_len]
      by_cases h1 : i + 1 < str.length
      · rw [drop_eq_cons h1]
        by_cases b : byteAt str i = '\r' <;> by_cases c : byteAt str (i + 1) = '\n' <;>
          simp [h1, b, c]
      · have hd : str.drop (i + 1) = [] := List.drop_of_length_le (by omega)
        simp [h1, hd]
    · simp [hn]
  · have hd : str.drop i = [] := List.drop_of_length_le (by omega)
    simp [hd, Nat.not_lt.mp h, term_len]

theorem fence_line_nil {lit : List Char} (h : lit ≠ []) : fence_line lit [] = false := by
  cases lit with
  | nil => exact absurd rfl h
  | cons c t => simp [fence_line, List.isPrefixOf]

/-- The helper `validate_fence` accepts exactly when its line-start precondition holds and the
suffix at `pos` begins with a fence line; it then returns the offset after that line. -/
theorem validate_fence_eq (str g : List Char) (pos : Nat) (op : Bool) (hg : g.length = 3) :
    validate_fence str pos str.length g op =
      if (op && pos != 0) = true then 0
      else if (!op && decide (pos > 0) && !is_newline str (pos - 1) str.length
          && !(decide (pos ≥ 2) && is_newline str (pos - 2) str.length)) = true then 0
      else if fence_line g (str.drop pos) then pos + fence_line_len 3 (str.drop pos) else 0 := by
  unfold validate_fence
  split
  · rfl
  · split
    · rfl
    · by_cases hp : pos ≤ str.length
      · have hpre := memcmp_eq_iff_pfx str g pos hp
        rw [hg] at hpre
        by_cases hfl : g <+: str.drop pos
        · have h1 := hpre.mpr hfl
          have hi : skip_ws str (pos + 3) str.length
              = pos + 3 + (((str.drop pos).drop 3).takeWhile is_whitespace).length := by
            rw [skip_ws_eq, List.drop_drop]
          have hd : str.drop (skip_ws str (pos + 3) str.length)
              = ((str.drop pos).drop 3).dropWhile is_whitespace := by
            rw [drop_skip_ws, List.drop_drop]
          simp only [gt_iff_lt, Nat.not_lt.mpr h1.1, if_false, h1.2, Bool.not_true,
            Bool.false_eq_true]
          rw [fence_tail_eq, hd, hi]
          simp only [fence_line, List.isPrefixOf_iff_prefix.mpr hfl, Bool.true_and, hg,
            fence_line_len]
          split
          · omega
          · rfl
        · have hfl2 : fence_line g (str.drop pos) = false := by
            simp [fence_line, List.isPrefixOf_iff_prefix, hfl]
          rw [hfl2]
          by_cases h3 : pos + 3 > str.length
          · simp [h3]
          · have hm : memcmp_eq str pos g 3 = false := by
              by_contra hm
              exact hfl (hpre.mp ⟨by omega, by simpa using hm⟩)
            simp [h3, hm]
      · have hd : str.drop pos = [] := List.drop_of_length_le (by omega)
        have hgne : g ≠ [] := by
          intro h; rw [h] at hg; simp at hg
        rw [hd, fence_line_nil hgne]
        simp [show pos + 3 > str.length by omega]

end FrontMatter

namespace FrontMatter

/-! ## Lines -/

theorem is_whitespace_ne_lf {c : Char} (h : is_whitespace c = true) : c ≠ '\n' := by
  intro hc
  subst hc
  simp [is_whitespace] at h

theorem is_whitespace_ne_cr {c : Char} (h : is_whitespace c = true) : c ≠ '\r' := by
  intro hc
  subst hc
  simp [is_whitespace] at h

theorem splitLines_eq {s : List Char} (h : s ≠ []) :
    splitLines s = s.take (line_len s) :: splitLines (s.drop (line_len s)) := by
  induction s with
  | nil => exact absurd rfl h
  | cons c t ih =>
    rw [splitLines, line_len]
    by_cases hc : c = '\n'
    · simp [hc]
    · simp only [hc, if_false]
      cases t with
      | nil => simp [splitLines, line_len]
      | cons d u =>
        rw [ih (by simp)]
        simp

theorem line_len_cons_ne {c : Char} (t : List Char) (h : c ≠ '\n') :
    line_len (c :: t) = line_len t + 1 := by
  simp [line_len, h]

/-- The first line either runs to the end of the text or ends with LF. -/
theorem line_len_end (s : List Char) :
    line_len s = s.length ∨ (1 ≤ line_len s ∧ byteAt s (line_len s - 1) = '\n') := by
  induction s with
  | nil => left; rfl
  | cons c t ih =>
    by_cases hc : c = '\n'
    · right
      simp [line_len, hc, byteAt_cons_zero]
    · rw [line_len_cons_ne t hc]
      rcases ih with ih | ⟨h1, h2⟩
      · left; simp [ih]
      · right
        refine ⟨by omega, ?_⟩
        have : line_len t + 1 - 1 = (line_len t - 1) + 1 := by omega
        rw [this, byteAt_cons_succ]
        exact h2

theorem ends_line_take_line (s : List Char) :
    ends_line (s.dropWhile is_whitespace)
      = ends_line ((s.take (line_len s)).dropWhile is_whitespace) := by
  induction s with
  | nil => rfl
  | cons d t ih =>
    by_cases hw : is_whitespace d = true
    · rw [line_len_cons_ne t (is_whitespace_ne_lf hw), List.take_succ_cons,
        List.dropWhile_cons, List.dropWhile_cons]
      simp only [hw, if_true]
      exact ih
    · by_cases hd : d = '\n'
      · subst hd
        simp [line_len, List.dropWhile_cons, hw, ends_line, starts_newline]
      · rw [line_len_cons_ne t hd, List.take_succ_cons, List.dropWhile_cons, List.dropWhile_cons]
        simp only [hw, Bool.false_eq_true, if_false]
        cases t with
        | nil => simp [line_len]
        | cons e u =>
          by_cases he : e = '\n'
          · simp [line_len, he, ends_line, starts_newline]
          · simp [line_len, he, ends_line, starts_newline]

/-- Whether a fence line starts a text is decided inside its first line. -/
theorem fence_line_take_line (lit : List Char) (hlit : '\n' ∉ lit) :
    ∀ s, fence_line lit s = fence_line lit (s.take (line_len s)) := by
  induction lit with
  | nil =>
    intro s
    simp only [fence_line, List.isPrefixOf, List.length_nil, List.drop_zero, Bool.true_and]
    exact ends_line_take_line s
  | cons c t ih =>
    intro s
    have hc : c ≠ '\n' := by
      intro h; apply hlit; simp [h]
    have ht : '\n' ∉ t := by
      intro h; apply hlit; simp [h]
    cases s with
    | nil => simp [fence_line, line_len]
    | cons d u =>
      by_cases hd : d = '\n'
      · subst hd
        have : (c == '\n') = false := by simpa using hc
        simp [fence_line, List.isPrefixOf, line_len, this]
      · rw [line_len_cons_ne u hd, List.take_succ_cons]
        have h1 : ∀ v, fence_line (c :: t) (d :: v) = (c == d && fence_line t v) := by
          intro v
          simp [fence_line, List.isPrefixOf, Bool.and_assoc]
        rw [h1, h1, ih ht u]

theorem fence_line_len_zero (s : List Char)
    (h : ends_line (s.dropWhile is_whitespace) = true) : fence_line_len 0 s = line_len s := by
  induction s with
  | nil => rfl
  | cons d t ih =>
    by_cases hw : is_whitespace d = true
    · rw [line_len_cons_ne t (is_whitespace_ne_lf hw)]
      rw [List.dropWhile_cons] at h
      simp only [hw, if_true] at h
      have := ih h
      simp only [fence_line_len, List.drop_zero, Nat.zero_add] at this ⊢
      rw [List.takeWhile_cons, List.dropWhile_cons]
      simp only [hw, if_true, List.length_cons]
      omega
    · rw [List.dropWhile_cons] at h
      simp only [hw, Bool.false_eq_true, if_false] at h
      simp only [fence_line_len, List.drop_zero, Nat.zero_add]
      rw [List.takeWhile_cons, List.dropWhile_cons]
      simp only [hw, if_false, List.length_nil, Nat.zero_add]
      by_cases hd : d = '\n'
      · subst hd
        simp [term_len, line_len]
      · simp only [ends_line, List.isEmpty_cons, Bool.false_or, starts_newline, Bool.or_eq_true,
          beq_iff_eq, hd, false_or, Bool.and_eq_true] at h
        obtain ⟨h1, h2⟩ := h
        subst h1
        cases t with
        | nil => simp at h2
        | cons e u =>
          simp only [List.head?_cons, Option.some.injEq] at h2
          simp [term_len, line_len, h2]

/-- A fence line is a whole line: its length is the length of the first line. -/
theorem fence_line_len_eq (lit : List Char) (hlit : '\n' ∉ lit) :
    ∀ s, fence_line lit s = true → fence_line_len lit.length s = line_len s := by
  induction lit with
  | nil =>
    intro s h
    simp only [fence_line, List.isPrefixOf, List.length_nil, List.drop_zero, Bool.true_and] at h
    exact fence_line_len_zero s h
  | cons c t ih =>
    intro s h
    have hc : c ≠ '\n' := by
      intro h; apply hlit; simp [h]
    have ht : '\n' ∉ t := by
      intro h; apply hlit; simp [h]
    cases s with
    | nil => simp [fence_line, List.isPrefixOf] at h
    | cons d u =>
      have h1 : fence_line (c :: t) (d :: u) = (c == d && fence_line t u) := by
        simp [fence_line, List.isPrefixOf, Bool.and_assoc]
      rw [h1, Bool.and_eq_true, beq_iff_eq] at h
      obtain ⟨hcd, hf⟩ := h
      subst hcd
      rw [line_len_cons_ne u hc, ← ih ht u hf]
      simp only [fence_line_len, List.length_cons, List.drop_succ_cons]
      omega

end FrontMatter

namespace FrontMatter

/-! ## The closing-fence searches, line by line -/

theorem is_newline_of_lineStart {str : List Char} {pos : Nat} (h : LineStart str pos) :
    is_newline str (pos - 1) str.length = true := by
  obtain ⟨h1, h2, h3⟩ := h
  unfold is_newline
  simp [h3, show ¬ (pos - 1 ≥ str.length) by omega]

theorem lineStart_after_skip (str : List Char) (pos : Nat) (hp : pos < str.length) :
    LineStart str (skip_to_next_line str pos str.length)
      ∨ str.length ≤ skip_to_next_line str pos str.length := by
  rw [skip_to_next_line_eq]
  have hle := line_len_le (str.drop pos)
  simp only [List.length_drop] at hle
  rcases line_len_end (str.drop pos) with h | ⟨h1, h2⟩
  · right
    simp only [List.length_drop] at h
    omega
  · left
    refine ⟨by omega, by omega, ?_⟩
    rw [byteAt_drop] at h2
    have : pos + line_len (str.drop pos) - 1 = pos + (line_len (str.drop pos) - 1) := by omega
    rw [this]
    exact h2

/-- A loop that tests every line start for a fence line of literal `lit` and otherwise
skips the line returns the offset of the first such line, `0` if there is none. -/
theorem line_search_eq (str lit : List Char) (hlit : '\n' ∉ lit)
    (body : Nat → Unit → Step Unit Nat)
    (hbody : ∀ pos, LineStart str pos → pos < str.length →
      body pos () = if fence_line lit (str.drop pos) then Step.done pos
        else Step.next (skip_to_next_line str pos str.length) ()) :
    ∀ fuel pos, str.length - pos ≤ fuel → (LineStart str pos ∨ str.length ≤ pos) →
      while_lt str.length body (fun _ => 0) fuel pos ()
        = match first_fence lit (splitLines (str.drop pos)) with
          | none => 0
          | some k => pos + k := by
  intro fuel
  induction fuel with
  | zero =>
    intro pos hf _
    have hd : str.drop pos = [] := List.drop_of_length_le (by omega)
    simp [while_lt, hd, splitLines, first_fence]
  | succ n ih =>
    intro pos hf hls
    by_cases hp : pos < str.length
    · have hls1 : LineStart str pos := by
        rcases hls with h | h
        · exact h
        · omega
      have hne : str.drop pos ≠ [] := by
        rw [drop_eq_cons hp]; simp
      simp only [while_lt, hp, if_true, hbody pos hls1 hp]
      rw [splitLines_eq hne, first_fence, ← fence_line_take_line lit hlit]
      by_cases hf1 : fence_line lit (str.drop pos) = true
      · simp [hf1]
      · simp only [hf1, Bool.false_eq_true, if_false]
        have hgt := skip_to_next_line_gt hp
        rw [ih _ (by omega) (lineStart_after_skip str pos hp), skip_to_next_line_eq,
          List.drop_drop]
        have hlen : (List.take (line_len (str.drop pos)) (str.drop pos)).length
            = line_len (str.drop pos) := by
          rw [List.length_take]
          exact Nat.min_eq_left (line_len_le _)
        cases first_fence lit (splitLines (List.drop (pos + line_len (str.drop pos)) str)) with
        | none => rfl
        | some k => simp [hlen, Nat.add_assoc]
    · have hd : str.drop pos = [] := List.drop_of_length_le (by omega)
      simp [while_lt, hp, hd, splitLines, first_fence]

theorem fence_line_pfx {lit s : List Char} (h : fence_line lit s = true) : lit <+: s := by
  simp only [fence_line, Bool.and_eq_true] at h
  exact List.isPrefixOf_iff_prefix.mp h.1

theorem fence_line_length_le {lit s : List Char} (h : fence_line lit s = true) :
    lit.length ≤ s.length :=
  (fence_line_pfx h).length_le

theorem find_closing_fence_body_eq (str g : List Char) (start pos : Nat) (hg : g.length = 3)
    (hls : LineStart str pos) :
    find_closing_fence_body str start str.length g pos ()
      = if fence_line g (str.drop pos) then Step.done pos
        else Step.next (skip_to_next_line str pos str.length) () := by
  have hnl := is_newline_of_lineStart hls
  have h1 : 1 ≤ pos := hls.1
  unfold find_closing_fence_body
  rw [validate_fence_eq str g pos false hg]
  simp only [is_newline_back, h1, decide_True, hnl, Bool.true_and, Bool.or_true, Bool.true_or,
    Bool.false_and, Bool.false_eq_true, if_false, Bool.not_false, Bool.not_true, Bool.and_false]
  by_cases hf : fence_line g (str.drop pos) = true
  · have hlen := fence_line_length_le hf
    simp only [List.length_drop, hg] at hlen
    have : pos + 3 ≤ str.length := by
      have := hls.2.1
      omega
    simp [hf, this, fence_line_len]
  · simp [hf]

/-- The helper `find_closing_fence` started at a line start returns the offset of the first line
that is a fence line of the glyph, and `0` when no line is. -/
theorem find_closing_fence_eq (str g : List Char) (start : Nat) (hg : g.length = 3)
    (hlf : '\n' ∉ g) (hls : LineStart str start ∨ str.length ≤ start) :
    find_closing_fence str start str.length g
      = match first_fence g (splitLines (str.drop start)) with
        | none => 0
        | some k => start + k := by
  unfold find_closing_fence
  exact line_search_eq str g hlf _
    (fun pos hl _ => find_closing_fence_body_eq str g start pos hg hl) _ _ (le_refl _) hls

end FrontMatter

namespace FrontMatter

/-! ## Opening fences -/

theorem check_comment_fence_eq (str g : List Char) (pos : Nat) (hg : g.length = 3)
    (hp : pos ≤ str.length) :
    check_comment_fence str pos str.length g
      = if ('#' :: ' ' :: g) <+: str.drop pos then (5, ['#', ' '])
        else if ('#' :: Char.ofNat 39 :: ' ' :: g) <+: str.drop pos then (6, ['#', Char.ofNat 39, ' '])
        else (0, []) := by
  have h5 := memcmp_eq_iff_pfx str ('#' :: ' ' :: g) pos hp
  have h6 := memcmp_eq_iff_pfx str ('#' :: Char.ofNat 39 :: ' ' :: g) pos hp
  simp only [List.length_cons, hg, memcmp_eq_succ, Bool.and_eq_true, beq_iff_eq] at h5 h6
  unfold check_comment_fence
  have e5 : (decide (pos + 5 ≤ str.length) && byteAt str pos == '#' && byteAt str (pos + 1) == ' '
      && memcmp_eq str (pos + 2) g 3) = decide (('#' :: ' ' :: g) <+: str.drop pos) := by
    rw [Bool.eq_iff_iff]
    simp only [Bool.and_eq_true, decide_eq_true_eq, beq_iff_eq, ← h5]
    tauto
  have e6 : (decide (pos + 6 ≤ str.length) && byteAt str pos == '#'
      && byteAt str (pos + 1) == Char.ofNat 39 && byteAt str (pos + 2) == ' '
      && memcmp_eq str (pos + 3) g 3)
      = decide (('#' :: Char.ofNat 39 :: ' ' :: g) <+: str.drop pos) := by
    rw [Bool.eq_iff_iff]
    simp only [Bool.and_eq_true, decide_eq_true_eq, beq_iff_eq, ← h6]
    tauto
  rw [e5, e6]
  simp only [decide_eq_true_eq]

end FrontMatter

namespace FrontMatter

theorem fence_line_eq_of_pfx {lit s : List Char} (h : lit <+: s) :
    fence_line lit s = ends_line ((s.drop lit.length).dropWhile is_whitespace) := by
  simp [fence_line, List.isPrefixOf_iff_prefix.mpr h]

theorem fence_line_eq_false {lit s : List Char} (h : ¬ lit <+: s) : fence_line lit s = false := by
  simp [fence_line, List.isPrefixOf_iff_prefix, h]

theorem comment_prefixes_exclusive {g s : List Char} (h : ('#' :: ' ' :: g) <+: s) :
    ¬ ('#' :: Char.ofNat 39 :: ' ' :: g) <+: s := by
  intro h2
  obtain ⟨t, rfl⟩ := h
  obtain ⟨u, hu⟩ := h2
  simp only [List.cons_append, List.cons.injEq, true_and] at hu
  exact absurd hu.1 (by decide)

/-- A comment-wrapped opening fence is accepted exactly when the text begins with a
fence line of literal `# ` ++ glyph or `#' ` ++ glyph; the search then starts after the
first line. -/
theorem comment_opening_eq (str g : List Char) (fmt ftc ftr : String) (hg : g.length = 3) :
    comment_opening str str.length g fmt ftc ftr
      = if fence_line ('#' :: ' ' :: g) str then
          some (Opening.mk g fmt ftc ['#', ' '] (line_len str) true)
        else if fence_line ('#' :: Char.ofNat 39 :: ' ' :: g) str then
          some (Opening.mk g fmt ftr ['#', Char.ofNat 39, ' '] (line_len str) true)
        else none := by
  unfold comment_opening
  rw [check_comment_fence_eq str g 0 hg (Nat.zero_le _)]
  simp only [List.drop_zero]
  by_cases h5 : ('#' :: ' ' :: g) <+: str
  · have hx := fence_line_eq_false (comment_prefixes_exclusive h5)
    simp only [h5, if_true, hx, Bool.false_eq_true, if_false]
    rw [fence_line_eq_of_pfx h5, end_or_newline_eq, drop_skip_ws, skip_to_next_line_eq]
    simp [hg]
  · rw [fence_line_eq_false h5]
    simp only [h5, if_false, Bool.false_eq_true]
    by_cases h6 : ('#' :: Char.ofNat 39 :: ' ' :: g) <+: str
    · simp only [h6, if_true]
      rw [fence_line_eq_of_pfx h6, end_or_newline_eq, drop_skip_ws, skip_to_next_line_eq]
      simp [hg]
    · rw [fence_line_eq_false h6]
      simp [h6]

/-- A bare opening fence is accepted exactly when the text begins with a fence line of
the glyph; the search then starts after the first line. -/
theorem bare_opening_eq (str g : List Char) (fmt : String) (hg : g.length = 3)
    (hlf : '\n' ∉ g) :
    bare_opening str str.length g fmt
      = if fence_line g str then some (Opening.mk g fmt fmt [] (line_len str) false)
        else none := by
  unfold bare_opening
  rw [validate_fence_eq str g 0 true hg]
  simp only [List.drop_zero, bne_self_eq_false, Bool.and_false, Bool.false_eq_true, if_false,
    Bool.not_true, Bool.false_and, Nat.zero_add]
  by_cases hf : fence_line g str = true
  · have := fence_line_len_eq g hlf str hf
    rw [hg] at this
    have hlen := fence_line_length_le hf
    have hne : str ≠ [] := by
      intro h; rw [h, hg] at hlen; simp at hlen
    have := line_len_pos hne
    simp only [hf, if_true]
    rw [‹fence_line_len 3 str = line_len str›]
    simp [this]
  · simp [hf]

theorem is_pep723_opening_eq (str : List Char) (pos : Nat) (hp : pos ≤ str.length) :
    is_pep723_opening str pos str.length
      = (decide (pos + 13 ≤ str.length)
          && fence_line ['#', ' ', '/', '/', '/', ' ', 's', 'c', 'r', 'i', 'p', 't'] (str.drop pos)) := by
  have h := memcmp_eq_iff_pfx str ['#', ' ', '/', '/', '/', ' ', 's', 'c', 'r', 'i', 'p', 't'] pos hp
  simp only [List.length_cons, List.length_nil, memcmp_eq_succ, Bool.and_eq_true, beq_iff_eq,
    Nat.add_assoc, Nat.reduceAdd] at h
  unfold is_pep723_opening PEP723_OPENING_CHECK_LEN PEP723_OPENING_LEN
  by_cases hlen : pos + 13 ≤ str.length
  · by_cases hpre : ['#', ' ', '/', '/', '/', ' ', 's', 'c', 'r', 'i', 'p', 't'] <+: str.drop pos
    · have hb := h.mpr hpre
      rw [fence_line_eq_of_pfx hpre, end_or_newline_eq, drop_skip_ws, List.drop_drop]
      simp [hlen, Nat.not_lt.mpr hlen, hb]
    · rw [fence_line_eq_false hpre]
      have hb : ¬ _ := fun hh => hpre (h.mp hh)
      simp only [gt_iff_lt, Nat.not_lt.mpr hlen, if_false, Bool.and_false]
      simp only [memcmp_eq, List.all_nil, and_true, not_and] at hb
      have hb2 := hb (by omega)
      repeat' split
      all_goals first | rfl | skip
      exfalso
      simp_all
  · simp [hlen, Nat.lt_of_not_le hlen]

end FrontMatter

namespace FrontMatter

theorem is_pep723_closing_eq (str : List Char) (pos : Nat) (hp : pos ≤ str.length) :
    is_pep723_closing str pos str.length
      = fence_line ['#', ' ', '/', '/', '/'] (str.drop pos) := by
  have h := memcmp_eq_iff_pfx str ['#', ' ', '/', '/', '/'] pos hp
  simp only [List.length_cons, List.length_nil, memcmp_eq_succ, Bool.and_eq_true, beq_iff_eq,
    Nat.add_assoc, Nat.reduceAdd] at h
  unfold is_pep723_closing PEP723_CLOSING_LEN
  by_cases hpre : ['#', ' ', '/', '/', '/'] <+: str.drop pos
  · have hb := h.mpr hpre
    rw [fence_line_eq_of_pfx hpre, end_or_newline_eq, drop_skip_ws, List.drop_drop]
    simp [Nat.not_lt.mpr hb.1, hb]
  · rw [fence_line_eq_false hpre]
    have hb : ¬ _ := fun hh => hpre (h.mp hh)
    simp only [memcmp_eq, List.all_nil, and_true, not_and] at hb
    by_cases hlen : pos + 5 ≤ str.length
    · have hb2 := hb hlen
      simp only [gt_iff_lt, Nat.not_lt.mpr hlen, if_false]
      repeat' split
      all_goals first | rfl | skip
      exfalso
      simp_all
    · simp [Nat.lt_of_not_le hlen]

/-! ## Splitting into lines -/

theorem splitLines_line (l : List Char) (hl : '\n' ∉ l) (rest : List Char) :
    splitLines (l ++ '\n' :: rest) = (l ++ ['\n']) :: splitLines rest := by
  induction l with
  | nil => simp [splitLines]
  | cons c t ih =>
    have hc : c ≠ '\n' := by
      intro h; apply hl; simp [h]
    have ht : '\n' ∉ t := by
      intro h; apply hl; simp [h]
    rw [List.cons_append, splitLines, ih ht]
    simp [hc]

theorem splitLines_flatten (s : List Char) : (splitLines s).flatten = s := by
  induction s with
  | nil => rfl
  | cons c t ih =>
    rw [splitLines]
    by_cases hc : c = '\n'
    · simp [hc, ih]
    · simp only [hc, if_false]
      cases h : splitLines t with
      | nil =>
        rw [h] at ih
        simp at ih
        simp [← ih]
      | cons l ls =>
        rw [h] at ih
        simp only [List.flatten_cons] at ih ⊢
        rw [List.cons_append, ih]

/-- Lines are split independently on both sides of a line boundary. -/
theorem splitLines_append (s1 s2 : List Char) (h : s1 = [] ∨ s1.getLast? = some '\n') :
    splitLines (s1 ++ s2) = splitLines s1 ++ splitLines s2 := by
  induction s1 with
  | nil => simp [splitLines]
  | cons c t ih =>
    have h1 : (c :: t).getLast? = some '\n' := by
      rcases h with h | h
      · exact absurd h (by simp)
      · exact h
    by_cases hc : c = '\n'
    · cases t with
      | nil => simp [splitLines, hc]
      | cons d u =>
        have : (d :: u).getLast? = some '\n' := by
          rw [List.getLast?_cons_cons] at h1
          exact h1
        rw [List.cons_append, splitLines, splitLines, ih (Or.inr this)]
        simp [hc]
    · cases t with
      | nil =>
        simp at h1
        exact absurd h1 hc
      | cons d u =>
        have : (d :: u).getLast? = some '\n' := by
          rw [List.getLast?_cons_cons] at h1
          exact h1
        rw [List.cons_append, splitLines, splitLines, ih (Or.inr this)]
        simp only [hc, if_false]
        cases hsl : splitLines (d :: u) with
        | nil =>
          have := splitLines_flatten (d :: u)
          rw [hsl] at this
          simp at this
        | cons l ls => simp

theorem first_fence_append (lit : List Char) (L1 L2 : List (List Char))
    (h : ∀ l ∈ L1, fence_line lit l = false) :
    first_fence lit (L1 ++ L2) = (first_fence lit L2).map (fun k => L1.flatten.length + k) := by
  induction L1 with
  | nil =>
    cases hf : first_fence lit L2 <;> simp [hf]
  | cons l ls ih =>
    have hl : fence_line lit l = false := h l (by simp)
    rw [List.cons_append, first_fence, ih (fun x hx => h x (by simp [hx]))]
    simp only [hl, Bool.false_eq_true, if_false, List.flatten_cons, List.length_append]
    cases first_fence lit L2 with
    | none => rfl
    | some k => simp [Nat.add_assoc]

end FrontMatter

namespace FrontMatter

/-! ## The dispatcher -/

/-- The dialect chosen by lines 500-563, read off the first line of the text. -/
theorem detect_opening_eq (str : List Char) :
    detect_opening str str.length
      = if fence_line ['#', ' ', '-', '-', '-'] str then
          some (Opening.mk ['-', '-', '-'] "yaml" "yaml_comment" ['#', ' '] (line_len str) true)
        else if fence_line ['#', Char.ofNat 39, ' ', '-', '-', '-'] str then
          some (Opening.mk ['-', '-', '-'] "yaml" "yaml_roxy" ['#', Char.ofNat 39, ' ']
            (line_len str) true)
        else if fence_line ['#', ' ', '+', '+', '+'] str then
          some (Opening.mk ['+', '+', '+'] "toml" "toml_comment" ['#', ' '] (line_len str) true)
        else if fence_line ['#', Char.ofNat 39, ' ', '+', '+', '+'] str then
          some (Opening.mk ['+', '+', '+'] "toml" "toml_roxy" ['#', Char.ofNat 39, ' ']
            (line_len str) true)
        else if fence_line ['-', '-', '-'] str then
          some (Opening.mk ['-', '-', '-'] "yaml" "yaml" [] (line_len str) false)
        else if fence_line ['+', '+', '+'] str then
          some (Opening.mk ['+', '+', '+'] "toml" "toml" [] (line_len str) false)
        else none := by
  unfold detect_opening
  rw [comment_opening_eq str ['-', '-', '-'] _ _ _ rfl,
    comment_opening_eq str ['+', '+', '+'] _ _ _ rfl,
    bare_opening_eq str ['-', '-', '-'] _ rfl (by decide),
    bare_opening_eq str ['+', '+', '+'] _ rfl (by decide)]
  repeat' split
  all_goals first | rfl | simp_all

theorem lineStart_append (pre rest : List Char) (h : pre.getLast? = some '\n') :
    LineStart (pre ++ rest) pre.length := by
  have hne : pre ≠ [] := by
    intro h0; rw [h0] at h; simp at h
  have hlen : 0 < pre.length := List.length_pos.mpr hne
  refine ⟨hlen, by simp, ?_⟩
  have h1 : pre.length - 1 < pre.length := by omega
  simp only [byteAt, List.getD_eq_getElem?_getD]
  rw [List.getElem?_append_left h1]
  rw [List.getLast?_eq_getElem?] at h
  rw [h]
  rfl

theorem dropWhile_ws_append (w rest : List Char) (hw : ∀ x ∈ w, is_whitespace x = true) :
    (w ++ '\n' :: rest).dropWhile is_whitespace = '\n' :: rest := by
  induction w with
  | nil => simp [List.dropWhile_cons, is_whitespace]
  | cons x t ih =>
    rw [List.cons_append, List.dropWhile_cons]
    simp only [hw x (by simp), if_true]
    exact ih (fun y hy => hw y (by simp [hy]))

theorem fence_line_append_ws (lit w rest : List Char)
    (hw : ∀ x ∈ w, is_whitespace x = true) :
    fence_line lit (lit ++ w ++ '\n' :: rest) = true := by
  have hpre : lit <+: lit ++ w ++ '\n' :: rest := by
    rw [List.append_assoc]
    exact List.prefix_append _ _
  rw [fence_line_eq_of_pfx hpre, List.append_assoc, List.drop_left]
  rw [dropWhile_ws_append w rest hw]
  rfl

end FrontMatter

namespace FrontMatter

/-! ## C2: a bare block is extracted -/

theorem line_len_line (l : List Char) (hl : '\n' ∉ l) (rest : List Char) :
    line_len (l ++ '\n' :: rest) = l.length + 1 := by
  induction l with
  | nil => simp [line_len]
  | cons c t ih =>
    have hc : c ≠ '\n' := by
      intro h; apply hl; simp [h]
    have ht : '\n' ∉ t := by
      intro h; apply hl; simp [h]
    rw [List.cons_append, line_len_cons_ne _ hc, ih ht]
    simp

theorem trim_leading_empty_lines_nil : trim_leading_empty_lines [] = [] := rfl

/-- The closing-fence search on `g LF c g LF b`: the lines of `c` are skipped and the
search stops at the fence that follows them. -/
theorem bare_closing_start (g c b : List Char) (hg3 : g.length = 3) (hlf : '\n' ∉ g)
    (hc : c = [] ∨ c.getLast? = some '\n')
    (hno : ∀ l ∈ splitLines c, fence_line g l = false) :
    find_closing_fence ((g ++ ['\n']) ++ (c ++ ((g ++ ['\n']) ++ b))) 4
        ((g ++ ['\n']) ++ (c ++ ((g ++ ['\n']) ++ b))).length g
      = 4 + c.length := by
  have h4 : (g ++ ['\n']).length = 4 := by simp [hg3]
  have hls : LineStart ((g ++ ['\n']) ++ (c ++ ((g ++ ['\n']) ++ b))) 4 := by
    rw [← h4]
    exact lineStart_append _ _ (by simp)
  rw [find_closing_fence_eq _ g 4 hg3 hlf (Or.inl hls)]
  have hd : List.drop 4 ((g ++ ['\n']) ++ (c ++ ((g ++ ['\n']) ++ b)))
      = c ++ ((g ++ ['\n']) ++ b) := by
    rw [← h4, List.drop_left]
  rw [hd, splitLines_append c _ hc, first_fence_append g _ _ hno, splitLines_flatten]
  have hsl : splitLines ((g ++ ['\n']) ++ b) = (g ++ ['\n']) :: splitLines b := by
    rw [List.append_assoc]
    exact splitLines_line g hlf b
  have hfl : fence_line g (g ++ ['\n']) = true := by
    have := fence_line_append_ws g [] [] (by simp)
    simpa using this
  rw [hsl, first_fence, hfl]
  simp

theorem bare_assemble (g c b : List Char) (fmt : String) (hg3 : g.length = 3) (hlf : '\n' ∉ g) :
    assemble ((g ++ ['\n']) ++ (c ++ ((g ++ ['\n']) ++ b))) (Opening.mk g fmt fmt [] 4 false)
        (4 + c.length)
      = Result.mk true fmt fmt c (trim_leading_empty_lines b) := by
  have h4 : (g ++ ['\n']).length = 4 := by simp [hg3]
  have hd1 : List.drop 4 ((g ++ ['\n']) ++ (c ++ ((g ++ ['\n']) ++ b)))
      = c ++ ((g ++ ['\n']) ++ b) := by
    rw [← h4, List.drop_left]
  have hd2 : List.drop (4 + c.length) ((g ++ ['\n']) ++ (c ++ ((g ++ ['\n']) ++ b)))
      = (g ++ ['\n']) ++ b := by
    rw [← List.drop_drop, hd1, List.drop_left]
  have hd3 : List.drop (4 + c.length + 4) ((g ++ ['\n']) ++ (c ++ ((g ++ ['\n']) ++ b))) = b := by
    rw [← List.drop_drop, hd2, ← h4, List.drop_left]
  have hll : line_len ((g ++ ['\n']) ++ b) = 4 := by
    rw [List.append_assoc]
    simp only [List.singleton_append]
    rw [line_len_line g hlf b, hg3]
  have hlen : ((g ++ ['\n']) ++ (c ++ ((g ++ ['\n']) ++ b))).length = 4 + c.length + 4 + b.length := by
    simp only [List.length_append, h4]
    omega
  unfold assemble
  simp only [skip_to_next_line_eq, hd2, hll, hd3, substr, hd1]
  simp only [hlen]
  have hc1 : (4 + c.length > 4) ↔ c ≠ [] := by
    rw [← List.length_pos]
    omega
  have hb1 : (4 + c.length + 4 < 4 + c.length + 4 + b.length) ↔ b ≠ [] := by
    rw [← List.length_pos]
    omega
  have e1 : 4 + c.length - 4 = c.length := by omega
  simp only [hc1, hb1, e1, List.take_left, Bool.false_eq_true, if_false]
  by_cases hc0 : c = [] <;> by_cases hb0 : b = [] <;>
    simp [hc0, hb0, trim_leading_empty_lines_nil]

/-- The full result on a bare block `g LF c g LF b` whose content has no fence line. -/
theorem bare_block_result (g c b : List Char)
    (hg : g = ['-', '-', '-'] ∨ g = ['+', '+', '+'])
    (hc : c = [] ∨ c.getLast? = some '\n')
    (hno : ∀ l ∈ splitLines c, fence_line g l = false) :
    extract_front_matter_cpp ((g ++ ['\n']) ++ (c ++ ((g ++ ['\n']) ++ b)))
      = Result.mk true (if g = ['-', '-', '-'] then "yaml" else "toml")
          (if g = ['-', '-', '-'] then "yaml" else "toml") c (trim_leading_empty_lines b) := by
  have hg3 : g.length = 3 := by
    rcases hg with h | h <;> rw [h] <;> rfl
  have hlf : '\n' ∉ g := by
    rcases hg with h | h <;> rw [h] <;> decide
  have hcl := bare_closing_start g c b hg3 hlf hc hno
  have has := fun fmt => bare_assemble g c b fmt hg3 hlf
  have hll : line_len ((g ++ ['\n']) ++ (c ++ ((g ++ ['\n']) ++ b))) = 4 := by
    rw [List.append_assoc]
    simp only [List.singleton_append]
    rw [line_len_line g hlf _, hg3]
  have hne : ((g ++ ['\n']) ++ (c ++ ((g ++ ['\n']) ++ b))).length ≠ 0 := by
    simp
  have hpep : is_pep723_opening ((g ++ ['\n']) ++ (c ++ ((g ++ ['\n']) ++ b))) 0
      ((g ++ ['\n']) ++ (c ++ ((g ++ ['\n']) ++ b))).length = false := by
    rw [is_pep723_opening_eq _ 0 (Nat.zero_le _)]
    rcases hg with h | h <;> subst h <;> simp [fence_line, List.isPrefixOf]
  have hdet : detect_opening ((g ++ ['\n']) ++ (c ++ ((g ++ ['\n']) ++ b)))
      ((g ++ ['\n']) ++ (c ++ ((g ++ ['\n']) ++ b))).length
      = some (Opening.mk g (if g = ['-', '-', '-'] then "yaml" else "toml")
          (if g = ['-', '-', '-'] then "yaml" else "toml") [] 4 false) := by
    rw [detect_opening_eq, hll]
    rcases hg with h | h <;> subst h <;>
      simp [fence_line, List.isPrefixOf, is_whitespace, ends_line, starts_newline,
        List.dropWhile_cons]
  unfold extract_front_matter_cpp
  simp only [hne, beq_iff_eq, if_false, hpep, Bool.false_eq_true, hdet, closing_start_of, hcl]
  rw [if_neg (by simp), has]

/-- C2: for a glyph `g` among `---` and `+++`, a string `c` that is empty or ends with
LF and none of whose lines is `g` followed only by spaces and tabs, and any string `b`,
the text `g LF c g LF b` is split into `found = true`, `format` and `fence_type` both
`yaml` (for `---`) or both `toml` (for `+++`), `content = c` exactly and
`body = trim_leading_empty_lines b`. -/
theorem bare_block_extracted (g c b : List Char)
    (hg : g = ['-', '-', '-'] ∨ g = ['+', '+', '+'])
    (hc : c = [] ∨ c.getLast? = some '\n')
    (hno : ∀ l ∈ splitLines c, fence_line g l = false) :
    extract_front_matter_cpp (g ++ ['\n'] ++ c ++ g ++ ['\n'] ++ b)
      = Result.mk true (if g = ['-', '-', '-'] then "yaml" else "toml")
          (if g = ['-', '-', '-'] then "yaml" else "toml") c (trim_leading_empty_lines b) := by
  have hassoc : g ++ ['\n'] ++ c ++ g ++ ['\n'] ++ b
      = (g ++ ['\n']) ++ (c ++ ((g ++ ['\n']) ++ b)) := by
    simp only [List.append_assoc]
  rw [hassoc]
  rcases hg with h | h
  · exact bare_block_result g c b (Or.inl h) hc hno
  · exact bare_block_result g c b (Or.inr h) hc hno

theorem bare_block_extracted_witness :
    extract_front_matter_cpp
        (['-', '-', '-'] ++ ['\n'] ++ "title: x\n".toList ++ ['-', '-', '-'] ++ ['\n']
          ++ "Hello\n".toList)
      = Result.mk true "yaml" "yaml" "title: x\n".toList "Hello\n".toList :=
  bare_block_extracted ['-', '-', '-'] "title: x\n".toList "Hello\n".toList (Or.inl rfl)
    (by decide) (by decide)

end FrontMatter

namespace FrontMatter

/-! ## The comment-wrapped closing fence -/

theorem find_comment_closing_fence_body_eq (str g pfx : List Char) (start pos : Nat)
    (hg : g.length = 3) (hpfx : pfx = ['#', ' '] ∨ pfx = ['#', Char.ofNat 39, ' '])
    (hls : LineStart str pos) :
    find_comment_closing_fence_body str start str.length g pfx pos ()
      = if fence_line (pfx ++ g) (str.drop pos) then Step.done pos
        else Step.next (skip_to_next_line str pos str.length) () := by
  have hnl := is_newline_of_lineStart hls
  have h1 : 1 ≤ pos := hls.1
  unfold find_comment_closing_fence_body
  rw [check_comment_fence_eq str g pos hg hls.2.1]
  simp only [is_newline_back, h1, decide_True, hnl, Bool.true_and, Bool.or_true, Bool.true_or]
  by_cases h5 : ('#' :: ' ' :: g) <+: str.drop pos
  · have h6 := comment_prefixes_exclusive h5
    simp only [h5, if_true]
    rcases hpfx with hp | hp <;> subst hp
    · have e : ['#', ' '] ++ g = '#' :: ' ' :: g := rfl
      rw [e, fence_line_eq_of_pfx h5, end_or_newline_eq, drop_skip_ws, List.drop_drop]
      simp [hg]
    · have e : ['#', Char.ofNat 39, ' '] ++ g = '#' :: Char.ofNat 39 :: ' ' :: g := rfl
      rw [e, fence_line_eq_false h6]
      simp
  · simp only [h5, if_false]
    by_cases h6 : ('#' :: Char.ofNat 39 :: ' ' :: g) <+: str.drop pos
    · simp only [h6, if_true]
      rcases hpfx with hp | hp <;> subst hp
      · have e : ['#', ' '] ++ g = '#' :: ' ' :: g := rfl
        rw [e, fence_line_eq_false h5]
        simp
      · have e : ['#', Char.ofNat 39, ' '] ++ g = '#' :: Char.ofNat 39 :: ' ' :: g := rfl
        rw [e, fence_line_eq_of_pfx h6, end_or_newline_eq, drop_skip_ws, List.drop_drop]
        simp [hg]
    · simp only [h6, if_false]
      rcases hpfx with hp | hp <;> subst hp
      · have e : ['#', ' '] ++ g = '#' :: ' ' :: g := rfl
        rw [e, fence_line_eq_false h5]
        simp
      · have e : ['#', Char.ofNat 39, ' '] ++ g = '#' :: Char.ofNat 39 :: ' ' :: g := rfl
        rw [e, fence_line_eq_false h6]
        simp

/-- The helper `find_comment_closing_fence` started at a line start returns the offset of the first
line that is a fence line of the marker followed by the glyph, and `0` when no line is. -/
theorem find_comment_closing_fence_eq (str g pfx : List Char) (start : Nat) (hg : g.length = 3)
    (hlf : '\n' ∉ g) (hpfx : pfx = ['#', ' '] ∨ pfx = ['#', Char.ofNat 39, ' '])
    (hls : LineStart str start ∨ str.length ≤ start) :
    find_comment_closing_fence str start str.length g pfx
      = match first_fence (pfx ++ g) (splitLines (str.drop start)) with
        | none => 0
        | some k => start + k := by
  unfold find_comment_closing_fence
  have hlf2 : '\n' ∉ pfx ++ g := by
    rcases hpfx with hp | hp <;> subst hp <;> simp [hlf]
  exact line_search_eq str (pfx ++ g) hlf2 _
    (fun pos hl _ => find_comment_closing_fence_body_eq str g pfx start pos hg hpfx hl)
    _ _ (le_refl _) hls

end FrontMatter

namespace FrontMatter

/-! ## Unwrapping marker-prefixed lines -/

theorem scan_line_end (l rest : List Char) (hlf : '\n' ∉ l) (hcr : '\r' ∉ l) :
    scan_suffix (fun u => byteAt u 0 != '\n' && byteAt u 0 != '\r') (l ++ '\n' :: rest)
      = l.length := by
  induction l with
  | nil => simp [scan_suffix, byteAt_cons_zero]
  | cons c t ih =>
    have hc1 : c ≠ '\n' := by
      intro h; apply hlf; simp [h]
    have hc2 : c ≠ '\r' := by
      intro h; apply hcr; simp [h]
    have ht1 : '\n' ∉ t := by
      intro h; apply hlf; simp [h]
    have ht2 : '\r' ∉ t := by
      intro h; apply hcr; simp [h]
    rw [List.cons_append, scan_suffix, ih ht1 ht2]
    simp [byteAt_cons_zero, hc1, hc2]

theorem byteAt_append_length (l : List Char) (c : Char) (rest : List Char) :
    byteAt (l ++ c :: rest) l.length = c := by
  have h := byteAt_drop (l ++ c :: rest) l.length 0
  rw [List.drop_left, byteAt_cons_zero] at h
  simpa using h.symm

/-- Lines 220-237 of `unwrap_comments` on a line without CR: the line and its LF are
appended to the result. -/
theorem unwrap_copy_line_eq (data : List Char) (start : Nat) (l rest acc : List Char)
    (hd : data.drop start = l ++ '\n' :: rest) (hlf : '\n' ∉ l) (hcr : '\r' ∉ l) :
    unwrap_copy_line data data.length start start acc
      = Step.next (start + l.length + 1) (acc ++ l ++ ['\n']) := by
  have hlen : data.length - start = l.length + 1 + rest.length := by
    have := congrArg List.length hd
    simp only [List.length_drop, List.length_append, List.length_cons] at this
    omega
  have hscan : scan_while (fun j => byteAt data j != '\n' && byteAt data j != '\r') data.length
      (data.length - start) start = start + l.length := by
    rw [scan_while_eq_scan_suffix data _
      (fun u => byteAt u 0 != '\n' && byteAt u 0 != '\r') _ _ _ (le_refl _), hd,
      scan_line_end l rest hlf hcr]
    intro j _
    simp [byteAt_drop]
  have hb : byteAt data (start + l.length) = '\n' := by
    rw [← byteAt_drop, hd, byteAt_append_length]
  have hlt : start + l.length < data.length := by omega
  unfold unwrap_copy_line
  simp only [hscan, hlt, if_true, hb]
  have e1 : ('\n' == '\r') = false := by decide
  simp only [e1, Bool.false_and, Bool.false_eq_true, if_false]
  have e2 : start + l.length + 1 > start := by omega
  have e3 : start + l.length + 1 - start = l.length + 1 := by omega
  simp only [e2, if_true, substr, hd, e3]
  have e4 : List.take (l.length + 1) (l ++ '\n' :: rest) = l ++ ['\n'] := by
    have : l ++ '\n' :: rest = (l ++ ['\n']) ++ rest := by simp
    rw [this]
    have h2 : l.length + 1 = (l ++ ['\n']).length := by simp
    rw [h2, List.take_left]
  rw [e4, List.append_assoc]

theorem unwrap_body_prefixed (data p l rest acc : List Char) (pos : Nat)
    (hd : data.drop pos = p ++ (l ++ '\n' :: rest)) (hlf : '\n' ∉ l) (hcr : '\r' ∉ l) :
    unwrap_comments_body data p data.length pos acc
      = Step.next (pos + p.length + l.length + 1) (acc ++ l ++ ['\n']) := by
  have hpos : pos ≤ data.length := by
    by_contra h
    rw [List.drop_of_length_le (by omega)] at hd
    have := congrArg List.length hd
    simp at this
    omega
  have hpre : p <+: data.drop pos := by
    rw [hd]; exact List.prefix_append _ _
  have hm := (memcmp_eq_iff_pfx data p pos hpos).mpr hpre
  have hd2 : data.drop (pos + p.length) = l ++ '\n' :: rest := by
    rw [← List.drop_drop, hd, List.drop_left]
  unfold unwrap_comments_body
  simp only [hm.1, decide_True, hm.2, Bool.and_self, if_true]
  exact unwrap_copy_line_eq data (pos + p.length) l rest acc hd2 hlf hcr

/-- The unwrapping loop on a run of lines that all carry the marker `p`. -/
theorem unwrap_loop_lines (p : List Char) (ls : List (List Char))
    (hls : ∀ l ∈ ls, '\n' ∉ l ∧ '\r' ∉ l) :
    ∀ (pre acc : List Char) (fuel : Nat),
      (pre ++ (ls.map (fun l => p ++ l ++ ['\n'])).flatten).length - pre.length ≤ fuel →
      while_lt (pre ++ (ls.map (fun l => p ++ l ++ ['\n'])).flatten).length
        (unwrap_comments_body (pre ++ (ls.map (fun l => p ++ l ++ ['\n'])).flatten) p
          (pre ++ (ls.map (fun l => p ++ l ++ ['\n'])).flatten).length)
        (fun result => result) fuel pre.length acc
        = acc ++ (ls.map (fun l => l ++ ['\n'])).flatten := by
  induction ls with
  | nil =>
    intro pre acc fuel _
    simp only [List.map_nil, List.flatten_nil, List.append_nil]
    rw [while_lt_exit _ _ _ (le_refl _)]
  | cons l ls ih =>
    intro pre acc fuel hf
    have hl := hls l (by simp)
    have hdata : pre ++ ((l :: ls).map (fun l => p ++ l ++ ['\n'])).flatten
        = (pre ++ (p ++ l ++ ['\n'])) ++ (ls.map (fun l => p ++ l ++ ['\n'])).flatten := by
      simp
    have hdrop : (pre ++ ((l :: ls).map (fun l => p ++ l ++ ['\n'])).flatten).drop pre.length
        = p ++ (l ++ '\n' :: (ls.map (fun l => p ++ l ++ ['\n'])).flatten) := by
      rw [List.drop_left]
      simp
    have hstep := unwrap_body_prefixed _ p l _ acc pre.length hdrop hl.1 hl.2
    have hlt : pre.length < (pre ++ ((l :: ls).map (fun l => p ++ l ++ ['\n'])).flatten).length := by
      simp
    cases fuel with
    | zero => omega
    | succ n =>
      rw [while_lt]
      simp only [hlt, if_true, hstep]
      have hpos : pre.length + p.length + l.length + 1 = (pre ++ (p ++ l ++ ['\n'])).length := by
        simp; omega
      rw [hpos, hdata]
      rw [ih (fun x hx => hls x (by simp [hx])) (pre ++ (p ++ l ++ ['\n'])) (acc ++ l ++ ['\n']) n
        (by rw [hdata] at hf; simp at hf ⊢; omega)]
      simp

/-- Unwrapping undoes wrapping: on lines without LF and CR that all carry the marker
`p`, `unwrap_comments` returns the lines with the marker removed. -/
theorem unwrap_comments_wrapped (p : List Char) (ls : List (List Char))
    (hls : ∀ l ∈ ls, '\n' ∉ l ∧ '\r' ∉ l) :
    unwrap_comments ((ls.map (fun l => p ++ l ++ ['\n'])).flatten) p
      = (ls.map (fun l => l ++ ['\n'])).flatten := by
  have := unwrap_loop_lines p ls hls [] [] ((ls.map (fun l => p ++ l ++ ['\n'])).flatten).length
    (by simp)
  simpa [unwrap_comments] using this

end FrontMatter

namespace FrontMatter

/-! ## C3: wrap/unwrap round trip for comment-wrapped blocks -/

theorem fence_line_cons_cons (c d : Char) (t s : List Char) :
    fence_line (c :: t) (d :: s) = (c == d && fence_line t s) := by
  simp [fence_line, List.isPrefixOf, Bool.and_assoc]

theorem fence_line_append_left (a lit s : List Char) :
    fence_line (a ++ lit) (a ++ s) = fence_line lit s := by
  induction a with
  | nil => rfl
  | cons c t ih => rw [List.cons_append, List.cons_append, fence_line_cons_cons, ih]; simp

theorem glyph_then_blanks_cons_cons (c d : Char) (t s : List Char) :
    glyph_then_blanks (c :: t) (d :: s) = (c == d && glyph_then_blanks t s) := by
  simp [glyph_then_blanks, List.isPrefixOf, Bool.and_assoc]

theorem ends_line_blank_line (m : List Char) (hlf : '\n' ∉ m) (hcr : '\r' ∉ m) :
    ends_line ((m ++ ['\n']).dropWhile is_whitespace) = m.all is_whitespace := by
  induction m with
  | nil => simp [List.dropWhile_cons, is_whitespace, ends_line, starts_newline]
  | cons x t ih =>
    have hx1 : x ≠ '\n' := by
      intro h; apply hlf; simp [h]
    have hx2 : x ≠ '\r' := by
      intro h; apply hcr; simp [h]
    have ht1 : '\n' ∉ t := by
      intro h; apply hlf; simp [h]
    have ht2 : '\r' ∉ t := by
      intro h; apply hcr; simp [h]
    rw [List.cons_append, List.dropWhile_cons, List.all_cons]
    by_cases hw : is_whitespace x = true
    · simp only [hw, if_true, Bool.true_and]
      exact ih ht1 ht2
    · simp [hw, ends_line, starts_newline, hx1, hx2]

/-- On a terminated line without CR, the fence-line test says that the line is the glyph
followed only by spaces and tabs. -/
theorem fence_line_terminated (g : List Char) (hg : '\n' ∉ g) :
    ∀ l : List Char, '\n' ∉ l → '\r' ∉ l →
      fence_line g (l ++ ['\n']) = glyph_then_blanks g l := by
  induction g with
  | nil =>
    intro l hlf hcr
    simp only [fence_line, List.isPrefixOf, List.length_nil, List.drop_zero, Bool.true_and,
      glyph_then_blanks]
    exact ends_line_blank_line l hlf hcr
  | cons c t ih =>
    intro l hlf hcr
    have hc : c ≠ '\n' := by
      intro h; apply hg; simp [h]
    have ht : '\n' ∉ t := by
      intro h; apply hg; simp [h]
    cases l with
    | nil =>
      have : (c == '\n') = false := by simpa using hc
      simp [fence_line_cons_cons, this, glyph_then_blanks, List.isPrefixOf]
    | cons d u =>
      have hu1 : '\n' ∉ u := by
        intro h; apply hlf; simp [h]
      have hu2 : '\r' ∉ u := by
        intro h; apply hcr; simp [h]
      rw [List.cons_append, fence_line_cons_cons, glyph_then_blanks_cons_cons, ih ht u hu1 hu2]

theorem splitLines_wrapped (p : List Char) (hp : '\n' ∉ p) (ls : List (List Char))
    (hls : ∀ l ∈ ls, '\n' ∉ l) (rest : List Char) :
    splitLines ((ls.map (fun l => p ++ l ++ ['\n'])).flatten ++ rest)
      = ls.map (fun l => p ++ l ++ ['\n']) ++ splitLines rest := by
  induction ls with
  | nil => simp
  | cons l t ih =>
    have hl : '\n' ∉ p ++ l := by
      simp only [List.mem_append, not_or]
      exact ⟨hp, hls l (by simp)⟩
    have e : ((l :: t).map (fun l => p ++ l ++ ['\n'])).flatten ++ rest
        = (p ++ l) ++ '\n' :: ((t.map (fun l => p ++ l ++ ['\n'])).flatten ++ rest) := by
      simp
    rw [e, splitLines_line _ hl, ih (fun x hx => hls x (by simp [hx]))]
    simp

theorem trim_leading_comment_lines_nil (p : List Char) : trim_leading_comment_lines [] p = [] :=
  rfl

theorem mem_of_all_whitespace {w : List Char} (hw : ∀ x ∈ w, is_whitespace x = true) :
    '\n' ∉ w := by
  intro h
  exact is_whitespace_ne_lf (hw _ h) rfl

end FrontMatter

namespace FrontMatter

theorem comment_closing_start (p g w b : List Char) (ls : List (List Char))
    (hp : p = ['#', ' '] ∨ p = ['#', Char.ofNat 39, ' '])
    (hg3 : g.length = 3) (hlf : '\n' ∉ g)
    (hls : ∀ l ∈ ls, '\n' ∉ l ∧ '\r' ∉ l ∧ glyph_then_blanks g l = false) :
    find_comment_closing_fence
        ((p ++ g ++ w ++ ['\n']) ++ ((ls.map (fun l => p ++ l ++ ['\n'])).flatten
          ++ ((p ++ g ++ ['\n']) ++ b)))
        (p ++ g ++ w ++ ['\n']).length
        ((p ++ g ++ w ++ ['\n']) ++ ((ls.map (fun l => p ++ l ++ ['\n'])).flatten
          ++ ((p ++ g ++ ['\n']) ++ b))).length g p
      = (p ++ g ++ w ++ ['\n']).length + ((ls.map (fun l => p ++ l ++ ['\n'])).flatten).length := by
  have hplf : '\n' ∉ p := by
    rcases hp with h | h <;> subst h <;> decide
  have hls0 := lineStart_append (p ++ g ++ w ++ ['\n'])
    ((ls.map (fun l => p ++ l ++ ['\n'])).flatten ++ ((p ++ g ++ ['\n']) ++ b)) (by simp)
  rw [find_comment_closing_fence_eq _ g p _ hg3 hlf hp (Or.inl hls0), List.drop_left,
    splitLines_wrapped p hplf ls (fun l hl => (hls l hl).1)]
  have hno : ∀ l ∈ ls.map (fun l => p ++ l ++ ['\n']), fence_line (p ++ g) l = false := by
    intro l hl
    rw [List.mem_map] at hl
    obtain ⟨x, hx, rfl⟩ := hl
    have := hls x hx
    rw [List.append_assoc, fence_line_append_left, fence_line_terminated g hlf x this.1 this.2.1]
    exact this.2.2
  rw [first_fence_append (p ++ g) _ _ hno]
  have hsl : splitLines ((p ++ g ++ ['\n']) ++ b) = (p ++ g ++ ['\n']) :: splitLines b := by
    have hpg : '\n' ∉ p ++ g := by
      simp only [List.mem_append, not_or]
      exact ⟨hplf, hlf⟩
    have := splitLines_line (p ++ g) hpg b
    simpa using this
  have hfl : fence_line (p ++ g) (p ++ g ++ ['\n']) = true := by
    have := fence_line_append_ws (p ++ g) [] [] (by simp)
    simpa using this
  rw [hsl, first_fence, hfl]
  simp

theorem wrapped_eq_nil (p : List Char) (ls : List (List Char))
    (h : (ls.map (fun l => p ++ l ++ ['\n'])).flatten = []) : ls = [] := by
  cases ls with
  | nil => rfl
  | cons l t => simp at h

theorem comment_assemble (p g w b : List Char) (ls : List (List Char)) (fmt ft : String)
    (hp : p = ['#', ' '] ∨ p = ['#', Char.ofNat 39, ' '])
    (hlf : '\n' ∉ g)
    (hls : ∀ l ∈ ls, '\n' ∉ l ∧ '\r' ∉ l) :
    assemble
        ((p ++ g ++ w ++ ['\n']) ++ ((ls.map (fun l => p ++ l ++ ['\n'])).flatten
          ++ ((p ++ g ++ ['\n']) ++ b)))
        (Opening.mk g fmt ft p (p ++ g ++ w ++ ['\n']).length true)
        ((p ++ g ++ w ++ ['\n']).length + ((ls.map (fun l => p ++ l ++ ['\n'])).flatten).length)
      = Result.mk true fmt ft ((ls.map (fun l => l ++ ['\n'])).flatten)
          (trim_leading_comment_lines b p) := by
  have hplf : '\n' ∉ p := by
    rcases hp with h | h <;> subst h <;> decide
  generalize hO : p ++ g ++ w ++ ['\n'] = O
  generalize hW : (ls.map (fun l => p ++ l ++ ['\n'])).flatten = W
  have hd1 : List.drop O.length (O ++ (W ++ ((p ++ g ++ ['\n']) ++ b)))
      = W ++ ((p ++ g ++ ['\n']) ++ b) := List.drop_left _ _
  have hd2 : List.drop (O.length + W.length) (O ++ (W ++ ((p ++ g ++ ['\n']) ++ b)))
      = (p ++ g ++ ['\n']) ++ b := by
    rw [← List.drop_drop, hd1, List.drop_left]
  have hll : line_len ((p ++ g ++ ['\n']) ++ b) = (p ++ g ++ ['\n']).length := by
    have hpg : '\n' ∉ p ++ g := by
      simp only [List.mem_append, not_or]
      exact ⟨hplf, hlf⟩
    have := line_len_line (p ++ g) hpg b
    simpa using this
  have hd3 : List.drop (O.length + W.length + (p ++ g ++ ['\n']).length)
      (O ++ (W ++ ((p ++ g ++ ['\n']) ++ b))) = b := by
    rw [← List.drop_drop, hd2, List.drop_left]
  have hlen : (O ++ (W ++ ((p ++ g ++ ['\n']) ++ b))).length
      = O.length + W.length + (p ++ g ++ ['\n']).length + b.length := by
    simp only [List.length_append]
    omega
  unfold assemble
  simp only [skip_to_next_line_eq, hd2, hll, hd3, substr, hd1]
  simp only [hlen]
  have hc1 : (O.length + W.length > O.length) ↔ W ≠ [] := by
    rw [← List.length_pos]
    omega
  have hb1 : (O.length + W.length + (p ++ g ++ ['\n']).length
      < O.length + W.length + (p ++ g ++ ['\n']).length + b.length) ↔ b ≠ [] := by
    rw [← List.length_pos]
    omega
  have e1 : O.length + W.length - O.length = W.length := by omega
  simp only [hc1, hb1, e1, List.take_left, if_true]
  have hcontent : (if W ≠ [] then unwrap_comments W p else [])
      = (ls.map (fun l => l ++ ['\n'])).flatten := by
    by_cases hW0 : W = []
    · have : ls = [] := wrapped_eq_nil p ls (by rw [hW]; exact hW0)
      simp [hW0, this]
    · simp only [hW0, ne_eq, not_false_eq_true, if_true]
      rw [← hW]
      exact unwrap_comments_wrapped p ls hls
  have hbody : (if b ≠ [] then trim_leading_comment_lines b p else [])
      = trim_leading_comment_lines b p := by
    by_cases hb0 : b = []
    · simp [hb0, trim_leading_comment_lines_nil]
    · simp [hb0]
  rw [hcontent, hbody]

end FrontMatter

namespace FrontMatter

/-- The full result on a comment-wrapped block whose lines all carry the marker. -/
theorem comment_block_result (p g w b : List Char) (ls : List (List Char))
    (hp : p = ['#', ' '] ∨ p = ['#', Char.ofNat 39, ' '])
    (hg : g = ['-', '-', '-'] ∨ g = ['+', '+', '+'])
    (hls : ∀ l ∈ ls, '\n' ∉ l ∧ '\r' ∉ l ∧ glyph_then_blanks g l = false)
    (hw : ∀ x ∈ w, is_whitespace x = true) :
    extract_front_matter_cpp
        (p ++ g ++ w ++ ['\n'] ++ (ls.map (fun l => p ++ l ++ ['\n'])).flatten
          ++ p ++ g ++ ['\n'] ++ b)
      = Result.mk true (if g = ['-', '-', '-'] then "yaml" else "toml")
          (if g = ['-', '-', '-'] then (if p = ['#', ' '] then "yaml_comment" else "yaml_roxy")
           else (if p = ['#', ' '] then "toml_comment" else "toml_roxy"))
          ((ls.map (fun l => l ++ ['\n'])).flatten) (trim_leading_comment_lines b p) := by
  have hg3 : g.length = 3 := by
    rcases hg with h | h <;> rw [h] <;> rfl
  have hlf : '\n' ∉ g := by
    rcases hg with h | h <;> rw [h] <;> decide
  have hplf : '\n' ∉ p := by
    rcases hp with h | h <;> subst h <;> decide
  have hassoc : p ++ g ++ w ++ ['\n'] ++ (ls.map (fun l => p ++ l ++ ['\n'])).flatten
        ++ p ++ g ++ ['\n'] ++ b
      = (p ++ g ++ w ++ ['\n']) ++ ((ls.map (fun l => p ++ l ++ ['\n'])).flatten
          ++ ((p ++ g ++ ['\n']) ++ b)) := by
    simp only [List.append_assoc]
  rw [hassoc]
  have hcl := comment_closing_start p g w b ls hp hg3 hlf hls
  have has := fun fmt ft => comment_assemble p g w b ls fmt ft hp hlf
    (fun l hl => ⟨(hls l hl).1, (hls l hl).2.1⟩)
  have hll : line_len ((p ++ g ++ w ++ ['\n']) ++ ((ls.map (fun l => p ++ l ++ ['\n'])).flatten
      ++ ((p ++ g ++ ['\n']) ++ b))) = (p ++ g ++ w ++ ['\n']).length := by
    have hpgw : '\n' ∉ p ++ g ++ w := by
      simp only [List.mem_append, not_or]
      exact ⟨⟨hplf, hlf⟩, mem_of_all_whitespace hw⟩
    have := line_len_line (p ++ g ++ w) hpgw ((ls.map (fun l => p ++ l ++ ['\n'])).flatten
      ++ ((p ++ g ++ ['\n']) ++ b))
    simpa using this
  have hpep : is_pep723_opening ((p ++ g ++ w ++ ['\n'])
      ++ ((ls.map (fun l => p ++ l ++ ['\n'])).flatten ++ ((p ++ g ++ ['\n']) ++ b))) 0
      ((p ++ g ++ w ++ ['\n']) ++ ((ls.map (fun l => p ++ l ++ ['\n'])).flatten
        ++ ((p ++ g ++ ['\n']) ++ b))).length = false := by
    rw [is_pep723_opening_eq _ 0 (Nat.zero_le _)]
    rcases hp with h | h <;> rcases hg with h' | h' <;> subst h <;> subst h' <;>
      simp [fence_line, List.isPrefixOf]
  have hdet : detect_opening ((p ++ g ++ w ++ ['\n'])
      ++ ((ls.map (fun l => p ++ l ++ ['\n'])).flatten ++ ((p ++ g ++ ['\n']) ++ b)))
      ((p ++ g ++ w ++ ['\n']) ++ ((ls.map (fun l => p ++ l ++ ['\n'])).flatten
        ++ ((p ++ g ++ ['\n']) ++ b))).length
      = some (Opening.mk g (if g = ['-', '-', '-'] then "yaml" else "toml")
          (if g = ['-', '-', '-'] then (if p = ['#', ' '] then "yaml_comment" else "yaml_roxy")
           else (if p = ['#', ' '] then "toml_comment" else "toml_roxy"))
          p (p ++ g ++ w ++ ['\n']).length true) := by
    rw [detect_opening_eq, hll]
    rcases hp with h | h <;> rcases hg with h' | h' <;> subst h <;> subst h' <;>
      simp [fence_line, List.isPrefixOf, dropWhile_ws_append _ _ hw, ends_line, starts_newline]
  have hne : ((p ++ g ++ w ++ ['\n']) ++ ((ls.map (fun l => p ++ l ++ ['\n'])).flatten
      ++ ((p ++ g ++ ['\n']) ++ b))).length ≠ 0 := by
    simp
  unfold extract_front_matter_cpp
  simp only [hne, beq_iff_eq, if_false, hpep, Bool.false_eq_true, hdet, closing_start_of, if_true,
    hcl]
  rw [if_neg (by simp), has]

/-- C3: for a comment marker `p` among `# ` and `#' `, a glyph `g` among `---` and
`+++`, lines `l_1 .. l_n` without LF and CR none of which is `g` followed only by
spaces and tabs, a run `w` of spaces and tabs and any string `b`, the text
`p g w LF (p l_1 LF) .. (p l_n LF) p g LF b` is accepted (`found = true`) and `content`
is exactly `l_1 LF .. l_n LF`, the lines with the marker removed. -/
theorem comment_block_roundtrip (p g w b : List Char) (ls : List (List Char))
    (hp : p = ['#', ' '] ∨ p = ['#', Char.ofNat 39, ' '])
    (hg : g = ['-', '-', '-'] ∨ g = ['+', '+', '+'])
    (hls : ∀ l ∈ ls, '\n' ∉ l ∧ '\r' ∉ l ∧ glyph_then_blanks g l = false)
    (hw : ∀ x ∈ w, is_whitespace x = true) :
    (extract_front_matter_cpp
        (p ++ g ++ w ++ ['\n'] ++ (ls.map (fun l => p ++ l ++ ['\n'])).flatten
          ++ p ++ g ++ ['\n'] ++ b)).found = true
    ∧ (extract_front_matter_cpp
        (p ++ g ++ w ++ ['\n'] ++ (ls.map (fun l => p ++ l ++ ['\n'])).flatten
          ++ p ++ g ++ ['\n'] ++ b)).content = (ls.map (fun l => l ++ ['\n'])).flatten := by
  rw [comment_block_result p g w b ls hp hg hls hw]
  exact ⟨rfl, rfl⟩

theorem comment_block_roundtrip_witness :
    (extract_front_matter_cpp "# --- \n# a: 1\n# ---\nmore\n".toList).found = true
    ∧ (extract_front_matter_cpp "# --- \n# a: 1\n# ---\nmore\n".toList).content = "a: 1\n".toList :=
  comment_block_roundtrip ['#', ' '] ['-', '-', '-'] [' '] "more\n".toList ["a: 1".toList]
    (Or.inl rfl) (Or.inl rfl) (by decide) (by decide)

end FrontMatter

namespace FrontMatter

/-! ## C4: the PEP 723 dialect -/

theorem pep723_body_advances (text : List Char) (cs : Nat) :
    Advances text.length (extract_pep723_body text text.length cs) := by
  intro pos s pos1 s1 hp hb
  unfold extract_pep723_body at hb
  split at hb
  · simp at hb
  · split at hb
    · simp at hb
    · split at hb
      · simp at hb
      · simp only [Step.next.injEq] at hb
        rw [← hb.1]
        exact skip_to_next_line_gt hp

theorem take_line_len_line (l rest : List Char) (hl : '\n' ∉ l) :
    (l ++ '\n' :: rest).take (line_len (l ++ '\n' :: rest)) = l ++ ['\n'] := by
  rw [line_len_line l hl rest]
  have e : l ++ '\n' :: rest = (l ++ ['\n']) ++ rest := by simp
  have e2 : l.length + 1 = (l ++ ['\n']).length := by simp
  rw [e, e2, List.take_left]

/-- A line `# l LF` inside a PEP 723 block, `l` not being `///` and blanks, is skipped. -/
theorem pep723_body_content_line (text : List Char) (cs pos : Nat) (l rest : List Char)
    (hd : text.drop pos = '#' :: ' ' :: (l ++ '\n' :: rest))
    (hlf : '\n' ∉ l) (hcr : '\r' ∉ l) (hno : glyph_then_blanks ['/', '/', '/'] l = false) :
    extract_pep723_body text text.length cs pos () = Step.next (pos + (l.length + 3)) () := by
  obtain ⟨hb0, hd1, hlt⟩ := byteAt_of_drop_eq hd
  obtain ⟨hb1, _, hlt1⟩ := byteAt_of_drop_eq hd1
  have hcl : is_pep723_closing text pos text.length = false := by
    rw [is_pep723_closing_eq text pos (by omega), hd]
    have e : fence_line ['#', ' ', '/', '/', '/'] ('#' :: ' ' :: (l ++ '\n' :: rest))
        = fence_line ['/', '/', '/'] (l ++ '\n' :: rest) :=
      fence_line_append_left ['#', ' '] ['/', '/', '/'] (l ++ '\n' :: rest)
    rw [e, fence_line_take_line _ (by decide), take_line_len_line l rest hlf,
      fence_line_terminated _ (by decide) l hlf hcr]
    exact hno
  have hsk : skip_to_next_line text pos text.length = pos + (l.length + 3) := by
    rw [skip_to_next_line_eq, hd]
    have hl2 : '\n' ∉ '#' :: ' ' :: l := by
      simp only [List.mem_cons, not_or]
      exact ⟨by decide, by decide, hlf⟩
    have := line_len_line ('#' :: ' ' :: l) hl2 rest
    simp only [List.cons_append, List.length_cons] at this
    rw [this]
  unfold extract_pep723_body
  simp [hcl, hb0, hb1, hsk]

theorem pep723_loop_skip (text : List Char) (cs : Nat) (ls : List (List Char))
    (hls : ∀ l ∈ ls, '\n' ∉ l ∧ '\r' ∉ l ∧ glyph_then_blanks ['/', '/', '/'] l = false) :
    ∀ (pre rest : List Char),
      text = pre ++ ((ls.map (fun l => ['#', ' '] ++ l ++ ['\n'])).flatten ++ rest) →
      while_lt text.length (extract_pep723_body text text.length cs) (fun _ => not_found text)
          (text.length - pre.length) pre.length ()
        = while_lt text.length (extract_pep723_body text text.length cs) (fun _ => not_found text)
          (text.length - (pre.length + ((ls.map (fun l => ['#', ' '] ++ l ++ ['\n'])).flatten).length))
          (pre.length + ((ls.map (fun l => ['#', ' '] ++ l ++ ['\n'])).flatten).length) () := by
  induction ls with
  | nil =>
    intro pre rest _
    simp
  | cons l t ih =>
    intro pre rest htext
    have hl := hls l (by simp)
    have hd : text.drop pre.length
        = '#' :: ' ' :: (l ++ '\n' :: ((t.map (fun l => ['#', ' '] ++ l ++ ['\n'])).flatten ++ rest)) := by
      rw [htext, List.drop_left]
      simp
    have hlt : pre.length < text.length := (byteAt_of_drop_eq hd).2.2
    rw [while_lt_step (pep723_body_advances text cs) _ _ _ (le_refl _) hlt,
      pep723_body_content_line text cs pre.length l _ hd hl.1 hl.2.1 hl.2.2]
    have htext2 : text = (pre ++ (['#', ' '] ++ l ++ ['\n']))
        ++ ((t.map (fun l => ['#', ' '] ++ l ++ ['\n'])).flatten ++ rest) := by
      rw [htext]; simp
    have := ih (fun x hx => hls x (by simp [hx])) (pre ++ (['#', ' '] ++ l ++ ['\n'])) rest htext2
    have e1 : (pre ++ (['#', ' '] ++ l ++ ['\n'])).length = pre.length + (l.length + 3) := by
      simp only [List.length_append, List.length_cons, List.length_nil]; omega
    rw [e1] at this
    simp only [this]
    have e2 : pre.length + (l.length + 3)
          + ((t.map (fun l => ['#', ' '] ++ l ++ ['\n'])).flatten).length
        = pre.length + (((l :: t).map (fun l => ['#', ' '] ++ l ++ ['\n'])).flatten).length := by
      simp only [List.map_cons, List.flatten_cons, List.length_append, List.length_cons,
        List.length_nil]
      omega
    rw [e2]

end FrontMatter

namespace FrontMatter

/-- C4: for lines `l_1 .. l_n` without LF and CR none of which is `///` followed only by
spaces and tabs, and any string `b`, the text
`# /// script LF (# l_1 LF) .. (# l_n LF) # /// LF b` is extracted as `found = true`,
`format = toml`, `fence_type = toml_pep723`, `content = l_1 LF .. l_n LF` and
`body = trim_leading_comment_lines(b, "# ")`. -/
theorem pep723_block_extracted (ls : List (List Char)) (b : List Char)
    (hls : ∀ l ∈ ls, '\n' ∉ l ∧ '\r' ∉ l ∧ glyph_then_blanks ['/', '/', '/'] l = false) :
    extract_front_matter_cpp
        (['#', ' ', '/', '/', '/', ' ', 's', 'c', 'r', 'i', 'p', 't'] ++ ['\n']
          ++ (ls.map (fun l => ['#', ' '] ++ l ++ ['\n'])).flatten
          ++ ['#', ' ', '/', '/', '/'] ++ ['\n'] ++ b)
      = Result.mk true "toml" "toml_pep723" ((ls.map (fun l => l ++ ['\n'])).flatten)
          (trim_leading_comment_lines b ['#', ' ']) := by
  generalize hW : (ls.map (fun l => ['#', ' '] ++ l ++ ['\n'])).flatten = W
  have hassoc : ['#', ' ', '/', '/', '/', ' ', 's', 'c', 'r', 'i', 'p', 't'] ++ ['\n'] ++ W
        ++ ['#', ' ', '/', '/', '/'] ++ ['\n'] ++ b
      = ['#', ' ', '/', '/', '/', ' ', 's', 'c', 'r', 'i', 'p', 't', '\n']
          ++ (W ++ (['#', ' ', '/', '/', '/', '\n'] ++ b)) := by
    simp
  rw [hassoc]
  generalize htext : ['#', ' ', '/', '/', '/', ' ', 's', 'c', 'r', 'i', 'p', 't', '\n']
    ++ (W ++ (['#', ' ', '/', '/', '/', '\n'] ++ b)) = text
  have hlen : text.length = 13 + W.length + 6 + b.length := by
    rw [← htext]
    simp only [List.length_append, List.length_cons, List.length_nil]
    omega
  have hopen : is_pep723_opening text 0 text.length = true := by
    rw [is_pep723_opening_eq _ 0 (Nat.zero_le _), ← htext]
    simp [fence_line, List.isPrefixOf, List.dropWhile_cons, is_whitespace, ends_line,
      starts_newline]
  have hcs : skip_to_next_line text 0 text.length = 13 := by
    rw [skip_to_next_line_eq, ← htext]
    simp [line_len]
  have hd1 : text.drop 13 = W ++ (['#', ' ', '/', '/', '/', '\n'] ++ b) := by
    rw [← htext]
    rfl
  have hd2 : text.drop (13 + W.length) = ['#', ' ', '/', '/', '/', '\n'] ++ b := by
    rw [← List.drop_drop, hd1, List.drop_left]
  have hd3 : text.drop (13 + W.length + 6) = b := by
    rw [← List.drop_drop, hd2]
    rfl
  have hskip := pep723_loop_skip text 13 ls hls
    ['#', ' ', '/', '/', '/', ' ', 's', 'c', 'r', 'i', 'p', 't', '\n']
    (['#', ' ', '/', '/', '/', '\n'] ++ b) (by rw [hW]; exact htext.symm)
  rw [hW] at hskip
  simp only [List.length_cons, List.length_nil, Nat.zero_add, Nat.reduceAdd] at hskip
  have hclose : is_pep723_closing text (13 + W.length) text.length = true := by
    rw [is_pep723_closing_eq _ _ (by omega), hd2]
    simp [fence_line, List.isPrefixOf, List.dropWhile_cons, is_whitespace, ends_line,
      starts_newline]
  have hsk2 : skip_to_next_line text (13 + W.length) text.length = 13 + W.length + 6 := by
    rw [skip_to_next_line_eq, hd2]
    simp [line_len]
  have hne : text.length ≠ 0 := by omega
  unfold extract_front_matter_cpp
  simp only [hne, beq_iff_eq, if_false, hopen, if_true]
  unfold extract_pep723
  simp only [hopen, Bool.not_true, Bool.false_eq_true, if_false, hcs, hskip]
  rw [while_lt_step (pep723_body_advances text 13) _ _ _ (le_refl _) (by omega)]
  unfold extract_pep723_body
  simp only [hclose, if_true, hsk2, hd3, substr, hd1]
  have hc1 : (13 + W.length > 13) ↔ W ≠ [] := by
    rw [← List.length_pos]
    omega
  have hb1 : (13 + W.length + 6 < text.length) ↔ b ≠ [] := by
    rw [← List.length_pos]
    omega
  have e1 : 13 + W.length - 13 = W.length := by omega
  simp only [hc1, hb1, e1, List.take_left]
  have hcontent : (if W ≠ [] then unwrap_comments W ['#', ' '] else [])
      = (ls.map (fun l => l ++ ['\n'])).flatten := by
    by_cases hW0 : W = []
    · have : ls = [] := wrapped_eq_nil ['#', ' '] ls (by rw [hW]; exact hW0)
      simp [hW0, this]
    · simp only [hW0, ne_eq, not_false_eq_true, if_true]
      rw [← hW]
      exact unwrap_comments_wrapped ['#', ' '] ls (fun l hl => ⟨(hls l hl).1, (hls l hl).2.1⟩)
  have hbody : (if b ≠ [] then trim_leading_comment_lines b ['#', ' '] else [])
      = trim_leading_comment_lines b ['#', ' '] := by
    by_cases hb0 : b = []
    · simp [hb0, trim_leading_comment_lines_nil]
    · simp [hb0]
  rw [hcontent, hbody]

theorem pep723_block_extracted_witness :
    extract_front_matter_cpp "# /// script\n# dependencies = []\n# ///\nprint(1)\n".toList
      = Result.mk true "toml" "toml_pep723" "dependencies = []\n".toList "print(1)\n".toList :=
  pep723_block_extracted ["dependencies = []".toList] "print(1)\n".toList (by decide)

end FrontMatter

namespace FrontMatter

/-! ## C5: comment lines after the closing fence -/

theorem skip_ws_zero_of_head (body : List Char) (c : Char) (t : List Char) (hb : body = c :: t)
    (hc : is_whitespace c = false) : skip_ws body 0 body.length = 0 := by
  rw [skip_ws_eq, List.drop_zero, hb, List.takeWhile_cons]
  simp [hc]

/-- The helper `trim_leading_comment_lines` leaves a body alone that starts with a marker-prefixed
line with non-blank content: the marker is not removed. -/
theorem trim_leading_comment_lines_content (p s : List Char)
    (hp : p = ['#', ' '] ∨ p = ['#', Char.ofNat 39, ' '])
    (hs : ends_line (s.dropWhile is_whitespace) = false) :
    trim_leading_comment_lines (p ++ s) p = p ++ s := by
  unfold trim_leading_comment_lines
  have hlen : (p ++ s).length = ((p ++ s).length - 1) + 1 := by
    rcases hp with h | h <;> subst h <;> simp
  rw [hlen, while_lt, ← hlen]
  have hpos : 0 < (p ++ s).length := by omega
  simp only [hpos, if_true]
  have hbody : trim_leading_comment_lines_body (p ++ s) p (p ++ s).length 0 ()
      = Step.done (p ++ s) := by
    unfold trim_leading_comment_lines_body
    rcases hp with h | h <;> subst h
    · have h0 : skip_ws (['#', ' '] ++ s) 0 (['#', ' '] ++ s).length = 0 :=
        skip_ws_zero_of_head _ '#' (' ' :: s) rfl (by decide)
      have hd : List.dropWhile is_whitespace (' ' :: s) = List.dropWhile is_whitespace s := by
        rw [List.dropWhile_cons]
        simp [is_whitespace]
      simp only [h0, line_ends_at_eq, drop_skip_ws, List.drop_zero]
      have e1 : ends_line ('#' :: ' ' :: s) = false := by
        simp [ends_line, starts_newline]
      simp [e1, hd, hs, byteAt]
    · have h0 : skip_ws (['#', Char.ofNat 39, ' '] ++ s) 0 (['#', Char.ofNat 39, ' '] ++ s).length = 0 :=
        skip_ws_zero_of_head _ '#' (Char.ofNat 39 :: ' ' :: s) rfl (by decide)
      have hd : List.dropWhile is_whitespace (' ' :: s) = List.dropWhile is_whitespace s := by
        rw [List.dropWhile_cons]
        simp [is_whitespace]
      simp only [h0, line_ends_at_eq, drop_skip_ws, List.drop_zero]
      have e1 : ends_line ('#' :: Char.ofNat 39 :: ' ' :: s) = false := by
        simp [ends_line, starts_newline]
      simp [e1, hd, hs, byteAt]
  rw [hbody]

end FrontMatter

namespace FrontMatter

/-! ## The shape of a successful extraction -/

theorem pep723_body_done_found (text : List Char) (len content_start pos : Nat) (r : Result)
    (hb : extract_pep723_body text len content_start pos () = Step.done r)
    (hr : r.found = true) : r.format = "toml" ∧ r.fence_type = "toml_pep723" := by
  unfold extract_pep723_body at hb
  split at hb
  · simp only [Step.done.injEq] at hb
    subst hb
    exact ⟨rfl, rfl⟩
  · split at hb
    · simp only [Step.done.injEq] at hb
      subst hb
      simp [not_found] at hr
    · split at hb
      · simp only [Step.done.injEq] at hb
        subst hb
        simp [not_found] at hr
      · simp at hb

theorem pep723_loop_found (text : List Char) (len content_start : Nat) :
    ∀ fuel pos,
      (while_lt len (extract_pep723_body text len content_start) (fun _ => not_found text)
        fuel pos ()).found = true →
      (while_lt len (extract_pep723_body text len content_start) (fun _ => not_found text)
        fuel pos ()).format = "toml"
      ∧ (while_lt len (extract_pep723_body text len content_start) (fun _ => not_found text)
        fuel pos ()).fence_type = "toml_pep723" := by
  intro fuel
  induction fuel with
  | zero =>
    intro pos h
    simp [while_lt, not_found] at h
  | succ n ih =>
    intro pos h
    simp only [while_lt] at h ⊢
    by_cases hp : pos < len
    · simp only [hp, if_true] at h ⊢
      cases hb : extract_pep723_body text len content_start pos () with
      | done r =>
        simp only [hb] at h ⊢
        exact pep723_body_done_found text len content_start pos r hb h
      | next pos1 s1 =>
        simp only [hb] at h ⊢
        exact ih _ h
    · simp [hp, not_found] at h

theorem extract_pep723_found (text : List Char) (h : (extract_pep723 text).found = true) :
    (extract_pep723 text).format = "toml" ∧ (extract_pep723 text).fence_type = "toml_pep723" := by
  unfold extract_pep723 at h ⊢
  simp only at h ⊢
  split
  · rename_i h1
    simp [h1, not_found] at h
  · rename_i h1
    simp only [h1, if_false] at h
    exact pep723_loop_found text _ _ _ _ h

/-- A successful extraction went through exactly one of the two paths of the dispatcher:
the PEP 723 path, or an opening fence `o` with a closing fence found at a non-zero
offset. -/
theorem extract_found_cases (text : List Char) (h : (extract_front_matter_cpp text).found = true) :
    (is_pep723_opening text 0 text.length = true
      ∧ extract_front_matter_cpp text = extract_pep723 text)
    ∨ (is_pep723_opening text 0 text.length = false
      ∧ ∃ o, detect_opening text text.length = some o
        ∧ closing_start_of text text.length o ≠ 0
        ∧ extract_front_matter_cpp text = assemble text o (closing_start_of text text.length o)) := by
  unfold extract_front_matter_cpp at h ⊢
  simp only at h ⊢
  by_cases h0 : (text.length == 0) = true
  · simp [h0] at h
  · simp only [h0, Bool.false_eq_true, if_false] at h ⊢
    by_cases h1 : is_pep723_opening text 0 text.length = true
    · left
      simp [h1]
    · right
      simp only [h1, Bool.false_eq_true, if_false] at h ⊢
      refine ⟨by simp [h1], ?_⟩
      cases hd : detect_opening text text.length with
      | none => simp [hd, not_found] at h
      | some o =>
        simp only [hd] at h ⊢
        by_cases hc : (closing_start_of text text.length o == 0) = true
        · simp [hc, not_found] at h
        · refine ⟨o, rfl, by simpa using hc, ?_⟩
          simp [hc]

/-- The opening fence detected on a text is one of six, each recognised by a fence line
at the start of the text. -/
theorem detect_opening_cases (text : List Char) (o : Opening)
    (h : detect_opening text text.length = some o) :
    (fence_line ['#', ' ', '-', '-', '-'] text = true
      ∧ o = Opening.mk ['-', '-', '-'] "yaml" "yaml_comment" ['#', ' '] (line_len text) true)
    ∨ (fence_line ['#', Char.ofNat 39, ' ', '-', '-', '-'] text = true
      ∧ o = Opening.mk ['-', '-', '-'] "yaml" "yaml_roxy" ['#', Char.ofNat 39, ' ']
          (line_len text) true)
    ∨ (fence_line ['#', ' ', '+', '+', '+'] text = true
      ∧ o = Opening.mk ['+', '+', '+'] "toml" "toml_comment" ['#', ' '] (line_len text) true)
    ∨ (fence_line ['#', Char.ofNat 39, ' ', '+', '+', '+'] text = true
      ∧ o = Opening.mk ['+', '+', '+'] "toml" "toml_roxy" ['#', Char.ofNat 39, ' ']
          (line_len text) true)
    ∨ (fence_line ['-', '-', '-'] text = true
      ∧ o = Opening.mk ['-', '-', '-'] "yaml" "yaml" [] (line_len text) false)
    ∨ (fence_line ['+', '+', '+'] text = true
      ∧ o = Opening.mk ['+', '+', '+'] "toml" "toml" [] (line_len text) false) := by
  rw [detect_opening_eq] at h
  split at h
  · rename_i h1
    left
    exact ⟨h1, (Option.some.inj h).symm⟩
  · split at h
    · rename_i h1
      right; left
      exact ⟨h1, (Option.some.inj h).symm⟩
    · split at h
      · rename_i h1
        right; right; left
        exact ⟨h1, (Option.some.inj h).symm⟩
      · split at h
        · rename_i h1
          right; right; right; left
          exact ⟨h1, (Option.some.inj h).symm⟩
        · split at h
          · rename_i h1
            right; right; right; right; left
            exact ⟨h1, (Option.some.inj h).symm⟩
          · split at h
            · rename_i h1
              right; right; right; right; right
              exact ⟨h1, (Option.some.inj h).symm⟩
            · simp at h

/-- C5 (amended): for a comment marker `p` among `# ` and `#' ` and a comment-wrapped
block accepted by `extract_front_matter_cpp` with that marker, if the remainder `r` after
the closing fence line starts, with no blank line in between, with a line that carries
`p` and has non-blank content, then the returned body is `r` itself, byte for byte: the
marker is not removed and nothing is unwrapped. -/
theorem continuation_body_unchanged (text p s : List Char)
    (hfound : (extract_front_matter_cpp text).found = true)
    (hft : (p = ['#', ' ']
        ∧ ((extract_front_matter_cpp text).fence_type = "yaml_comment"
          ∨ (extract_front_matter_cpp text).fence_type = "toml_comment"))
      ∨ (p = ['#', Char.ofNat 39, ' ']
        ∧ ((extract_front_matter_cpp text).fence_type = "yaml_roxy"
          ∨ (extract_front_matter_cpp text).fence_type = "toml_roxy")))
    (hr : after_closing_fence text = p ++ s)
    (hs : ends_line (s.dropWhile is_whitespace) = false) :
    (extract_front_matter_cpp text).body = p ++ s := by
  have hp : p = ['#', ' '] ∨ p = ['#', Char.ofNat 39, ' '] := by
    rcases hft with h | h
    · exact Or.inl h.1
    · exact Or.inr h.1
  rcases extract_found_cases text hfound with ⟨_, he⟩ | ⟨_, o, hd, hc, he⟩
  · rw [he] at hfound hft
    have := (extract_pep723_found text hfound).2
    rw [this] at hft
    simp at hft
  · rw [he] at hft ⊢
    unfold after_closing_fence at hr
    simp only [hd] at hr
    have hne : p ++ s ≠ [] := by
      rcases hp with h | h <;> subst h <;> simp
    have hlt : skip_to_next_line text (closing_start_of text text.length o) text.length
        < text.length := by
      by_contra hge
      rw [List.drop_of_length_le (by omega)] at hr
      exact hne hr.symm
    have hop : o.is_comment_wrapped = true ∧ o.comment_pfx = p := by
      rcases detect_opening_cases text o hd with h | h | h | h | h | h <;>
        obtain ⟨_, rfl⟩ := h <;> simp [assemble] at hft ⊢ <;>
        rcases hft with hh | hh <;> first | exact hh.symm | simp_all
    unfold assemble
    simp only [hlt, if_true, hop.1, hop.2, hr]
    exact trim_leading_comment_lines_content p s hp hs

theorem continuation_body_unchanged_witness :
    (extract_front_matter_cpp "#' ---\n#' a: 1\n#' ---\n#' still comment\n".toList).found = true
    ∧ (extract_front_matter_cpp "#' ---\n#' a: 1\n#' ---\n#' still comment\n".toList).body
      = "#' still comment\n".toList :=
  ⟨by decide,
    continuation_body_unchanged "#' ---\n#' a: 1\n#' ---\n#' still comment\n".toList
      ['#', Char.ofNat 39, ' '] "still comment\n".toList (by decide)
      (Or.inr ⟨rfl, Or.inl (by decide)⟩) (by decide) (by decide)⟩

/-- C5 as stated fails on the scenario of the specification: the block is accepted as
`yaml_roxy`, the remainder after the closing fence is `#' still comment` LF, its
unwrapping would be `still comment` LF, but the returned body is the remainder with the
marker still in place. -/
theorem continuation_not_unwrapped :
    (extract_front_matter_cpp "#' ---\n#' a: 1\n#' ---\n#' still comment\n".toList).found = true
    ∧ (extract_front_matter_cpp "#' ---\n#' a: 1\n#' ---\n#' still comment\n".toList).fence_type
      = "yaml_roxy"
    ∧ after_closing_fence "#' ---\n#' a: 1\n#' ---\n#' still comment\n".toList
      = "#' still comment\n".toList
    ∧ unwrap_comments "#' still comment\n".toList ['#', Char.ofNat 39, ' ']
      = "still comment\n".toList
    ∧ (extract_front_matter_cpp "#' ---\n#' a: 1\n#' ---\n#' still comment\n".toList).body
      = "#' still comment\n".toList
    ∧ (extract_front_matter_cpp "#' ---\n#' a: 1\n#' ---\n#' still comment\n".toList).body
      ≠ unwrap_comments
          (after_closing_fence "#' ---\n#' a: 1\n#' ---\n#' still comment\n".toList)
          ['#', Char.ofNat 39, ' '] := by
  decide

end FrontMatter

namespace FrontMatter

/-! ## The opening literals exclude each other -/

theorem opening_literals_incomparable :
    ∀ a ∈ opening_literals, ∀ b ∈ opening_literals, a <+: b → a = b := by
  decide

theorem fence_line_exclusive {a b s : List Char} (ha : a ∈ opening_literals)
    (hb : b ∈ opening_literals) (hab : a ≠ b) (h : fence_line a s = true) :
    fence_line b s = false := by
  apply fence_line_eq_false
  intro hbs
  have has := fence_line_pfx h
  rcases List.prefix_or_prefix_of_prefix has hbs with h1 | h1
  · exact hab (opening_literals_incomparable a ha b hb h1)
  · exact hab (opening_literals_incomparable b hb a ha h1).symm

theorem first_fence_none (lit : List Char) (L : List (List Char))
    (h : ∀ l ∈ L, fence_line lit l = false) : first_fence lit L = none := by
  induction L with
  | nil => rfl
  | cons l t ih =>
    rw [first_fence, h l (by simp), ih (fun x hx => h x (by simp [hx]))]
    simp

theorem lineStart_line_len (text : List Char) :
    LineStart text (line_len text) ∨ text.length ≤ line_len text := by
  rcases line_len_end text with h | ⟨h1, h2⟩
  · right; omega
  · left
    exact ⟨h1, line_len_le text, h2⟩

end FrontMatter

namespace FrontMatter

/-- The dispatcher picks the dialect of the opening literal that starts the text as a
fence line. -/
theorem detect_opening_of_fence_line (text lit : List Char) (hmem : lit ∈ opening_literals)
    (h : fence_line lit text = true) :
    detect_opening text text.length = opening_of lit (line_len text) := by
  have hx : ∀ b ∈ opening_literals, b ≠ lit → fence_line b text = false :=
    fun b hb hne => fence_line_exclusive hmem hb (Ne.symm hne) h
  rw [detect_opening_eq]
  simp only [opening_literals, List.mem_cons, List.mem_singleton, List.not_mem_nil, or_false] at hmem
  rcases hmem with rfl | rfl | rfl | rfl | rfl | rfl | rfl
  · rw [hx ['#', ' ', '-', '-', '-'] (by decide) (by decide),
      hx ['#', Char.ofNat 39, ' ', '-', '-', '-'] (by decide) (by decide),
      hx ['#', ' ', '+', '+', '+'] (by decide) (by decide),
      hx ['#', Char.ofNat 39, ' ', '+', '+', '+'] (by decide) (by decide), h]
    rfl
  · rw [hx ['#', ' ', '-', '-', '-'] (by decide) (by decide),
      hx ['#', Char.ofNat 39, ' ', '-', '-', '-'] (by decide) (by decide),
      hx ['#', ' ', '+', '+', '+'] (by decide) (by decide),
      hx ['#', Char.ofNat 39, ' ', '+', '+', '+'] (by decide) (by decide),
      hx ['-', '-', '-'] (by decide) (by decide), h]
    rfl
  · rw [h]
    rfl
  · rw [hx ['#', ' ', '-', '-', '-'] (by decide) (by decide), h]
    rfl
  · rw [hx ['#', ' ', '-', '-', '-'] (by decide) (by decide),
      hx ['#', Char.ofNat 39, ' ', '-', '-', '-'] (by decide) (by decide), h]
    rfl
  · rw [hx ['#', ' ', '-', '-', '-'] (by decide) (by decide),
      hx ['#', Char.ofNat 39, ' ', '-', '-', '-'] (by decide) (by decide),
      hx ['#', ' ', '+', '+', '+'] (by decide) (by decide), h]
    rfl
  · rw [hx ['#', ' ', '-', '-', '-'] (by decide) (by decide),
      hx ['#', Char.ofNat 39, ' ', '-', '-', '-'] (by decide) (by decide),
      hx ['#', ' ', '+', '+', '+'] (by decide) (by decide),
      hx ['#', Char.ofNat 39, ' ', '+', '+', '+'] (by decide) (by decide),
      hx ['-', '-', '-'] (by decide) (by decide),
      hx ['+', '+', '+'] (by decide) (by decide)]
    rfl

theorem pep723_opening_false_of_fence_line (text lit : List Char) (hmem : lit ∈ opening_literals)
    (hne : lit ≠ ['#', ' ', '/', '/', '/', ' ', 's', 'c', 'r', 'i', 'p', 't'])
    (h : fence_line lit text = true) :
    is_pep723_opening text 0 text.length = false := by
  rw [is_pep723_opening_eq text 0 (Nat.zero_le _), List.drop_zero,
    fence_line_exclusive hmem (by decide) hne h]
  simp

/-- The closing-fence search of an accepted opening fence, line by line. -/
theorem closing_start_of_eq (text : List Char) (o : Opening) (lit : List Char)
    (hlit : lit ∈ opening_literals)
    (ho : opening_of lit (line_len text) = some o) :
    closing_start_of text text.length o
      = match first_fence lit (splitLines (text.drop (line_len text))) with
        | none => 0
        | some k => line_len text + k := by
  have hls := lineStart_line_len text
  simp only [opening_literals, List.mem_cons, List.mem_singleton, List.not_mem_nil, or_false] at hlit
  unfold closing_start_of
  rcases hlit with rfl | rfl | rfl | rfl | rfl | rfl | rfl
  · have e : opening_of ['-', '-', '-'] (line_len text)
        = some (Opening.mk ['-', '-', '-'] "yaml" "yaml" [] (line_len text) false) := rfl
    rw [e] at ho
    cases ho
    exact find_closing_fence_eq text ['-', '-', '-'] _ rfl (by decide) hls
  · have e : opening_of ['+', '+', '+'] (line_len text)
        = some (Opening.mk ['+', '+', '+'] "toml" "toml" [] (line_len text) false) := rfl
    rw [e] at ho
    cases ho
    exact find_closing_fence_eq text ['+', '+', '+'] _ rfl (by decide) hls
  · have e : opening_of ['#', ' ', '-', '-', '-'] (line_len text)
        = some (Opening.mk ['-', '-', '-'] "yaml" "yaml_comment" ['#', ' '] (line_len text) true) :=
      rfl
    rw [e] at ho
    cases ho
    exact find_comment_closing_fence_eq text ['-', '-', '-'] ['#', ' '] _ rfl (by decide)
      (Or.inl rfl) hls
  · have e : opening_of ['#', Char.ofNat 39, ' ', '-', '-', '-'] (line_len text)
        = some (Opening.mk ['-', '-', '-'] "yaml" "yaml_roxy" ['#', Char.ofNat 39, ' ']
            (line_len text) true) := rfl
    rw [e] at ho
    cases ho
    exact find_comment_closing_fence_eq text ['-', '-', '-'] ['#', Char.ofNat 39, ' '] _ rfl
      (by decide) (Or.inr rfl) hls
  · have e : opening_of ['#', ' ', '+', '+', '+'] (line_len text)
        = some (Opening.mk ['+', '+', '+'] "toml" "toml_comment" ['#', ' '] (line_len text) true) :=
      rfl
    rw [e] at ho
    cases ho
    exact find_comment_closing_fence_eq text ['+', '+', '+'] ['#', ' '] _ rfl (by decide)
      (Or.inl rfl) hls
  · have e : opening_of ['#', Char.ofNat 39, ' ', '+', '+', '+'] (line_len text)
        = some (Opening.mk ['+', '+', '+'] "toml" "toml_roxy" ['#', Char.ofNat 39, ' ']
            (line_len text) true) := rfl
    rw [e] at ho
    cases ho
    exact find_comment_closing_fence_eq text ['+', '+', '+'] ['#', Char.ofNat 39, ' '] _ rfl
      (by decide) (Or.inr rfl) hls
  · have e : opening_of ['#', ' ', '/', '/', '/', ' ', 's', 'c', 'r', 'i', 'p', 't'] (line_len text)
        = none := rfl
    rw [e] at ho
    cases ho

end FrontMatter

namespace FrontMatter

/-! ## Unterminated blocks -/

theorem opening_of_isSome (lit : List Char) (n : Nat) (hmem : lit ∈ opening_literals)
    (hne : lit ≠ ['#', ' ', '/', '/', '/', ' ', 's', 'c', 'r', 'i', 'p', 't']) :
    ∃ o, opening_of lit n = some o := by
  simp only [opening_literals, List.mem_cons, List.mem_singleton, List.not_mem_nil, or_false] at hmem
  rcases hmem with rfl | rfl | rfl | rfl | rfl | rfl | rfl
  · exact ⟨_, rfl⟩
  · exact ⟨_, rfl⟩
  · exact ⟨_, rfl⟩
  · exact ⟨_, rfl⟩
  · exact ⟨_, rfl⟩
  · exact ⟨_, rfl⟩
  · exact absurd rfl hne

theorem ne_nil_of_fence_line {lit s : List Char} (hlit : lit ≠ []) (h : fence_line lit s = true) :
    s ≠ [] := by
  intro hs
  rw [hs, fence_line_nil hlit] at h
  exact absurd h (by simp)

theorem ne_nil_of_mem_opening_literals {lit : List Char} (hmem : lit ∈ opening_literals) :
    lit ≠ [] := by
  intro h
  rw [h] at hmem
  exact absurd hmem (by decide)

/-- A text that opens with a complete opening fence of a glyph dialect and has no closing
fence line of that dialect afterwards is a non-match. -/
theorem unterminated_fenced (text lit : List Char) (hmem : lit ∈ opening_literals)
    (hne : lit ≠ ['#', ' ', '/', '/', '/', ' ', 's', 'c', 'r', 'i', 'p', 't'])
    (hopen : fence_line lit text = true)
    (hno : ∀ l ∈ splitLines (text.drop (line_len text)), fence_line lit l = false) :
    extract_front_matter_cpp text = not_found text := by
  obtain ⟨o, ho⟩ := opening_of_isSome lit (line_len text) hmem hne
  have hdet := detect_opening_of_fence_line text lit hmem hopen
  rw [ho] at hdet
  have hpep := pep723_opening_false_of_fence_line text lit hmem hne hopen
  have hcl := closing_start_of_eq text o lit hmem ho
  rw [first_fence_none lit _ hno] at hcl
  have hnil : text.length ≠ 0 := by
    have := ne_nil_of_fence_line (ne_nil_of_mem_opening_literals hmem) hopen
    simpa using this
  unfold extract_front_matter_cpp
  simp [hnil, hpep, hdet, hcl]

theorem mem_splitLines_take_line {s : List Char} (h : s ≠ []) :
    s.take (line_len s) ∈ splitLines s := by
  rw [splitLines_eq h]
  simp

theorem mem_splitLines_drop_line {s l : List Char}
    (h : l ∈ splitLines (s.drop (line_len s))) : l ∈ splitLines s := by
  by_cases hs : s = []
  · subst hs
    simpa [line_len] using h
  · rw [splitLines_eq hs]
    simp [h]

theorem pep723_loop_no_closing (text : List Char) (cs : Nat) :
    ∀ fuel pos, pos ≤ text.length →
      (∀ l ∈ splitLines (text.drop pos), fence_line ['#', ' ', '/', '/', '/'] l = false) →
      while_lt text.length (extract_pep723_body text text.length cs) (fun _ => not_found text)
        fuel pos () = not_found text := by
  intro fuel
  induction fuel with
  | zero => intro pos _ _; rfl
  | succ n ih =>
    intro pos hle hno
    by_cases hp : pos < text.length
    · have hne : text.drop pos ≠ [] := by
        rw [drop_eq_cons hp]; simp
      have hcl : is_pep723_closing text pos text.length = false := by
        rw [is_pep723_closing_eq text pos hle, fence_line_take_line _ (by decide)]
        exact hno _ (mem_splitLines_take_line hne)
      simp only [while_lt, hp, if_true]
      have hbody : extract_pep723_body text text.length cs pos () = Step.done (not_found text)
          ∨ extract_pep723_body text text.length cs pos ()
            = Step.next (skip_to_next_line text pos text.length) () := by
        unfold extract_pep723_body
        simp only [hcl, Bool.false_eq_true, if_false]
        split
        · left; rfl
        · split
          · left; rfl
          · right; rfl
      rcases hbody with hb | hb
      · rw [hb]
      · rw [hb]
        have hsk := skip_to_next_line_eq text pos
        apply ih
        · exact skip_to_next_line_le hle
        · intro l hl
          rw [hsk, ← List.drop_drop] at hl
          exact hno l (mem_splitLines_drop_line hl)
    · simp [while_lt, hp]

/-- A text that opens with a complete `# /// script` line and has no `# ///` closing line
afterwards is a non-match. -/
theorem unterminated_pep723 (text : List Char)
    (hopen : fence_line ['#', ' ', '/', '/', '/', ' ', 's', 'c', 'r', 'i', 'p', 't'] text = true)
    (hno : ∀ l ∈ splitLines (text.drop (line_len text)),
      fence_line ['#', ' ', '/', '/', '/'] l = false) :
    extract_front_matter_cpp text = not_found text := by
  have hnil : text.length ≠ 0 := by
    have := ne_nil_of_fence_line (by simp) hopen
    simpa using this
  have hpe := is_pep723_opening_eq text 0 (Nat.zero_le _)
  rw [List.drop_zero, hopen, Bool.and_true] at hpe
  unfold extract_front_matter_cpp
  simp only [hnil, beq_iff_eq, if_false]
  by_cases h13 : 0 + 13 ≤ text.length
  · have hp : is_pep723_opening text 0 text.length = true := by
      rw [hpe]; simpa using h13
    simp only [hp, if_true]
    unfold extract_pep723
    simp only [hp, Bool.not_true, Bool.false_eq_true, if_false]
    apply pep723_loop_no_closing
    · exact skip_to_next_line_le (Nat.zero_le _)
    · rw [skip_to_next_line_eq, List.drop_zero, Nat.zero_add]
      exact hno
  · have hp : is_pep723_opening text 0 text.length = false := by
      rw [hpe]; simpa using h13
    have hdet := detect_opening_of_fence_line text _ (by decide) hopen
    have e : opening_of ['#', ' ', '/', '/', '/', ' ', 's', 'c', 'r', 'i', 'p', 't'] (line_len text)
        = none := rfl
    rw [e] at hdet
    simp [hp, hdet]

end FrontMatter

namespace FrontMatter

/-! ## Blocks of any length -/

theorem splitLines_replicate (n : Nat) (rest : List Char) :
    splitLines ((List.replicate n ['x', '\n']).flatten ++ rest)
      = List.replicate n ['x', '\n'] ++ splitLines rest := by
  induction n with
  | zero => simp
  | succ k ih =>
    have e : (List.replicate (k + 1) ['x', '\n']).flatten ++ rest
        = ['x'] ++ '\n' :: ((List.replicate k ['x', '\n']).flatten ++ rest) := by
      simp [List.replicate_succ]
    rw [e, splitLines_line ['x'] (by decide), ih]
    simp [List.replicate_succ]

theorem getLast?_flatten_replicate (n : Nat) :
    ((List.replicate (n + 1) ['x', '\n']).flatten).getLast? = some '\n' := by
  rw [List.replicate_succ', List.flatten_append]
  simp

theorem line_len_long_block (n : Nat) : line_len (long_block n) = 4 := by
  unfold long_block
  rw [List.append_assoc]
  exact line_len_line ['-', '-', '-'] (by decide) _

theorem splitLines_long_block (n : Nat) :
    splitLines ((long_block n).drop (line_len (long_block n)))
      = List.replicate n ['x', '\n']
        ++ splitLines ((['-', '-', '-'] ++ ['\n']) ++ ['b', 'o', 'd', 'y', '\n']) := by
  rw [line_len_long_block]
  have e : List.drop 4 (long_block n)
      = x_lines n ++ ((['-', '-', '-'] ++ ['\n']) ++ ['b', 'o', 'd', 'y', '\n']) := rfl
  rw [e]
  exact splitLines_replicate n _

theorem fence_line_long_block (n : Nat) : fence_line ['-', '-', '-'] (long_block n) = true := by
  unfold long_block
  exact fence_line_append_ws ['-', '-', '-'] [] _ (by simp)

theorem fence_line_x_line {n : Nat} :
    ∀ l ∈ List.replicate n ['x', '\n'], fence_line ['-', '-', '-'] l = false := by
  intro l hl
  rw [List.eq_of_mem_replicate hl]
  decide

/-- However many content lines `x` there are, the closing fence after them is found: the
result on `long_block n` is `found = true` with all `n` lines as content. -/
theorem long_block_found (n : Nat) :
    extract_front_matter_cpp (long_block n)
      = Result.mk true "yaml" "yaml" (x_lines n) ['b', 'o', 'd', 'y', '\n'] := by
  have hc : x_lines n = [] ∨ (x_lines n).getLast? = some '\n' := by
    cases n with
    | zero => left; rfl
    | succ k => right; exact getLast?_flatten_replicate k
  exact bare_block_result ['-', '-', '-'] (x_lines n) ['b', 'o', 'd', 'y', '\n']
    (Or.inl rfl) hc
    (by
      intro l hl
      have h1 := splitLines_replicate n []
      have h0 : splitLines [] = [] := rfl
      rw [h0, List.append_nil, List.append_nil] at h1
      rw [x_lines, h1] at hl
      exact fence_line_x_line l hl)

/-- A text that opens with a valid bare `---` fence line and in which no line after the
opening line, however many there are, is a valid closing `---` fence line is a
non-match: `found = false` and `body` is the text. -/
theorem unterminated_yaml_not_found (text : List Char)
    (hopen : fence_line ['-', '-', '-'] text = true)
    (hno : ∀ l ∈ splitLines (text.drop (line_len text)), fence_line ['-', '-', '-'] l = false) :
    (extract_front_matter_cpp text).found = false
    ∧ (extract_front_matter_cpp text).body = text := by
  rw [unterminated_fenced text ['-', '-', '-'] (by decide) (by decide) hopen hno]
  exact ⟨rfl, rfl⟩

theorem unterminated_yaml_not_found_witness :
    (extract_front_matter_cpp "---\ntitle: x\n--- x\nHello\n".toList).found = false
    ∧ (extract_front_matter_cpp "---\ntitle: x\n--- x\nHello\n".toList).body
      = "---\ntitle: x\n--- x\nHello\n".toList :=
  unterminated_yaml_not_found "---\ntitle: x\n--- x\nHello\n".toList (by decide) (by decide)

/-! ## C9: unterminated blocks of every dialect -/

/-- C9: a text whose first line is a complete opening fence of some dialect (one of the
seven opening literals followed only by spaces and tabs) and in which no later line is a
complete closing fence of that same dialect and comment marker is a non-match:
`found = false`, `content` empty and `body` equal to the text. -/
theorem unterminated_block_not_found (text op : List Char) (hop : op ∈ opening_literals)
    (hopen : fence_line op text = true)
    (hno : ∀ l ∈ splitLines (text.drop (line_len text)),
      fence_line (closing_literal op) l = false) :
    (extract_front_matter_cpp text).found = false
    ∧ (extract_front_matter_cpp text).content = []
    ∧ (extract_front_matter_cpp text).body = text := by
  by_cases hpep : op = ['#', ' ', '/', '/', '/', ' ', 's', 'c', 'r', 'i', 'p', 't']
  · subst hpep
    rw [unterminated_pep723 text hopen hno]
    exact ⟨rfl, rfl, rfl⟩
  · have hcl : closing_literal op = op := by
      simp [closing_literal, hpep]
    rw [hcl] at hno
    rw [unterminated_fenced text op hop hpep hopen hno]
    exact ⟨rfl, rfl, rfl⟩

theorem unterminated_block_not_found_witness :
    (extract_front_matter_cpp "# /// script\n# dependencies = []\n# /// x\nprint(1)\n".toList).found
      = false
    ∧ (extract_front_matter_cpp "# /// script\n# dependencies = []\n# /// x\nprint(1)\n".toList).content
      = []
    ∧ (extract_front_matter_cpp "# /// script\n# dependencies = []\n# /// x\nprint(1)\n".toList).body
      = "# /// script\n# dependencies = []\n# /// x\nprint(1)\n".toList :=
  unterminated_block_not_found "# /// script\n# dependencies = []\n# /// x\nprint(1)\n".toList
    ['#', ' ', '/', '/', '/', ' ', 's', 'c', 'r', 'i', 'p', 't'] (by decide) (by decide)
    (by decide)

end FrontMatter

namespace FrontMatter

/-! ## C7: format and fence type are read off the first bytes -/

/-- A successful extraction belongs to one dialect of the table: the text begins with a
fence line of its opening literal and the result carries its two strings. -/
theorem found_dialect (text : List Char) (h : (extract_front_matter_cpp text).found = true) :
    ∃ lit fmt ft, (lit, fmt, ft) ∈ dialect_table ∧ fence_line lit text = true
      ∧ (extract_front_matter_cpp text).format = fmt
      ∧ (extract_front_matter_cpp text).fence_type = ft := by
  rcases extract_found_cases text h with ⟨hp, he⟩ | ⟨_, o, hd, _, he⟩
  · rw [he] at h ⊢
    have hf := extract_pep723_found text h
    rw [is_pep723_opening_eq text 0 (Nat.zero_le _), List.drop_zero, Bool.and_eq_true] at hp
    exact ⟨['#', ' ', '/', '/', '/', ' ', 's', 'c', 'r', 'i', 'p', 't'], "toml", "toml_pep723",
      by simp [dialect_table], hp.2, hf.1, hf.2⟩
  · rw [he]
    rcases detect_opening_cases text o hd with h1 | h1 | h1 | h1 | h1 | h1 <;>
      obtain ⟨hfl, rfl⟩ := h1
    · exact ⟨_, "yaml", "yaml_comment", by simp [dialect_table], hfl, rfl, rfl⟩
    · exact ⟨_, "yaml", "yaml_roxy", by simp [dialect_table], hfl, rfl, rfl⟩
    · exact ⟨_, "toml", "toml_comment", by simp [dialect_table], hfl, rfl, rfl⟩
    · exact ⟨_, "toml", "toml_roxy", by simp [dialect_table], hfl, rfl, rfl⟩
    · exact ⟨_, "yaml", "yaml", by simp [dialect_table], hfl, rfl, rfl⟩
    · exact ⟨_, "toml", "toml", by simp [dialect_table], hfl, rfl, rfl⟩

theorem dialect_pair_iff (text lit lit2 : List Char) (fmt ft fmt2 ft2 : String)
    (hl : lit ∈ opening_literals) (hl2 : lit2 ∈ opening_literals) (hpre : lit <+: text)
    (htab : (fmt = fmt2 ∧ ft = ft2) ↔ lit2 = lit) :
    ((fmt = fmt2 ∧ ft = ft2) ↔ lit2 <+: text) := by
  constructor
  · intro h
    rw [htab.mp h]
    exact hpre
  · intro h
    apply htab.mpr
    rcases List.prefix_or_prefix_of_prefix hpre h with h1 | h1
    · exact (opening_literals_incomparable lit hl lit2 hl2 h1).symm
    · exact opening_literals_incomparable lit2 hl2 lit hl h1

end FrontMatter

namespace FrontMatter

theorem dialect_table_literals : ∀ e ∈ dialect_table, e.1 ∈ opening_literals := by
  decide

theorem dialect_table_injective :
    ∀ a ∈ dialect_table, ∀ b ∈ dialect_table,
      ((a.2.1 = b.2.1 ∧ a.2.2 = b.2.2) ↔ b.1 = a.1) := by
  decide

theorem dialect_table_not_none : ∀ e ∈ dialect_table, e.2.1 ≠ "none" ∧ e.2.2 ≠ "none" := by
  decide

theorem dialect_iffs (text : List Char) (a : List Char × String × String)
    (ha : a ∈ dialect_table) (hpre : a.1 <+: text) :
    ∀ e ∈ dialect_table, ((a.2.1 = e.2.1 ∧ a.2.2 = e.2.2) ↔ e.1 <+: text) := by
  intro e he
  exact dialect_pair_iff text a.1 e.1 a.2.1 a.2.2 e.2.1 e.2.2 (dialect_table_literals a ha)
    (dialect_table_literals e he) hpre (dialect_table_injective a ha e he)

/-- C7: on every text with `found = true` the pair `(format, fence_type)` is determined
by how the text begins: `(yaml, yaml)` iff it starts with `---`, `(toml, toml)` iff with
`+++`, `(yaml, yaml_comment)` iff with `# ---`, `(yaml, yaml_roxy)` iff with `#' ---`,
`(toml, toml_comment)` iff with `# +++`, `(toml, toml_roxy)` iff with `#' +++`,
`(toml, toml_pep723)` iff with `# /// script`; the pair is one of these seven, so neither
field is `none` when `found = true`. -/
theorem format_fence_type_determined (text : List Char)
    (h : (extract_front_matter_cpp text).found = true) :
    (((extract_front_matter_cpp text).format = "yaml"
        ∧ (extract_front_matter_cpp text).fence_type = "yaml") ↔ ['-', '-', '-'] <+: text)
    ∧ (((extract_front_matter_cpp text).format = "toml"
        ∧ (extract_front_matter_cpp text).fence_type = "toml") ↔ ['+', '+', '+'] <+: text)
    ∧ (((extract_front_matter_cpp text).format = "yaml"
        ∧ (extract_front_matter_cpp text).fence_type = "yaml_comment")
          ↔ ['#', ' ', '-', '-', '-'] <+: text)
    ∧ (((extract_front_matter_cpp text).format = "yaml"
        ∧ (extract_front_matter_cpp text).fence_type = "yaml_roxy")
          ↔ ['#', Char.ofNat 39, ' ', '-', '-', '-'] <+: text)
    ∧ (((extract_front_matter_cpp text).format = "toml"
        ∧ (extract_front_matter_cpp text).fence_type = "toml_comment")
          ↔ ['#', ' ', '+', '+', '+'] <+: text)
    ∧ (((extract_front_matter_cpp text).format = "toml"
        ∧ (extract_front_matter_cpp text).fence_type = "toml_roxy")
          ↔ ['#', Char.ofNat 39, ' ', '+', '+', '+'] <+: text)
    ∧ (((extract_front_matter_cpp text).format = "toml"
        ∧ (extract_front_matter_cpp text).fence_type = "toml_pep723")
          ↔ ['#', ' ', '/', '/', '/', ' ', 's', 'c', 'r', 'i', 'p', 't'] <+: text)
    ∧ ((extract_front_matter_cpp text).format, (extract_front_matter_cpp text).fence_type)
        ∈ [("yaml", "yaml"), ("toml", "toml"), ("yaml", "yaml_comment"), ("yaml", "yaml_roxy"),
           ("toml", "toml_comment"), ("toml", "toml_roxy"), ("toml", "toml_pep723")]
    ∧ (extract_front_matter_cpp text).format ≠ "none"
    ∧ (extract_front_matter_cpp text).fence_type ≠ "none" := by
  obtain ⟨lit, fmt, ft, hmem, hfl, hf, hft⟩ := found_dialect text h
  have H := dialect_iffs text (lit, fmt, ft) hmem (fence_line_pfx hfl)
  have hnn := dialect_table_not_none (lit, fmt, ft) hmem
  rw [hf, hft]
  refine ⟨H (_, "yaml", "yaml") (by decide), H (_, "toml", "toml") (by decide),
    H (_, "yaml", "yaml_comment") (by decide), H (_, "yaml", "yaml_roxy") (by decide),
    H (_, "toml", "toml_comment") (by decide), H (_, "toml", "toml_roxy") (by decide),
    H (_, "toml", "toml_pep723") (by decide), ?_, hnn.1, hnn.2⟩
  simp only [dialect_table, List.mem_cons, Prod.mk.injEq, List.mem_singleton, List.not_mem_nil,
    or_false] at hmem ⊢
  rcases hmem with h1 | h1 | h1 | h1 | h1 | h1 | h1 <;> simp [h1.2.1, h1.2.2]

theorem format_fence_type_determined_witness :
    (((extract_front_matter_cpp "# +++\n# a = 1\n# +++\nx\n".toList).format = "toml"
        ∧ (extract_front_matter_cpp "# +++\n# a = 1\n# +++\nx\n".toList).fence_type = "toml_comment")
      ↔ ['#', ' ', '+', '+', '+'] <+: "# +++\n# a = 1\n# +++\nx\n".toList)
    ∧ (extract_front_matter_cpp "# +++\n# a = 1\n# +++\nx\n".toList).fence_type = "toml_comment" :=
  ⟨(format_fence_type_determined "# +++\n# a = 1\n# +++\nx\n".toList (by decide)).2.2.2.2.1,
    by decide⟩

end FrontMatter

namespace FrontMatter

/-! ## C8: trailing garbage on the opening line -/

/-- A text that begins with no fence line of any opening literal is a non-match. -/
theorem no_opening_not_found (text : List Char)
    (h : ∀ b ∈ opening_literals, fence_line b text = false) :
    extract_front_matter_cpp text = not_found text := by
  have hpep : is_pep723_opening text 0 text.length = false := by
    rw [is_pep723_opening_eq text 0 (Nat.zero_le _), List.drop_zero, h _ (by decide)]
    simp
  have hdet : detect_opening text text.length = none := by
    rw [detect_opening_eq, h _ (by decide), h ['#', Char.ofNat 39, ' ', '-', '-', '-'] (by decide),
      h ['#', ' ', '+', '+', '+'] (by decide),
      h ['#', Char.ofNat 39, ' ', '+', '+', '+'] (by decide),
      h ['-', '-', '-'] (by decide), h ['+', '+', '+'] (by decide)]
    rfl
  unfold extract_front_matter_cpp
  simp only [hpep, hdet, Bool.false_eq_true, if_false]
  by_cases h0 : text.length = 0
  · have : text = [] := List.length_eq_zero.mp h0
    subst this
    rfl
  · simp [h0]

theorem dropWhile_ws_append_ne (w rest : List Char) (x : Char)
    (hw : ∀ y ∈ w, is_whitespace y = true) (hx : is_whitespace x = false) :
    (w ++ x :: rest).dropWhile is_whitespace = x :: rest := by
  induction w with
  | nil => simp [List.dropWhile_cons, hx]
  | cons y t ih =>
    rw [List.cons_append, List.dropWhile_cons]
    simp only [hw y (by simp), if_true]
    exact ih (fun z hz => hw z (by simp [hz]))

/-- C8: a text whose first line is one of the seven opening literals, then spaces and
tabs, then a byte `x` of that line that is neither space nor tab, is a non-match whatever
follows: `found = false` and `body` is the text. -/
theorem trailing_garbage_not_found (lit w rest : List Char) (x : Char)
    (hlit : lit ∈ opening_literals)
    (hw : ∀ y ∈ w, is_whitespace y = true)
    (hx : is_whitespace x = false)
    (hxlf : x ≠ '\n')
    (hxcr : ¬ (x = '\r' ∧ rest.head? = some '\n')) :
    (extract_front_matter_cpp (lit ++ w ++ x :: rest)).found = false
    ∧ (extract_front_matter_cpp (lit ++ w ++ x :: rest)).body = lit ++ w ++ x :: rest := by
  have hpre : lit <+: lit ++ w ++ x :: rest := by
    rw [List.append_assoc]
    exact List.prefix_append _ _
  have hself : fence_line lit (lit ++ w ++ x :: rest) = false := by
    rw [fence_line_eq_of_pfx hpre, List.append_assoc, List.drop_left,
      dropWhile_ws_append_ne w rest x hw hx]
    simp only [ends_line, List.isEmpty_cons, Bool.false_or, starts_newline]
    by_cases h1 : x = '\r'
    · have h2 : rest.head? ≠ some '\n' := fun h => hxcr ⟨h1, h⟩
      simp [hxlf, h2]
    · simp [hxlf, h1]
  have hall : ∀ b ∈ opening_literals, fence_line b (lit ++ w ++ x :: rest) = false := by
    intro b hb
    by_cases hbl : b = lit
    · rw [hbl]; exact hself
    · apply fence_line_eq_false
      intro hbs
      rcases List.prefix_or_prefix_of_prefix hpre hbs with h1 | h1
      · exact hbl (opening_literals_incomparable lit hlit b hb h1).symm
      · exact hbl (opening_literals_incomparable b hb lit hlit h1)
  rw [no_opening_not_found _ hall]
  exact ⟨rfl, rfl⟩

theorem trailing_garbage_not_found_witness :
    (extract_front_matter_cpp "--- x\ntitle: x\n---\nHello\n".toList).found = false
    ∧ (extract_front_matter_cpp "--- x\ntitle: x\n---\nHello\n".toList).body
      = "--- x\ntitle: x\n---\nHello\n".toList :=
  trailing_garbage_not_found ['-', '-', '-'] [' '] "\ntitle: x\n---\nHello\n".toList 'x'
    (by decide) (by decide) (by decide) (by decide) (by decide)

end FrontMatter

namespace FrontMatter

/-! ## C10: the comment marker of the closing fence -/

theorem first_fence_some (lit : List Char) :
    ∀ (L : List (List Char)) (k : Nat), first_fence lit L = some k →
      ∃ L1 l L2, L = L1 ++ l :: L2 ∧ k = L1.flatten.length ∧ fence_line lit l = true
        ∧ ∀ x ∈ L1, fence_line lit x = false := by
  intro L
  induction L with
  | nil =>
    intro k h
    simp [first_fence] at h
  | cons l t ih =>
    intro k h
    rw [first_fence] at h
    by_cases hl : fence_line lit l = true
    · simp only [hl, if_true, Option.some.injEq] at h
      exact ⟨[], l, t, rfl, by simp [← h], hl, by simp⟩
    · simp only [hl, Bool.false_eq_true, if_false, Option.map_eq_some'] at h
      obtain ⟨k1, hk1, hk⟩ := h
      obtain ⟨L1, l1, L2, hL, hk2, hfl, hno⟩ := ih k1 hk1
      refine ⟨l :: L1, l1, L2, by rw [hL]; rfl, ?_, hfl, ?_⟩
      · rw [← hk, hk2]
        simp
      · intro x hx
        rcases List.mem_cons.mp hx with h1 | h1
        · rw [h1]; simpa using hl
        · exact hno x h1

/-- The closing fence found for an accepted opening fence starts with the literal that
opened the block. -/
theorem closing_line_literal (text : List Char) (o : Opening) (lit : List Char)
    (hlit : lit ∈ opening_literals)
    (ho : opening_of lit (line_len text) = some o)
    (hc : closing_start_of text text.length o ≠ 0) :
    lit <+: text.drop (closing_start_of text text.length o) := by
  have hcl := closing_start_of_eq text o lit hlit ho
  cases hff : first_fence lit (splitLines (text.drop (line_len text))) with
  | none =>
    rw [hff] at hcl
    exact absurd hcl hc
  | some k =>
    rw [hff] at hcl
    simp only at hcl
    obtain ⟨L1, l, L2, hL, hk, hfl, _⟩ := first_fence_some lit _ k hff
    have hflat := splitLines_flatten (text.drop (line_len text))
    rw [hL] at hflat
    rw [hcl, ← List.drop_drop, ← hflat, hk]
    simp only [List.flatten_append, List.flatten_cons, List.drop_left]
    exact (fence_line_pfx hfl).trans (List.prefix_append _ _)

end FrontMatter

namespace FrontMatter

/-- C10: the comment markers of the opening and the closing fence are the same.  When
`extract_front_matter_cpp` returns `found = true` with a comment-wrapped `fence_type`,
the line at which the closing fence was found begins with the same marker and glyph as
the first line of the text; and when the text opens with marker `p` and every later line
that is a complete comment-wrapped fence of the glyph carries the other marker `q`,
`found = false`. -/
theorem comment_markers_match (text : List Char) :
    ((extract_front_matter_cpp text).found = true →
      (extract_front_matter_cpp text).fence_type
        ∈ ["yaml_comment", "yaml_roxy", "toml_comment", "toml_roxy"] →
      ∃ p g o, (p = ['#', ' '] ∨ p = ['#', Char.ofNat 39, ' '])
        ∧ (g = ['-', '-', '-'] ∨ g = ['+', '+', '+'])
        ∧ detect_opening text text.length = some o
        ∧ (p ++ g) <+: text
        ∧ (p ++ g) <+: text.drop (closing_start_of text text.length o))
    ∧ (∀ p q g : List Char,
        ((p = ['#', ' '] ∧ q = ['#', Char.ofNat 39, ' '])
          ∨ (p = ['#', Char.ofNat 39, ' '] ∧ q = ['#', ' '])) →
        (g = ['-', '-', '-'] ∨ g = ['+', '+', '+']) →
        fence_line (p ++ g) text = true →
        (∀ l ∈ splitLines (text.drop (line_len text)), ∀ m ∈ [p, q],
          fence_line (m ++ g) l = true → m = q) →
        (extract_front_matter_cpp text).found = false) := by
  constructor
  · intro hfound hft
    rcases extract_found_cases text hfound with ⟨_, he⟩ | ⟨_, o, hd, hc, he⟩
    · rw [he] at hfound hft
      rw [(extract_pep723_found text hfound).2] at hft
      exact absurd hft (by decide)
    · rw [he] at hft
      rcases detect_opening_cases text o hd with h1 | h1 | h1 | h1 | h1 | h1 <;>
        obtain ⟨hfl, rfl⟩ := h1
      · exact ⟨['#', ' '], ['-', '-', '-'], _, Or.inl rfl, Or.inl rfl, hd, fence_line_pfx hfl,
          closing_line_literal text _ ['#', ' ', '-', '-', '-'] (by decide) rfl hc⟩
      · exact ⟨['#', Char.ofNat 39, ' '], ['-', '-', '-'], _, Or.inr rfl, Or.inl rfl, hd,
          fence_line_pfx hfl,
          closing_line_literal text _ ['#', Char.ofNat 39, ' ', '-', '-', '-'] (by decide) rfl hc⟩
      · exact ⟨['#', ' '], ['+', '+', '+'], _, Or.inl rfl, Or.inr rfl, hd, fence_line_pfx hfl,
          closing_line_literal text _ ['#', ' ', '+', '+', '+'] (by decide) rfl hc⟩
      · exact ⟨['#', Char.ofNat 39, ' '], ['+', '+', '+'], _, Or.inr rfl, Or.inr rfl, hd,
          fence_line_pfx hfl,
          closing_line_literal text _ ['#', Char.ofNat 39, ' ', '+', '+', '+'] (by decide) rfl hc⟩
      · have hft2 : "yaml" ∈ ["yaml_comment", "yaml_roxy", "toml_comment", "toml_roxy"] := hft
        exact absurd hft2 (by decide)
      · have hft2 : "toml" ∈ ["yaml_comment", "yaml_roxy", "toml_comment", "toml_roxy"] := hft
        exact absurd hft2 (by decide)
  · intro p q g hpq hg hopen hother
    have hpq2 : p ≠ q := by
      rcases hpq with ⟨h1, h2⟩ | ⟨h1, h2⟩ <;> rw [h1, h2] <;> decide
    have hno : ∀ l ∈ splitLines (text.drop (line_len text)), fence_line (p ++ g) l = false := by
      intro l hl
      by_contra hcon
      have htrue : fence_line (p ++ g) l = true := by simpa using hcon
      exact hpq2 (hother l hl p (by simp) htrue)
    have hmem : p ++ g ∈ opening_literals := by
      rcases hpq with ⟨h1, _⟩ | ⟨h1, _⟩ <;> rcases hg with h2 | h2 <;> rw [h1, h2] <;> decide
    have hne : p ++ g ≠ ['#', ' ', '/', '/', '/', ' ', 's', 'c', 'r', 'i', 'p', 't'] := by
      rcases hpq with ⟨h1, _⟩ | ⟨h1, _⟩ <;> rcases hg with h2 | h2 <;> rw [h1, h2] <;> decide
    rw [unterminated_fenced text (p ++ g) hmem hne hopen hno]
    rfl

theorem comment_markers_match_witness :
    (∃ p g o, (p = ['#', ' '] ∨ p = ['#', Char.ofNat 39, ' '])
        ∧ (g = ['-', '-', '-'] ∨ g = ['+', '+', '+'])
        ∧ detect_opening "#' ---\n#' a: 1\n# ---\n#' ---\nbody\n".toList
            "#' ---\n#' a: 1\n# ---\n#' ---\nbody\n".toList.length = some o
        ∧ (p ++ g) <+: "#' ---\n#' a: 1\n# ---\n#' ---\nbody\n".toList
        ∧ (p ++ g) <+: "#' ---\n#' a: 1\n# ---\n#' ---\nbody\n".toList.drop
            (closing_start_of "#' ---\n#' a: 1\n# ---\n#' ---\nbody\n".toList
              "#' ---\n#' a: 1\n# ---\n#' ---\nbody\n".toList.length o))
    ∧ (extract_front_matter_cpp "# ---\n# a: 1\n#' ---\nbody\n".toList).found = false :=
  ⟨(comment_markers_match "#' ---\n#' a: 1\n# ---\n#' ---\nbody\n".toList).1
      (by decide) (by decide),
    (comment_markers_match "# ---\n# a: 1\n#' ---\nbody\n".toList).2
      ['#', ' '] ['#', Char.ofNat 39, ' '] ['-', '-', '-'] (Or.inl ⟨rfl, rfl⟩) (Or.inl rfl)
      (by decide) (by decide)⟩

end FrontMatter

namespace FrontMatter

/-! ## Every loop body advances its cursor -/

theorem scan_while_ge (cond : Nat → Bool) (len : Nat) :
    ∀ fuel i, i ≤ scan_while cond len fuel i := by
  intro fuel
  induction fuel with
  | zero => intro i; exact le_refl _
  | succ n ih =>
    intro i
    rw [scan_while]
    split
    · exact Nat.le_trans (Nat.le_succ i) (ih (i + 1))
    · exact le_refl _

theorem skip_ws_ge (str : List Char) (i len : Nat) : i ≤ skip_ws str i len :=
  scan_while_ge _ _ _ _

theorem find_closing_fence_body_advances (str g : List Char) (start : Nat) :
    Advances str.length (find_closing_fence_body str start str.length g) := by
  intro pos s pos1 s1 hp hb
  unfold find_closing_fence_body at hb
  simp only at hb
  split_ifs at hb
  simp only [Step.next.injEq] at hb
  rw [← hb.1]
  exact skip_to_next_line_gt hp

theorem find_comment_closing_fence_body_advances (str g pfx : List Char) (start : Nat) :
    Advances str.length (find_comment_closing_fence_body str start str.length g pfx) := by
  intro pos s pos1 s1 hp hb
  unfold find_comment_closing_fence_body at hb
  simp only at hb
  split_ifs at hb
  all_goals
    simp only [Step.next.injEq] at hb
    rw [← hb.1]
    exact skip_to_next_line_gt hp

theorem trim_leading_empty_lines_body_advances (body : List Char) :
    Advances body.length (trim_leading_empty_lines_body body body.length) := by
  intro pos s pos1 s1 _ hb
  have hge := skip_ws_ge body pos body.length
  unfold trim_leading_empty_lines_body at hb
  simp only at hb
  split at hb
  · simp at hb
  · split at hb
    · simp only [Step.next.injEq] at hb
      omega
    · split at hb
      · simp only [Step.next.injEq] at hb
        omega
      · simp at hb

theorem skip_marker_line_end_ge (data : List Char) (pos len : Nat) :
    pos ≤ skip_marker_line_end data pos len := by
  unfold skip_marker_line_end
  repeat' split
  all_goals omega

theorem trim_leading_comment_lines_body_advances (body pfx : List Char) :
    Advances body.length (trim_leading_comment_lines_body body pfx body.length) := by
  intro pos s pos1 s1 hp hb
  have hge := skip_ws_ge body pos body.length
  have hge1 := skip_ws_ge body (skip_ws body pos body.length + 1) body.length
  have hge2 := skip_ws_ge body (skip_ws body pos body.length + 2) body.length
  have hm1 := skip_marker_line_end_ge body
    (skip_ws body (skip_ws body pos body.length + 1) body.length) body.length
  have hm2 := skip_marker_line_end_ge body
    (skip_ws body (skip_ws body pos body.length + 2) body.length) body.length
  unfold trim_leading_comment_lines_body at hb
  simp only at hb
  split at hb
  · simp only [Step.next.injEq] at hb
    rw [← hb.1]
    unfold skip_empty_line_end
    repeat' split
    all_goals omega
  · split at hb
    · simp only [Step.next.injEq] at hb
      omega
    · split at hb
      · simp only [Step.next.injEq] at hb
        omega
      · simp at hb

theorem skip_cr_lf_ge (data : List Char) (pos len : Nat) : pos ≤ skip_cr_lf data pos len := by
  unfold skip_cr_lf
  simp only
  repeat' split
  all_goals omega

theorem unwrap_copy_line_advances (data : List Char) (len lcs pos0 pos : Nat) (result : List Char)
    (pos1 : Nat) (s1 : List Char) (h0 : pos0 < len) (hle : pos0 ≤ pos)
    (hb : unwrap_copy_line data len lcs pos result = Step.next pos1 s1) : pos0 < pos1 := by
  have hge := scan_while_ge (fun j => byteAt data j != '\n' && byteAt data j != '\r') len
    (len - pos) pos
  unfold unwrap_copy_line at hb
  simp only [Step.next.injEq] at hb
  rw [← hb.1]
  repeat' split
  all_goals omega

theorem unwrap_comments_body_advances (data pfx : List Char) :
    Advances data.length (unwrap_comments_body data pfx data.length) := by
  intro pos s pos1 s1 hp hb
  have hw1 := skip_ws_ge data (pos + 1 + 1) data.length
  have hw2 := skip_ws_ge data (pos + 1) data.length
  have hw3 := skip_ws_ge data (skip_ws data (pos + 1 + 1) data.length) data.length
  have hc1 := skip_cr_lf_ge data (skip_ws data (pos + 1 + 1) data.length) data.length
  have hc2 := skip_cr_lf_ge data (skip_ws data (pos + 1) data.length) data.length
  have hc3 := skip_cr_lf_ge data
    (skip_ws data (skip_ws data (pos + 1 + 1) data.length) data.length) data.length
  have hc4 := skip_cr_lf_ge data (pos + 1) data.length
  unfold unwrap_comments_body at hb
  simp only at hb
  split_ifs at hb
  all_goals
    first
    | exact unwrap_copy_line_advances data _ _ pos _ _ _ _ hp (by omega) hb
    | (simp only [Step.next.injEq] at hb; omega)

end FrontMatter

namespace FrontMatter

/-! ## C17, C18: the literal tests as predicates on the buffer -/

theorem dropWhile_ws_all (w : List Char) (hw : ∀ x ∈ w, is_whitespace x = true) :
    w.dropWhile is_whitespace = [] := by
  induction w with
  | nil => rfl
  | cons x t ih =>
    rw [List.dropWhile_cons]
    simp only [hw x (by simp), if_true]
    exact ih (fun y hy => hw y (by simp [hy]))

theorem dropWhile_ws_append_ends (w rest : List Char) (hw : ∀ x ∈ w, is_whitespace x = true)
    (hr : ends_line rest = true) : (w ++ rest).dropWhile is_whitespace = rest := by
  cases rest with
  | nil => simpa using dropWhile_ws_all w hw
  | cons c t =>
    apply dropWhile_ws_append_ne w t c hw
    simp only [ends_line, List.isEmpty_cons, Bool.false_or, starts_newline, Bool.or_eq_true,
      beq_iff_eq, Bool.and_eq_true] at hr
    rcases hr with h | ⟨h, _⟩ <;> rw [h] <;> decide

/-- A fence line of literal `lit` at the start of `s`: the bytes of `lit`, then a run of
spaces and tabs, then the end of the line (LF, CR LF or the end of the buffer). -/
theorem fence_line_iff (lit s : List Char) :
    fence_line lit s = true
      ↔ ∃ w rest, s = lit ++ w ++ rest ∧ (∀ x ∈ w, is_whitespace x = true)
          ∧ ends_line rest = true := by
  constructor
  · intro h
    have hpre := fence_line_pfx h
    rw [fence_line_eq_of_pfx hpre] at h
    refine ⟨(s.drop lit.length).takeWhile is_whitespace,
      (s.drop lit.length).dropWhile is_whitespace, ?_, ?_, h⟩
    · rw [List.append_assoc, List.takeWhile_append_dropWhile]
      exact (prefix_drop_length hpre).symm
    · intro x hx
      exact List.mem_takeWhile_imp hx
  · rintro ⟨w, rest, rfl, hw, hr⟩
    have hpre : lit <+: lit ++ w ++ rest := by
      rw [List.append_assoc]; exact List.prefix_append _ _
    rw [fence_line_eq_of_pfx hpre, List.append_assoc, List.drop_left,
      dropWhile_ws_append_ends w rest hw hr]
    exact hr

theorem is_pep723_opening_eq_all (str : List Char) (pos : Nat) :
    is_pep723_opening str pos str.length
      = (decide (pos + 13 ≤ str.length) && fence_line pep723_opening_literal (str.drop pos)) := by
  by_cases hp : pos ≤ str.length
  · exact is_pep723_opening_eq str pos hp
  · have h1 : ¬ pos + 13 ≤ str.length := by omega
    unfold is_pep723_opening PEP723_OPENING_CHECK_LEN
    simp [h1, Nat.lt_of_not_le h1]

theorem is_pep723_closing_eq_all (str : List Char) (pos : Nat) :
    is_pep723_closing str pos str.length = fence_line pep723_closing_literal (str.drop pos) := by
  by_cases hp : pos ≤ str.length
  · exact is_pep723_closing_eq str pos hp
  · have hd : str.drop pos = [] := List.drop_of_length_le (by omega)
    rw [hd]
    unfold is_pep723_closing PEP723_CLOSING_LEN
    simp [show pos + 5 > str.length by omega, fence_line, pep723_closing_literal, List.isPrefixOf]

/-- Away from the offsets of its callers `validate_fence` is more liberal: in the buffer
LF `x---` the offset 2 is inside the line `x---` (the byte before it is `x`), and
`validate_fence` with `is_opening = false` accepts it, returning 5, because the byte two
places back is LF. The closing-fence search never passes such an offset. -/
theorem validate_fence_accepts_inside_line :
    byteAt "\nx---".toList 1 = 'x'
    ∧ validate_fence "\nx---".toList 2 "\nx---".toList.length ['-', '-', '-'] false = 5 := by
  decide

/-- C17 as stated fails: the buffer `# /// script` holds exactly the twelve bytes of the
literal and ends immediately after `script`, and `is_pep723_opening` rejects it. -/
theorem pep723_opening_rejected_at_end :
    "# /// script".toList = pep723_opening_literal ++ [] ++ []
    ∧ ends_line [] = true
    ∧ is_pep723_opening "# /// script".toList 0 "# /// script".toList.length = false := by
  decide

/-- C17 (amended): `is_pep723_opening(pos)` returns true if and only if at least
thirteen bytes remain at `pos`, the twelve bytes at `pos` are exactly `# /// script`, and
every byte after them up to the next LF / CR LF terminator or the end of the buffer is a
space or tab. A buffer that ends immediately after `script` is rejected. -/
theorem is_pep723_opening_iff (str : List Char) (pos : Nat) :
    is_pep723_opening str pos str.length = true
      ↔ (pos + 13 ≤ str.length
          ∧ ∃ w rest, str.drop pos = pep723_opening_literal ++ w ++ rest
            ∧ (∀ x ∈ w, is_whitespace x = true) ∧ ends_line rest = true) := by
  rw [is_pep723_opening_eq_all, Bool.and_eq_true, decide_eq_true_eq, fence_line_iff]

/-- C18: `is_pep723_closing(pos)` returns true if and only if the five bytes at `pos` are
exactly `# ///` and every byte after them up to the next LF / CR LF terminator or the end
of the buffer is a space or tab; a line that starts with `# /// script` is never a
closing line. -/
theorem is_pep723_closing_iff (str : List Char) (pos : Nat) :
    (is_pep723_closing str pos str.length = true
      ↔ ∃ w rest, str.drop pos = pep723_closing_literal ++ w ++ rest
          ∧ (∀ x ∈ w, is_whitespace x = true) ∧ ends_line rest = true)
    ∧ (pep723_opening_literal <+: str.drop pos →
        is_pep723_closing str pos str.length = false) := by
  constructor
  · rw [is_pep723_closing_eq_all, fence_line_iff]
  · rintro ⟨t, ht⟩
    rw [is_pep723_closing_eq_all, ← ht]
    simp [fence_line, pep723_closing_literal, pep723_opening_literal, List.isPrefixOf,
      List.dropWhile_cons, is_whitespace, ends_line, starts_newline]

theorem is_pep723_closing_iff_witness :
    is_pep723_closing "# /// script\n# a\n# ///\n".toList 0
      "# /// script\n# a\n# ///\n".toList.length = false :=
  (is_pep723_closing_iff "# /// script\n# a\n# ///\n".toList 0).2 (by decide)

end FrontMatter

namespace FrontMatter

/-! ## C15: `trim_leading_empty_lines`, line by line -/

theorem line_len_dropWhile_ws (s : List Char) :
    line_len s = (s.takeWhile is_whitespace).length + line_len (s.dropWhile is_whitespace) := by
  induction s with
  | nil => rfl
  | cons c t ih =>
    by_cases hw : is_whitespace c = true
    · rw [line_len_cons_ne t (is_whitespace_ne_lf hw), List.takeWhile_cons, List.dropWhile_cons]
      simp only [hw, if_true, List.length_cons]
      omega
    · rw [List.takeWhile_cons, List.dropWhile_cons]
      simp [hw]

theorem line_len_of_ends_line {r : List Char} (h : ends_line r = true) :
    line_len r = term_len r := by
  have := fence_line_len_zero r (by
    cases r with
    | nil => rfl
    | cons c t =>
      have hc : is_whitespace c = false := by
        simp only [ends_line, List.isEmpty_cons, Bool.false_or, starts_newline, Bool.or_eq_true,
          beq_iff_eq, Bool.and_eq_true] at h
        rcases h with h | ⟨h, _⟩ <;> rw [h] <;> decide
      rw [List.dropWhile_cons]
      simpa [hc] using h)
  rw [← this]
  cases r with
  | nil => rfl
  | cons c t =>
    have hc : is_whitespace c = false := by
      simp only [ends_line, List.isEmpty_cons, Bool.false_or, starts_newline, Bool.or_eq_true,
        beq_iff_eq, Bool.and_eq_true] at h
      rcases h with h | ⟨h, _⟩ <;> rw [h] <;> decide
    simp [fence_line_len, List.takeWhile_cons, List.dropWhile_cons, hc]

/-- The value of the terminator tests of the trimming loops at an offset `q` where the
line ends. -/
theorem term_len_cases (body : List Char) (q : Nat) (h : ends_line (body.drop q) = true) :
    (q < body.length → byteAt body q = '\n' → term_len (body.drop q) = 1)
    ∧ (q < body.length → byteAt body q = '\r' → term_len (body.drop q) = 2)
    ∧ (q < body.length → byteAt body q = '\n' ∨ byteAt body q = '\r')
    ∧ (body.length ≤ q → term_len (body.drop q) = 0) := by
  by_cases hq : q < body.length
  · rw [drop_eq_cons hq] at h ⊢
    simp only [ends_line, List.isEmpty_cons, Bool.false_or, starts_newline, Bool.or_eq_true,
      beq_iff_eq, Bool.and_eq_true] at h
    refine ⟨?_, ?_, ?_, fun h2 => by omega⟩
    · intro _ hb
      simp [term_len, hb]
    · intro _ hb
      rcases h with h | ⟨_, h2⟩
      · rw [hb] at h; exact absurd h (by decide)
      · simp [term_len, hb, h2]
    · intro _
      rcases h with h | ⟨h, _⟩
      · exact Or.inl h
      · exact Or.inr h
  · have hd : body.drop q = [] := List.drop_of_length_le (by omega)
    rw [hd]
    exact ⟨fun h2 => absurd h2 hq, fun h2 => absurd h2 hq, fun h2 => absurd h2 hq, fun _ => rfl⟩

theorem is_blank_line_take_line (s : List Char) :
    is_blank_line (s.take (line_len s)) = ends_line (s.dropWhile is_whitespace) := by
  unfold is_blank_line
  exact (ends_line_take_line s).symm

/-- One iteration of the loop of `trim_leading_empty_lines` at the start of a line. -/
theorem trim_leading_empty_lines_body_eq (body : List Char) (pos : Nat) :
    trim_leading_empty_lines_body body body.length pos ()
      = if ends_line ((body.drop pos).dropWhile is_whitespace) then
          (if (body.drop pos).dropWhile is_whitespace = [] then Step.done []
           else Step.next (pos + line_len (body.drop pos)) ())
        else Step.done (body.drop pos) := by
  have hsk := skip_ws_eq body pos
  have hdr := drop_skip_ws body pos
  have hll := line_len_dropWhile_ws (body.drop pos)
  unfold trim_leading_empty_lines_body
  simp only
  by_cases he : ends_line ((body.drop pos).dropWhile is_whitespace) = true
  · have hll2 := line_len_of_ends_line he
    rw [← hdr] at he hll2
    obtain ⟨c1, c2, c3, c4⟩ := term_len_cases body _ he
    rw [hdr] at he hll2
    simp only [he, if_true]
    by_cases hge : skip_ws body pos body.length ≥ body.length
    · have hnil : (body.drop pos).dropWhile is_whitespace = [] := by
        rw [← hdr]; exact List.drop_of_length_le hge
      simp [hge, hnil]
    · have hlt : skip_ws body pos body.length < body.length := by omega
      have hne : (body.drop pos).dropWhile is_whitespace ≠ [] := by
        rw [← hdr, drop_eq_cons hlt]; simp
      simp only [hge, if_false, hne]
      by_cases hb : byteAt body (skip_ws body pos body.length) = '\n'
      · have := c1 hlt hb
        simp only [hb, beq_self_eq_true, if_true]
        congr 1
        rw [hdr] at this
        omega
      · have hb2 : byteAt body (skip_ws body pos body.length) = '\r' := by
          rcases c3 hlt with h | h
          · exact absurd h hb
          · exact h
        have := c2 hlt hb2
        rw [hdr] at this
        have hnext : (decide (skip_ws body pos body.length + 1 < body.length)
            && byteAt body (skip_ws body pos body.length + 1) == '\n') = true := by
          have he2 := he
          rw [← hdr, drop_eq_cons hlt, hb2] at he2
          simp only [ends_line, List.isEmpty_cons, Bool.false_or, starts_newline] at he2
          have h3 : (List.drop (skip_ws body pos body.length + 1) body).head? = some '\n' := by
            simpa using he2
          cases hd2 : List.drop (skip_ws body pos body.length + 1) body with
          | nil => rw [hd2] at h3; simp at h3
          | cons d u =>
            rw [hd2] at h3
            obtain ⟨e1, _, e3⟩ := byteAt_of_drop_eq hd2
            simp only [List.head?_cons, Option.some.injEq] at h3
            simp [e1, h3, e3]
        simp only [hb2, Bool.and_assoc, hnext]
        simp only [show ('\r' == '\n') = false by decide, beq_self_eq_true, Bool.true_and,
          Bool.false_eq_true, if_false, if_true]
        congr 1
        omega
  · have hne : (body.drop pos).dropWhile is_whitespace ≠ [] := by
      intro h; rw [h] at he; exact he rfl
    have hlt : skip_ws body pos body.length < body.length := by
      by_contra hge
      apply hne
      rw [← hdr]; exact List.drop_of_length_le (by omega)
    have he2 : ends_line (body.drop (skip_ws body pos body.length)) = false := by
      rw [hdr]; simpa using he
    rw [drop_eq_cons hlt] at he2
    simp only [ends_line, List.isEmpty_cons, Bool.false_or, starts_newline, Bool.or_eq_false_iff,
      beq_eq_false_iff_ne, ne_eq, Bool.and_eq_false_iff] at he2
    obtain ⟨h1, h2⟩ := he2
    have h3 : (byteAt body (skip_ws body pos body.length) == '\r'
        && decide (skip_ws body pos body.length + 1 < body.length)
        && byteAt body (skip_ws body pos body.length + 1) == '\n') = false := by
      rcases h2 with h2 | h2
      · simp [h2]
      · by_cases h4 : skip_ws body pos body.length + 1 < body.length
        · rw [drop_eq_cons h4] at h2
          have : byteAt body (skip_ws body pos body.length + 1) ≠ '\n' := by
            simpa using h2
          simp [this]
        · simp [h4]
    simp [he, Nat.not_le.mpr hlt, h1, h3]

/-- The loop of `trim_leading_empty_lines` drops the leading blank lines. -/
theorem trim_leading_empty_lines_loop (body : List Char) :
    ∀ fuel pos, body.length - pos ≤ fuel →
      while_lt body.length (trim_leading_empty_lines_body body body.length) (fun _ => []) fuel pos ()
        = ((splitLines (body.drop pos)).dropWhile is_blank_line).flatten := by
  intro fuel
  induction fuel with
  | zero =>
    intro pos hf
    have hd : body.drop pos = [] := List.drop_of_length_le (by omega)
    simp [while_lt, hd, splitLines]
  | succ n ih =>
    intro pos hf
    by_cases hp : pos < body.length
    · have hne : body.drop pos ≠ [] := by
        rw [drop_eq_cons hp]; simp
      simp only [while_lt, hp, if_true, trim_leading_empty_lines_body_eq body pos]
      rw [splitLines_eq hne, List.dropWhile_cons, is_blank_line_take_line]
      by_cases he : ends_line ((body.drop pos).dropWhile is_whitespace) = true
      · simp only [he, if_true]
        have hpos := line_len_pos hne
        by_cases hnil : (body.drop pos).dropWhile is_whitespace = []
        · simp only [hnil, if_true]
          have hll := line_len_dropWhile_ws (body.drop pos)
          rw [hnil] at hll
          have hall : (body.drop pos).takeWhile is_whitespace = body.drop pos := by
            have := List.takeWhile_append_dropWhile is_whitespace (body.drop pos)
            rw [hnil, List.append_nil] at this
            exact this
          rw [hall] at hll
          simp only [line_len, Nat.add_zero] at hll
          rw [hll, List.drop_length]
          simp [splitLines]
        · simp only [hnil, if_false]
          rw [ih _ (by omega), List.drop_drop]
      · simp only [he, Bool.false_eq_true, if_false]
        rw [← splitLines_eq hne, splitLines_flatten]
    · have hd : body.drop pos = [] := List.drop_of_length_le (by omega)
      simp [while_lt, hp, hd, splitLines]

theorem trim_leading_empty_lines_eq (body : List Char) :
    trim_leading_empty_lines body = ((splitLines body).dropWhile is_blank_line).flatten := by
  have := trim_leading_empty_lines_loop body body.length 0 (by omega)
  simpa [trim_leading_empty_lines] using this

/-- C15: `trim_leading_empty_lines(body)` is the suffix of `body` that starts at the
beginning of the first line that is not blank (a line with a byte other than space or tab
before its LF or CR LF terminator), unmodified; the lines before it are all blank, and
the result is empty when every line of `body` is blank. After the closing fence of
`+++` LF `a=1` LF `+++` LF LF `Body` the remainder LF `Body` is trimmed to `Body`. -/
theorem trim_leading_empty_lines_spec (body : List Char) :
    trim_leading_empty_lines body = ((splitLines body).dropWhile is_blank_line).flatten
    ∧ body = ((splitLines body).takeWhile is_blank_line).flatten ++ trim_leading_empty_lines body
    ∧ (∀ l ∈ (splitLines body).takeWhile is_blank_line, is_blank_line l = true)
    ∧ (∀ l, ((splitLines body).dropWhile is_blank_line).head? = some l → is_blank_line l = false)
    ∧ ((∀ l ∈ splitLines body, is_blank_line l = true) → trim_leading_empty_lines body = [])
    ∧ trim_leading_empty_lines "\nBody".toList = "Body".toList := by
  have h := trim_leading_empty_lines_eq body
  refine ⟨h, ?_, ?_, ?_, ?_, by decide⟩
  · rw [h, ← List.flatten_append, List.takeWhile_append_dropWhile, splitLines_flatten]
  · intro l hl
    exact List.mem_takeWhile_imp hl
  · intro l hl
    have := List.head?_dropWhile_not is_blank_line (splitLines body)
    rw [hl] at this
    simpa using this
  · intro hall
    rw [h, List.dropWhile_eq_nil_iff.mpr hall]
    rfl

end FrontMatter

namespace FrontMatter

/-! ## C13: `trim_leading_comment_lines`, line by line -/

theorem dropWhile_ws_take_line (s : List Char) :
    (s.take (line_len s)).dropWhile is_whitespace
      = (s.dropWhile is_whitespace).take (line_len (s.dropWhile is_whitespace)) := by
  induction s with
  | nil => rfl
  | cons c t ih =>
    by_cases hw : is_whitespace c = true
    · rw [line_len_cons_ne t (is_whitespace_ne_lf hw), List.take_succ_cons, List.dropWhile_cons,
        List.dropWhile_cons]
      simp only [hw, if_true]
      exact ih
    · have hpos : 0 < line_len (c :: t) := line_len_pos (by simp)
      obtain ⟨k, hk⟩ := Nat.exists_eq_succ_of_ne_zero (Nat.pos_iff_ne_zero.mp hpos)
      have hd : (c :: t).dropWhile is_whitespace = c :: t := by
        rw [List.dropWhile_cons]; simp [hw]
      rw [hd, hk, List.take_succ_cons, List.dropWhile_cons]
      simp [hw]

theorem is_separator_line_take_line (p : List Char) (hp : '\n' ∉ p.dropLast) (s : List Char) :
    is_separator_line p (s.take (line_len s))
      = (ends_line (s.dropWhile is_whitespace)
          || fence_line p.dropLast (s.dropWhile is_whitespace)) := by
  unfold is_separator_line is_bare_marker_line
  rw [is_blank_line_take_line, dropWhile_ws_take_line, ← fence_line_take_line _ hp]

theorem skip_empty_line_end_eq (body : List Char) (q : Nat)
    (h : ends_line (body.drop q) = true) :
    skip_empty_line_end body q body.length = q + term_len (body.drop q) := by
  obtain ⟨c1, c2, c3, c4⟩ := term_len_cases body q h
  unfold skip_empty_line_end
  by_cases hq : q < body.length
  · simp only [hq, if_true]
    by_cases hb : byteAt body q = '\r'
    · simp [hb, c2 hq hb]
    · have hb2 : byteAt body q = '\n' := by
        rcases c3 hq with h1 | h1
        · exact h1
        · exact absurd h1 hb
      simp [hb2, c1 hq hb2]
  · simp [hq, c4 (by omega)]

theorem skip_marker_line_end_eq (body : List Char) (q : Nat)
    (h : ends_line (body.drop q) = true) :
    skip_marker_line_end body q body.length = q + term_len (body.drop q) := by
  obtain ⟨c1, c2, c3, c4⟩ := term_len_cases body q h
  unfold skip_marker_line_end
  by_cases hq : q < body.length
  · simp only [hq, if_true]
    by_cases hb : byteAt body q = '\r'
    · simp [hb, c2 hq hb]
    · have hb2 : byteAt body q = '\n' := by
        rcases c3 hq with h1 | h1
        · exact h1
        · exact absurd h1 hb
      simp [hb2, c1 hq hb2]
  · simp [hq, c4 (by omega)]

/-- The fence-line test of a marker `m` at offset `q`, as the code evaluates it. -/
theorem fence_line_at (body m : List Char) (q : Nat) :
    fence_line m (body.drop q)
      = (m.isPrefixOf (body.drop q)
          && line_ends_at body (skip_ws body (q + m.length) body.length) body.length) := by
  unfold fence_line
  rw [line_ends_at_eq, drop_skip_ws, List.drop_drop]

theorem hash_test_eq (body : List Char) (q : Nat) (hq : q < body.length) :
    (byteAt body q == '#') = ['#'].isPrefixOf (body.drop q) := by
  rw [drop_eq_cons hq]
  simp only [List.isPrefixOf, Bool.and_true]
  by_cases h : byteAt body q = '#'
  · simp [h]
  · have h2 : ¬ '#' = byteAt body q := fun e => h e.symm
    simp [h, h2]

theorem roxy_test_eq (body : List Char) (q : Nat) (hq : q < body.length) :
    (decide (q + 2 ≤ body.length) && byteAt body q == '#' && byteAt body (q + 1) == Char.ofNat 39)
      = ['#', Char.ofNat 39].isPrefixOf (body.drop q) := by
  rw [drop_eq_cons hq]
  by_cases h1 : q + 1 < body.length
  · rw [drop_eq_cons h1]
    simp only [List.isPrefixOf, Bool.and_true]
    have hd : decide (q + 2 ≤ body.length) = true := decide_eq_true (by omega)
    rw [hd, Bool.true_and]
    by_cases h : byteAt body q = '#'
    · by_cases h3 : byteAt body (q + 1) = Char.ofNat 39
      · simp [h, h3]
      · have h4 : ¬ Char.ofNat 39 = byteAt body (q + 1) := fun e => h3 e.symm
        simp [h, h3, h4]
    · have h2 : ¬ '#' = byteAt body q := fun e => h e.symm
      have e1 : (byteAt body q == '#') = false := by rw [beq_eq_false_iff_ne]; exact h
      have e2 : ('#' == byteAt body q) = false := by rw [beq_eq_false_iff_ne]; exact h2
      rw [e1, e2, Bool.false_and, Bool.false_and]
  · have hd : decide (q + 2 ≤ body.length) = false := decide_eq_false (by omega)
    have hnil : body.drop (q + 1) = [] := List.drop_of_length_le (by omega)
    rw [hd, hnil]
    simp [List.isPrefixOf]

/-- The offset after a marker line that starts (after its leading blanks) at `q`. -/
theorem marker_line_end (body m : List Char) (pos : Nat) (hm : '\n' ∉ m)
    (h : fence_line m ((body.drop pos).dropWhile is_whitespace) = true) :
    skip_marker_line_end body
        (skip_ws body (skip_ws body pos body.length + m.length) body.length) body.length
      = pos + line_len (body.drop pos) := by
  have hfl := fence_line_len_eq m hm _ h
  have h2 := h
  rw [← drop_skip_ws, fence_line_at, Bool.and_eq_true, line_ends_at_eq] at h2
  rw [skip_marker_line_end_eq _ _ h2.2, line_len_dropWhile_ws (body.drop pos), ← hfl]
  unfold fence_line_len
  rw [drop_skip_ws, ← drop_skip_ws body pos, List.drop_drop, skip_ws_eq body (_ + m.length),
    skip_ws_eq body pos]
  omega

/-- One iteration of the loop of `trim_leading_comment_lines` at the start of a line. -/
theorem trim_leading_comment_lines_body_eq (body p : List Char)
    (hp : p = ['#', ' '] ∨ p = ['#', Char.ofNat 39, ' ']) (pos : Nat) :
    trim_leading_comment_lines_body body p body.length pos ()
      = if is_separator_line p ((body.drop pos).take (line_len (body.drop pos))) then
          Step.next (pos + line_len (body.drop pos)) ()
        else Step.done (body.drop pos) := by
  have hm : '\n' ∉ p.dropLast := by
    rcases hp with rfl | rfl <;> decide
  rw [is_separator_line_take_line p hm]
  have hdr := drop_skip_ws body pos
  unfold trim_leading_comment_lines_body
  simp only [line_ends_at_eq body (skip_ws body pos body.length), hdr]
  by_cases he : ends_line ((body.drop pos).dropWhile is_whitespace) = true
  · simp only [he, if_true, Bool.true_or]
    have he2 := he
    rw [← hdr] at he2
    rw [skip_empty_line_end_eq _ _ he2, hdr, ← line_len_of_ends_line he,
      line_len_dropWhile_ws (body.drop pos), skip_ws_eq]
    congr 1
    omega
  · simp only [he, Bool.false_or, Bool.false_eq_true, if_false]
    have hlt : skip_ws body pos body.length < body.length := by
      by_contra hge
      apply he
      rw [← hdr, List.drop_of_length_le (by omega)]
      rfl
    rcases hp with rfl | rfl
    · have hf := fence_line_at body ['#'] (skip_ws body pos body.length)
      rw [← hash_test_eq body _ hlt, hdr] at hf
      simp only [List.length_cons, List.length_nil, Nat.zero_add] at hf
      have hdl : List.dropLast ['#', ' '] = ['#'] := rfl
      simp only [hdl, hf, List.length_cons, List.length_nil, Nat.zero_add, Nat.reduceAdd,
        beq_self_eq_true, Bool.true_and, show byteAt ['#', ' '] 0 = '#' from rfl,
        show byteAt ['#', ' '] 1 = ' ' from rfl, show ((2 : Nat) == 3) = false from rfl,
        Bool.false_and, Bool.false_eq_true, if_false]
      by_cases hc : (byteAt body (skip_ws body pos body.length) == '#'
          && line_ends_at body (skip_ws body (skip_ws body pos body.length + 1) body.length)
            body.length) = true
      · simp only [hc, if_true]
        have := marker_line_end body ['#'] pos (by decide) (by rw [hf]; exact hc)
        simp only [List.length_cons, List.length_nil, Nat.zero_add] at this
        rw [this]
      · simp only [hc, Bool.false_eq_true, if_false]
    · have hf := fence_line_at body ['#', Char.ofNat 39] (skip_ws body pos body.length)
      rw [← roxy_test_eq body _ hlt, hdr] at hf
      simp only [List.length_cons, List.length_nil, Nat.zero_add, Nat.reduceAdd] at hf
      have hdl : List.dropLast ['#', Char.ofNat 39, ' '] = ['#', Char.ofNat 39] := rfl
      simp only [hdl, hf, List.length_cons, List.length_nil, Nat.zero_add, Nat.reduceAdd,
        beq_self_eq_true, Bool.true_and, show byteAt ['#', Char.ofNat 39, ' '] 0 = '#' from rfl,
        show byteAt ['#', Char.ofNat 39, ' '] 1 = Char.ofNat 39 from rfl,
        show byteAt ['#', Char.ofNat 39, ' '] 2 = ' ' from rfl,
        show ((3 : Nat) == 2) = false from rfl,
        Bool.false_and, Bool.false_eq_true, if_false]
      by_cases hc : (decide (skip_ws body pos body.length + 2 ≤ body.length)
          && byteAt body (skip_ws body pos body.length) == '#'
          && byteAt body (skip_ws body pos body.length + 1) == Char.ofNat 39
          && line_ends_at body (skip_ws body (skip_ws body pos body.length + 2) body.length)
            body.length) = true
      · simp only [hc, if_true]
        have := marker_line_end body ['#', Char.ofNat 39] pos (by decide) (by rw [hf]; exact hc)
        simp only [List.length_cons, List.length_nil, Nat.zero_add, Nat.reduceAdd] at this
        rw [this]
      · simp only [hc, Bool.false_eq_true, if_false]

/-- The loop of `trim_leading_comment_lines` drops the leading separator lines. -/
theorem trim_leading_comment_lines_loop (body p : List Char)
    (hp : p = ['#', ' '] ∨ p = ['#', Char.ofNat 39, ' ']) :
    ∀ fuel pos, body.length - pos ≤ fuel →
      while_lt body.length (trim_leading_comment_lines_body body p body.length) (fun _ => [])
          fuel pos ()
        = ((splitLines (body.drop pos)).dropWhile (is_separator_line p)).flatten := by
  intro fuel
  induction fuel with
  | zero =>
    intro pos hf
    have hd : body.drop pos = [] := List.drop_of_length_le (by omega)
    simp [while_lt, hd, splitLines]
  | succ n ih =>
    intro pos hf
    by_cases hlt : pos < body.length
    · have hne : body.drop pos ≠ [] := by
        rw [drop_eq_cons hlt]; simp
      simp only [while_lt, hlt, if_true, trim_leading_comment_lines_body_eq body p hp pos]
      rw [splitLines_eq hne, List.dropWhile_cons]
      have hpos := line_len_pos hne
      by_cases he : is_separator_line p ((body.drop pos).take (line_len (body.drop pos))) = true
      · simp only [he, if_true]
        rw [ih _ (by omega), List.drop_drop]
      · simp only [he, Bool.false_eq_true, if_false]
        rw [← splitLines_eq hne, splitLines_flatten]
    · have hd : body.drop pos = [] := List.drop_of_length_le (by omega)
      simp [while_lt, hlt, hd, splitLines]

theorem trim_leading_comment_lines_eq (body p : List Char)
    (hp : p = ['#', ' '] ∨ p = ['#', Char.ofNat 39, ' ']) :
    trim_leading_comment_lines body p
      = ((splitLines body).dropWhile (is_separator_line p)).flatten := by
  have := trim_leading_comment_lines_loop body p hp body.length 0 (by omega)
  simpa [trim_leading_comment_lines] using this

end FrontMatter

namespace FrontMatter

/-! ## C19: `unwrap_comments`, segment by segment -/

theorem seg_len_pos {s : List Char} (h : s ≠ []) : 0 < seg_len s := by
  cases s with
  | nil => exact absurd rfl h
  | cons c t =>
    rw [seg_len]
    split_ifs <;> omega

theorem seg_len_le (s : List Char) : seg_len s ≤ s.length := by
  induction s with
  | nil => simp [seg_len]
  | cons c t ih =>
    rw [seg_len]
    split_ifs
    · simp
    · simp only [List.length_cons]; omega

theorem splitSegments_eq {s : List Char} (h : s ≠ []) :
    splitSegments s = s.take (seg_len s) :: splitSegments (s.drop (seg_len s)) := by
  induction s with
  | nil => exact absurd rfl h
  | cons c t ih =>
    rw [splitSegments, seg_len]
    by_cases hc : c = '\n' ∨ (c = '\r' ∧ t.head? ≠ some '\n')
    · simp [hc]
    · simp only [hc, if_false]
      cases t with
      | nil => simp [splitSegments, seg_len]
      | cons d u =>
        rw [ih (by simp)]
        simp

theorem splitSegments_flatten (s : List Char) : (splitSegments s).flatten = s := by
  induction s with
  | nil => rfl
  | cons c t ih =>
    rw [splitSegments]
    split_ifs
    · simp [ih]
    · cases hs : splitSegments t with
      | nil =>
        rw [hs] at ih
        simp at ih
        simp [← ih]
      | cons l ls =>
        rw [hs] at ih
        simp only [List.flatten_cons] at ih ⊢
        rw [← ih]
        simp

theorem seg_len_cons_ne {c : Char} (t : List Char) (h1 : c ≠ '\n') (h2 : c ≠ '\r') :
    seg_len (c :: t) = seg_len t + 1 := by
  simp [seg_len, h1, h2]

theorem seg_len_append_left (m : List Char) (hm : ∀ c ∈ m, c ≠ '\n' ∧ c ≠ '\r') (t : List Char) :
    seg_len (m ++ t) = m.length + seg_len t := by
  induction m with
  | nil => simp
  | cons a m ih =>
    have ha := hm a (List.mem_cons_self _ _)
    rw [List.cons_append, seg_len_cons_ne _ ha.1 ha.2,
      ih (fun c hc => hm c (List.mem_cons_of_mem _ hc)), List.length_cons]
    omega

theorem seg_len_dropWhile_ws (s : List Char) :
    seg_len s = (s.takeWhile is_whitespace).length + seg_len (s.dropWhile is_whitespace) := by
  have h := seg_len_append_left (s.takeWhile is_whitespace)
    (fun c hc => ⟨is_whitespace_ne_lf (List.mem_takeWhile_imp hc),
      is_whitespace_ne_cr (List.mem_takeWhile_imp hc)⟩) (s.dropWhile is_whitespace)
  rw [List.takeWhile_append_dropWhile] at h
  exact h

theorem seg_len_of_ends_seg {r : List Char} (h : ends_seg r = true) :
    seg_len r = term_len r := by
  cases r with
  | nil => rfl
  | cons c t =>
    simp only [ends_seg, Bool.or_eq_true, beq_iff_eq] at h
    rcases h with h | h
    · subst h
      simp [seg_len, term_len]
    · subst h
      by_cases ht : t.head? = some '\n'
      · cases t with
        | nil => simp at ht
        | cons d u =>
          simp only [List.head?_cons, Option.some.injEq] at ht
          subst ht
          simp [seg_len, term_len]
      · simp [seg_len, term_len, ht]

theorem seg_len_eq_scan (s : List Char) :
    seg_len s = (s.takeWhile (fun c => c != '\n' && c != '\r')).length
      + term_len (s.dropWhile (fun c => c != '\n' && c != '\r')) := by
  induction s with
  | nil => rfl
  | cons c t ih =>
    by_cases h1 : c = '\n'
    · subst h1
      simp [seg_len, term_len, List.takeWhile_cons, List.dropWhile_cons]
    · by_cases h2 : c = '\r'
      · subst h2
        rw [List.takeWhile_cons, List.dropWhile_cons]
        simp only [show (('\r' != '\n') && ('\r' != '\r')) = false by decide, Bool.false_eq_true,
          if_false, List.length_nil, Nat.zero_add]
        exact seg_len_of_ends_seg (by simp [ends_seg])
      · rw [seg_len_cons_ne _ h1 h2, List.takeWhile_cons, List.dropWhile_cons]
        have hb : (c != '\n' && c != '\r') = true := by simp [h1, h2]
        simp only [hb, if_true, List.length_cons]
        omega

theorem scan_suffix_not_nl (s : List Char) :
    scan_suffix (fun u => byteAt u 0 != '\n' && byteAt u 0 != '\r') s
      = (s.takeWhile (fun c => c != '\n' && c != '\r')).length := by
  induction s with
  | nil => simp [scan_suffix]
  | cons c t ih =>
    rw [scan_suffix, List.takeWhile_cons]
    simp only [byteAt_cons_zero]
    by_cases h : (c != '\n' && c != '\r') = true
    · simp only [h, if_true, List.length_cons, ih]
    · simp only [h, Bool.false_eq_true, if_false, List.length_nil]

/-- The terminator step of lines 226-232 of `unwrap_comments`. -/
theorem copy_term_eq (data : List Char) (q : Nat) :
    (if q < data.length then
        if (byteAt data q == '\r' && decide (q + 1 < data.length) && byteAt data (q + 1) == '\n')
          = true then q + 2
        else q + 1
      else q) = q + term_len (data.drop q) := by
  by_cases hq : q < data.length
  · simp only [hq, if_true]
    rw [drop_eq_cons hq]
    by_cases h1 : q + 1 < data.length
    · rw [drop_eq_cons h1]
      simp only [term_len, List.head?_cons, Option.some.injEq, h1, decide_True, Bool.and_true,
        Bool.and_eq_true, beq_iff_eq]
      split_ifs <;> rfl
    · have hnil : data.drop (q + 1) = [] := List.drop_of_length_le (by omega)
      rw [hnil]
      simp [term_len, h1]
  · have hnil : data.drop q = [] := List.drop_of_length_le (by omega)
    simp [hq, hnil, term_len]

/-- Lines 220-237 of `unwrap_comments`: the segment that starts at `start` is consumed,
and the bytes from `lcs` to its end are appended. -/
theorem unwrap_copy_line_seg (data : List Char) (lcs start : Nat) (acc : List Char) :
    unwrap_copy_line data data.length lcs start acc
      = Step.next (start + seg_len (data.drop start))
          (acc ++ substr data lcs (start + seg_len (data.drop start) - lcs)) := by
  have hscan : scan_while (fun j => byteAt data j != '\n' && byteAt data j != '\r') data.length
      (data.length - start) start
        = start + ((data.drop start).takeWhile (fun c => c != '\n' && c != '\r')).length := by
    rw [scan_while_eq_scan_suffix data _
      (fun u => byteAt u 0 != '\n' && byteAt u 0 != '\r') _ _ _ (le_refl _), scan_suffix_not_nl]
    intro j _
    simp [byteAt_drop]
  unfold unwrap_copy_line
  simp only [hscan, copy_term_eq]
  have e1 : data.drop (start + ((data.drop start).takeWhile (fun c => c != '\n' && c != '\r')).length)
      = (data.drop start).dropWhile (fun c => c != '\n' && c != '\r') := by
    rw [← List.drop_drop, drop_length_takeWhile]
  rw [e1, Nat.add_assoc, ← seg_len_eq_scan]
  by_cases hgt : start + seg_len (data.drop start) > lcs
  · simp only [hgt, if_true]
  · have : start + seg_len (data.drop start) - lcs = 0 := by omega
    simp [hgt, this, substr]

theorem ends_seg_eq (data : List Char) (q : Nat) :
    (decide (q ≥ data.length) || byteAt data q == '\n' || byteAt data q == '\r')
      = ends_seg (data.drop q) := by
  by_cases hq : q < data.length
  · rw [drop_eq_cons hq]
    have : decide (q ≥ data.length) = false := decide_eq_false (by omega)
    simp only [this, Bool.false_or, ends_seg]
  · have hnil : data.drop q = [] := List.drop_of_length_le (by omega)
    have : decide (q ≥ data.length) = true := decide_eq_true (by omega)
    simp only [hnil, this, Bool.true_or, ends_seg]

theorem skip_cr_lf_eq (data : List Char) (q : Nat) (h : ends_seg (data.drop q) = true) :
    skip_cr_lf data q data.length = q + seg_len (data.drop q) := by
  unfold skip_cr_lf
  by_cases hq : q < data.length
  · rw [drop_eq_cons hq] at h ⊢
    simp only [ends_seg, Bool.or_eq_true, beq_iff_eq] at h
    by_cases h1 : q + 1 < data.length
    · rw [drop_eq_cons h1]
      rcases h with h | h
      · simp [h, hq, seg_len]
      · by_cases h2 : byteAt data (q + 1) = '\n'
        · simp [h, hq, h1, h2, seg_len]
        · simp [h, hq, h1, h2, seg_len]
    · have hnil : data.drop (q + 1) = [] := List.drop_of_length_le (by omega)
      rw [hnil]
      rcases h with h | h
      · simp [h, hq, seg_len]
      · simp [h, hq, h1, seg_len]
  · have hnil : data.drop q = [] := List.drop_of_length_le (by omega)
    simp [hq, hnil, seg_len]

theorem ends_seg_take_seg (s : List Char) :
    ends_seg (s.dropWhile is_whitespace)
      = ends_seg ((s.take (seg_len s)).dropWhile is_whitespace) := by
  induction s with
  | nil => rfl
  | cons d t ih =>
    by_cases hw : is_whitespace d = true
    · rw [seg_len_cons_ne t (is_whitespace_ne_lf hw) (is_whitespace_ne_cr hw), List.take_succ_cons,
        List.dropWhile_cons, List.dropWhile_cons]
      simp only [hw, if_true]
      exact ih
    · have hpos : 0 < seg_len (d :: t) := seg_len_pos (by simp)
      obtain ⟨k, hk⟩ := Nat.exists_eq_succ_of_ne_zero (Nat.pos_iff_ne_zero.mp hpos)
      rw [hk, List.take_succ_cons, List.dropWhile_cons, List.dropWhile_cons]
      simp [hw, ends_seg]

theorem is_bare_marker_seg_take_seg (m : List Char) (hm : ∀ c ∈ m, c ≠ '\n' ∧ c ≠ '\r') :
    ∀ s, is_bare_marker_seg m s = is_bare_marker_seg m (s.take (seg_len s)) := by
  induction m with
  | nil =>
    intro s
    simp only [is_bare_marker_seg, List.isPrefixOf, List.length_nil, List.drop_zero, Bool.true_and]
    exact ends_seg_take_seg s
  | cons a m ih =>
    intro s
    have ha := hm a (List.mem_cons_self _ _)
    cases s with
    | nil => rfl
    | cons c t =>
      by_cases hac : a = c
      · subst hac
        rw [seg_len_cons_ne t ha.1 ha.2, List.take_succ_cons]
        have := ih (fun c hc => hm c (List.mem_cons_of_mem _ hc)) t
        simp only [is_bare_marker_seg, List.isPrefixOf, beq_self_eq_true, Bool.true_and,
          List.length_cons, List.drop_succ_cons] at this ⊢
        exact this
      · have hpos : 0 < seg_len (c :: t) := seg_len_pos (by simp)
        obtain ⟨k, hk⟩ := Nat.exists_eq_succ_of_ne_zero (Nat.pos_iff_ne_zero.mp hpos)
        have e : (a == c) = false := by rw [beq_eq_false_iff_ne]; exact hac
        rw [hk, List.take_succ_cons]
        simp only [is_bare_marker_seg, List.isPrefixOf, e, Bool.false_and]

theorem isPrefixOf_take_seg (m : List Char) (hm : ∀ c ∈ m, c ≠ '\n' ∧ c ≠ '\r') :
    ∀ s, m.isPrefixOf s = m.isPrefixOf (s.take (seg_len s)) := by
  induction m with
  | nil =>
    intro s
    simp [List.isPrefixOf]
  | cons a m ih =>
    intro s
    have ha := hm a (List.mem_cons_self _ _)
    cases s with
    | nil => rfl
    | cons c t =>
      by_cases hac : a = c
      · subst hac
        rw [seg_len_cons_ne t ha.1 ha.2, List.take_succ_cons]
        have := ih (fun c hc => hm c (List.mem_cons_of_mem _ hc)) t
        simp only [List.isPrefixOf, beq_self_eq_true, Bool.true_and] at this ⊢
        exact this
      · have hpos : 0 < seg_len (c :: t) := seg_len_pos (by simp)
        obtain ⟨k, hk⟩ := Nat.exists_eq_succ_of_ne_zero (Nat.pos_iff_ne_zero.mp hpos)
        have e : (a == c) = false := by rw [beq_eq_false_iff_ne]; exact hac
        rw [hk, List.take_succ_cons]
        simp only [List.isPrefixOf, e, Bool.false_and]

theorem unwrap_line_take_seg (p : List Char)
    (hp : p = ['#', ' '] ∨ p = ['#', Char.ofNat 39, ' ']) (s : List Char) :
    unwrap_line p (s.take (seg_len s))
      = if p.isPrefixOf s then (s.take (seg_len s)).drop p.length
        else if is_bare_marker_seg p.dropLast s then []
        else s.take (seg_len s) := by
  have h1 : ∀ c ∈ p, c ≠ '\n' ∧ c ≠ '\r' := by
    rcases hp with rfl | rfl <;> decide
  have h2 : ∀ c ∈ p.dropLast, c ≠ '\n' ∧ c ≠ '\r' := by
    rcases hp with rfl | rfl <;> decide
  unfold unwrap_line
  rw [← isPrefixOf_take_seg p h1, ← is_bare_marker_seg_take_seg _ h2]

/-- The bare-marker test of `unwrap_comments` at offset `q`, as the code evaluates it. -/
theorem is_bare_marker_seg_at (data m : List Char) (q : Nat) :
    is_bare_marker_seg m (data.drop q)
      = (m.isPrefixOf (data.drop q)
          && (decide (skip_ws data (q + m.length) data.length ≥ data.length)
            || byteAt data (skip_ws data (q + m.length) data.length) == '\n'
            || byteAt data (skip_ws data (q + m.length) data.length) == '\r')) := by
  unfold is_bare_marker_seg
  rw [ends_seg_eq, drop_skip_ws, List.drop_drop]

/-- The offset after a bare marker segment that starts at `pos`. -/
theorem marker_seg_end (data m : List Char) (pos : Nat) (hm : ∀ c ∈ m, c ≠ '\n' ∧ c ≠ '\r')
    (h : is_bare_marker_seg m (data.drop pos) = true) :
    skip_cr_lf data (skip_ws data (pos + m.length) data.length) data.length
      = pos + seg_len (data.drop pos) := by
  have h2 := h
  unfold is_bare_marker_seg at h2
  rw [Bool.and_eq_true, List.isPrefixOf_iff_prefix] at h2
  obtain ⟨hpre, hend⟩ := h2
  have hend2 := hend
  rw [List.drop_drop, ← drop_skip_ws] at hend2
  rw [skip_cr_lf_eq _ _ hend2, drop_skip_ws, skip_ws_eq]
  have e1 := prefix_drop_length hpre
  have e2 := seg_len_append_left m hm ((data.drop pos).drop m.length)
  rw [e1] at e2
  have e3 := seg_len_dropWhile_ws ((data.drop pos).drop m.length)
  rw [List.drop_drop] at e2 e3
  omega

theorem pfx_test_eq (data p : List Char) (pos : Nat) (hpos : pos ≤ data.length) :
    (decide (pos + p.length ≤ data.length) && memcmp_eq data pos p p.length)
      = p.isPrefixOf (data.drop pos) := by
  rw [Bool.eq_iff_iff, List.isPrefixOf_iff_prefix, ← memcmp_eq_iff_pfx data p pos hpos]
  simp

end FrontMatter

namespace FrontMatter

theorem substr_seg (data : List Char) (pos : Nat) :
    substr data pos (pos + seg_len (data.drop pos) - pos)
      = (data.drop pos).take (seg_len (data.drop pos)) := by
  unfold substr
  rw [Nat.add_sub_cancel_left]

/-- One iteration of the loop of `unwrap_comments` at the start of a segment. -/
theorem unwrap_comments_body_eq (data p : List Char)
    (hp : p = ['#', ' '] ∨ p = ['#', Char.ofNat 39, ' ']) (pos : Nat) (acc : List Char)
    (hpos : pos < data.length) :
    unwrap_comments_body data p data.length pos acc
      = Step.next (pos + seg_len (data.drop pos))
          (acc ++ unwrap_line p ((data.drop pos).take (seg_len (data.drop pos)))) := by
  have hpfx := pfx_test_eq data p pos (by omega)
  have hcopy := unwrap_copy_line_seg data pos pos acc
  rw [substr_seg] at hcopy
  rw [unwrap_line_take_seg p hp]
  unfold unwrap_comments_body
  simp only [hpfx]
  by_cases h1 : p.isPrefixOf (data.drop pos) = true
  · simp only [h1, if_true]
    rw [unwrap_copy_line_seg]
    have hpre := List.isPrefixOf_iff_prefix.mp h1
    have hfree : ∀ c ∈ p, c ≠ '\n' ∧ c ≠ '\r' := by
      rcases hp with rfl | rfl <;> decide
    have e2 := seg_len_append_left p hfree ((data.drop pos).drop p.length)
    rw [prefix_drop_length hpre, List.drop_drop] at e2
    have e3 : pos + p.length + seg_len (data.drop (pos + p.length))
        = pos + seg_len (data.drop pos) := by omega
    rw [e3]
    congr 2
    unfold substr
    rw [e2, ← List.drop_drop, List.drop_take]
    congr 1
    omega
  · simp only [h1, Bool.false_eq_true, if_false]
    rcases hp with rfl | rfl
    · have hf := is_bare_marker_seg_at data ['#'] pos
      rw [← hash_test_eq data pos hpos] at hf
      simp only [List.length_cons, List.length_nil, Nat.zero_add] at hf
      have hdl : List.dropLast ['#', ' '] = ['#'] := rfl
      simp only [hdl, List.length_cons, List.length_nil, Nat.zero_add, Nat.reduceAdd,
        show byteAt ['#', ' '] 0 = '#' from rfl, show byteAt ['#', ' '] 1 = ' ' from rfl,
        show ((2 : Nat) == 3) = false from rfl, beq_self_eq_true, Bool.and_true, Bool.true_and,
        Bool.false_and, Bool.false_eq_true, if_false]
      by_cases hb : byteAt data pos = '#'
      · simp only [hb, beq_self_eq_true, Bool.true_and, if_true] at hf ⊢
        by_cases hc : is_bare_marker_seg ['#'] (data.drop pos) = true
        · have hend := marker_seg_end data ['#'] pos (by decide) hc
          simp only [List.length_cons, List.length_nil, Nat.zero_add] at hend
          rw [hf] at hc
          simp only [hc, if_true, hend, List.append_nil]
          rw [← hf] at hc
          simp only [hc, if_true, List.append_nil]
        · have hc2 := hc
          rw [hf] at hc2
          simp only [hc2, hc, Bool.false_eq_true, if_false, hcopy]
      · have hb2 : (byteAt data pos == '#') = false := by rw [beq_eq_false_iff_ne]; exact hb
        simp only [hb2, Bool.false_and] at hf
        simp only [hb2, hf, Bool.false_eq_true, if_false, hcopy]
    · have hf := is_bare_marker_seg_at data ['#', Char.ofNat 39] pos
      rw [← roxy_test_eq data pos hpos] at hf
      simp only [List.length_cons, List.length_nil, Nat.zero_add, Nat.reduceAdd] at hf
      have hdl : List.dropLast ['#', Char.ofNat 39, ' '] = ['#', Char.ofNat 39] := rfl
      simp only [hdl, List.length_cons, List.length_nil, Nat.zero_add, Nat.reduceAdd,
        show byteAt ['#', Char.ofNat 39, ' '] 0 = '#' from rfl,
        show byteAt ['#', Char.ofNat 39, ' '] 1 = Char.ofNat 39 from rfl,
        show ((3 : Nat) == 2) = false from rfl, beq_self_eq_true, Bool.and_true, Bool.true_and,
        Bool.false_and, Bool.false_eq_true, if_false]
      have hdec : decide (pos + 2 ≤ data.length) = decide (pos + 1 < data.length) := by
        by_cases h : pos + 1 < data.length
        · rw [decide_eq_true h, decide_eq_true (show pos + 2 ≤ data.length by omega)]
        · rw [decide_eq_false h, decide_eq_false (show ¬ pos + 2 ≤ data.length by omega)]
      rw [hdec] at hf
      by_cases hb : byteAt data pos = '#'
      · simp only [hb, beq_self_eq_true, Bool.true_and, Bool.and_true, if_true] at hf ⊢
        by_cases hr : (decide (pos + 1 < data.length)
            && byteAt data (pos + 1) == Char.ofNat 39) = true
        · simp only [hr, if_true, Bool.true_and] at hf ⊢
          by_cases hc : is_bare_marker_seg ['#', Char.ofNat 39] (data.drop pos) = true
          · have hend := marker_seg_end data ['#', Char.ofNat 39] pos (by decide) hc
            simp only [List.length_cons, List.length_nil, Nat.zero_add, Nat.reduceAdd] at hend
            rw [hf] at hc
            simp only [hc, if_true, hend, List.append_nil]
            rw [← hf] at hc
            simp only [hc, if_true, List.append_nil]
          · have hc2 := hc
            rw [hf] at hc2
            simp only [hc2, hc, Bool.false_eq_true, if_false, hcopy]
        · simp only [hr, Bool.false_and] at hf
          simp only [hr, hf, Bool.false_and, Bool.false_eq_true, if_false, hcopy]
      · have hb2 : (byteAt data pos == '#') = false := by rw [beq_eq_false_iff_ne]; exact hb
        simp only [hb2, Bool.false_and, Bool.and_false] at hf
        simp only [hb2, hf, Bool.false_eq_true, if_false, hcopy]

/-- The loop of `unwrap_comments` appends, segment by segment, what `unwrap_line` keeps. -/
theorem unwrap_comments_loop (data p : List Char)
    (hp : p = ['#', ' '] ∨ p = ['#', Char.ofNat 39, ' ']) :
    ∀ fuel pos acc, data.length - pos ≤ fuel →
      while_lt data.length (unwrap_comments_body data p data.length) (fun result => result)
          fuel pos acc
        = acc ++ ((splitSegments (data.drop pos)).map (unwrap_line p)).flatten := by
  intro fuel
  induction fuel with
  | zero =>
    intro pos acc hf
    have hd : data.drop pos = [] := List.drop_of_length_le (by omega)
    simp [while_lt, hd, splitSegments]
  | succ n ih =>
    intro pos acc hf
    by_cases hlt : pos < data.length
    · have hne : data.drop pos ≠ [] := by
        rw [drop_eq_cons hlt]; simp
      have hpos := seg_len_pos hne
      simp only [while_lt, hlt, if_true, unwrap_comments_body_eq data p hp pos acc hlt]
      rw [ih _ _ (by omega), splitSegments_eq hne, List.map_cons, List.flatten_cons,
        List.drop_drop, List.append_assoc]
    · have hd : data.drop pos = [] := List.drop_of_length_le (by omega)
      simp [while_lt, hlt, hd, splitSegments]

theorem unwrap_comments_eq (content p : List Char)
    (hp : p = ['#', ' '] ∨ p = ['#', Char.ofNat 39, ' ']) :
    unwrap_comments content p = ((splitSegments content).map (unwrap_line p)).flatten := by
  have := unwrap_comments_loop content p hp content.length 0 [] (by omega)
  simpa [unwrap_comments] using this

end FrontMatter

namespace FrontMatter

/-! ## The dispatcher, line by line -/

theorem splitLines_cons_inv {s l : List Char} {L : List (List Char)}
    (h : splitLines s = l :: L) :
    l = s.take (line_len s) ∧ line_len s = l.length ∧ splitLines (s.drop (line_len s)) = L
      ∧ s.drop (line_len s) = L.flatten ∧ s ≠ [] := by
  have hne : s ≠ [] := by
    intro h0; rw [h0] at h; simp [splitLines] at h
  rw [splitLines_eq hne] at h
  simp only [List.cons.injEq] at h
  obtain ⟨h1, h2⟩ := h
  refine ⟨h1.symm, ?_, h2, ?_, hne⟩
  · rw [← h1, List.length_take]
    have := line_len_le s
    omega
  · rw [← h2, splitLines_flatten]

theorem splitLines_append_inv :
    ∀ (L1 : List (List Char)) {s : List Char} {L2 : List (List Char)},
      splitLines s = L1 ++ L2 →
        s.take L1.flatten.length = L1.flatten ∧ s.drop L1.flatten.length = L2.flatten
          ∧ splitLines (s.drop L1.flatten.length) = L2 := by
  intro L1
  induction L1 with
  | nil =>
    intro s L2 h
    simp only [List.nil_append] at h
    refine ⟨rfl, ?_, h⟩
    simp only [List.flatten_nil, List.length_nil, List.drop_zero]
    rw [← h, splitLines_flatten]
  | cons x L1 ih =>
    intro s L2 h
    rw [List.cons_append] at h
    obtain ⟨h1, h2, h3, _, _⟩ := splitLines_cons_inv h
    obtain ⟨i1, i2, i3⟩ := ih h3
    have e : (x :: L1).flatten.length = line_len s + L1.flatten.length := by
      simp [h2]
    rw [e, ← List.drop_drop]
    refine ⟨?_, i2, i3⟩
    rw [List.take_add, i1, ← h1]
    simp

theorem first_fence_eq_none (lit : List Char) :
    ∀ L, first_fence lit L = none → ∀ l ∈ L, fence_line lit l = false := by
  intro L
  induction L with
  | nil => intro _ l hl; simp at hl
  | cons x L ih =>
    intro h l hl
    rw [first_fence] at h
    by_cases hx : fence_line lit x = true
    · simp [hx] at h
    · simp only [hx, Bool.false_eq_true, if_false, Option.map_eq_none'] at h
      rcases List.mem_cons.mp hl with rfl | hl
      · simpa using hx
      · exact ih h l hl

theorem scan_block_found (closing : List Char) (ok : List Char → Bool) (l : List Char)
    (L2 : List (List Char)) (hl : fence_line closing l = true) :
    ∀ (L1 : List (List Char)) (acc : List Char),
      (∀ x ∈ L1, fence_line closing x = false ∧ ok x = true) →
      scan_block closing ok acc (L1 ++ l :: L2) = some (acc ++ L1.flatten, L2.flatten) := by
  intro L1
  induction L1 with
  | nil =>
    intro acc _
    simp [scan_block, hl]
  | cons x L1 ih =>
    intro acc h
    have hx := h x (List.mem_cons_self _ _)
    rw [List.cons_append, scan_block]
    simp only [hx.1, hx.2, Bool.false_eq_true, if_false, if_true]
    rw [ih _ (fun y hy => h y (List.mem_cons_of_mem _ hy))]
    simp

theorem scan_block_bad (closing : List Char) (ok : List Char → Bool) (l : List Char)
    (L2 : List (List Char)) (hl : fence_line closing l = false) (hbad : ok l = false) :
    ∀ (L1 : List (List Char)) (acc : List Char),
      (∀ x ∈ L1, fence_line closing x = false) →
      scan_block closing ok acc (L1 ++ l :: L2) = none := by
  intro L1
  induction L1 with
  | nil =>
    intro acc _
    simp [scan_block, hl, hbad]
  | cons x L1 ih =>
    intro acc h
    have hx := h x (List.mem_cons_self _ _)
    rw [List.cons_append, scan_block]
    simp only [hx, Bool.false_eq_true, if_false]
    by_cases hok : ok x = true
    · simp only [hok, if_true]
      exact ih _ (fun y hy => h y (List.mem_cons_of_mem _ hy))
    · simp only [hok, Bool.false_eq_true, if_false]

theorem scan_block_no_closing (closing : List Char) (ok : List Char → Bool) :
    ∀ (L : List (List Char)) (acc : List Char),
      (∀ x ∈ L, fence_line closing x = false) → scan_block closing ok acc L = none := by
  intro L
  induction L with
  | nil => intro acc _; rfl
  | cons x L ih =>
    intro acc h
    have hx := h x (List.mem_cons_self _ _)
    rw [scan_block]
    simp only [hx, Bool.false_eq_true, if_false]
    by_cases hok : ok x = true
    · simp only [hok, if_true]
      exact ih _ (fun y hy => h y (List.mem_cons_of_mem _ hy))
    · simp only [hok, Bool.false_eq_true, if_false]

theorem scan_block_some (closing : List Char) (ok : List Char → Bool) :
    ∀ (L : List (List Char)) (acc raw rest : List Char),
      scan_block closing ok acc L = some (raw, rest) →
      ∃ L1 l L2, L = L1 ++ l :: L2 ∧ (∀ x ∈ L1, fence_line closing x = false ∧ ok x = true)
        ∧ fence_line closing l = true ∧ raw = acc ++ L1.flatten ∧ rest = L2.flatten := by
  intro L
  induction L with
  | nil => intro acc raw rest h; simp [scan_block] at h
  | cons x L ih =>
    intro acc raw rest h
    rw [scan_block] at h
    by_cases hx : fence_line closing x = true
    · simp only [hx, if_true, Option.some.injEq, Prod.mk.injEq] at h
      exact ⟨[], x, L, rfl, by simp, hx, by simp [h.1], h.2.symm⟩
    · simp only [hx, Bool.false_eq_true, if_false] at h
      by_cases hok : ok x = true
      · simp only [hok, if_true] at h
        obtain ⟨L1, l, L2, e1, e2, e3, e4, e5⟩ := ih _ _ _ h
        refine ⟨x :: L1, l, L2, by simp [e1], ?_, e3, by simp [e4], e5⟩
        intro y hy
        rcases List.mem_cons.mp hy with rfl | hy
        · exact ⟨by simpa using hx, hok⟩
        · exact e2 y hy
      · simp [hok] at h

theorem unwrap_comments_nil (p : List Char) : unwrap_comments [] p = [] := rfl

theorem opening_of_fields {lit : List Char} {n : Nat} {o : Opening}
    (h : opening_of lit n = some o) :
    o.opening_end = n ∧ lit = o.comment_pfx ++ o.fence_chars
      ∧ ((o.is_comment_wrapped = true
          ∧ (o.comment_pfx = ['#', ' '] ∨ o.comment_pfx = ['#', Char.ofNat 39, ' ']))
        ∨ (o.is_comment_wrapped = false ∧ o.comment_pfx = [])) := by
  unfold opening_of at h
  split_ifs at h with h1 h2 h3 h4 h5 h6 <;>
    simp only [Option.some.injEq] at h <;> subst h <;> simp_all

/-- The dispatcher on a text that opens with a bare or comment-wrapped fence: the lines
after the opening line are scanned for the first closing fence line; the content is what
precedes it (unwrapped for the comment-wrapped dialects) and the body is what follows it,
trimmed. -/
theorem fenced_extract_eq (text lit : List Char) (o : Opening)
    (hmem : lit ∈ opening_literals)
    (hne : lit ≠ ['#', ' ', '/', '/', '/', ' ', 's', 'c', 'r', 'i', 'p', 't'])
    (hopen : fence_line lit text = true)
    (ho : opening_of lit (line_len text) = some o) :
    extract_front_matter_cpp text
      = match scan_block lit (fun _ => true) [] (splitLines (text.drop (line_len text))) with
        | none => not_found text
        | some (raw, rest) =>
          Result.mk true o.format o.fence_type
            (if o.is_comment_wrapped then unwrap_comments raw o.comment_pfx else raw)
            (if o.is_comment_wrapped then trim_leading_comment_lines rest o.comment_pfx
             else trim_leading_empty_lines rest) := by
  have hpep := pep723_opening_false_of_fence_line text lit hmem hne hopen
  have hdet := detect_opening_of_fence_line text lit hmem hopen
  rw [ho] at hdet
  have hcs := closing_start_of_eq text o lit hmem ho
  have hoe := (opening_of_fields ho).1
  have htne : text ≠ [] := by
    intro h0
    rw [h0, fence_line_nil] at hopen
    · exact absurd hopen (by simp)
    · intro h1
      rw [h1] at hmem
      exact absurd hmem (by decide)
  have hlen : text.length ≠ 0 := by
    intro h0; exact htne (List.length_eq_zero.mp h0)
  have hll := line_len_pos htne
  unfold extract_front_matter_cpp
  simp only [hlen, beq_iff_eq, if_false, hpep, Bool.false_eq_true, hdet]
  cases hff : first_fence lit (splitLines (text.drop (line_len text))) with
  | none =>
    rw [hff] at hcs
    rw [scan_block_no_closing lit _ _ _ (first_fence_eq_none lit _ hff)]
    simp only [hcs, if_true]
  | some k =>
    rw [hff] at hcs
    simp only at hcs
    obtain ⟨L1, l, L2, hL, hk, hl, hL1⟩ := first_fence_some lit _ k hff
    rw [hL, scan_block_found lit _ l L2 hl L1 [] (fun x hx => ⟨hL1 x hx, rfl⟩)]
    obtain ⟨a1, a2, a3⟩ := splitLines_append_inv L1 hL
    obtain ⟨_, b2, _, b4, _⟩ := splitLines_cons_inv a3
    have hcs2 : closing_start_of text text.length o = line_len text + k := hcs
    have hcs0 : closing_start_of text text.length o ≠ 0 := by omega
    simp only [hcs0, if_false, List.nil_append]
    unfold assemble
    have e : text.drop (line_len text + k)
        = (text.drop (line_len text)).drop L1.flatten.length := by
      rw [List.drop_drop, hk]
    have hsub : substr text (line_len text) (line_len text + k - line_len text) = L1.flatten := by
      unfold substr
      rw [Nat.add_sub_cancel_left, hk, a1]
    have hbody : text.drop (line_len text + k + line_len (text.drop (line_len text + k)))
        = L2.flatten := by
      rw [← List.drop_drop, e]; exact b4
    simp only [hcs2, hoe, skip_to_next_line_eq, hsub, hbody]
    have hcontent : (if line_len text + k > line_len text then
          if o.is_comment_wrapped = true then unwrap_comments L1.flatten o.comment_pfx
          else L1.flatten
        else [])
        = (if o.is_comment_wrapped = true then unwrap_comments L1.flatten o.comment_pfx
          else L1.flatten) := by
      by_cases hk0 : line_len text + k > line_len text
      · simp only [hk0, if_true]
      · have : L1.flatten = [] := List.length_eq_zero.mp (by omega)
        simp only [hk0, if_false, this, unwrap_comments_nil, ite_self]
    have hb : (if line_len text + k + line_len (text.drop (line_len text + k)) < text.length then
          if o.is_comment_wrapped = true then trim_leading_comment_lines L2.flatten o.comment_pfx
          else trim_leading_empty_lines L2.flatten
        else [])
        = (if o.is_comment_wrapped = true then trim_leading_comment_lines L2.flatten o.comment_pfx
          else trim_leading_empty_lines L2.flatten) := by
      by_cases hk0 : line_len text + k + line_len (text.drop (line_len text + k)) < text.length
      · simp only [hk0, if_true]
      · have : L2.flatten = [] := by
          rw [← hbody]; exact List.drop_of_length_le (by omega)
        simp only [hk0, if_false, this, trim_leading_comment_lines_nil,
          trim_leading_empty_lines_nil, ite_self]
    rw [hcontent, hb]

end FrontMatter

namespace FrontMatter

/-! ## The PEP 723 scan, line by line -/

theorem pep_line_ok_take_line (s : List Char) :
    pep_line_ok (s.take (line_len s)) = pep_line_ok s := by
  cases s with
  | nil => rfl
  | cons c t =>
    by_cases hc : c = '\n'
    · subst hc
      simp [line_len, pep_line_ok]
    · rw [line_len_cons_ne t hc, List.take_succ_cons]
      cases t with
      | nil => rfl
      | cons d u =>
        have hpos : 0 < line_len (d :: u) := line_len_pos (by simp)
        obtain ⟨k, hk⟩ := Nat.exists_eq_succ_of_ne_zero (Nat.pos_iff_ne_zero.mp hpos)
        rw [hk, List.take_succ_cons]
        rfl

/-- The grammar test of lines 447-455 of `extract_pep723` at offset `pos`. -/
theorem pep_test_eq (text : List Char) (pos : Nat) (hpos : pos < text.length) :
    pep_line_ok (text.drop pos)
      = (byteAt text pos == '#'
          && !(decide (pos + 1 < text.length) && byteAt text (pos + 1) != '\n'
            && byteAt text (pos + 1) != '\r' && byteAt text (pos + 1) != ' ')) := by
  rw [drop_eq_cons hpos]
  by_cases h1 : pos + 1 < text.length
  · rw [drop_eq_cons h1]
    simp only [pep_line_ok, h1, decide_True, Bool.true_and]
    congr 1
    simp only [bne, Bool.not_and, Bool.not_not]
  · have hnil : text.drop (pos + 1) = [] := List.drop_of_length_le (by omega)
    rw [hnil]
    simp [pep_line_ok, h1]

/-- One iteration of the loop of `extract_pep723` at the start of a line. -/
theorem extract_pep723_body_eq (text : List Char) (cs pos : Nat) (hpos : pos < text.length) :
    extract_pep723_body text text.length cs pos ()
      = if fence_line pep723_closing_literal (text.drop pos) then
          Step.done (Result.mk true "toml" "toml_pep723"
            (if pos > cs then unwrap_comments (substr text cs (pos - cs)) ['#', ' '] else [])
            (if pos + line_len (text.drop pos) < text.length then
              trim_leading_comment_lines (text.drop (pos + line_len (text.drop pos))) ['#', ' ']
             else []))
        else if pep_line_ok ((text.drop pos).take (line_len (text.drop pos))) then
          Step.next (pos + line_len (text.drop pos)) ()
        else Step.done (not_found text) := by
  rw [pep_line_ok_take_line, pep_test_eq text pos hpos]
  unfold extract_pep723_body
  simp only [is_pep723_closing_eq_all, skip_to_next_line_eq]
  by_cases hc : fence_line pep723_closing_literal (text.drop pos) = true
  · simp only [hc, if_true]
  · simp only [hc, Bool.false_eq_true, if_false]
    by_cases hb : byteAt text pos = '#'
    · simp only [hb, bne_self_eq_false, Bool.false_eq_true, if_false, beq_self_eq_true,
        Bool.true_and]
      by_cases h2 : (decide (pos + 1 < text.length) && byteAt text (pos + 1) != '\n'
          && byteAt text (pos + 1) != '\r' && byteAt text (pos + 1) != ' ') = true
      · simp only [h2, if_true, Bool.not_true, Bool.false_eq_true, if_false]
      · simp only [h2, Bool.false_eq_true, if_false]
        simp
    · have hb1 : (byteAt text pos != '#') = true := by simp [hb]
      have hb2 : (byteAt text pos == '#') = false := by rw [beq_eq_false_iff_ne]; exact hb
      simp only [hb1, hb2, if_true, Bool.false_and, Bool.false_eq_true, if_false]

theorem pep_loop_eq (text : List Char) (cs : Nat) :
    ∀ fuel pos acc, text.length - pos ≤ fuel → cs ≤ pos → substr text cs (pos - cs) = acc →
      while_lt text.length (extract_pep723_body text text.length cs) (fun _ => not_found text)
          fuel pos ()
        = match scan_block pep723_closing_literal pep_line_ok acc (splitLines (text.drop pos)) with
          | none => not_found text
          | some (raw, rest) =>
            Result.mk true "toml" "toml_pep723" (unwrap_comments raw ['#', ' '])
              (trim_leading_comment_lines rest ['#', ' ']) := by
  intro fuel
  induction fuel with
  | zero =>
    intro pos acc hf _ _
    have hd : text.drop pos = [] := List.drop_of_length_le (by omega)
    simp [while_lt, hd, splitLines, scan_block]
  | succ n ih =>
    intro pos acc hf hcs hacc
    by_cases hlt : pos < text.length
    · have hne : text.drop pos ≠ [] := by
        rw [drop_eq_cons hlt]; simp
      have hpos := line_len_pos hne
      simp only [while_lt, hlt, if_true, extract_pep723_body_eq text cs pos hlt]
      rw [splitLines_eq hne, scan_block,
        ← fence_line_take_line pep723_closing_literal (by decide)]
      by_cases hc : fence_line pep723_closing_literal (text.drop pos) = true
      · simp only [hc, if_true, splitLines_flatten, List.drop_drop]
        have e1 : (if pos > cs then unwrap_comments (substr text cs (pos - cs)) ['#', ' '] else [])
            = unwrap_comments acc ['#', ' '] := by
          by_cases h : pos > cs
          · simp only [h, if_true, hacc]
          · have h0 : pos - cs = 0 := by omega
            rw [h0] at hacc
            simp only [substr, List.take_zero] at hacc
            simp only [h, if_false, ← hacc, unwrap_comments_nil]
        have e2 : (if pos + line_len (text.drop pos) < text.length then
              trim_leading_comment_lines (text.drop (pos + line_len (text.drop pos))) ['#', ' ']
             else [])
            = trim_leading_comment_lines (text.drop (pos + line_len (text.drop pos))) ['#', ' '] := by
          by_cases h : pos + line_len (text.drop pos) < text.length
          · simp only [h, if_true]
          · simp only [h, if_false, List.drop_of_length_le (Nat.not_lt.mp h),
              trim_leading_comment_lines_nil]
        rw [e1, e2]
      · simp only [hc, Bool.false_eq_true, if_false]
        by_cases hok : pep_line_ok ((text.drop pos).take (line_len (text.drop pos))) = true
        · simp only [hok, if_true]
          rw [ih (pos + line_len (text.drop pos)) (acc ++ (text.drop pos).take (line_len (text.drop pos)))
            (by omega) (by omega), List.drop_drop]
          rw [← hacc]
          unfold substr
          have e : pos + line_len (text.drop pos) - cs = (pos - cs) + line_len (text.drop pos) := by
            omega
          rw [e, List.take_add, List.drop_drop]
          congr 3
          omega
        · simp only [hok, Bool.false_eq_true, if_false]
    · have hd : text.drop pos = [] := List.drop_of_length_le (by omega)
      simp [while_lt, hlt, hd, splitLines, scan_block]

/-- The dispatcher on a text that opens with the PEP 723 opening line: the lines after it
are scanned for the first `# ///` closing line, and a line before it that fails the
line grammar aborts the scan. -/
theorem pep_extract_eq (text : List Char)
    (hopen : is_pep723_opening text 0 text.length = true) :
    extract_front_matter_cpp text
      = match scan_block pep723_closing_literal pep_line_ok []
          (splitLines (text.drop (line_len text))) with
        | none => not_found text
        | some (raw, rest) =>
          Result.mk true "toml" "toml_pep723" (unwrap_comments raw ['#', ' '])
            (trim_leading_comment_lines rest ['#', ' ']) := by
  have hlen : text.length ≠ 0 := by
    intro h0
    rw [is_pep723_opening_eq_all, h0] at hopen
    simp at hopen
  unfold extract_front_matter_cpp
  simp only [hlen, beq_iff_eq, if_false, hopen, if_true]
  unfold extract_pep723
  simp only [hopen, Bool.not_true, Bool.false_eq_true, if_false, skip_to_next_line_eq,
    Nat.zero_add, List.drop_zero]
  exact pep_loop_eq text (line_len text) _ (line_len text) [] (le_refl _) (le_refl _)
    (by simp [substr])

end FrontMatter

namespace FrontMatter

/-! ## Decomposition of a text with front matter -/

theorem fenced_found (text lit : List Char) (o : Opening)
    (hmem : lit ∈ opening_literals)
    (hne : lit ≠ ['#', ' ', '/', '/', '/', ' ', 's', 'c', 'r', 'i', 'p', 't'])
    (hopen : fence_line lit text = true)
    (ho : opening_of lit (line_len text) = some o)
    (hfound : (extract_front_matter_cpp text).found = true) :
    ∃ L1 k L2, splitLines (text.drop (line_len text)) = L1 ++ k :: L2
      ∧ (∀ x ∈ L1, fence_line lit x = false) ∧ fence_line lit k = true
      ∧ extract_front_matter_cpp text
        = Result.mk true o.format o.fence_type
            (if o.is_comment_wrapped then unwrap_comments L1.flatten o.comment_pfx
             else L1.flatten)
            (if o.is_comment_wrapped then trim_leading_comment_lines L2.flatten o.comment_pfx
             else trim_leading_empty_lines L2.flatten) := by
  have h := fenced_extract_eq text lit o hmem hne hopen ho
  cases hs : scan_block lit (fun _ => true) [] (splitLines (text.drop (line_len text))) with
  | none =>
    rw [hs] at h
    rw [h] at hfound
    simp [not_found] at hfound
  | some r =>
    obtain ⟨raw, rest⟩ := r
    rw [hs] at h
    obtain ⟨L1, k, L2, e1, e2, e3, e4, e5⟩ := scan_block_some lit _ _ _ _ _ hs
    simp only [List.nil_append] at e4
    subst e4 e5
    exact ⟨L1, k, L2, e1, fun x hx => (e2 x hx).1, e3, h⟩

theorem pep_found (text : List Char)
    (hopen : is_pep723_opening text 0 text.length = true)
    (hfound : (extract_front_matter_cpp text).found = true) :
    ∃ L1 k L2, splitLines (text.drop (line_len text)) = L1 ++ k :: L2
      ∧ (∀ x ∈ L1, fence_line pep723_closing_literal x = false ∧ pep_line_ok x = true)
      ∧ fence_line pep723_closing_literal k = true
      ∧ extract_front_matter_cpp text
        = Result.mk true "toml" "toml_pep723" (unwrap_comments L1.flatten ['#', ' '])
            (trim_leading_comment_lines L2.flatten ['#', ' ']) := by
  have h := pep_extract_eq text hopen
  cases hs : scan_block pep723_closing_literal pep_line_ok []
      (splitLines (text.drop (line_len text))) with
  | none =>
    rw [hs] at h
    rw [h] at hfound
    simp [not_found] at hfound
  | some r =>
    obtain ⟨raw, rest⟩ := r
    rw [hs] at h
    obtain ⟨L1, k, L2, e1, e2, e3, e4, e5⟩ := scan_block_some _ _ _ _ _ _ hs
    simp only [List.nil_append] at e4
    subst e4 e5
    exact ⟨L1, k, L2, e1, e2, e3, h⟩

/-- A text on which the dispatcher reports front matter is an opening fence line, lines
without a closing fence, the closing fence line, and the rest; the content is taken from
the lines between the fences and the body from the rest. -/
theorem found_decomposition (text : List Char)
    (hfound : (extract_front_matter_cpp text).found = true) :
    ∃ lit fmt ft L1 k L2, (lit, fmt, ft) ∈ dialect_table ∧ fence_line lit text = true
      ∧ splitLines text = text.take (line_len text) :: (L1 ++ k :: L2)
      ∧ (∀ x ∈ L1, fence_line (closing_literal lit) x = false)
      ∧ fence_line (closing_literal lit) k = true
      ∧ extract_front_matter_cpp text
        = Result.mk true fmt ft
            (if marker_of ft = [] then L1.flatten else unwrap_comments L1.flatten (marker_of ft))
            (if marker_of ft = [] then trim_leading_empty_lines L2.flatten
             else trim_leading_comment_lines L2.flatten (marker_of ft)) := by
  have hne : text ≠ [] := by
    intro h0
    rw [h0] at hfound
    simp [extract_front_matter_cpp] at hfound
  have hsl := splitLines_eq hne
  rcases extract_found_cases text hfound with ⟨hopen, _⟩ | ⟨hnp, o, hdet, _, _⟩
  · obtain ⟨L1, k, L2, e1, e2, e3, e4⟩ := pep_found text hopen hfound
    rw [is_pep723_opening_eq_all, Bool.and_eq_true] at hopen
    simp only [List.drop_zero] at hopen
    refine ⟨pep723_opening_literal, "toml", "toml_pep723", L1, k, L2, by decide, hopen.2, ?_,
      fun x hx => (e2 x hx).1, e3, ?_⟩
    · rw [hsl, e1]
    · rw [e4]; rfl
  · rcases detect_opening_cases text o hdet with ⟨h, rfl⟩ | ⟨h, rfl⟩ | ⟨h, rfl⟩ | ⟨h, rfl⟩
        | ⟨h, rfl⟩ | ⟨h, rfl⟩
    · obtain ⟨L1, k, L2, e1, e2, e3, e4⟩ :=
        fenced_found text _ _ (by decide) (by decide) h rfl hfound
      exact ⟨_, "yaml", "yaml_comment", L1, k, L2, by decide, h, by rw [hsl, e1], e2, e3,
        by rw [e4]; rfl⟩
    · obtain ⟨L1, k, L2, e1, e2, e3, e4⟩ :=
        fenced_found text _ _ (by decide) (by decide) h rfl hfound
      exact ⟨_, "yaml", "yaml_roxy", L1, k, L2, by decide, h, by rw [hsl, e1], e2, e3,
        by rw [e4]; rfl⟩
    · obtain ⟨L1, k, L2, e1, e2, e3, e4⟩ :=
        fenced_found text _ _ (by decide) (by decide) h rfl hfound
      exact ⟨_, "toml", "toml_comment", L1, k, L2, by decide, h, by rw [hsl, e1], e2, e3,
        by rw [e4]; rfl⟩
    · obtain ⟨L1, k, L2, e1, e2, e3, e4⟩ :=
        fenced_found text _ _ (by decide) (by decide) h rfl hfound
      exact ⟨_, "toml", "toml_roxy", L1, k, L2, by decide, h, by rw [hsl, e1], e2, e3,
        by rw [e4]; rfl⟩
    · obtain ⟨L1, k, L2, e1, e2, e3, e4⟩ :=
        fenced_found text _ _ (by decide) (by decide) h rfl hfound
      exact ⟨_, "yaml", "yaml", L1, k, L2, by decide, h, by rw [hsl, e1], e2, e3,
        by rw [e4]; rfl⟩
    · obtain ⟨L1, k, L2, e1, e2, e3, e4⟩ :=
        fenced_found text _ _ (by decide) (by decide) h rfl hfound
      exact ⟨_, "toml", "toml", L1, k, L2, by decide, h, by rw [hsl, e1], e2, e3,
        by rw [e4]; rfl⟩

end FrontMatter

namespace FrontMatter

/-! ## Lines of a text -/

theorem line_len_take_line (s : List Char) : line_len (s.take (line_len s)) = line_len s := by
  induction s with
  | nil => rfl
  | cons c t ih =>
    by_cases hc : c = '\n'
    · subst hc
      simp [line_len]
    · rw [line_len_cons_ne t hc, List.take_succ_cons, line_len_cons_ne _ hc, ih]

theorem splitLines_mem_inv {s l : List Char} (h : l ∈ splitLines s) :
    l ≠ [] ∧ line_len l = l.length := by
  obtain ⟨A, B, hAB⟩ := List.append_of_mem h
  obtain ⟨_, _, a3⟩ := splitLines_append_inv A hAB
  obtain ⟨b1, b2, _, _, b5⟩ := splitLines_cons_inv a3
  constructor
  · intro h0
    have h1 := line_len_pos b5
    have h2 : l.length = 0 := by rw [h0]; rfl
    omega
  · rw [b1, line_len_take_line, List.length_take]
    have := line_len_le (List.drop A.flatten.length s)
    omega

theorem splitLines_line_self {l : List Char} (h1 : l ≠ []) (h2 : line_len l = l.length) :
    splitLines l = [l] := by
  rw [splitLines_eq h1, h2]
  simp [splitLines]

/-- A line without LF is the last line. -/
theorem splitLines_unterminated {s l : List Char} {B : List (List Char)}
    (h : splitLines s = l :: B) (hl : '\n' ∉ l) : B = [] := by
  obtain ⟨b1, b2, b3, _, b5⟩ := splitLines_cons_inv h
  rcases line_len_end s with h1 | ⟨h1, h2⟩
  · rw [h1, List.drop_length] at b3
    rw [← b3]; rfl
  · exfalso
    apply hl
    have hlt : line_len s - 1 < l.length := by omega
    have : l[line_len s - 1] = '\n' := by
      have e : l[line_len s - 1] = byteAt s (line_len s - 1) := by
        subst b1
        simp [byteAt, List.getD_eq_getElem?_getD, List.getElem?_take]
        have hle := line_len_le s
        rw [List.getElem?_eq_getElem (by omega)]
        simp
      rw [e, h2]
    rw [← this]
    exact List.getElem_mem _

theorem splitLines_flatten_left :
    ∀ (A : List (List Char)) {s : List Char} {B : List (List Char)},
      splitLines s = A ++ B → splitLines A.flatten = A := by
  intro A
  induction A with
  | nil => intro s B _; rfl
  | cons x A ih =>
    intro s B h
    rw [List.cons_append] at h
    have hx := splitLines_mem_inv (s := s) (l := x) (by rw [h]; exact List.mem_cons_self _ _)
    obtain ⟨_, _, b3, _, _⟩ := splitLines_cons_inv h
    have hA := ih b3
    by_cases hlf : '\n' ∈ x
    · have hlast : x.getLast? = some '\n' := by
        obtain ⟨a, b, hab⟩ := List.append_of_mem hlf
        have hb : b = [] := by
          by_contra hb
          have h1 : line_len x ≤ a.length + 1 := by
            rw [hab]
            clear hab hx
            induction a with
            | nil => simp [line_len]
            | cons c a iha =>
              rw [List.cons_append, line_len]
              split_ifs
              · simp
              · simp only [List.length_cons]; omega
          have h2 : x.length = a.length + 1 + b.length := by
            rw [hab]; simp; omega
          have h3 : 0 < b.length := List.length_pos.mpr hb
          omega
        rw [hab, hb]
        simp
      rw [List.flatten_cons, splitLines_append _ _ (Or.inr hlast), splitLines_line_self hx.1 hx.2,
        hA]
      rfl
    · have hnil := splitLines_unterminated h hlf
      have hA0 : A = [] := by
        cases A with
        | nil => rfl
        | cons y A => simp at hnil
      subst hA0
      simp only [List.flatten_cons, List.flatten_nil, List.append_nil]
      exact splitLines_line_self hx.1 hx.2

theorem splitLines_flatten_right (A : List (List Char)) {s : List Char} {B : List (List Char)}
    (h : splitLines s = A ++ B) : splitLines B.flatten = B := by
  obtain ⟨_, a2, a3⟩ := splitLines_append_inv A h
  rw [← a2]; exact a3

theorem line_len_append_left (m : List Char) (hm : '\n' ∉ m) (t : List Char) :
    line_len (m ++ t) = m.length + line_len t := by
  induction m with
  | nil => simp
  | cons a m ih =>
    have ha : a ≠ '\n' := fun h => hm (by rw [h]; exact List.mem_cons_self _ _)
    rw [List.cons_append, line_len_cons_ne _ ha, ih (fun h => hm (List.mem_cons_of_mem _ h)),
      List.length_cons]
    omega

theorem ends_line_full {t : List Char} (h1 : ends_line t = true) (h2 : term_len t = t.length) :
    t = [] ∨ t = ['\n'] ∨ t = ['\r', '\n'] := by
  cases t with
  | nil => left; rfl
  | cons c u =>
    right
    simp only [ends_line, List.isEmpty_cons, Bool.false_or, starts_newline, Bool.or_eq_true,
      beq_iff_eq, Bool.and_eq_true] at h1
    rcases h1 with h | ⟨h, h3⟩
    · subst h
      left
      simp only [term_len, List.length_cons] at h2
      have : ¬ ('\n' = '\r' ∧ u.head? = some '\n') := by
        intro h; exact absurd h.1 (by decide)
      simp only [this, if_false] at h2
      have : u = [] := List.length_eq_zero.mp (by omega)
      rw [this]
    · subst h
      right
      cases u with
      | nil => simp at h3
      | cons d v =>
        simp only [List.head?_cons, Option.some.injEq] at h3
        subst h3
        simp only [term_len, List.head?_cons, and_self, if_true, List.length_cons] at h2
        have : v = [] := List.length_eq_zero.mp (by omega)
        rw [this]

/-- A line that is a fence line of the literal `g` is `g`, spaces and tabs, and a line
terminator (or nothing, at the end of the text). -/
theorem fence_line_form {g l : List Char} (hg : '\n' ∉ g) (h : fence_line g l = true)
    (hl : line_len l = l.length) :
    ∃ w t, l = g ++ w ++ t ∧ (∀ x ∈ w, is_whitespace x = true)
      ∧ (t = [] ∨ t = ['\n'] ∨ t = ['\r', '\n']) := by
  obtain ⟨w, t, e, hw, ht⟩ := (fence_line_iff g l).mp h
  refine ⟨w, t, e, hw, ?_⟩
  apply ends_line_full ht
  have h1 : line_len l = g.length + (w.length + line_len t) := by
    rw [e, List.append_assoc, line_len_append_left g hg,
      line_len_append_left w (mem_of_all_whitespace hw)]
  have h2 : l.length = g.length + (w.length + t.length) := by
    rw [e]; simp only [List.length_append]; omega
  rw [← line_len_of_ends_line ht]
  omega

theorem is_blank_line_form {l : List Char} (h : is_blank_line l = true)
    (hl : line_len l = l.length) :
    ∀ c ∈ l, c = ' ' ∨ c = '\t' ∨ c = '\n' ∨ c = '\r' := by
  have hf : fence_line [] l = true := by
    simpa [fence_line, List.isPrefixOf, is_blank_line] using h
  obtain ⟨w, t, e, hw, ht⟩ := fence_line_form (by simp) hf hl
  intro c hc
  rw [e] at hc
  simp only [List.nil_append, List.mem_append] at hc
  rcases hc with hc | hc
  · have := hw c hc
    simp only [is_whitespace, Bool.or_eq_true, beq_iff_eq] at this
    rcases this with h1 | h1
    · left; exact h1
    · right; left; exact h1
  · rcases ht with rfl | rfl | rfl
    · simp at hc
    · simp at hc; right; right; left; exact hc
    · simp at hc
      rcases hc with h1 | h1
      · right; right; right; exact h1
      · right; right; left; exact h1

end FrontMatter

namespace FrontMatter

/-! ## C11, C13, C14, C19: the claims on lines -/

theorem dialect_literal_no_lf :
    ∀ d ∈ dialect_table, '\n' ∉ d.1 ∧ '\n' ∉ closing_literal d.1 := by
  decide

theorem bare_dialect_table :
    ∀ d ∈ dialect_table, (d.2.2 = "yaml" ∨ d.2.2 = "toml") →
      (d.1 = ['-', '-', '-'] ∨ d.1 = ['+', '+', '+']) ∧ closing_literal d.1 = d.1
        ∧ marker_of d.2.2 = [] := by
  decide

theorem bare_dialect {lit : List Char} {fmt ft : String} (hd : (lit, fmt, ft) ∈ dialect_table)
    (hft : ft = "yaml" ∨ ft = "toml") :
    (lit = ['-', '-', '-'] ∨ lit = ['+', '+', '+']) ∧ closing_literal lit = lit
      ∧ marker_of ft = [] :=
  bare_dialect_table _ hd hft

theorem comment_marker {ft : String}
    (hft : ft ∈ ["yaml_comment", "yaml_roxy", "toml_comment", "toml_roxy", "toml_pep723"]) :
    (marker_of ft = ['#', ' '] ∨ marker_of ft = ['#', Char.ofNat 39, ' '])
      ∧ marker_of ft ≠ [] := by
  simp only [List.mem_cons, List.mem_singleton, List.not_mem_nil, or_false] at hft
  rcases hft with rfl | rfl | rfl | rfl | rfl <;> decide

/-- C11 as stated fails: in the text `# /// script` LF `#` CR `x` LF `# ///` LF
`print(1)` LF the line `#` CR `x` precedes the closing line and has, after its `#`, a CR
that is no part of a line terminator (the next byte is `x`), yet the block is
extracted. -/
theorem pep723_lone_cr_accepted :
    fence_line pep723_opening_literal "# /// script\n#\rx\n# ///\nprint(1)\n".toList = true
    ∧ splitLines ("# /// script\n#\rx\n# ///\nprint(1)\n".toList.drop
        (line_len "# /// script\n#\rx\n# ///\nprint(1)\n".toList))
      = ["#\rx\n".toList, "# ///\n".toList, "print(1)\n".toList]
    ∧ fence_line pep723_closing_literal "#\rx\n".toList = false
    ∧ starts_newline "\rx\n".toList = false
    ∧ extract_front_matter_cpp "# /// script\n#\rx\n# ///\nprint(1)\n".toList
      = Result.mk true "toml" "toml_pep723" "x\n".toList "print(1)\n".toList := by
  decide

/-- C11 (amended): for every text that begins with a `# /// script` opening line, if a
line `l` after it, with no `# ///` closing line before it and not itself a closing line,
does not begin with `#` (an empty line included), or begins with `#` followed by a byte
that is not a space, not LF and not CR, then `extract_front_matter_cpp` returns
`found = false` with `body = text`, whatever follows `l` (a closing line included). -/
theorem pep723_line_grammar (text : List Char) (L1 L2 : List (List Char)) (l : List Char)
    (hopen : fence_line pep723_opening_literal text = true)
    (hsplit : splitLines (text.drop (line_len text)) = L1 ++ l :: L2)
    (hno : ∀ x ∈ L1, fence_line pep723_closing_literal x = false)
    (hl : fence_line pep723_closing_literal l = false)
    (hbad : l.head? ≠ some '#'
      ∨ ∃ c t, l = '#' :: c :: t ∧ c ≠ ' ' ∧ c ≠ '\n' ∧ c ≠ '\r') :
    extract_front_matter_cpp text = not_found text := by
  have hok : pep_line_ok l = false := by
    rcases hbad with h | ⟨c, t, rfl, h1, h2, h3⟩
    · cases l with
      | nil => rfl
      | cons c t =>
        have hc : c ≠ '#' := by
          intro h0; apply h; rw [h0]; rfl
        have e : (c == '#') = false := by rw [beq_eq_false_iff_ne]; exact hc
        simp only [pep_line_ok, e, Bool.false_and]
    · have e1 : (c == '\n') = false := by rw [beq_eq_false_iff_ne]; exact h2
      have e2 : (c == '\r') = false := by rw [beq_eq_false_iff_ne]; exact h3
      have e3 : (c == ' ') = false := by rw [beq_eq_false_iff_ne]; exact h1
      simp only [pep_line_ok, e1, e2, e3, Bool.or_self, Bool.and_false]
  have hlen : 0 + 13 ≤ text.length := by
    have hpre := fence_line_pfx hopen
    have h1 : pep723_opening_literal.length ≤ line_len text := by
      have h2 := fence_line_len_eq pep723_opening_literal (by decide) text hopen
      unfold fence_line_len at h2
      omega
    have h12 : pep723_opening_literal.length = 12 := rfl
    have hne : text.drop (line_len text) ≠ [] := by
      intro h0
      rw [h0] at hsplit
      simp [splitLines] at hsplit
    have h3 : 0 < (text.drop (line_len text)).length := List.length_pos.mpr hne
    rw [List.length_drop] at h3
    omega
  have hop : is_pep723_opening text 0 text.length = true := by
    rw [is_pep723_opening_eq_all, List.drop_zero, hopen, decide_eq_true hlen]
    rfl
  rw [pep_extract_eq text hop, hsplit, scan_block_bad _ _ l L2 hl hok L1 [] hno]

theorem pep723_line_grammar_witness :
    extract_front_matter_cpp "# /// script\n# a = 1\nb = 2\n# ///\n".toList
      = not_found "# /// script\n# a = 1\nb = 2\n# ///\n".toList :=
  pep723_line_grammar "# /// script\n# a = 1\nb = 2\n# ///\n".toList
    ["# a = 1\n".toList] ["# ///\n".toList] "b = 2\n".toList
    (by decide) (by decide) (by decide) (by decide) (Or.inl (by decide))

/-- C13 as stated fails: on `# ---` LF `# a: 1` LF `# ---` LF followed by two spaces the
block is extracted with an empty body, and the two skipped bytes after the closing fence
line hold no line terminator and no `#`: they are neither blank lines ended by a
terminator nor bare marker lines. -/
theorem trailing_blanks_skipped :
    extract_front_matter_cpp "# ---\n# a: 1\n# ---\n  ".toList
      = Result.mk true "yaml" "yaml_comment" "a: 1\n".toList []
    ∧ after_closing_fence "# ---\n# a: 1\n# ---\n  ".toList = [' ', ' ']
    ∧ '\n' ∉ after_closing_fence "# ---\n# a: 1\n# ---\n  ".toList
    ∧ '#' ∉ after_closing_fence "# ---\n# a: 1\n# ---\n  ".toList := by
  decide

/-- C13 (amended): for every text on which `extract_front_matter_cpp` returns
`found = true` with a comment-wrapped or PEP 723 `fence_type`, the lines of the text are
the opening line `o`, lines `L1` without a closing fence, the closing fence line `k`,
separator lines `S`, and the lines of `body`; so `body` is a suffix of the text, the
bytes between the closing fence line and `body` are blank lines (spaces and tabs, then a
line terminator or, for the last line, the end of the text) and bare marker lines (`#`
for `# `, `#'` for `#' `, with only spaces and tabs around it), and `body` is empty or
begins with a line that is neither. -/
theorem comment_body_separators (text : List Char)
    (hfound : (extract_front_matter_cpp text).found = true)
    (hft : (extract_front_matter_cpp text).fence_type
      ∈ ["yaml_comment", "yaml_roxy", "toml_comment", "toml_roxy", "toml_pep723"]) :
    ∃ lit fmt o L1 k S,
      (lit, fmt, (extract_front_matter_cpp text).fence_type) ∈ dialect_table
      ∧ (marker_of (extract_front_matter_cpp text).fence_type = ['#', ' ']
        ∨ marker_of (extract_front_matter_cpp text).fence_type = ['#', Char.ofNat 39, ' '])
      ∧ splitLines text
        = o :: (L1 ++ k :: (S ++ splitLines (extract_front_matter_cpp text).body))
      ∧ fence_line lit o = true
      ∧ fence_line (closing_literal lit) k = true
      ∧ (∀ x ∈ L1, fence_line (closing_literal lit) x = false)
      ∧ (∀ x ∈ S,
          is_separator_line (marker_of (extract_front_matter_cpp text).fence_type) x = true)
      ∧ (∀ x, (splitLines (extract_front_matter_cpp text).body).head? = some x →
          is_separator_line (marker_of (extract_front_matter_cpp text).fence_type) x = false)
      ∧ text = (o ++ L1.flatten ++ k ++ S.flatten) ++ (extract_front_matter_cpp text).body := by
  obtain ⟨lit, fmt, ft, L1, k, L2, hd, hopen, hsl, hL1, hk, hres⟩ :=
    found_decomposition text hfound
  rw [hres] at hft ⊢
  simp only at hft ⊢
  obtain ⟨hm, hm0⟩ := comment_marker hft
  have hL2 : splitLines L2.flatten = L2 := by
    have h : splitLines text = (text.take (line_len text) :: L1 ++ [k]) ++ L2 := by
      rw [hsl]; simp
    exact splitLines_flatten_right _ h
  have hbody := trim_leading_comment_lines_eq L2.flatten (marker_of ft) hm
  rw [hL2] at hbody
  simp only [hm0, if_false, hbody]
  have hB : splitLines (L2.dropWhile (is_separator_line (marker_of ft))).flatten
      = L2.dropWhile (is_separator_line (marker_of ft)) := by
    apply splitLines_flatten_right (L2.takeWhile (is_separator_line (marker_of ft)))
      (s := L2.flatten)
    rw [hL2, List.takeWhile_append_dropWhile]
  refine ⟨lit, fmt, text.take (line_len text), L1, k,
    L2.takeWhile (is_separator_line (marker_of ft)), hd, hm, ?_, ?_, hk, hL1, ?_, ?_, ?_⟩
  · rw [hB, List.takeWhile_append_dropWhile]
    exact hsl
  · rw [← fence_line_take_line lit (dialect_literal_no_lf _ hd).1]
    exact hopen
  · intro x hx
    exact List.mem_takeWhile_imp hx
  · intro x hx
    rw [hB] at hx
    have := List.head?_dropWhile_not (is_separator_line (marker_of ft)) L2
    rw [hx] at this
    simpa using this
  · have h1 : text = text.take (line_len text) ++ (L1.flatten ++ (k ++ L2.flatten)) := by
      have h0 := splitLines_flatten text
      rw [hsl] at h0
      simpa using h0.symm
    have h2 : L2.flatten = (L2.takeWhile (is_separator_line (marker_of ft))).flatten
        ++ (L2.dropWhile (is_separator_line (marker_of ft))).flatten := by
      rw [← List.flatten_append, List.takeWhile_append_dropWhile]
    rw [List.append_assoc, ← h2]
    simp only [List.append_assoc]
    exact h1

theorem comment_body_separators_witness :
    ∃ lit fmt o L1 k S,
      (lit, fmt, (extract_front_matter_cpp "# ---\n# a: 1\n# ---\n#\n\nBody\n".toList).fence_type)
        ∈ dialect_table
      ∧ (marker_of (extract_front_matter_cpp "# ---\n# a: 1\n# ---\n#\n\nBody\n".toList).fence_type
          = ['#', ' ']
        ∨ marker_of (extract_front_matter_cpp "# ---\n# a: 1\n# ---\n#\n\nBody\n".toList).fence_type
          = ['#', Char.ofNat 39, ' '])
      ∧ splitLines "# ---\n# a: 1\n# ---\n#\n\nBody\n".toList
        = o :: (L1 ++ k :: (S ++ splitLines
            (extract_front_matter_cpp "# ---\n# a: 1\n# ---\n#\n\nBody\n".toList).body))
      ∧ fence_line lit o = true
      ∧ fence_line (closing_literal lit) k = true
      ∧ (∀ x ∈ L1, fence_line (closing_literal lit) x = false)
      ∧ (∀ x ∈ S,
          is_separator_line
            (marker_of (extract_front_matter_cpp "# ---\n# a: 1\n# ---\n#\n\nBody\n".toList).fence_type)
            x = true)
      ∧ (∀ x, (splitLines
            (extract_front_matter_cpp "# ---\n# a: 1\n# ---\n#\n\nBody\n".toList).body).head?
            = some x →
          is_separator_line
            (marker_of (extract_front_matter_cpp "# ---\n# a: 1\n# ---\n#\n\nBody\n".toList).fence_type)
            x = false)
      ∧ "# ---\n# a: 1\n# ---\n#\n\nBody\n".toList
        = (o ++ L1.flatten ++ k ++ S.flatten)
          ++ (extract_front_matter_cpp "# ---\n# a: 1\n# ---\n#\n\nBody\n".toList).body :=
  comment_body_separators "# ---\n# a: 1\n# ---\n#\n\nBody\n".toList (by decide) (by decide)

end FrontMatter

namespace FrontMatter

theorem not_mem_fence_form {g w : List Char} (hg : '\n' ∉ g)
    (hw : ∀ x ∈ w, is_whitespace x = true) : '\n' ∉ g ++ w ++ [] := by
  intro h
  simp only [List.append_nil, List.mem_append] at h
  rcases h with h | h
  · exact hg h
  · exact mem_of_all_whitespace hw h

/-- C14: for every text on which `extract_front_matter_cpp` returns `found = true` with
`fence_type` `yaml` or `toml`, the text is `o ++ content ++ k ++ s ++ body`, where `o`
is the glyph, spaces and tabs, and LF or CR LF; `k` is the glyph, spaces and tabs, and
LF, CR LF or the end of the text (then `s` and `body` are empty); and `s` consists of
blank lines, so it holds only spaces, tabs, LF and CR. -/
theorem bare_decomposition (text : List Char)
    (hfound : (extract_front_matter_cpp text).found = true)
    (hft : (extract_front_matter_cpp text).fence_type = "yaml"
      ∨ (extract_front_matter_cpp text).fence_type = "toml") :
    ∃ g w1 t1 w2 t2 s,
      (g = ['-', '-', '-'] ∨ g = ['+', '+', '+'])
      ∧ text = (g ++ w1 ++ t1) ++ (extract_front_matter_cpp text).content ++ (g ++ w2 ++ t2)
          ++ s ++ (extract_front_matter_cpp text).body
      ∧ (∀ x ∈ w1, is_whitespace x = true) ∧ (t1 = ['\n'] ∨ t1 = ['\r', '\n'])
      ∧ (∀ x ∈ w2, is_whitespace x = true)
      ∧ (t2 = ['\n'] ∨ t2 = ['\r', '\n']
        ∨ (t2 = [] ∧ s = [] ∧ (extract_front_matter_cpp text).body = []))
      ∧ (∀ x ∈ splitLines s, is_blank_line x = true)
      ∧ (∀ c ∈ s, c = ' ' ∨ c = '\t' ∨ c = '\n' ∨ c = '\r')
      ∧ (∀ x ∈ splitLines (extract_front_matter_cpp text).content, fence_line g x = false) := by
  obtain ⟨lit, fmt, ft, L1, k, L2, hd, hopen, hsl, hL1, hk, hres⟩ :=
    found_decomposition text hfound
  rw [hres] at hft ⊢
  simp only at hft ⊢
  obtain ⟨hg, hcl, hm⟩ := bare_dialect hd hft
  rw [hcl] at hL1 hk
  have hlf : '\n' ∉ lit := (dialect_literal_no_lf _ hd).1
  have hL2 : splitLines L2.flatten = L2 := by
    have h : splitLines text = (text.take (line_len text) :: L1 ++ [k]) ++ L2 := by
      rw [hsl]; simp
    exact splitLines_flatten_right _ h
  have hL1s : splitLines L1.flatten = L1 := by
    have h : splitLines (text.drop (line_len text)) = L1 ++ k :: L2 := by
      have h0 : splitLines text = [text.take (line_len text)] ++ (L1 ++ k :: L2) := by
        rw [hsl]; rfl
      have h1 := (splitLines_append_inv _ h0).2.2
      simp only [List.flatten_cons, List.flatten_nil, List.append_nil, List.length_take] at h1
      have hle := line_len_le text
      rw [Nat.min_eq_left hle] at h1
      exact h1
    exact splitLines_flatten_left L1 h
  have hbody := trim_leading_empty_lines_eq L2.flatten
  rw [hL2] at hbody
  simp only [hm, if_true, hbody]
  have hS : splitLines (L2.takeWhile is_blank_line).flatten = L2.takeWhile is_blank_line := by
    apply splitLines_flatten_left (L2.takeWhile is_blank_line) (s := L2.flatten)
      (B := L2.dropWhile is_blank_line)
    rw [hL2, List.takeWhile_append_dropWhile]
  -- the opening line
  have ho_mem : text.take (line_len text) ∈ splitLines text := by
    rw [hsl]; exact List.mem_cons_self _ _
  have ho_line := (splitLines_mem_inv ho_mem).2
  have ho_fence : fence_line lit (text.take (line_len text)) = true := by
    rw [← fence_line_take_line lit hlf]; exact hopen
  obtain ⟨w1, t1, eo, hw1, ht1⟩ := fence_line_form hlf ho_fence ho_line
  have ht1b : t1 = ['\n'] ∨ t1 = ['\r', '\n'] := by
    rcases ht1 with h | h
    · exfalso
      rw [h] at eo
      have hno : '\n' ∉ text.take (line_len text) := by
        rw [eo]; exact not_mem_fence_form hlf hw1
      have := splitLines_unterminated hsl hno
      simp at this
    · exact h
  -- the closing line
  have hk_split : ∃ s1, splitLines s1 = k :: L2 := by
    have h : splitLines text = (text.take (line_len text) :: L1) ++ (k :: L2) := by
      rw [hsl]; simp
    exact ⟨_, (splitLines_append_inv _ h).2.2⟩
  obtain ⟨s1, hs1⟩ := hk_split
  have hk_mem : k ∈ splitLines text := by
    rw [hsl]; simp
  have hk_line := (splitLines_mem_inv hk_mem).2
  obtain ⟨w2, t2, ek, hw2, ht2⟩ := fence_line_form hlf hk hk_line
  have hsplit : L2.flatten = (L2.takeWhile is_blank_line).flatten
      ++ (L2.dropWhile is_blank_line).flatten := by
    rw [← List.flatten_append, List.takeWhile_append_dropWhile]
  refine ⟨lit, w1, t1, w2, t2, (L2.takeWhile is_blank_line).flatten, hg, ?_, hw1, ht1b, hw2, ?_,
    ?_, ?_, ?_⟩
  · have h1 : text = text.take (line_len text) ++ (L1.flatten ++ (k ++ L2.flatten)) := by
      have h0 := splitLines_flatten text
      rw [hsl] at h0
      simpa using h0.symm
    rw [← eo, ← ek]
    simp only [List.append_assoc]
    rw [← hsplit]
    exact h1
  · rcases ht2 with h | h | h
    · right; right
      rw [h] at ek
      have hno : '\n' ∉ k := by
        rw [ek]; exact not_mem_fence_form hlf hw2
      have h0 := splitLines_unterminated hs1 hno
      subst h0
      exact ⟨h, rfl, rfl⟩
    · left; exact h
    · right; left; exact h
  · intro x hx
    rw [hS] at hx
    exact List.mem_takeWhile_imp hx
  · intro c hc
    obtain ⟨x, hx, hcx⟩ := List.mem_flatten.mp hc
    have hx2 : x ∈ L2 := (List.takeWhile_sublist _).subset hx
    have hx3 : x ∈ splitLines text := by
      rw [hsl]; simp [hx2]
    exact is_blank_line_form (List.mem_takeWhile_imp hx) (splitLines_mem_inv hx3).2 c hcx
  · intro x hx
    rw [hL1s] at hx
    exact hL1 x hx

theorem bare_decomposition_witness :
    ∃ g w1 t1 w2 t2 s,
      (g = ['-', '-', '-'] ∨ g = ['+', '+', '+'])
      ∧ "+++\na=1\n+++\n\nBody".toList
        = (g ++ w1 ++ t1) ++ (extract_front_matter_cpp "+++\na=1\n+++\n\nBody".toList).content
          ++ (g ++ w2 ++ t2) ++ s ++ (extract_front_matter_cpp "+++\na=1\n+++\n\nBody".toList).body
      ∧ (∀ x ∈ w1, is_whitespace x = true) ∧ (t1 = ['\n'] ∨ t1 = ['\r', '\n'])
      ∧ (∀ x ∈ w2, is_whitespace x = true)
      ∧ (t2 = ['\n'] ∨ t2 = ['\r', '\n']
        ∨ (t2 = [] ∧ s = []
          ∧ (extract_front_matter_cpp "+++\na=1\n+++\n\nBody".toList).body = []))
      ∧ (∀ x ∈ splitLines s, is_blank_line x = true)
      ∧ (∀ c ∈ s, c = ' ' ∨ c = '\t' ∨ c = '\n' ∨ c = '\r')
      ∧ (∀ x ∈ splitLines (extract_front_matter_cpp "+++\na=1\n+++\n\nBody".toList).content,
          fence_line g x = false) :=
  bare_decomposition "+++\na=1\n+++\n\nBody".toList (by decide) (Or.inr (by decide))

/-- Every CR of `s` is followed by LF. -/
theorem splitSegments_eq_splitLines :
    ∀ (s : List Char), (∀ a b, s = a ++ '\r' :: b → b.head? = some '\n') →
      splitSegments s = splitLines s := by
  intro s
  induction s with
  | nil => intro _; rfl
  | cons c t ih =>
    intro h
    have ht : ∀ a b, t = a ++ '\r' :: b → b.head? = some '\n' := by
      intro a b e
      exact h (c :: a) b (by rw [e]; rfl)
    rw [splitSegments, splitLines, ih ht]
    by_cases hc : c = '\n'
    · simp [hc]
    · have hcond : ¬ (c = '\n' ∨ (c = '\r' ∧ t.head? ≠ some '\n')) := by
        rintro (h1 | ⟨h1, h2⟩)
        · exact hc h1
        · exact h2 (h [] t (by rw [h1]; rfl))
      refine (if_neg hcond).trans ?_
      refine Eq.trans ?_ (if_neg hc).symm
      cases splitLines t <;> rfl

/-- C19 as stated fails: the content `# a` CR `# b` LF is one line (its CR is not
followed by LF) that starts with the marker `# `, so the claim gives the line without
its marker, `a` CR `# b` LF; `unwrap_comments` ends a line at the CR as well, and
returns `a` CR `b` LF. -/
theorem unwrap_comments_lone_cr :
    splitLines "# a\r# b\n".toList = ["# a\r# b\n".toList]
    ∧ ['#', ' '].isPrefixOf "# a\r# b\n".toList = true
    ∧ "# a\r# b\n".toList.drop 2 = "a\r# b\n".toList
    ∧ unwrap_comments "# a\r# b\n".toList ['#', ' '] = "a\rb\n".toList := by
  decide

/-- C19 (amended): for every content string and marker `p` among `# ` and `#' `,
`unwrap_comments(content, p)` is the concatenation, over the segments of `content` in
order (a segment ends at LF, at CR LF, or at a CR that is not followed by LF; the last
may be unterminated), of: the segment without its leading `p` if it starts with `p`;
nothing (terminator included) if it is the bare marker followed only by spaces and tabs;
the segment unchanged otherwise. When every CR of `content` is followed by LF the
segments are the lines of `content`. -/
theorem unwrap_comments_segments (content p : List Char)
    (hp : p = ['#', ' '] ∨ p = ['#', Char.ofNat 39, ' ']) :
    unwrap_comments content p = ((splitSegments content).map (unwrap_line p)).flatten
    ∧ (splitSegments content).flatten = content
    ∧ ((∀ a b, content = a ++ '\r' :: b → b.head? = some '\n') →
        unwrap_comments content p = ((splitLines content).map (unwrap_line p)).flatten) := by
  refine ⟨unwrap_comments_eq content p hp, splitSegments_flatten content, ?_⟩
  intro h
  rw [unwrap_comments_eq content p hp, splitSegments_eq_splitLines content h]

theorem unwrap_comments_segments_witness :
    unwrap_comments "# a\r\n#\n#x\n# b".toList ['#', ' ']
      = ((splitSegments "# a\r\n#\n#x\n# b".toList).map (unwrap_line ['#', ' '])).flatten
    ∧ (splitSegments "# a\r\n#\n#x\n# b".toList).flatten = "# a\r\n#\n#x\n# b".toList
    ∧ ((∀ a b, "# a\r\n#\n#x\n# b".toList = a ++ '\r' :: b → b.head? = some '\n') →
        unwrap_comments "# a\r\n#\n#x\n# b".toList ['#', ' ']
          = ((splitLines "# a\r\n#\n#x\n# b".toList).map (unwrap_line ['#', ' '])).flatten) :=
  unwrap_comments_segments "# a\r\n#\n#x\n# b".toList ['#', ' '] (Or.inl rfl)

end FrontMatter

namespace FrontMatter

/-! ## C12: LF and CR LF line endings -/

theorem crlf_append (a b : List Char) : crlf (a ++ b) = crlf a ++ crlf b := by
  induction a with
  | nil => rfl
  | cons c t ih =>
    rw [List.cons_append, crlf, crlf, ih]
    split_ifs <;> rfl

theorem crlf_flatten (L : List (List Char)) : crlf L.flatten = (L.map crlf).flatten := by
  induction L with
  | nil => rfl
  | cons x L ih => rw [List.flatten_cons, crlf_append, ih, List.map_cons, List.flatten_cons]

theorem crlf_cons_ne {c : Char} (t : List Char) (h : c ≠ '\n') : crlf (c :: t) = c :: crlf t := by
  rw [crlf, if_neg h]

theorem crlf_lf (t : List Char) : crlf ('\n' :: t) = '\r' :: '\n' :: crlf t := by
  rw [crlf, if_pos rfl]

theorem crlf_eq_self {s : List Char} (h : '\n' ∉ s) : crlf s = s := by
  induction s with
  | nil => rfl
  | cons c t ih =>
    have hc : c ≠ '\n' := fun e => h (by rw [e]; exact List.mem_cons_self _ _)
    rw [crlf_cons_ne t hc, ih (fun e => h (List.mem_cons_of_mem _ e))]

theorem length_le_crlf (s : List Char) : s.length ≤ (crlf s).length := by
  induction s with
  | nil => simp
  | cons c t ih =>
    rw [crlf]
    split_ifs <;> simp only [List.length_cons] <;> omega

theorem crlf_eq_nil {s : List Char} (h : crlf s = []) : s = [] := by
  have := length_le_crlf s
  rw [h] at this
  exact List.length_eq_zero.mp (by simpa using this)

theorem splitLines_cons_ne {c : Char} (hc : c ≠ '\n') (u : List Char) :
    splitLines (c :: u) = (c :: (splitLines u).headD []) :: (splitLines u).tail := by
  rw [splitLines, if_neg hc]
  cases splitLines u <;> rfl

theorem splitSegments_cons_ne {c : Char} (hc : c ≠ '\n') (hcr : c ≠ '\r') (u : List Char) :
    splitSegments (c :: u) = (c :: (splitSegments u).headD []) :: (splitSegments u).tail := by
  rw [splitSegments, if_neg (by simp [hc, hcr])]
  cases splitSegments u <;> rfl

theorem splitLines_crlf (s : List Char) : splitLines (crlf s) = (splitLines s).map crlf := by
  induction s with
  | nil => rfl
  | cons c t ih =>
    by_cases hc : c = '\n'
    · subst hc
      have h1 : splitLines ('\n' :: t) = ['\n'] :: splitLines t := by
        rw [splitLines, if_pos rfl]
      have h2 : splitLines ('\n' :: crlf t) = ['\n'] :: splitLines (crlf t) := by
        rw [splitLines, if_pos rfl]
      have h3 : splitLines ('\r' :: '\n' :: crlf t) = ['\r', '\n'] :: splitLines (crlf t) := by
        rw [splitLines, if_neg (by decide), h2]
      rw [crlf_lf, h3, h1, ih]
      rfl
    · rw [crlf_cons_ne t hc]
      rw [splitLines_cons_ne hc, splitLines_cons_ne hc, ih]
      cases splitLines t with
      | nil =>
        simp only [List.map_nil, List.headD_nil, List.tail_nil, List.map_cons,
          crlf_cons_ne [] hc]
        rfl
      | cons l ls =>
        simp only [List.map_cons, List.headD_cons, List.tail_cons]
        rw [crlf_cons_ne l hc]

theorem splitSegments_crlf (s : List Char) (hs : '\r' ∉ s) :
    splitSegments (crlf s) = (splitLines s).map crlf := by
  induction s with
  | nil => rfl
  | cons c t ih =>
    have ht : '\r' ∉ t := fun e => hs (List.mem_cons_of_mem _ e)
    have hcr : c ≠ '\r' := fun e => hs (by rw [e]; exact List.mem_cons_self _ _)
    by_cases hc : c = '\n'
    · subst hc
      have h1 : splitLines ('\n' :: t) = ['\n'] :: splitLines t := by
        rw [splitLines, if_pos rfl]
      have h2 : splitSegments ('\n' :: crlf t) = ['\n'] :: splitSegments (crlf t) := by
        rw [splitSegments, if_pos (Or.inl rfl)]
      have h3 : splitSegments ('\r' :: '\n' :: crlf t)
          = ['\r', '\n'] :: splitSegments (crlf t) := by
        rw [splitSegments, if_neg (by simp), h2]
      rw [crlf_lf, h3, h1, ih ht]
      rfl
    · rw [crlf_cons_ne t hc]
      rw [splitLines_cons_ne hc, splitSegments_cons_ne hc hcr, ih ht]
      cases splitLines t with
      | nil =>
        simp only [List.map_nil, List.headD_nil, List.tail_nil, List.map_cons,
          crlf_cons_ne [] hc]
        rfl
      | cons l ls =>
        simp only [List.map_cons, List.headD_cons, List.tail_cons]
        rw [crlf_cons_ne l hc]

theorem dropWhile_ws_crlf (s : List Char) :
    (crlf s).dropWhile is_whitespace = crlf (s.dropWhile is_whitespace) := by
  induction s with
  | nil => rfl
  | cons c t ih =>
    by_cases hw : is_whitespace c = true
    · rw [crlf_cons_ne t (is_whitespace_ne_lf hw), List.dropWhile_cons, List.dropWhile_cons]
      simp only [hw, if_true]
      exact ih
    · have e1 : (c :: t).dropWhile is_whitespace = c :: t := by
        rw [List.dropWhile_cons]; simp [hw]
      rw [e1]
      by_cases hc : c = '\n'
      · subst hc
        rw [crlf_lf, List.dropWhile_cons]
        simp [is_whitespace]
      · rw [crlf_cons_ne t hc, List.dropWhile_cons]
        simp [hw]

theorem ends_line_crlf (s : List Char) (hs : '\r' ∉ s) : ends_line (crlf s) = ends_line s := by
  cases s with
  | nil => rfl
  | cons c t =>
    have hcr : c ≠ '\r' := fun e => hs (by rw [e]; exact List.mem_cons_self _ _)
    by_cases hc : c = '\n'
    · subst hc
      rw [crlf_lf]
      rfl
    · rw [crlf_cons_ne t hc]
      have e1 : (c == '\n') = false := by rw [beq_eq_false_iff_ne]; exact hc
      have e2 : (c == '\r') = false := by rw [beq_eq_false_iff_ne]; exact hcr
      simp only [ends_line, List.isEmpty_cons, Bool.false_or, starts_newline, e1, e2,
        Bool.false_and]

theorem ends_seg_crlf (s : List Char) (hs : '\r' ∉ s) : ends_seg (crlf s) = ends_seg s := by
  cases s with
  | nil => rfl
  | cons c t =>
    by_cases hc : c = '\n'
    · subst hc
      rw [crlf_lf]
      rfl
    · rw [crlf_cons_ne t hc]
      rfl

theorem not_mem_dropWhile {s : List Char} {f : Char → Bool} {c : Char} (h : c ∉ s) :
    c ∉ s.dropWhile f :=
  fun e => h ((List.dropWhile_sublist f).subset e)

theorem not_mem_drop {s : List Char} {n : Nat} {c : Char} (h : c ∉ s) : c ∉ s.drop n :=
  fun e => h ((List.drop_sublist n s).subset e)

theorem fence_line_crlf (lit : List Char) (hlit : ∀ c ∈ lit, c ≠ '\n' ∧ c ≠ '\r') :
    ∀ s, '\r' ∉ s → fence_line lit (crlf s) = fence_line lit s := by
  induction lit with
  | nil =>
    intro s hs
    simp only [fence_line, List.isPrefixOf, List.length_nil, List.drop_zero, Bool.true_and]
    rw [dropWhile_ws_crlf, ends_line_crlf _ (not_mem_dropWhile hs)]
  | cons a m ih =>
    intro s hs
    have ha := hlit a (List.mem_cons_self _ _)
    cases s with
    | nil => rfl
    | cons c t =>
      have ht : '\r' ∉ t := fun e => hs (List.mem_cons_of_mem _ e)
      by_cases hc : c = '\n'
      · subst hc
        rw [crlf_lf, fence_line_cons_cons, fence_line_cons_cons]
        have e1 : (a == '\r') = false := by rw [beq_eq_false_iff_ne]; exact ha.2
        have e2 : (a == '\n') = false := by rw [beq_eq_false_iff_ne]; exact ha.1
        rw [e1, e2, Bool.false_and, Bool.false_and]
      · rw [crlf_cons_ne t hc, fence_line_cons_cons, fence_line_cons_cons,
          ih (fun c hc => hlit c (List.mem_cons_of_mem _ hc)) t ht]

theorem isPrefixOf_crlf (lit : List Char) (hlit : ∀ c ∈ lit, c ≠ '\n' ∧ c ≠ '\r') :
    ∀ s, lit.isPrefixOf (crlf s) = lit.isPrefixOf s := by
  induction lit with
  | nil => intro s; simp [List.isPrefixOf]
  | cons a m ih =>
    intro s
    have ha := hlit a (List.mem_cons_self _ _)
    cases s with
    | nil => rfl
    | cons c t =>
      by_cases hc : c = '\n'
      · subst hc
        rw [crlf_lf]
        have e1 : (a == '\r') = false := by rw [beq_eq_false_iff_ne]; exact ha.2
        have e2 : (a == '\n') = false := by rw [beq_eq_false_iff_ne]; exact ha.1
        simp only [List.isPrefixOf, e1, e2, Bool.false_and]
      · rw [crlf_cons_ne t hc]
        simp only [List.isPrefixOf]
        rw [ih (fun c hc => hlit c (List.mem_cons_of_mem _ hc)) t]

theorem drop_crlf_of_pfx (lit : List Char) (hlit : '\n' ∉ lit) {s : List Char}
    (h : lit <+: s) : (crlf s).drop lit.length = crlf (s.drop lit.length) := by
  obtain ⟨t, rfl⟩ := h
  rw [crlf_append, crlf_eq_self hlit]
  simp

theorem is_blank_line_crlf (l : List Char) (hl : '\r' ∉ l) :
    is_blank_line (crlf l) = is_blank_line l := by
  unfold is_blank_line
  rw [dropWhile_ws_crlf, ends_line_crlf _ (not_mem_dropWhile hl)]

theorem is_separator_line_crlf (p l : List Char)
    (hp : p = ['#', ' '] ∨ p = ['#', Char.ofNat 39, ' ']) (hl : '\r' ∉ l) :
    is_separator_line p (crlf l) = is_separator_line p l := by
  have hm : ∀ c ∈ p.dropLast, c ≠ '\n' ∧ c ≠ '\r' := by
    rcases hp with rfl | rfl <;> decide
  unfold is_separator_line is_bare_marker_line
  rw [is_blank_line_crlf l hl, dropWhile_ws_crlf, fence_line_crlf _ hm _ (not_mem_dropWhile hl)]

theorem pep_line_ok_crlf (l : List Char) (hl : '\r' ∉ l) :
    pep_line_ok (crlf l) = pep_line_ok l := by
  cases l with
  | nil => rfl
  | cons c t =>
    by_cases hc : c = '\n'
    · subst hc
      rw [crlf_lf]
      rfl
    · rw [crlf_cons_ne t hc]
      cases t with
      | nil => rfl
      | cons d u =>
        have hd : d ≠ '\r' := fun e =>
          hl (by rw [← e]; exact List.mem_cons_of_mem _ (List.mem_cons_self _ _))
        by_cases hdl : d = '\n'
        · subst hdl
          rw [crlf_lf]
          simp [pep_line_ok]
        · rw [crlf_cons_ne u hdl]
          rfl

theorem is_bare_marker_seg_crlf (m l : List Char) (hm : ∀ c ∈ m, c ≠ '\n' ∧ c ≠ '\r')
    (hl : '\r' ∉ l) : is_bare_marker_seg m (crlf l) = is_bare_marker_seg m l := by
  unfold is_bare_marker_seg
  rw [isPrefixOf_crlf m hm]
  by_cases hpre : m.isPrefixOf l = true
  · have h := List.isPrefixOf_iff_prefix.mp hpre
    rw [drop_crlf_of_pfx m (fun e => (hm _ e).1 rfl) h, dropWhile_ws_crlf,
      ends_seg_crlf _ (not_mem_dropWhile (not_mem_drop hl))]
  · simp only [hpre, Bool.false_and]

theorem unwrap_line_crlf (p l : List Char)
    (hp : p = ['#', ' '] ∨ p = ['#', Char.ofNat 39, ' ']) (hl : '\r' ∉ l) :
    unwrap_line p (crlf l) = crlf (unwrap_line p l) := by
  have h1 : ∀ c ∈ p, c ≠ '\n' ∧ c ≠ '\r' := by
    rcases hp with rfl | rfl <;> decide
  have h2 : ∀ c ∈ p.dropLast, c ≠ '\n' ∧ c ≠ '\r' := by
    rcases hp with rfl | rfl <;> decide
  unfold unwrap_line
  rw [isPrefixOf_crlf p h1, is_bare_marker_seg_crlf _ _ h2 hl]
  by_cases hpre : p.isPrefixOf l = true
  · simp only [hpre, if_true]
    exact drop_crlf_of_pfx p (fun e => (h1 _ e).1 rfl) (List.isPrefixOf_iff_prefix.mp hpre)
  · simp only [hpre, Bool.false_eq_true, if_false]
    by_cases hb : is_bare_marker_seg p.dropLast l = true
    · simp only [hb, if_true]
      rfl
    · simp only [hb, Bool.false_eq_true, if_false]

theorem not_mem_of_mem_splitLines {s l : List Char} {c : Char} (hs : c ∉ s)
    (hl : l ∈ splitLines s) : c ∉ l := by
  intro e
  apply hs
  rw [← splitLines_flatten s]
  exact List.mem_flatten.mpr ⟨l, hl, e⟩

theorem unwrap_comments_crlf (c p : List Char)
    (hp : p = ['#', ' '] ∨ p = ['#', Char.ofNat 39, ' ']) (hc : '\r' ∉ c) :
    unwrap_comments (crlf c) p = crlf (unwrap_comments c p) := by
  rw [unwrap_comments_eq _ p hp, unwrap_comments_eq _ p hp, splitSegments_crlf c hc,
    splitSegments_eq_splitLines c (by
      intro a b e
      exfalso; apply hc; rw [e]; simp),
    crlf_flatten, List.map_map, List.map_map]
  congr 1
  apply List.map_congr_left
  intro l hl
  exact unwrap_line_crlf p l hp (not_mem_of_mem_splitLines hc hl)

theorem dropWhile_map_crlf (f : List Char → Bool) :
    ∀ (L : List (List Char)), (∀ x ∈ L, f (crlf x) = f x) →
      (L.map crlf).dropWhile f = (L.dropWhile f).map crlf := by
  intro L
  induction L with
  | nil => intro _; rfl
  | cons x L ih =>
    intro h
    rw [List.map_cons, List.dropWhile_cons, List.dropWhile_cons, h x (List.mem_cons_self _ _)]
    by_cases hx : f x = true
    · simp only [hx, if_true]
      exact ih (fun y hy => h y (List.mem_cons_of_mem _ hy))
    · simp only [hx, Bool.false_eq_true, if_false, List.map_cons]

theorem trim_leading_empty_lines_crlf (b : List Char) (hb : '\r' ∉ b) :
    trim_leading_empty_lines (crlf b) = crlf (trim_leading_empty_lines b) := by
  rw [trim_leading_empty_lines_eq, trim_leading_empty_lines_eq, splitLines_crlf, crlf_flatten,
    dropWhile_map_crlf]
  intro x hx
  exact is_blank_line_crlf x (not_mem_of_mem_splitLines hb hx)

theorem trim_leading_comment_lines_crlf (b p : List Char)
    (hp : p = ['#', ' '] ∨ p = ['#', Char.ofNat 39, ' ']) (hb : '\r' ∉ b) :
    trim_leading_comment_lines (crlf b) p = crlf (trim_leading_comment_lines b p) := by
  rw [trim_leading_comment_lines_eq _ p hp, trim_leading_comment_lines_eq _ p hp, splitLines_crlf,
    crlf_flatten, dropWhile_map_crlf]
  intro x hx
  exact is_separator_line_crlf p x hp (not_mem_of_mem_splitLines hb hx)

theorem scan_block_crlf (closing : List Char) (ok : List Char → Bool)
    (hcl : ∀ c ∈ closing, c ≠ '\n' ∧ c ≠ '\r') :
    ∀ (L : List (List Char)) (acc : List Char),
      (∀ x ∈ L, '\r' ∉ x) → (∀ x ∈ L, ok (crlf x) = ok x) →
      scan_block closing ok (crlf acc) (L.map crlf)
        = (scan_block closing ok acc L).map (fun r => (crlf r.1, crlf r.2)) := by
  intro L
  induction L with
  | nil => intro acc _ _; rfl
  | cons x L ih =>
    intro acc h1 h2
    have hx := h1 x (List.mem_cons_self _ _)
    rw [List.map_cons, scan_block, scan_block, fence_line_crlf closing hcl x hx,
      h2 x (List.mem_cons_self _ _)]
    by_cases hf : fence_line closing x = true
    · simp only [hf, if_true, Option.map_some', crlf_flatten]
    · simp only [hf, Bool.false_eq_true, if_false]
      by_cases hok : ok x = true
      · simp only [hok, if_true]
        rw [← crlf_append]
        exact ih _ (fun y hy => h1 y (List.mem_cons_of_mem _ hy))
          (fun y hy => h2 y (List.mem_cons_of_mem _ hy))
      · simp only [hok, Bool.false_eq_true, if_false, Option.map_none']

theorem scan_block_cr_free (closing : List Char) (ok : List Char → Bool)
    (L : List (List Char)) (raw rest : List Char)
    (h : scan_block closing ok [] L = some (raw, rest)) (hL : ∀ x ∈ L, '\r' ∉ x) :
    '\r' ∉ raw ∧ '\r' ∉ rest := by
  obtain ⟨L1, l, L2, e1, _, _, e4, e5⟩ := scan_block_some closing ok L [] raw rest h
  subst e1 e4 e5
  constructor
  · intro e
    rw [List.nil_append] at e
    obtain ⟨x, hx, hcx⟩ := List.mem_flatten.mp e
    exact hL x (List.mem_append_left _ hx) hcx
  · intro e
    obtain ⟨x, hx, hcx⟩ := List.mem_flatten.mp e
    exact hL x (List.mem_append_right _ (List.mem_cons_of_mem _ hx)) hcx

/-- The lines after the first line of `crlf text` are those of `text`, converted. -/
theorem tail_lines_crlf (text : List Char) :
    splitLines ((crlf text).drop (line_len (crlf text)))
      = (splitLines (text.drop (line_len text))).map crlf := by
  by_cases hne : text = []
  · subst hne; rfl
  · have h1 := splitLines_crlf text
    rw [splitLines_eq hne, List.map_cons] at h1
    exact (splitLines_cons_inv h1).2.2.1

end FrontMatter

namespace FrontMatter

theorem opening_literals_free :
    ∀ b ∈ opening_literals, ∀ c ∈ b, c ≠ '\n' ∧ c ≠ '\r' := by
  decide

theorem opening_of_congr {lit : List Char} {n m : Nat} {o o2 : Opening}
    (h1 : opening_of lit n = some o) (h2 : opening_of lit m = some o2) :
    o2.format = o.format ∧ o2.fence_type = o.fence_type
      ∧ o2.is_comment_wrapped = o.is_comment_wrapped ∧ o2.comment_pfx = o.comment_pfx := by
  unfold opening_of at h1 h2
  split_ifs at h1 h2 <;> simp only [Option.some.injEq] at h1 h2 <;> subst h1 <;> subst h2 <;>
    exact ⟨rfl, rfl, rfl, rfl⟩

/-- The dispatcher commutes with the conversion of LF line endings to CR LF. -/
theorem extract_crlf (text : List Char) (hcr : '\r' ∉ text) :
    extract_front_matter_cpp (crlf text)
      = Result.mk (extract_front_matter_cpp text).found (extract_front_matter_cpp text).format
          (extract_front_matter_cpp text).fence_type
          (crlf (extract_front_matter_cpp text).content)
          (crlf (extract_front_matter_cpp text).body) := by
  have hL : ∀ x ∈ splitLines (text.drop (line_len text)), '\r' ∉ x := by
    intro x hx
    exact not_mem_of_mem_splitLines (not_mem_drop hcr) hx
  by_cases hop : is_pep723_opening text 0 text.length = true
  · -- the PEP 723 dialect
    have hop2 : is_pep723_opening (crlf text) 0 (crlf text).length = true := by
      rw [is_pep723_opening_eq_all, Bool.and_eq_true, decide_eq_true_eq] at hop ⊢
      simp only [List.drop_zero] at hop ⊢
      refine ⟨by have := length_le_crlf text; omega, ?_⟩
      rw [fence_line_crlf _ (by decide) _ hcr]
      exact hop.2
    have hs := scan_block_crlf pep723_closing_literal pep_line_ok (by decide)
      (splitLines (text.drop (line_len text))) [] hL
      (fun x hx => pep_line_ok_crlf x (hL x hx))
    rw [pep_extract_eq _ hop2, pep_extract_eq _ hop, tail_lines_crlf]
    have e0 : crlf [] = [] := rfl
    rw [e0] at hs
    rw [hs]
    cases hsc : scan_block pep723_closing_literal pep_line_ok []
        (splitLines (text.drop (line_len text))) with
    | none => rfl
    | some r =>
      obtain ⟨raw, rest⟩ := r
      obtain ⟨h1, h2⟩ := scan_block_cr_free _ _ _ _ _ hsc hL
      simp only [Option.map_some']
      rw [unwrap_comments_crlf raw _ (Or.inl rfl) h1,
        trim_leading_comment_lines_crlf rest _ (Or.inl rfl) h2]
  · by_cases hex : ∃ lit ∈ opening_literals, fence_line lit text = true
    · obtain ⟨lit, hmem, hopen⟩ := hex
      by_cases hne : lit = ['#', ' ', '/', '/', '/', ' ', 's', 'c', 'r', 'i', 'p', 't']
      · -- the PEP 723 literal on a buffer of twelve bytes
        subst hne
        have hlen : ¬ 0 + 13 ≤ text.length := by
          intro h
          apply hop
          rw [is_pep723_opening_eq_all, List.drop_zero, decide_eq_true h]
          exact hopen
        have hpre := fence_line_pfx hopen
        have heq : ['#', ' ', '/', '/', '/', ' ', 's', 'c', 'r', 'i', 'p', 't'] = text := by
          apply hpre.eq_of_length
          have := hpre.length_le
          simp only [List.length_cons, List.length_nil] at this ⊢
          omega
        subst heq
        rfl
      · obtain ⟨o, ho⟩ := opening_of_isSome lit (line_len text) hmem hne
        obtain ⟨o2, ho2⟩ := opening_of_isSome lit (line_len (crlf text)) hmem hne
        obtain ⟨c1, c2, c3, c4⟩ := opening_of_congr ho ho2
        have hfree := opening_literals_free lit hmem
        have hopen2 : fence_line lit (crlf text) = true := by
          rw [fence_line_crlf lit hfree text hcr]; exact hopen
        have hs := scan_block_crlf lit (fun _ => true) hfree
          (splitLines (text.drop (line_len text))) [] hL (fun _ _ => rfl)
        have e0 : crlf [] = [] := rfl
        rw [e0] at hs
        rw [fenced_extract_eq _ lit o2 hmem hne hopen2 ho2,
          fenced_extract_eq _ lit o hmem hne hopen ho, tail_lines_crlf, hs, c1, c2, c3, c4]
        cases hsc : scan_block lit (fun _ => true) []
            (splitLines (text.drop (line_len text))) with
        | none => rfl
        | some r =>
          obtain ⟨raw, rest⟩ := r
          obtain ⟨h1, h2⟩ := scan_block_cr_free _ _ _ _ _ hsc hL
          simp only [Option.map_some']
          rcases (opening_of_fields ho).2.2 with ⟨hw, hp⟩ | ⟨hw, _⟩
          · simp only [hw, if_true]
            rw [unwrap_comments_crlf raw _ hp h1, trim_leading_comment_lines_crlf rest _ hp h2]
          · simp only [hw, Bool.false_eq_true, if_false]
            rw [trim_leading_empty_lines_crlf rest h2]
    · have hno : ∀ b ∈ opening_literals, fence_line b text = false := by
        intro b hb
        by_contra h
        exact hex ⟨b, hb, by simpa using h⟩
      have hno2 : ∀ b ∈ opening_literals, fence_line b (crlf text) = false := by
        intro b hb
        rw [fence_line_crlf b (opening_literals_free b hb) text hcr]
        exact hno b hb
      rw [no_opening_not_found _ hno2, no_opening_not_found _ hno]
      rfl

/-- C12: for every text without a CR byte, `extract_front_matter_cpp` on `crlf(text)`
(every LF replaced by CR LF) returns the same `found`, `format` and `fence_type` as on
`text`, and its `content` and `body` are `crlf(content)` and `crlf(body)` of the result
on `text`. -/
theorem crlf_independent (text : List Char) (hcr : '\r' ∉ text) :
    (extract_front_matter_cpp (crlf text)).found = (extract_front_matter_cpp text).found
    ∧ (extract_front_matter_cpp (crlf text)).format = (extract_front_matter_cpp text).format
    ∧ (extract_front_matter_cpp (crlf text)).fence_type
        = (extract_front_matter_cpp text).fence_type
    ∧ (extract_front_matter_cpp (crlf text)).content
        = crlf (extract_front_matter_cpp text).content
    ∧ (extract_front_matter_cpp (crlf text)).body
        = crlf (extract_front_matter_cpp text).body := by
  rw [extract_crlf text hcr]
  exact ⟨rfl, rfl, rfl, rfl, rfl⟩

theorem crlf_independent_witness :
    (extract_front_matter_cpp (crlf "# ---\n# a: 1\n#\n# ---\n\n#\nBody\n".toList)).found
      = (extract_front_matter_cpp "# ---\n# a: 1\n#\n# ---\n\n#\nBody\n".toList).found
    ∧ (extract_front_matter_cpp (crlf "# ---\n# a: 1\n#\n# ---\n\n#\nBody\n".toList)).format
      = (extract_front_matter_cpp "# ---\n# a: 1\n#\n# ---\n\n#\nBody\n".toList).format
    ∧ (extract_front_matter_cpp (crlf "# ---\n# a: 1\n#\n# ---\n\n#\nBody\n".toList)).fence_type
      = (extract_front_matter_cpp "# ---\n# a: 1\n#\n# ---\n\n#\nBody\n".toList).fence_type
    ∧ (extract_front_matter_cpp (crlf "# ---\n# a: 1\n#\n# ---\n\n#\nBody\n".toList)).content
      = crlf (extract_front_matter_cpp "# ---\n# a: 1\n#\n# ---\n\n#\nBody\n".toList).content
    ∧ (extract_front_matter_cpp (crlf "# ---\n# a: 1\n#\n# ---\n\n#\nBody\n".toList)).body
      = crlf (extract_front_matter_cpp "# ---\n# a: 1\n#\n# ---\n\n#\nBody\n".toList).body :=
  crlf_independent "# ---\n# a: 1\n#\n# ---\n\n#\nBody\n".toList (by decide)

end FrontMatter

namespace FrontMatter

namespace CodeCpp

/-! ## C20: the ceilings of `find_closing_fence` in `code.cpp` -/

theorem code_glyph_test_eq (str g : List Char) (pos : Nat) :
    (byteAt str pos != byteAt g 0 || byteAt str (pos + 1) != byteAt g 1
      || byteAt str (pos + 2) != byteAt g 2) = !memcmp_eq str pos g 3 := by
  unfold memcmp_eq
  simp only [List.range_succ, List.range_zero, List.nil_append, List.cons_append, List.all_cons,
    List.all_nil, Bool.and_true, Nat.add_zero, bne, Bool.not_and, Bool.or_assoc]

/-- The two versions of `validate_fence` compute the same function. -/
theorem code_validate_fence_eq (str g : List Char) (pos len : Nat) (op : Bool) :
    validate_fence str pos len g op = FrontMatter.validate_fence str pos len g op := by
  unfold validate_fence FrontMatter.validate_fence
  rw [code_glyph_test_eq]

/-- One iteration of the loop of `find_closing_fence` at a line start. -/
theorem code_find_closing_fence_body_eq (str g : List Char) (start pos lc cs : Nat)
    (hg : g.length = 3) (hat : pos = start ∨ LineStart str pos)
    (hls : pos = 0 ∨ LineStart str pos) (hlt : pos < str.length) :
    find_closing_fence_body str start str.length g pos (lc, cs)
      = if fence_line g (str.drop pos) then Step.done pos
        else if lc + 1 > 10000 ∨ cs + line_len (str.drop pos) > 1048576 then Step.done 0
        else Step.next (pos + line_len (str.drop pos)) (lc + 1, cs + line_len (str.drop pos)) := by
  have hat2 : (pos == start || is_newline_back str pos 1 str.length
      || (decide (pos ≥ 2) && is_newline str (pos - 2) str.length)) = true := by
    rcases hat with h | h
    · simp [h]
    · have hnl := is_newline_of_lineStart h
      have h1 : 1 ≤ pos := h.1
      simp [is_newline_back, h1, hnl]
  have hv : (!false && decide (pos > 0) && !is_newline str (pos - 1) str.length
      && !(decide (pos ≥ 2) && is_newline str (pos - 2) str.length)) = false := by
    rcases hls with h | h
    · simp [h]
    · simp [is_newline_of_lineStart h]
  unfold find_closing_fence_body
  rw [code_validate_fence_eq, validate_fence_eq str g pos false hg, hat2, hv]
  simp only [Bool.false_and, Bool.false_eq_true, if_false, Bool.true_and, skip_to_next_line_eq,
    MAX_FRONT_MATTER_LINES, MAX_FRONT_MATTER_SIZE, Nat.add_sub_cancel_left]
  by_cases hf : fence_line g (str.drop pos) = true
  · have hlen := fence_line_length_le hf
    simp only [List.length_drop, hg] at hlen
    have h3 : pos + 3 ≤ str.length := by omega
    simp [hf, h3, fence_line_len]
  · simp only [hf, Bool.false_eq_true, if_false, gt_iff_lt, lt_self_iff_false, decide_False,
      Bool.and_false, Bool.or_eq_true, decide_eq_true_eq]

/-- The search stops at the first fence line when the lines and bytes before it are
within the ceilings, and gives up otherwise. -/
theorem code_loop_found (str g : List Char) (start : Nat) (hg : g.length = 3) (hlf : '\n' ∉ g)
    (l : List Char) (L2 : List (List Char)) (hl : fence_line g l = true) :
    ∀ (L1 : List (List Char)) (fuel pos lc cs : Nat),
      str.length - pos ≤ fuel → (pos = start ∨ LineStart str pos) →
      (pos = 0 ∨ LineStart str pos) → lc ≤ 10000 → cs ≤ 1048576 →
      splitLines (str.drop pos) = L1 ++ l :: L2 → (∀ x ∈ L1, fence_line g x = false) →
      while_lt str.length (find_closing_fence_body str start str.length g) (fun _ => 0)
          fuel pos (lc, cs)
        = if lc + L1.length ≤ 10000 ∧ cs + L1.flatten.length ≤ 1048576 then
            pos + L1.flatten.length
          else 0 := by
  intro L1
  induction L1 with
  | nil =>
    intro fuel pos lc cs hf hat hls hlc hcs hsp _
    obtain ⟨b1, _, _, _, b5⟩ := splitLines_cons_inv hsp
    have hlt : pos < str.length := by
      by_contra h
      exact b5 (List.drop_of_length_le (by omega))
    obtain ⟨n, rfl⟩ : ∃ n, fuel = n + 1 := ⟨fuel - 1, by omega⟩
    have hfl : fence_line g (str.drop pos) = true := by
      rw [fence_line_take_line g hlf, ← b1]; exact hl
    simp only [while_lt, hlt, if_true,
      code_find_closing_fence_body_eq str g start pos lc cs hg hat hls hlt, hfl]
    simp [hlc, hcs]
  | cons x L1 ih =>
    intro fuel pos lc cs hf hat hls hlc hcs hsp hno
    rw [List.cons_append] at hsp
    obtain ⟨b1, b2, b3, _, b5⟩ := splitLines_cons_inv hsp
    have hlt : pos < str.length := by
      by_contra h
      exact b5 (List.drop_of_length_le (by omega))
    obtain ⟨n, rfl⟩ : ∃ n, fuel = n + 1 := ⟨fuel - 1, by omega⟩
    have hx := hno x (List.mem_cons_self _ _)
    have hfl : fence_line g (str.drop pos) = false := by
      rw [fence_line_take_line g hlf, ← b1]; exact hx
    have hpos := line_len_pos b5
    simp only [while_lt, hlt, if_true,
      code_find_closing_fence_body_eq str g start pos lc cs hg hat hls hlt, hfl,
      Bool.false_eq_true, if_false]
    have hflat : (x :: L1).flatten.length = line_len (str.drop pos) + L1.flatten.length := by
      simp [b2]
    have hlen : (x :: L1).length = L1.length + 1 := rfl
    rw [hflat, hlen]
    by_cases hex : lc + 1 > 10000 ∨ cs + line_len (str.drop pos) > 1048576
    · simp only [hex, if_true]
      rw [if_neg (by omega)]
    · simp only [hex, if_false]
      have hnext : LineStart str (pos + line_len (str.drop pos)) := by
        have h1 := lineStart_after_skip str pos hlt
        rw [skip_to_next_line_eq] at h1
        rcases h1 with h1 | h1
        · exact h1
        · exfalso
          rw [List.drop_drop] at b3
          rw [List.drop_of_length_le h1] at b3
          cases L1 <;> simp [splitLines] at b3
      rw [List.drop_drop] at b3
      rw [ih n (pos + line_len (str.drop pos)) (lc + 1) (cs + line_len (str.drop pos))
        (by omega) (Or.inr hnext) (Or.inr hnext) (by omega) (by omega) b3
        (fun y hy => hno y (List.mem_cons_of_mem _ hy))]
      by_cases hc : lc + 1 + L1.length ≤ 10000
          ∧ cs + line_len (str.drop pos) + L1.flatten.length ≤ 1048576
      · rw [if_pos hc, if_pos (by omega)]
        omega
      · rw [if_neg hc, if_neg (by omega)]

/-- Without a fence line the search reports `0`. -/
theorem code_loop_none (str g : List Char) (start : Nat) (hg : g.length = 3) (hlf : '\n' ∉ g) :
    ∀ (fuel pos lc cs : Nat),
      (pos = start ∨ LineStart str pos ∨ str.length ≤ pos) →
      (pos = 0 ∨ LineStart str pos ∨ str.length ≤ pos) →
      (∀ x ∈ splitLines (str.drop pos), fence_line g x = false) →
      while_lt str.length (find_closing_fence_body str start str.length g) (fun _ => 0)
          fuel pos (lc, cs) = 0 := by
  intro fuel
  induction fuel with
  | zero => intro pos lc cs _ _ _; rfl
  | succ n ih =>
    intro pos lc cs hat hls hno
    by_cases hlt : pos < str.length
    · have hat2 : pos = start ∨ LineStart str pos := by
        rcases hat with h | h | h
        · exact Or.inl h
        · exact Or.inr h
        · omega
      have hls2 : pos = 0 ∨ LineStart str pos := by
        rcases hls with h | h | h
        · exact Or.inl h
        · exact Or.inr h
        · omega
      have hne : str.drop pos ≠ [] := by
        rw [drop_eq_cons hlt]; simp
      have hfl : fence_line g (str.drop pos) = false := by
        rw [fence_line_take_line g hlf]
        exact hno _ (mem_splitLines_take_line hne)
      simp only [while_lt, hlt, if_true,
        code_find_closing_fence_body_eq str g start pos lc cs hg hat2 hls2 hlt, hfl,
        Bool.false_eq_true, if_false]
      by_cases hex : lc + 1 > 10000 ∨ cs + line_len (str.drop pos) > 1048576
      · simp only [hex, if_true]
      · simp only [hex, if_false]
        have h1 := lineStart_after_skip str pos hlt
        rw [skip_to_next_line_eq] at h1
        apply ih _ _ _ (Or.inr h1) (Or.inr h1)
        intro y hy
        rw [← List.drop_drop] at hy
        exact hno y (mem_splitLines_drop_line hy)
    · simp only [while_lt, hlt, if_false]

/-- C20: `find_closing_fence` of `code.cpp` enforces the ceilings exactly. For a search
started where the dispatcher starts it, at a line start (offset 0, just after an LF, or
the end of the buffer): with `p` the first fence line and `n` the number of lines in
`[start_pos, p)`, the result is `p` if and only if `n <= 10000` and
`p - start_pos <= 1048576`, and `0` otherwise; without a fence line the result is `0`. -/
theorem code_find_closing_fence_ceilings (str g : List Char) (start : Nat) (hg : g.length = 3)
    (hlf : '\n' ∉ g) (hstart : start = 0 ∨ LineStart str start ∨ str.length ≤ start) :
    (∀ L1 l L2, splitLines (str.drop start) = L1 ++ l :: L2 →
      (∀ x ∈ L1, fence_line g x = false) → fence_line g l = true →
      find_closing_fence str start str.length g
        = if L1.length ≤ 10000 ∧ L1.flatten.length ≤ 1048576 then start + L1.flatten.length
          else 0)
    ∧ ((∀ x ∈ splitLines (str.drop start), fence_line g x = false) →
      find_closing_fence str start str.length g = 0) := by
  constructor
  · intro L1 l L2 hsp hno hl
    have hlt : start < str.length := by
      by_contra h
      rw [List.drop_of_length_le (by omega)] at hsp
      cases L1 <;> simp [splitLines] at hsp
    have hls : start = 0 ∨ LineStart str start := by
      rcases hstart with h | h | h
      · exact Or.inl h
      · exact Or.inr h
      · omega
    have := code_loop_found str g start hg hlf l L2 hl L1 (str.length - start) start 0 0
      (le_refl _) (Or.inl rfl) hls (by omega) (by omega) hsp hno
    simpa [find_closing_fence] using this
  · intro hno
    exact code_loop_none str g start hg hlf _ start 0 0 (Or.inl rfl) hstart hno

theorem code_find_closing_fence_ceilings_witness :
    (['-', '-', '-'] : List Char).length = 3
    ∧ '\n' ∉ (['-', '-', '-'] : List Char)
    ∧ (∀ L1 l L2, splitLines ("---\na\n---\nb\n".toList.drop 4) = L1 ++ l :: L2 →
      (∀ x ∈ L1, fence_line ['-', '-', '-'] x = false) →
      fence_line ['-', '-', '-'] l = true →
      find_closing_fence "---\na\n---\nb\n".toList 4 "---\na\n---\nb\n".toList.length
          ['-', '-', '-']
        = if L1.length ≤ 10000 ∧ L1.flatten.length ≤ 1048576 then 4 + L1.flatten.length
          else 0)
    ∧ ((∀ x ∈ splitLines ("---\na\n---\nb\n".toList.drop 4),
        fence_line ['-', '-', '-'] x = false) →
      find_closing_fence "---\na\n---\nb\n".toList 4 "---\na\n---\nb\n".toList.length
          ['-', '-', '-'] = 0) :=
  ⟨rfl, by decide,
    code_find_closing_fence_ceilings "---\na\n---\nb\n".toList ['-', '-', '-'] 4 rfl (by decide)
      (Or.inr (Or.inl ⟨by decide, by decide, by decide⟩))⟩

/-- A search that starts inside a line is outside this statement: in the buffer LF `x---`
LF with `start_pos = 2` (the byte before it is `x`) `find_closing_fence` of `code.cpp`
returns 2, because its `validate_fence` accepts offset 2 when the byte two places back is
LF. The dispatcher never starts the search inside a line. -/
theorem code_find_closing_fence_inside_line :
    byteAt "\nx---\n".toList 1 = 'x'
    ∧ validate_fence "\nx---\n".toList 2 "\nx---\n".toList.length ['-', '-', '-'] false = 6
    ∧ find_closing_fence "\nx---\n".toList 2 "\nx---\n".toList.length ['-', '-', '-'] = 2 := by
  decide

end CodeCpp

end FrontMatter

namespace FrontMatter

/-! ## C23: `skip_to_next_line` and the first LF -/

theorem line_len_first_lf :
    ∀ (s : List Char) (k : Nat), k < s.length → byteAt s k = '\n' →
      (∀ j, j < k → byteAt s j ≠ '\n') → line_len s = k + 1 := by
  intro s
  induction s with
  | nil => intro k hk; simp at hk
  | cons c t ih =>
    intro k hk hb hno
    cases k with
    | zero =>
      rw [byteAt_cons_zero] at hb
      simp [line_len, hb]
    | succ n =>
      have hc : c ≠ '\n' := by
        have := hno 0 (Nat.succ_pos n)
        rwa [byteAt_cons_zero] at this
      rw [line_len_cons_ne t hc]
      rw [byteAt_cons_succ] at hb
      rw [ih n (by simpa using hk) hb (fun j hj => by
        have := hno (j + 1) (by omega)
        rwa [byteAt_cons_succ] at this)]

theorem line_len_no_lf :
    ∀ (s : List Char), (∀ j, j < s.length → byteAt s j ≠ '\n') → line_len s = s.length := by
  intro s
  induction s with
  | nil => intro _; rfl
  | cons c t ih =>
    intro hno
    have hc : c ≠ '\n' := by
      have := hno 0 (by simp)
      rwa [byteAt_cons_zero] at this
    rw [line_len_cons_ne t hc, ih (fun j hj => by
      have := hno (j + 1) (by simpa using hj)
      rwa [byteAt_cons_succ] at this)]
    rfl

/-- C23: for every buffer and every `pos <= len`, `skip_to_next_line(pos)` returns
`k + 1` where `k` is the index of the first LF at or after `pos`, and `len` when no LF
occurs at or after `pos`; only LF bytes decide the result, so a CR that is not followed
by LF never ends a line. -/
theorem skip_to_next_line_first_lf (str : List Char) (pos : Nat) (hpos : pos ≤ str.length) :
    (∀ k, pos ≤ k → k < str.length → byteAt str k = '\n' →
      (∀ j, pos ≤ j → j < k → byteAt str j ≠ '\n') →
      skip_to_next_line str pos str.length = k + 1)
    ∧ ((∀ j, pos ≤ j → j < str.length → byteAt str j ≠ '\n') →
      skip_to_next_line str pos str.length = str.length) := by
  constructor
  · intro k hk hlt hb hno
    rw [skip_to_next_line_eq, line_len_first_lf (str.drop pos) (k - pos)
      (by rw [List.length_drop]; omega)
      (by rw [byteAt_drop]; rw [show pos + (k - pos) = k by omega]; exact hb)
      (fun j hj => by
        rw [byteAt_drop]
        exact hno (pos + j) (by omega) (by omega))]
    omega
  · intro hno
    rw [skip_to_next_line_eq, line_len_no_lf (str.drop pos) (fun j hj => by
      rw [byteAt_drop]
      rw [List.length_drop] at hj
      exact hno (pos + j) (by omega) (by omega)), List.length_drop]
    omega

theorem skip_to_next_line_first_lf_witness :
    (∀ k, 0 ≤ k → k < "a\rb\r\nc".toList.length → byteAt "a\rb\r\nc".toList k = '\n' →
      (∀ j, 0 ≤ j → j < k → byteAt "a\rb\r\nc".toList j ≠ '\n') →
      skip_to_next_line "a\rb\r\nc".toList 0 "a\rb\r\nc".toList.length = k + 1)
    ∧ ((∀ j, 0 ≤ j → j < "a\rb\r\nc".toList.length → byteAt "a\rb\r\nc".toList j ≠ '\n') →
      skip_to_next_line "a\rb\r\nc".toList 0 "a\rb\r\nc".toList.length
        = "a\rb\r\nc".toList.length) :=
  skip_to_next_line_first_lf "a\rb\r\nc".toList 0 (by decide)

/-! ## C24: the `0` sentinel of `validate_fence` -/

theorem detect_opening_some (text : List Char) (o : Opening)
    (h : detect_opening text text.length = some o) :
    ∃ lit, lit ∈ opening_literals
      ∧ lit ≠ ['#', ' ', '/', '/', '/', ' ', 's', 'c', 'r', 'i', 'p', 't']
      ∧ fence_line lit text = true ∧ opening_of lit (line_len text) = some o := by
  rcases detect_opening_cases text o h with ⟨h1, rfl⟩ | ⟨h1, rfl⟩ | ⟨h1, rfl⟩ | ⟨h1, rfl⟩
    | ⟨h1, rfl⟩ | ⟨h1, rfl⟩
  all_goals exact ⟨_, by decide, by decide, h1, rfl⟩

theorem three_le_of_mem_opening_literals :
    ∀ lit ∈ opening_literals, 3 ≤ lit.length ∧ '\n' ∉ lit := by
  decide

theorem fence_line_line_len {lit s : List Char} (hlf : '\n' ∉ lit)
    (h : fence_line lit s = true) : lit.length ≤ line_len s ∧ line_len s ≤ s.length := by
  have h2 := fence_line_len_eq lit hlf s h
  unfold fence_line_len at h2
  exact ⟨by omega, line_len_le s⟩

theorem closing_pre_iff (op a b : Bool) (pos : Nat) :
    (!op && decide (pos > 0) && !a && !(decide (pos ≥ 2) && b)) = true
      ↔ (op = false ∧ 0 < pos ∧ a = false ∧ ¬ (2 ≤ pos ∧ b = true)) := by
  by_cases h0 : 0 < pos <;> by_cases h2 : 2 ≤ pos <;> cases op <;> cases a <;> cases b <;>
    simp [h0, h2]

/-- C24: `validate_fence` returns `0` exactly when it rejects, that is when an opening
fence is asked for away from offset 0, or a closing fence fails the line-start test, or
the suffix at `pos` is not the glyph followed by spaces and tabs up to the end of the
line; on acceptance it returns an offset `r` with `pos + 3 <= r <= len`, one past the
terminator of the fence line (`len` for an unterminated last line). So the opening fence
found by the dispatcher ends at an offset `>= 3`, and the closing-fence search that
starts there returns `0` only when no line is a closing fence. -/
theorem validate_fence_sentinel (str g : List Char) (pos : Nat) (op : Bool)
    (hg : g.length = 3) (hlf : '\n' ∉ g) :
    (validate_fence str pos str.length g op ≠ 0
      ↔ (¬ (op = true ∧ pos ≠ 0)
        ∧ ¬ (op = false ∧ 0 < pos ∧ is_newline str (pos - 1) str.length = false
            ∧ ¬ (2 ≤ pos ∧ is_newline str (pos - 2) str.length = true))
        ∧ fence_line g (str.drop pos) = true))
    ∧ (validate_fence str pos str.length g op ≠ 0 →
        pos + 3 ≤ validate_fence str pos str.length g op
        ∧ validate_fence str pos str.length g op ≤ str.length
        ∧ validate_fence str pos str.length g op = skip_to_next_line str pos str.length)
    ∧ (∀ text o, detect_opening text text.length = some o →
        3 ≤ o.opening_end
        ∧ (closing_start_of text text.length o = 0
          ↔ ∀ l ∈ splitLines (text.drop o.opening_end),
              fence_line (o.comment_pfx ++ o.fence_chars) l = false)) := by
  have hv := validate_fence_eq str g pos op hg
  have hacc : fence_line g (str.drop pos) = true →
      pos + 3 ≤ pos + fence_line_len 3 (str.drop pos)
      ∧ pos + fence_line_len 3 (str.drop pos) ≤ str.length
      ∧ pos + fence_line_len 3 (str.drop pos) = skip_to_next_line str pos str.length := by
    intro hf
    have h1 := fence_line_len_eq g hlf _ hf
    rw [hg] at h1
    have h2 := fence_line_line_len hlf hf
    rw [hg, List.length_drop] at h2
    have h3 := fence_line_length_le hf
    rw [hg, List.length_drop] at h3
    rw [skip_to_next_line_eq, h1]
    omega
  refine ⟨?_, ?_, ?_⟩
  · rw [hv]
    split_ifs with h1 h2 hf
    · constructor
      · intro h; exact absurd rfl h
      · rintro ⟨a, _, _⟩
        exfalso; apply a
        simpa using h1
    · constructor
      · intro h; exact absurd rfl h
      · rintro ⟨_, a, _⟩
        exfalso; apply a
        exact (closing_pre_iff _ _ _ _).mp h2
    · constructor
      · intro _
        refine ⟨?_, ?_, hf⟩
        · intro hc; apply h1; simpa using hc
        · intro hc; apply h2; exact (closing_pre_iff _ _ _ _).mpr hc
      · intro _
        have := hacc hf
        omega
    · constructor
      · intro h; exact absurd rfl h
      · rintro ⟨_, _, a⟩
        exact absurd a hf
  · intro hne
    rw [hv] at hne ⊢
    split_ifs at hne ⊢ with h1 h2 hf
    · exact absurd rfl hne
    · exact absurd rfl hne
    · exact hacc hf
    · exact absurd rfl hne
  · intro text o hdet
    obtain ⟨lit, hmem, hne, hopen, ho⟩ := detect_opening_some text o hdet
    obtain ⟨hoe, hlit, _⟩ := opening_of_fields ho
    obtain ⟨h3, hlf2⟩ := three_le_of_mem_opening_literals lit hmem
    have hll := (fence_line_line_len hlf2 hopen).1
    have hcs := closing_start_of_eq text o lit hmem ho
    rw [hoe, ← hlit]
    refine ⟨by omega, ?_⟩
    cases hff : first_fence lit (splitLines (text.drop (line_len text))) with
    | none =>
      rw [hff] at hcs
      have hcs2 : closing_start_of text text.length o = 0 := hcs
      simp only [hcs2, true_iff]
      exact first_fence_eq_none lit _ hff
    | some k =>
      rw [hff] at hcs
      have hcs2 : closing_start_of text text.length o = line_len text + k := hcs
      rw [hcs2]
      constructor
      · intro h0; omega
      · intro hall
        rw [first_fence_none lit _ hall] at hff
        exact absurd hff (by simp)

theorem validate_fence_sentinel_witness :
    (validate_fence "---\na\n---\n".toList 6 "---\na\n---\n".toList.length ['-', '-', '-'] false ≠ 0
      ↔ (¬ (false = true ∧ 6 ≠ 0)
        ∧ ¬ (false = false ∧ 0 < 6
            ∧ is_newline "---\na\n---\n".toList (6 - 1) "---\na\n---\n".toList.length = false
            ∧ ¬ (2 ≤ 6
              ∧ is_newline "---\na\n---\n".toList (6 - 2) "---\na\n---\n".toList.length = true))
        ∧ fence_line ['-', '-', '-'] ("---\na\n---\n".toList.drop 6) = true))
    ∧ (validate_fence "---\na\n---\n".toList 6 "---\na\n---\n".toList.length ['-', '-', '-'] false
          ≠ 0 →
        6 + 3 ≤ validate_fence "---\na\n---\n".toList 6 "---\na\n---\n".toList.length
            ['-', '-', '-'] false
        ∧ validate_fence "---\na\n---\n".toList 6 "---\na\n---\n".toList.length
            ['-', '-', '-'] false ≤ "---\na\n---\n".toList.length
        ∧ validate_fence "---\na\n---\n".toList 6 "---\na\n---\n".toList.length
            ['-', '-', '-'] false
          = skip_to_next_line "---\na\n---\n".toList 6 "---\na\n---\n".toList.length)
    ∧ (∀ text o, detect_opening text text.length = some o →
        3 ≤ o.opening_end
        ∧ (closing_start_of text text.length o = 0
          ↔ ∀ l ∈ splitLines (text.drop o.opening_end),
              fence_line (o.comment_pfx ++ o.fence_chars) l = false)) :=
  validate_fence_sentinel "---\na\n---\n".toList ['-', '-', '-'] 6 false (by decide) (by decide)

end FrontMatter

namespace FrontMatter

/-! ## C26: every loop moves forward and stays inside the buffer -/

theorem find_closing_fence_body_bounded (str g : List Char) (start : Nat) :
    Bounded str.length (find_closing_fence_body str start str.length g) := by
  intro pos s pos1 s1 hp hb
  unfold find_closing_fence_body at hb
  simp only at hb
  split_ifs at hb
  simp only [Step.next.injEq] at hb
  rw [← hb.1]
  exact skip_to_next_line_le (by omega)

theorem find_comment_closing_fence_body_bounded (str g pfx : List Char) (start : Nat) :
    Bounded str.length (find_comment_closing_fence_body str start str.length g pfx) := by
  intro pos s pos1 s1 hp hb
  unfold find_comment_closing_fence_body at hb
  simp only at hb
  split_ifs at hb
  all_goals
    simp only [Step.next.injEq] at hb
    rw [← hb.1]
    exact skip_to_next_line_le (by omega)

theorem pep723_body_bounded (text : List Char) (cs : Nat) :
    Bounded text.length (extract_pep723_body text text.length cs) := by
  intro pos s pos1 s1 hp hb
  rw [extract_pep723_body_eq text cs pos hp] at hb
  split_ifs at hb
  simp only [Step.next.injEq] at hb
  rw [← hb.1]
  have := line_len_le (text.drop pos)
  rw [List.length_drop] at this
  omega

theorem trim_leading_empty_lines_body_bounded (body : List Char) :
    Bounded body.length (trim_leading_empty_lines_body body body.length) := by
  intro pos s pos1 s1 hp hb
  rw [trim_leading_empty_lines_body_eq body pos] at hb
  split_ifs at hb
  simp only [Step.next.injEq] at hb
  rw [← hb.1]
  have := line_len_le (body.drop pos)
  rw [List.length_drop] at this
  omega

theorem trim_leading_comment_lines_body_bounded (body p : List Char)
    (hp : p = ['#', ' '] ∨ p = ['#', Char.ofNat 39, ' ']) :
    Bounded body.length (trim_leading_comment_lines_body body p body.length) := by
  intro pos s pos1 s1 hlt hb
  rw [trim_leading_comment_lines_body_eq body p hp pos] at hb
  split_ifs at hb
  simp only [Step.next.injEq] at hb
  rw [← hb.1]
  have := line_len_le (body.drop pos)
  rw [List.length_drop] at this
  omega

theorem unwrap_comments_body_bounded (data p : List Char)
    (hp : p = ['#', ' '] ∨ p = ['#', Char.ofNat 39, ' ']) :
    Bounded data.length (unwrap_comments_body data p data.length) := by
  intro pos s pos1 s1 hlt hb
  rw [unwrap_comments_body_eq data p hp pos s hlt] at hb
  simp only [Step.next.injEq] at hb
  rw [← hb.1]
  have := seg_len_le (data.drop pos)
  rw [List.length_drop] at this
  omega

/-- C26: `extract_front_matter_cpp` terminates on every input. Each iteration of each
scanning loop (`find_closing_fence`, `find_comment_closing_fence`, the PEP 723 line scan,
`unwrap_comments`, `trim_leading_empty_lines`, `trim_leading_comment_lines`) strictly
increases its cursor and leaves it at most at the buffer length, and
`skip_to_next_line(pos) > pos` whenever `pos < len`. Hence each loop, started at `pos`,
stops within `len - pos` iterations: with any larger bound on the number of iterations
it returns the same result. -/
theorem scanner_terminates (str g p : List Char) (start cs : Nat)
    (hp : p = ['#', ' '] ∨ p = ['#', Char.ofNat 39, ' ']) :
    (∀ pos, pos < str.length →
      pos < skip_to_next_line str pos str.length
      ∧ skip_to_next_line str pos str.length ≤ str.length)
    ∧ (Advances str.length (find_closing_fence_body str start str.length g)
      ∧ Bounded str.length (find_closing_fence_body str start str.length g))
    ∧ (Advances str.length (find_comment_closing_fence_body str start str.length g p)
      ∧ Bounded str.length (find_comment_closing_fence_body str start str.length g p))
    ∧ (Advances str.length (extract_pep723_body str str.length cs)
      ∧ Bounded str.length (extract_pep723_body str str.length cs))
    ∧ (Advances str.length (unwrap_comments_body str p str.length)
      ∧ Bounded str.length (unwrap_comments_body str p str.length))
    ∧ (Advances str.length (trim_leading_empty_lines_body str str.length)
      ∧ Bounded str.length (trim_leading_empty_lines_body str str.length))
    ∧ (Advances str.length (trim_leading_comment_lines_body str p str.length)
      ∧ Bounded str.length (trim_leading_comment_lines_body str p str.length))
    ∧ (∀ fuel, str.length - start ≤ fuel →
      while_lt str.length (find_closing_fence_body str start str.length g) (fun _ => 0)
          fuel start ()
        = find_closing_fence str start str.length g)
    ∧ (∀ fuel, str.length - start ≤ fuel →
      while_lt str.length (find_comment_closing_fence_body str start str.length g p)
          (fun _ => 0) fuel start ()
        = find_comment_closing_fence str start str.length g p)
    ∧ (∀ fuel, str.length - skip_to_next_line str 0 str.length ≤ fuel →
      is_pep723_opening str 0 str.length = true →
      while_lt str.length
          (extract_pep723_body str str.length (skip_to_next_line str 0 str.length))
          (fun _ => not_found str) fuel (skip_to_next_line str 0 str.length) ()
        = extract_pep723 str)
    ∧ (∀ fuel, str.length ≤ fuel →
      while_lt str.length (unwrap_comments_body str p str.length) (fun result => result)
          fuel 0 []
        = unwrap_comments str p)
    ∧ (∀ fuel, str.length ≤ fuel →
      while_lt str.length (trim_leading_empty_lines_body str str.length) (fun _ => [])
          fuel 0 ()
        = trim_leading_empty_lines str)
    ∧ (∀ fuel, str.length ≤ fuel →
      while_lt str.length (trim_leading_comment_lines_body str p str.length) (fun _ => [])
          fuel 0 ()
        = trim_leading_comment_lines str p) := by
  refine ⟨fun pos h => ⟨skip_to_next_line_gt h, skip_to_next_line_le (by omega)⟩,
    ⟨find_closing_fence_body_advances str g start, find_closing_fence_body_bounded str g start⟩,
    ⟨find_comment_closing_fence_body_advances str g p start,
      find_comment_closing_fence_body_bounded str g p start⟩,
    ⟨pep723_body_advances str cs, pep723_body_bounded str cs⟩,
    ⟨unwrap_comments_body_advances str p, unwrap_comments_body_bounded str p hp⟩,
    ⟨trim_leading_empty_lines_body_advances str, trim_leading_empty_lines_body_bounded str⟩,
    ⟨trim_leading_comment_lines_body_advances str p,
      trim_leading_comment_lines_body_bounded str p hp⟩, ?_, ?_, ?_, ?_, ?_, ?_⟩
  · intro fuel hf
    exact while_lt_fuel_irrelevant (find_closing_fence_body_advances str g start) _ _ _ _ hf
      (le_refl _)
  · intro fuel hf
    exact while_lt_fuel_irrelevant (find_comment_closing_fence_body_advances str g p start)
      _ _ _ _ hf (le_refl _)
  · intro fuel hf hopen
    unfold extract_pep723
    simp only [hopen, Bool.not_true, Bool.false_eq_true, if_false]
    exact while_lt_fuel_irrelevant (pep723_body_advances str _) _ _ _ _ hf (le_refl _)
  · intro fuel hf
    exact while_lt_fuel_irrelevant (unwrap_comments_body_advances str p) _ _ _ _ (by omega)
      (by omega)
  · intro fuel hf
    exact while_lt_fuel_irrelevant (trim_leading_empty_lines_body_advances str) _ _ _ _
      (by omega) (by omega)
  · intro fuel hf
    exact while_lt_fuel_irrelevant (trim_leading_comment_lines_body_advances str p) _ _ _ _
      (by omega) (by omega)

theorem scanner_terminates_witness :
    ((['#', ' '] : List Char) = ['#', ' '] ∨ (['#', ' '] : List Char) = ['#', Char.ofNat 39, ' '])
    ∧ (∀ pos, pos < "# ---\n# a\n# ---\n".toList.length →
      pos < skip_to_next_line "# ---\n# a\n# ---\n".toList pos "# ---\n# a\n# ---\n".toList.length
      ∧ skip_to_next_line "# ---\n# a\n# ---\n".toList pos "# ---\n# a\n# ---\n".toList.length ≤
          "# ---\n# a\n# ---\n".toList.length)
    ∧ (Advances "# ---\n# a\n# ---\n".toList.length (find_closing_fence_body
        "# ---\n# a\n# ---\n".toList 6 "# ---\n# a\n# ---\n".toList.length ['-', '-', '-'])
      ∧ Bounded "# ---\n# a\n# ---\n".toList.length (find_closing_fence_body
          "# ---\n# a\n# ---\n".toList 6 "# ---\n# a\n# ---\n".toList.length ['-', '-', '-']))
    ∧ (Advances "# ---\n# a\n# ---\n".toList.length (find_comment_closing_fence_body
        "# ---\n# a\n# ---\n".toList 6 "# ---\n# a\n# ---\n".toList.length ['-', '-', '-'] ['#',
        ' '])
      ∧ Bounded "# ---\n# a\n# ---\n".toList.length (find_comment_closing_fence_body
          "# ---\n# a\n# ---\n".toList 6 "# ---\n# a\n# ---\n".toList.length ['-', '-', '-'] ['#',
          ' ']))
    ∧ (Advances "# ---\n# a\n# ---\n".toList.length (extract_pep723_body
        "# ---\n# a\n# ---\n".toList "# ---\n# a\n# ---\n".toList.length 6)
      ∧ Bounded "# ---\n# a\n# ---\n".toList.length (extract_pep723_body
          "# ---\n# a\n# ---\n".toList "# ---\n# a\n# ---\n".toList.length 6))
    ∧ (Advances "# ---\n# a\n# ---\n".toList.length (unwrap_comments_body
        "# ---\n# a\n# ---\n".toList ['#', ' '] "# ---\n# a\n# ---\n".toList.length)
      ∧ Bounded "# ---\n# a\n# ---\n".toList.length (unwrap_comments_body
          "# ---\n# a\n# ---\n".toList ['#', ' '] "# ---\n# a\n# ---\n".toList.length))
    ∧ (Advances "# ---\n# a\n# ---\n".toList.length (trim_leading_empty_lines_body
        "# ---\n# a\n# ---\n".toList "# ---\n# a\n# ---\n".toList.length)
      ∧ Bounded "# ---\n# a\n# ---\n".toList.length (trim_leading_empty_lines_body
          "# ---\n# a\n# ---\n".toList "# ---\n# a\n# ---\n".toList.length))
    ∧ (Advances "# ---\n# a\n# ---\n".toList.length (trim_leading_comment_lines_body
        "# ---\n# a\n# ---\n".toList ['#', ' '] "# ---\n# a\n# ---\n".toList.length)
      ∧ Bounded "# ---\n# a\n# ---\n".toList.length (trim_leading_comment_lines_body
          "# ---\n# a\n# ---\n".toList ['#', ' '] "# ---\n# a\n# ---\n".toList.length))
    ∧ (∀ fuel, "# ---\n# a\n# ---\n".toList.length - 6 ≤ fuel →
      while_lt "# ---\n# a\n# ---\n".toList.length (find_closing_fence_body
          "# ---\n# a\n# ---\n".toList 6 "# ---\n# a\n# ---\n".toList.length ['-', '-', '-']) (fun
          _ => 0)
          fuel 6 ()
        = find_closing_fence "# ---\n# a\n# ---\n".toList 6 "# ---\n# a\n# ---\n".toList.length
            ['-', '-', '-'])
    ∧ (∀ fuel, "# ---\n# a\n# ---\n".toList.length - 6 ≤ fuel →
      while_lt "# ---\n# a\n# ---\n".toList.length (find_comment_closing_fence_body
          "# ---\n# a\n# ---\n".toList 6 "# ---\n# a\n# ---\n".toList.length ['-', '-', '-'] ['#',
          ' '])
          (fun _ => 0) fuel 6 ()
        = find_comment_closing_fence "# ---\n# a\n# ---\n".toList 6
            "# ---\n# a\n# ---\n".toList.length ['-', '-', '-'] ['#', ' '])
    ∧ (∀ fuel, "# ---\n# a\n# ---\n".toList.length - skip_to_next_line
        "# ---\n# a\n# ---\n".toList 0 "# ---\n# a\n# ---\n".toList.length ≤ fuel →
      is_pep723_opening "# ---\n# a\n# ---\n".toList 0 "# ---\n# a\n# ---\n".toList.length = true →
      while_lt "# ---\n# a\n# ---\n".toList.length
          (extract_pep723_body "# ---\n# a\n# ---\n".toList "# ---\n# a\n# ---\n".toList.length
              (skip_to_next_line "# ---\n# a\n# ---\n".toList 0
              "# ---\n# a\n# ---\n".toList.length))
          (fun _ => not_found "# ---\n# a\n# ---\n".toList) fuel (skip_to_next_line
              "# ---\n# a\n# ---\n".toList 0 "# ---\n# a\n# ---\n".toList.length) ()
        = extract_pep723 "# ---\n# a\n# ---\n".toList)
    ∧ (∀ fuel, "# ---\n# a\n# ---\n".toList.length ≤ fuel →
      while_lt "# ---\n# a\n# ---\n".toList.length (unwrap_comments_body
          "# ---\n# a\n# ---\n".toList ['#', ' '] "# ---\n# a\n# ---\n".toList.length) (fun result
          => result)
          fuel 0 []
        = unwrap_comments "# ---\n# a\n# ---\n".toList ['#', ' '])
    ∧ (∀ fuel, "# ---\n# a\n# ---\n".toList.length ≤ fuel →
      while_lt "# ---\n# a\n# ---\n".toList.length (trim_leading_empty_lines_body
          "# ---\n# a\n# ---\n".toList "# ---\n# a\n# ---\n".toList.length) (fun _ => [])
          fuel 0 ()
        = trim_leading_empty_lines "# ---\n# a\n# ---\n".toList)
    ∧ (∀ fuel, "# ---\n# a\n# ---\n".toList.length ≤ fuel →
      while_lt "# ---\n# a\n# ---\n".toList.length (trim_leading_comment_lines_body
          "# ---\n# a\n# ---\n".toList ['#', ' '] "# ---\n# a\n# ---\n".toList.length) (fun _ =>
          [])
          fuel 0 ()
        = trim_leading_comment_lines "# ---\n# a\n# ---\n".toList ['#', ' ']) :=
  ⟨Or.inl rfl,
    scanner_terminates "# ---\n# a\n# ---\n".toList ['-', '-', '-'] ['#', ' '] 6 6 (Or.inl rfl)⟩

end FrontMatter

namespace FrontMatter

/-! ## C28: the first closing fence wins -/

theorem line_len_le_of_mem {x : List Char} (h : '\n' ∈ x) :
    ∃ a b, x = a ++ '\n' :: b ∧ line_len x = a.length + 1 := by
  induction x with
  | nil => simp at h
  | cons c t ih =>
    by_cases hc : c = '\n'
    · exact ⟨[], t, by rw [hc]; rfl, by simp [line_len, hc]⟩
    · have ht : '\n' ∈ t := by
        rcases List.mem_cons.mp h with h1 | h1
        · exact absurd h1.symm hc
        · exact h1
      obtain ⟨a, b, e1, e2⟩ := ih ht
      exact ⟨c :: a, b, by rw [e1]; rfl, by rw [line_len_cons_ne t hc, e2]; rfl⟩

/-- A line that holds an LF ends with it. -/
theorem line_getLast {x : List Char} (hline : line_len x = x.length) (h : '\n' ∈ x) :
    x.getLast? = some '\n' := by
  obtain ⟨a, b, e1, e2⟩ := line_len_le_of_mem h
  have hb : b = [] := by
    have h2 : x.length = a.length + 1 + b.length := by
      rw [e1]; simp only [List.length_append, List.length_cons]; omega
    exact List.length_eq_zero.mp (by omega)
  rw [e1, hb]
  simp

/-- The lines before another line all end with LF. -/
theorem flatten_getLast (L1 : List (List Char)) {s k : List Char} {L2 : List (List Char)}
    (h : splitLines s = L1 ++ k :: L2) :
    L1.flatten = [] ∨ L1.flatten.getLast? = some '\n' := by
  rcases List.eq_nil_or_concat L1 with h0 | ⟨A, x, hA⟩
  · left; rw [h0]; rfl
  · right
    subst hA
    have hsp : splitLines s = A ++ x :: k :: L2 := by
      rw [h]; simp
    obtain ⟨_, _, a3⟩ := splitLines_append_inv A hsp
    have hx := splitLines_mem_inv (s := s) (l := x) (by rw [hsp]; simp)
    have hlf : '\n' ∈ x := by
      by_contra hno
      have := splitLines_unterminated a3 hno
      simp at this
    have hlast := line_getLast hx.2 hlf
    rw [List.concat_eq_append, List.flatten_append, List.flatten_cons, List.flatten_nil,
      List.append_nil, List.getLast?_append, hlast]
    rfl

/-- C28: for every text on which `extract_front_matter_cpp` returns `found = true` with
`fence_type` `yaml` or `toml`, the content is empty or ends with LF, no line of the
content is a closing fence line (the glyph followed only by spaces and tabs), and the
line right after the content is one: the block ends at the first closing fence line
after the opening line. -/
theorem first_closing_fence_wins (text : List Char)
    (hfound : (extract_front_matter_cpp text).found = true)
    (hft : (extract_front_matter_cpp text).fence_type = "yaml"
      ∨ (extract_front_matter_cpp text).fence_type = "toml") :
    ∃ g o k L2,
      (g = ['-', '-', '-'] ∨ g = ['+', '+', '+'])
      ∧ ((extract_front_matter_cpp text).content = []
        ∨ (extract_front_matter_cpp text).content.getLast? = some '\n')
      ∧ (∀ x ∈ splitLines (extract_front_matter_cpp text).content, fence_line g x = false)
      ∧ splitLines text
        = o :: (splitLines (extract_front_matter_cpp text).content ++ k :: L2)
      ∧ fence_line g o = true ∧ fence_line g k = true := by
  obtain ⟨lit, fmt, ft, L1, k, L2, hd, hopen, hsl, hL1, hk, hres⟩ :=
    found_decomposition text hfound
  rw [hres] at hft ⊢
  simp only at hft ⊢
  obtain ⟨hg, hcl, hm⟩ := bare_dialect hd hft
  rw [hcl] at hL1 hk
  have hlf : '\n' ∉ lit := (dialect_literal_no_lf _ hd).1
  have hsp : splitLines (text.drop (line_len text)) = L1 ++ k :: L2 := by
    have h0 : splitLines text = [text.take (line_len text)] ++ (L1 ++ k :: L2) := by
      rw [hsl]; rfl
    have h1 := (splitLines_append_inv _ h0).2.2
    simp only [List.flatten_cons, List.flatten_nil, List.append_nil, List.length_take] at h1
    rw [Nat.min_eq_left (line_len_le text)] at h1
    exact h1
  have hL1s : splitLines L1.flatten = L1 := splitLines_flatten_left L1 hsp
  simp only [hm, if_true]
  refine ⟨lit, text.take (line_len text), k, L2, hg, flatten_getLast L1 hsp, ?_, ?_, ?_, hk⟩
  · intro x hx
    rw [hL1s] at hx
    exact hL1 x hx
  · rw [hL1s]; exact hsl
  · rw [← fence_line_take_line lit hlf]; exact hopen

theorem first_closing_fence_wins_witness :
    ∃ g o k L2,
      (g = ['-', '-', '-'] ∨ g = ['+', '+', '+'])
      ∧ ((extract_front_matter_cpp "---\na: 1\n--- x\n---\nb\n---\n".toList).content = []
        ∨ (extract_front_matter_cpp "---\na: 1\n--- x\n---\nb\n---\n".toList).content.getLast?
          = some '\n')
      ∧ (∀ x ∈ splitLines
            (extract_front_matter_cpp "---\na: 1\n--- x\n---\nb\n---\n".toList).content,
          fence_line g x = false)
      ∧ splitLines "---\na: 1\n--- x\n---\nb\n---\n".toList
        = o :: (splitLines
            (extract_front_matter_cpp "---\na: 1\n--- x\n---\nb\n---\n".toList).content
          ++ k :: L2)
      ∧ fence_line g o = true ∧ fence_line g k = true :=
  first_closing_fence_wins "---\na: 1\n--- x\n---\nb\n---\n".toList (by decide)
    (Or.inl (by decide))

end FrontMatter

namespace FrontMatter

namespace CodeCpp

/-! ## C25: the bytes read by `check_comment_fence` of `code.cpp` -/

/-- The function `check_comment_fence` through its two chains of byte tests. -/
theorem code_check_comment_fence_chain (str g : List Char) (pos len : Nat) :
    check_comment_fence str pos len g
      = if decide (pos + 5 ≤ len) && chain_holds str (hash_chain pos g) then (5, ['#', ' '])
        else if decide (pos + 5 ≤ len) && chain_holds str (roxy_chain pos g) then
          (6, ['#', Char.ofNat 39, ' '])
        else (0, []) := by
  unfold check_comment_fence
  simp only [chain_holds, hash_chain, roxy_chain, Bool.and_true, Bool.and_assoc]

theorem chain_reads_subset (str : List Char) :
    ∀ (ts : List (Nat × Char)) (i : Nat), i ∈ chain_reads str ts → i ∈ ts.map Prod.fst := by
  intro ts
  induction ts with
  | nil => intro i h; simp [chain_reads] at h
  | cons t rest ih =>
    intro i h
    rw [chain_reads] at h
    rcases List.mem_cons.mp h with h1 | h1
    · rw [h1]; simp
    · split_ifs at h1
      · simp only [List.map_cons, List.mem_cons]
        right; exact ih i h1
      · simp at h1

/-- Every index read by `check_comment_fence` lies between `pos` and `len`, the index
`len` (the terminator of the buffer) included. -/
theorem code_check_comment_fence_reads_le (str g : List Char) (pos len : Nat) :
    ∀ i ∈ check_comment_fence_reads str pos len g, pos ≤ i ∧ i ≤ len := by
  intro i hi
  unfold check_comment_fence_reads at hi
  simp only at hi
  by_cases h5 : pos + 5 ≤ len
  · simp only [h5, if_true, decide_True, Bool.true_and] at hi
    have hin : i ∈ (hash_chain pos g).map Prod.fst ∨ i ∈ (roxy_chain pos g).map Prod.fst := by
      split_ifs at hi
      · left; exact chain_reads_subset str _ i hi
      · rcases List.mem_append.mp hi with h | h
        · left; exact chain_reads_subset str _ i h
        · right; exact chain_reads_subset str _ i h
    simp only [hash_chain, roxy_chain, List.map_cons, List.map_nil, List.mem_cons,
      List.mem_singleton, List.not_mem_nil, or_false] at hin
    omega
  · simp [h5] at hi

/-- C25, failing input: on the five-byte buffer `#' --` with `pos = 0` and the glyph
`---`, `check_comment_fence` of `code.cpp` evaluates the six-byte form and reads the
index 5, which is not inside the buffer. -/
theorem code_check_comment_fence_reads_past_end :
    "#' --".toList.length = 5
    ∧ check_comment_fence_reads "#' --".toList 0 5 ['-', '-', '-'] = [0, 1, 0, 1, 2, 3, 4, 5]
    ∧ ¬ (∀ i ∈ check_comment_fence_reads "#' --".toList 0 5 ['-', '-', '-'], 0 ≤ i ∧ i < 5) := by
  decide

/-! ## C21, C22: `trim_leading_comment_lines` of `code.cpp` -/

/-- C21, failing input: in the body LF, two spaces, `x`, LF a blank line comes first and
the first non-separator line is the line of two spaces and `x`; the function
`trim_leading_comment_lines` of `code.cpp` returns `x` LF, without the two leading
spaces of that line. -/
theorem code_trim_drops_leading_blanks :
    splitLines "\n  x\n".toList = ["\n".toList, "  x\n".toList]
    ∧ is_blank_line "\n".toList = true
    ∧ trim_leading_comment_lines "\n  x\n".toList ['#', ' '] = "x\n".toList
    ∧ trim_leading_comment_lines "\n  x\n".toList ['#', ' '] ≠ "  x\n".toList := by
  decide

/-- C22, failing input: the body of two spaces, `# x`, LF is one line, which is no
separator line, and no blank line comes before it; `unwrap_comments` of the whole
remaining body leaves it unchanged (the line does not start with the marker), but
`trim_leading_comment_lines` of `code.cpp` returns `x` LF: it unwraps the body from
after the two leading spaces. -/
theorem code_trim_unwraps_after_blanks :
    splitLines "  # x\n".toList = ["  # x\n".toList]
    ∧ unwrap_comments "  # x\n".toList ['#', ' '] = "  # x\n".toList
    ∧ trim_leading_comment_lines "  # x\n".toList ['#', ' '] = "x\n".toList
    ∧ trim_leading_comment_lines "  # x\n".toList ['#', ' ']
      ≠ unwrap_comments "  # x\n".toList ['#', ' '] := by
  decide

end CodeCpp

end FrontMatter

namespace FrontMatter

/-! ## C29: the two versions of `unwrap_comments` -/

theorem cr_before_lf_drop {s : List Char} (h : cr_before_lf s) (n : Nat) :
    cr_before_lf (s.drop n) := by
  intro a b e
  apply h (s.take n ++ a) b
  rw [List.append_assoc, ← e, List.take_append_drop]

theorem cr_before_lf_tail {c : Char} {t : List Char} (h : cr_before_lf (c :: t)) :
    cr_before_lf t := by
  intro a b e
  exact h (c :: a) b (by rw [e]; rfl)

theorem seg_len_eq_line_len : ∀ (s : List Char), cr_before_lf s → seg_len s = line_len s := by
  intro s
  induction s with
  | nil => intro _; rfl
  | cons c t ih =>
    intro h
    rw [seg_len, line_len, ih (cr_before_lf_tail h)]
    by_cases hc : c = '\n'
    · simp [hc]
    · have hcond : ¬ (c = '\n' ∨ (c = '\r' ∧ t.head? ≠ some '\n')) := by
        rintro (h1 | ⟨h1, h2⟩)
        · exact hc h1
        · exact h2 (h [] t (by rw [h1]; rfl))
      rw [if_neg hcond, if_neg hc]

theorem substr_test_eq (data p : List Char) (pos : Nat) (hpos : pos ≤ data.length) :
    (decide (pos + p.length ≤ data.length) && substr data pos p.length == p)
      = p.isPrefixOf (data.drop pos) := by
  rw [Bool.eq_iff_iff, Bool.and_eq_true, decide_eq_true_eq, beq_iff_eq,
    List.isPrefixOf_iff_prefix, List.prefix_iff_eq_take]
  unfold substr
  constructor
  · rintro ⟨_, h⟩; exact h.symm
  · intro h
    refine ⟨?_, h.symm⟩
    have hl := congrArg List.length h
    rw [List.length_take, List.length_drop] at hl
    omega

namespace CodeCpp

/-- The copy loop of `code.cpp` copies the rest of the line, its LF included. -/
theorem code_copy_line_eq (data : List Char) :
    ∀ fuel pos acc, data.length - pos ≤ fuel →
      copy_line data data.length fuel pos acc
        = (pos + line_len (data.drop pos),
            acc ++ (data.drop pos).take (line_len (data.drop pos))) := by
  intro fuel
  induction fuel with
  | zero =>
    intro pos acc hf
    have hd : data.drop pos = [] := List.drop_of_length_le (by omega)
    simp [copy_line, hd, line_len]
  | succ n ih =>
    intro pos acc hf
    by_cases hlt : pos < data.length
    · rw [copy_line]
      simp only [hlt, if_true]
      rw [drop_eq_cons hlt]
      by_cases h1 : byteAt data pos = '\n'
      · simp [h1, line_len]
      · have e1 : (byteAt data pos == '\n') = false := by rw [beq_eq_false_iff_ne]; exact h1
        rw [line_len_cons_ne _ h1]
        by_cases h2 : (byteAt data pos == '\r' && decide (pos + 1 < data.length)
            && byteAt data (pos + 1) == '\n') = true
        · simp only [e1, Bool.false_or, h2, if_true]
          simp only [Bool.and_eq_true, beq_iff_eq, decide_eq_true_eq] at h2
          obtain ⟨⟨h3, h4⟩, h5⟩ := h2
          rw [drop_eq_cons h4, h5]
          simp [h3, line_len]
        · simp only [e1, Bool.false_or, h2, Bool.false_eq_true, if_false]
          rw [ih (pos + 1) _ (by omega)]
          simp only [Prod.mk.injEq]
          constructor
          · omega
          · simp
    · have hd : data.drop pos = [] := List.drop_of_length_le (by omega)
      rw [copy_line]
      simp [hlt, hd, line_len]

/-- Where every CR is followed by LF, the copy loop of `code.cpp` and the segment copy
of `extract_front_matter.cpp` do the same. -/
theorem code_copy_rest_eq (data : List Char) (q : Nat) (acc : List Char)
    (h : cr_before_lf (data.drop q)) :
    copy_rest data data.length q acc = unwrap_copy_line data data.length q q acc := by
  unfold copy_rest
  rw [code_copy_line_eq data _ q acc (le_refl _), unwrap_copy_line_seg, substr_seg,
    seg_len_eq_line_len _ h]

theorem code_unwrap_comments_body_eq (data p : List Char) (pos : Nat) (acc : List Char)
    (hlt : pos < data.length) (h : cr_before_lf (data.drop pos)) :
    unwrap_comments_body data p data.length pos acc
      = FrontMatter.unwrap_comments_body data p data.length pos acc := by
  have h1 := code_copy_rest_eq data pos acc h
  have h2 : copy_rest data data.length (pos + p.length) acc
      = unwrap_copy_line data data.length (pos + p.length) (pos + p.length) acc := by
    apply code_copy_rest_eq
    rw [← List.drop_drop]
    exact cr_before_lf_drop h _
  unfold unwrap_comments_body FrontMatter.unwrap_comments_body
  simp only [substr_test_eq data p pos (by omega), pfx_test_eq data p pos (by omega), h1, h2]

theorem code_unwrap_loop_eq (data p : List Char) (h : cr_before_lf data) :
    ∀ fuel pos acc,
      while_lt data.length (unwrap_comments_body data p data.length) (fun result => result)
          fuel pos acc
        = while_lt data.length (FrontMatter.unwrap_comments_body data p data.length)
          (fun result => result) fuel pos acc := by
  intro fuel
  induction fuel with
  | zero => intro pos acc; rfl
  | succ n ih =>
    intro pos acc
    simp only [while_lt]
    by_cases hlt : pos < data.length
    · simp only [hlt, if_true, code_unwrap_comments_body_eq data p pos acc hlt (cr_before_lf_drop h pos)]
      cases FrontMatter.unwrap_comments_body data p data.length pos acc with
      | done r => rfl
      | next p1 s1 => exact ih p1 s1
    · simp only [hlt, if_false]

theorem code_unwrap_comments_eq (content p : List Char) (h : cr_before_lf content) :
    unwrap_comments content p = FrontMatter.unwrap_comments content p := by
  unfold unwrap_comments FrontMatter.unwrap_comments
  exact code_unwrap_loop_eq content p h _ _ _

end CodeCpp

/-- Every CR of `content` is followed by LF, said with byte offsets. -/
theorem cr_before_lf_of_bytes (content : List Char)
    (hcr : ∀ i, i < content.length → byteAt content i = '\r' →
      byteAt content (i + 1) = '\n') : cr_before_lf content := by
  intro a b e
  have h1 := hcr a.length (by rw [e]; simp) (by
    rw [e, byteAt_append_length])
  rw [e] at h1
  have h2 : byteAt (a ++ '\r' :: b) (a.length + 1) = byteAt b 0 := by
    have : a ++ '\r' :: b = (a ++ ['\r']) ++ b := by simp
    rw [this]
    have hl : a.length + 1 = (a ++ ['\r']).length := by simp
    rw [hl]
    have h0 := byteAt_drop ((a ++ ['\r']) ++ b) (a ++ ['\r']).length 0
    rw [List.drop_left, Nat.add_zero] at h0
    exact h0.symm
  rw [h2] at h1
  cases b with
  | nil =>
    rw [byteAt_nil] at h1
    exact absurd h1 (by decide)
  | cons d u =>
    rw [byteAt_cons_zero] at h1
    rw [h1]; rfl

namespace CodeCpp

/-- C29: for every marker `p` among `# ` and `#' ` and every content string in which
each CR is immediately followed by LF, `unwrap_comments` of `code.cpp` (which copies
byte by byte) and `unwrap_comments` of `extract_front_matter.cpp` (which appends whole
segments) return the same string. -/
theorem code_unwrap_comments_agree (content p : List Char)
    (hp : p = ['#', ' '] ∨ p = ['#', Char.ofNat 39, ' '])
    (hcr : ∀ i, i < content.length → byteAt content i = '\r' →
      byteAt content (i + 1) = '\n') :
    unwrap_comments content p = FrontMatter.unwrap_comments content p
    ∧ unwrap_comments content p = ((splitLines content).map (unwrap_line p)).flatten := by
  have h : cr_before_lf content := cr_before_lf_of_bytes content hcr
  refine ⟨code_unwrap_comments_eq content p h, ?_⟩
  rw [code_unwrap_comments_eq content p h, unwrap_comments_eq content p hp,
    splitSegments_eq_splitLines content h]

theorem code_unwrap_comments_agree_witness :
    unwrap_comments "# a\r\n#\n#x\n# b".toList ['#', ' ']
      = FrontMatter.unwrap_comments "# a\r\n#\n#x\n# b".toList ['#', ' ']
    ∧ unwrap_comments "# a\r\n#\n#x\n# b".toList ['#', ' ']
      = ((splitLines "# a\r\n#\n#x\n# b".toList).map (unwrap_line ['#', ' '])).flatten :=
  code_unwrap_comments_agree "# a\r\n#\n#x\n# b".toList ['#', ' '] (Or.inl rfl) (by decide)

end CodeCpp

end FrontMatter

namespace FrontMatter

/-! ## C27: the two versions of the scanner -/

theorem splitLines_length_le (s : List Char) :
    (splitLines s).length ≤ s.count '\n' + 1 := by
  induction s with
  | nil => simp [splitLines]
  | cons c t ih =>
    by_cases hc : c = '\n'
    · subst hc
      rw [splitLines, if_pos rfl, List.count_cons_self, List.length_cons]
      omega
    · rw [splitLines_cons_ne hc, List.count_cons_of_ne (fun h => hc h.symm), List.length_cons]
      cases hs : splitLines t with
      | nil => simp
      | cons l ls =>
        rw [hs] at ih
        simp only [List.tail_cons]
        simp only [List.length_cons] at ih
        omega

theorem tail_lines_length_le (s : List Char) :
    (splitLines (s.drop (line_len s))).length ≤ s.count '\n' := by
  induction s with
  | nil => simp [line_len, splitLines]
  | cons c t ih =>
    by_cases hc : c = '\n'
    · subst hc
      have : line_len ('\n' :: t) = 1 := by simp [line_len]
      rw [this, List.count_cons_self]
      exact splitLines_length_le t
    · rw [line_len_cons_ne t hc, List.count_cons_of_ne (fun h => hc h.symm)]
      exact ih

/-- At the start of the line scans both ceilings are out of reach when the text has at
most 1048576 bytes and at most 10000 LF bytes. -/
theorem under_ceilings_start (text : List Char) (hlen : text.length ≤ 1048576)
    (hlf : text.count '\n' ≤ 10000) : under_ceilings text (line_len text) (0, 0) := by
  refine ⟨line_len_le text, ?_, ?_⟩
  · have := tail_lines_length_le text
    simp only [Nat.zero_add]
    omega
  · simp only [Nat.zero_add]
    omega

theorem cr_before_lf_substr {text : List Char} (h : cr_before_lf text) (a n : Nat)
    (hn : (text.drop (a + n)).head? ≠ some '\n') : cr_before_lf (substr text a n) := by
  intro x y e
  unfold substr at e
  have h1 : text.drop a = (x ++ '\r' :: y) ++ (text.drop a).drop n := by
    rw [← e, List.take_append_drop]
  have h2 : text = (text.take a ++ x) ++ '\r' :: (y ++ (text.drop a).drop n) := by
    have h0 := (List.take_append_drop a text).symm
    rw [h1] at h0
    simpa using h0
  have h3 := h _ _ h2
  cases y with
  | nil =>
    exfalso
    apply hn
    rw [← List.drop_drop]
    simpa using h3
  | cons d u => simpa using h3

namespace CodeCpp

theorem code_check_comment_fence_eq (str g : List Char) (pos : Nat)
    (hg : byteAt g 2 ≠ Char.ofNat 0) :
    check_comment_fence str pos str.length g
      = FrontMatter.check_comment_fence str pos str.length g := by
  have hm : ∀ q, memcmp_eq str q g 3
      = (byteAt str q == byteAt g 0 && byteAt str (q + 1) == byteAt g 1
          && byteAt str (q + 2) == byteAt g 2) := by
    intro q
    unfold memcmp_eq
    simp only [List.range_succ, List.range_zero, List.nil_append, List.cons_append,
      List.all_cons, List.all_nil, Bool.and_true, Nat.add_zero, Bool.and_assoc]
  unfold check_comment_fence FrontMatter.check_comment_fence
  rw [hm, hm]
  have e1 : pos + 2 + 1 = pos + 3 := rfl
  have e2 : pos + 2 + 2 = pos + 4 := rfl
  have e3 : pos + 3 + 1 = pos + 4 := rfl
  have e4 : pos + 3 + 2 = pos + 5 := rfl
  rw [e1, e2, e3, e4]
  simp only [Bool.and_assoc]
  by_cases h6 : pos + 6 ≤ str.length
  · have h5 : pos + 5 ≤ str.length := by omega
    simp only [h5, h6, decide_True]
  · by_cases h5 : pos + 5 ≤ str.length
    · have hb : byteAt str (pos + 5) = Char.ofNat 0 := by
        unfold byteAt
        rw [List.getD_eq_default _ _ (by omega)]
      have hbe : (byteAt str (pos + 5) == byteAt g 2) = false := by
        rw [beq_eq_false_iff_ne, hb]
        exact fun h => hg h.symm
      simp only [h5, h6, decide_True, decide_False, hbe, Bool.and_false, Bool.false_and,
        Bool.true_and]
    · simp only [h5, h6, decide_False, Bool.false_and]

theorem code_comment_opening_eq (str g : List Char) (ft ftc ftr : String)
    (hg : byteAt g 2 ≠ Char.ofNat 0) :
    comment_opening str str.length g ft
      = (FrontMatter.comment_opening str str.length g ft ftc ftr).map of_opening := by
  unfold comment_opening FrontMatter.comment_opening
  rw [code_check_comment_fence_eq str g 0 hg]
  simp only
  split_ifs <;> rfl

theorem code_bare_opening_eq (str g : List Char) (ft : String) :
    bare_opening str str.length g ft
      = (FrontMatter.bare_opening str str.length g ft).map of_opening := by
  unfold bare_opening FrontMatter.bare_opening
  rw [code_validate_fence_eq]
  simp only
  split_ifs <;> rfl

theorem code_detect_opening_eq (str : List Char) :
    detect_opening str str.length = (FrontMatter.detect_opening str str.length).map of_opening := by
  unfold detect_opening FrontMatter.detect_opening
  rw [code_comment_opening_eq str _ "yaml" "yaml_comment" "yaml_roxy" (by decide),
    code_comment_opening_eq str _ "toml" "toml_comment" "toml_roxy" (by decide),
    code_bare_opening_eq, code_bare_opening_eq]
  cases FrontMatter.comment_opening str str.length ['-', '-', '-'] "yaml" "yaml_comment"
      "yaml_roxy" with
  | some o => rfl
  | none =>
    cases FrontMatter.comment_opening str str.length ['+', '+', '+'] "toml" "toml_comment"
        "toml_roxy" with
    | some o => rfl
    | none =>
      cases FrontMatter.bare_opening str str.length ['-', '-', '-'] "yaml" with
      | some o => rfl
      | none => rfl

/-- Under the ceilings the counting step of a line scan is a plain step to the next
line, and the ceilings stay out of reach. -/
theorem code_count_line_eq {ρ : Type} (str : List Char) (pos : Nat) (st : Nat × Nat) (abort : ρ)
    (hlt : pos < str.length) (hinv : under_ceilings str pos st) :
    ∃ st1, count_line str str.length pos st abort
        = Step.next (skip_to_next_line str pos str.length) st1
      ∧ under_ceilings str (skip_to_next_line str pos str.length) st1 := by
  obtain ⟨h1, h2, h3⟩ := hinv
  have hne : str.drop pos ≠ [] := by
    rw [drop_eq_cons hlt]; simp
  have hsl := splitLines_eq hne
  rw [hsl, List.length_cons, List.drop_drop] at h2
  have hle := line_len_le (str.drop pos)
  rw [List.length_drop] at hle
  have hpos := line_len_pos hne
  refine ⟨(st.1 + 1, st.2 + (skip_to_next_line str pos str.length - pos)), ?_, ?_⟩
  · unfold count_line
    simp only [MAX_FRONT_MATTER_LINES, MAX_FRONT_MATTER_SIZE, skip_to_next_line_eq,
      Nat.add_sub_cancel_left]
    have e1 : decide (st.1 + 1 > 10000) = false := decide_eq_false (by omega)
    have e2 : decide (st.2 + line_len (str.drop pos) > 1048576) = false :=
      decide_eq_false (by omega)
    simp only [e1, e2, Bool.or_self, Bool.false_eq_true, if_false]
  · rw [skip_to_next_line_eq]
    refine ⟨by omega, ?_, ?_⟩
    · simp only; omega
    · simp only; omega

/-- A counting line scan of `code.cpp` and the plain line scan of the newer version give
related results as long as the ceilings are out of reach. -/
theorem code_counted_loop_rel {ρ ρc : Type} (str : List Char)
    (body : Nat → Unit → Step Unit ρ) (cbody : Nat → Nat × Nat → Step (Nat × Nat) ρc)
    (e : ρ) (ec : ρc) (R : ρc → ρ → Prop) (hexit : R ec e)
    (hsim : ∀ pos st, pos < str.length → under_ceilings str pos st →
      (∀ r, body pos () = Step.done r → ∃ rc, cbody pos st = Step.done rc ∧ R rc r)
      ∧ (∀ p, body pos () = Step.next p () →
          ∃ st1, cbody pos st = Step.next p st1 ∧ under_ceilings str p st1)) :
    ∀ fuel pos st, under_ceilings str pos st →
      R (while_lt str.length cbody (fun _ => ec) fuel pos st)
        (while_lt str.length body (fun _ => e) fuel pos ()) := by
  intro fuel
  induction fuel with
  | zero => intro pos st _; exact hexit
  | succ n ih =>
    intro pos st hinv
    simp only [while_lt]
    by_cases hlt : pos < str.length
    · simp only [hlt, if_true]
      obtain ⟨hd, hn⟩ := hsim pos st hlt hinv
      cases hb : body pos () with
      | done r =>
        obtain ⟨rc, h1, h2⟩ := hd r hb
        rw [h1]
        exact h2
      | next p u =>
        obtain ⟨st1, h1, h2⟩ := hn p hb
        rw [h1]
        exact ih p st1 h2
    · simp only [hlt, if_false]
      exact hexit

theorem code_find_closing_fence_sim (str g : List Char) (start : Nat) :
    ∀ pos st, pos < str.length → under_ceilings str pos st →
      (∀ r, FrontMatter.find_closing_fence_body str start str.length g pos () = Step.done r →
        ∃ rc, find_closing_fence_body str start str.length g pos st = Step.done rc ∧ rc = r)
      ∧ (∀ p, FrontMatter.find_closing_fence_body str start str.length g pos () = Step.next p () →
          ∃ st1, find_closing_fence_body str start str.length g pos st = Step.next p st1
            ∧ under_ceilings str p st1) := by
  intro pos st hlt hinv
  obtain ⟨st1, hc1, hc2⟩ := code_count_line_eq str pos st (0 : Nat) hlt hinv
  have hcount : count_line str str.length pos st (0 : Nat)
      = (if decide (st.1 + 1 > MAX_FRONT_MATTER_LINES)
            || decide (st.2 + (skip_to_next_line str pos str.length - pos)
                > MAX_FRONT_MATTER_SIZE) then
          Step.done 0
        else Step.next (skip_to_next_line str pos str.length)
          (st.1 + 1, st.2 + (skip_to_next_line str pos str.length - pos))) := rfl
  unfold find_closing_fence_body FrontMatter.find_closing_fence_body
  simp only [code_validate_fence_eq, ← hcount, hc1]
  constructor
  · intro r hr
    split_ifs at hr ⊢ with h
    · simp only [Step.done.injEq] at hr
      exact ⟨pos, rfl, hr⟩
  · intro p hp
    split_ifs at hp ⊢ with h
    · simp only [Step.next.injEq] at hp
      rw [← hp.1]
      exact ⟨st1, rfl, hc2⟩

theorem code_find_comment_closing_fence_sim (str g pfx : List Char) (start : Nat)
    (hg : byteAt g 2 ≠ Char.ofNat 0) :
    ∀ pos st, pos < str.length → under_ceilings str pos st →
      (∀ r, FrontMatter.find_comment_closing_fence_body str start str.length g pfx pos ()
          = Step.done r →
        ∃ rc, find_comment_closing_fence_body str start str.length g pfx pos st = Step.done rc
          ∧ rc = r)
      ∧ (∀ p, FrontMatter.find_comment_closing_fence_body str start str.length g pfx pos ()
          = Step.next p () →
          ∃ st1, find_comment_closing_fence_body str start str.length g pfx pos st
              = Step.next p st1
            ∧ under_ceilings str p st1) := by
  intro pos st hlt hinv
  obtain ⟨st1, hc1, hc2⟩ := code_count_line_eq str pos st (0 : Nat) hlt hinv
  unfold find_comment_closing_fence_body FrontMatter.find_comment_closing_fence_body
  simp only [code_check_comment_fence_eq str g pos hg, hc1]
  constructor
  · intro r hr
    split_ifs at hr ⊢
    · simp only [Step.done.injEq] at hr
      exact ⟨pos, rfl, hr⟩
  · intro p hp
    split_ifs at hp ⊢
    all_goals
      simp only [Step.next.injEq] at hp
      rw [← hp.1]
      exact ⟨st1, rfl, hc2⟩

theorem code_closing_start_of_eq (text : List Char) (o : FrontMatter.Opening)
    (hg : byteAt o.fence_chars 2 ≠ Char.ofNat 0)
    (hinv : under_ceilings text o.opening_end (0, 0)) :
    closing_start_of text text.length (of_opening o)
      = FrontMatter.closing_start_of text text.length o := by
  unfold closing_start_of FrontMatter.closing_start_of of_opening
  simp only
  split_ifs with hw
  · exact code_counted_loop_rel text _ _ 0 0 Eq rfl
      (code_find_comment_closing_fence_sim text o.fence_chars o.comment_pfx o.opening_end hg)
      _ _ _ hinv
  · exact code_counted_loop_rel text _ _ 0 0 Eq rfl
      (code_find_closing_fence_sim text o.fence_chars o.opening_end) _ _ _ hinv

theorem opening_glyph_byte {lit : List Char} {n : Nat} {o : FrontMatter.Opening}
    (h : opening_of lit n = some o) : byteAt o.fence_chars 2 ≠ Char.ofNat 0 := by
  unfold opening_of at h
  split_ifs at h with h1 h2 h3 h4 h5 h6 <;>
    simp only [Option.some.injEq] at h <;> subst h <;> simp only <;> decide

theorem opening_literal_head :
    ∀ lit ∈ opening_literals, lit.head? ≠ none ∧ lit.head? ≠ some '\n' := by
  decide

theorem head_of_literal_pfx {lit s : List Char} (hlit : lit ∈ opening_literals)
    (h : lit <+: s) : s.head? ≠ some '\n' := by
  obtain ⟨t, rfl⟩ := h
  have h1 := opening_literal_head lit hlit
  cases lit with
  | nil => exact absurd rfl h1.1
  | cons c u => simpa using h1.2

theorem is_pep723_closing_head (text : List Char) (pos : Nat)
    (h : is_pep723_closing text pos text.length = true) :
    (text.drop pos).head? ≠ some '\n' := by
  have hb : byteAt text pos = '#' := by
    by_contra hne
    unfold is_pep723_closing at h
    have : (byteAt text pos != '#') = true := by simpa using hne
    simp only [this, if_true] at h
    split_ifs at h
  have hlt : pos < text.length := by
    by_contra hge
    unfold is_pep723_closing PEP723_CLOSING_LEN at h
    rw [if_pos (by omega)] at h
    exact absurd h (by decide)
  rw [drop_eq_cons hlt, hb]
  simp

theorem code_extract_pep723_sim (text : List Char) (cs : Nat) :
    ∀ pos st, pos < text.length → under_ceilings text pos st →
      (∀ r, FrontMatter.extract_pep723_body text text.length cs pos () = Step.done r →
        ∃ rc, extract_pep723_body text text.length cs pos st = Step.done rc
          ∧ same_detection text rc r)
      ∧ (∀ p, FrontMatter.extract_pep723_body text text.length cs pos () = Step.next p () →
          ∃ st1, extract_pep723_body text text.length cs pos st = Step.next p st1
            ∧ under_ceilings text p st1) := by
  intro pos st hlt hinv
  obtain ⟨st1, hc1, hc2⟩ := code_count_line_eq text pos st (not_found text) hlt hinv
  unfold extract_pep723_body FrontMatter.extract_pep723_body
  simp only [hc1]
  by_cases h1 : is_pep723_closing text pos text.length = true
  · simp only [h1, if_true]
    constructor
    · intro r hr
      simp only [Step.done.injEq] at hr
      refine ⟨_, rfl, ?_⟩
      rw [← hr]
      refine ⟨rfl, fun hcr => ?_⟩
      simp only
      by_cases hgt : pos > cs
      · simp only [hgt, if_true]
        refine code_unwrap_comments_eq _ _ (cr_before_lf_substr hcr cs (pos - cs) ?_)
        rw [show cs + (pos - cs) = pos by omega]
        exact is_pep723_closing_head text pos h1
      · simp only [hgt, if_false]
    · intro p hp
      exact absurd hp (by simp)
  · simp only [h1, if_false]
    by_cases h2 : (byteAt text pos != '#') = true
    · simp only [h2, if_true]
      constructor
      · intro r hr
        cases hr
        exact ⟨_, rfl, rfl, fun _ => rfl⟩
      · intro p hp
        exact absurd hp (by simp)
    · simp only [h2, if_false]
      by_cases h3 : (decide (pos + 1 < text.length) && byteAt text (pos + 1) != '\n'
          && byteAt text (pos + 1) != '\r' && byteAt text (pos + 1) != ' ') = true
      · simp only [h3, if_true]
        constructor
        · intro r hr
          cases hr
          exact ⟨_, rfl, rfl, fun _ => rfl⟩
        · intro p hp
          exact absurd hp (by simp)
      · simp only [h3, if_false]
        constructor
        · intro r hr
          exact absurd hr (by simp)
        · intro p hp
          cases hp
          exact ⟨st1, rfl, hc2⟩

theorem code_extract_pep723_rel (text : List Char) (hlen : text.length ≤ 1048576)
    (hlf : text.count '\n' ≤ 10000) :
    same_detection text (extract_pep723 text) (FrontMatter.extract_pep723 text) := by
  unfold extract_pep723 FrontMatter.extract_pep723
  simp only
  split_ifs with h
  · exact ⟨rfl, fun _ => rfl⟩
  · refine code_counted_loop_rel text _ _ _ _ (same_detection text) ⟨rfl, fun _ => rfl⟩
      (code_extract_pep723_sim text _) _ _ _ ?_
    have h0 := skip_to_next_line_eq text 0
    rw [List.drop_zero, Nat.zero_add] at h0
    rw [h0]
    exact under_ceilings_start text hlen hlf

theorem code_dispatch_rel (text : List Char) (hlen : text.length ≤ 1048576)
    (hlf : text.count '\n' ≤ 10000) :
    same_detection text (extract_front_matter_cpp text)
      (FrontMatter.extract_front_matter_cpp text) := by
  unfold extract_front_matter_cpp FrontMatter.extract_front_matter_cpp
  simp only
  split_ifs with h0 hpep
  · exact ⟨rfl, fun _ => rfl⟩
  · exact code_extract_pep723_rel text hlen hlf
  · rw [code_detect_opening_eq]
    cases hd : FrontMatter.detect_opening text text.length with
    | none => exact ⟨rfl, fun _ => rfl⟩
    | some o =>
      obtain ⟨lit, hlit, _, _, ho⟩ := detect_opening_some text o hd
      have hoe : o.opening_end = line_len text := (opening_of_fields ho).1
      have hcs := code_closing_start_of_eq text o (opening_glyph_byte ho)
        (by rw [hoe]; exact under_ceilings_start text hlen hlf)
      simp only [Option.map_some', hcs]
      split_ifs with hz
      · exact ⟨rfl, fun _ => rfl⟩
      · refine ⟨rfl, fun hcr => ?_⟩
        have hne : FrontMatter.closing_start_of text text.length o ≠ 0 := by
          simpa using hz
        have hpre := closing_line_literal text o lit hlit ho hne
        have hhead := head_of_literal_pfx hlit hpre
        unfold assemble FrontMatter.assemble of_opening
        simp only
        split_ifs with hgt hw
        · refine code_unwrap_comments_eq _ _ (cr_before_lf_substr hcr _ _ ?_)
          rw [show o.opening_end + (FrontMatter.closing_start_of text text.length o
            - o.opening_end) = FrontMatter.closing_start_of text text.length o by omega]
          exact hhead
        · rfl
        · rfl

end CodeCpp

/-- C27: for every text of at most 1048576 bytes with at most 10000 LF bytes,
`extract_front_matter_cpp` of `code.cpp` and of `extract_front_matter.cpp` return the
same `found` flag, and, when every CR of the text is immediately followed by LF, the same
`content` string. -/
theorem code_versions_agree (text : List Char) (hlen : text.length ≤ 1048576)
    (hlf : text.count '\n' ≤ 10000) :
    (CodeCpp.extract_front_matter_cpp text).found = (extract_front_matter_cpp text).found
    ∧ ((∀ i, i < text.length → byteAt text i = '\r' → byteAt text (i + 1) = '\n') →
        (CodeCpp.extract_front_matter_cpp text).content
          = (extract_front_matter_cpp text).content) := by
  have h := CodeCpp.code_dispatch_rel text hlen hlf
  exact ⟨h.1, fun hcr => h.2 (cr_before_lf_of_bytes text hcr)⟩

theorem code_versions_agree_witness :
    "# ---\r\n# a: 1\r\n#\n# ---\nx\n".toList.length ≤ 1048576
    ∧ "# ---\r\n# a: 1\r\n#\n# ---\nx\n".toList.count '\n' ≤ 10000
    ∧ (CodeCpp.extract_front_matter_cpp "# ---\r\n# a: 1\r\n#\n# ---\nx\n".toList).found
      = (extract_front_matter_cpp "# ---\r\n# a: 1\r\n#\n# ---\nx\n".toList).found
    ∧ ((∀ i, i < "# ---\r\n# a: 1\r\n#\n# ---\nx\n".toList.length →
          byteAt "# ---\r\n# a: 1\r\n#\n# ---\nx\n".toList i = '\r' →
          byteAt "# ---\r\n# a: 1\r\n#\n# ---\nx\n".toList (i + 1) = '\n') →
        (CodeCpp.extract_front_matter_cpp "# ---\r\n# a: 1\r\n#\n# ---\nx\n".toList).content
          = (extract_front_matter_cpp "# ---\r\n# a: 1\r\n#\n# ---\nx\n".toList).content) :=
  ⟨by decide, by decide,
    code_versions_agree "# ---\r\n# a: 1\r\n#\n# ---\nx\n".toList (by decide) (by decide)⟩

end FrontMatter

namespace FrontMatter

/-! ## C16: `validate_fence` at the offsets of the closing-fence search -/

end FrontMatter

namespace FrontMatter

/-! ## C6: the line ceiling -/

theorem length_x_lines (n : Nat) : (List.replicate n ['x', '\n']).flatten.length = 2 * n := by
  induction n with
  | zero => rfl
  | succ k ih =>
    rw [List.replicate_succ, List.flatten_cons, List.length_append, ih]
    simp only [List.length_cons, List.length_nil]
    omega

namespace CodeCpp

/-- The closing-fence search of `code.cpp` on `long_block n`: the fence after the `n`
content lines is found when `n <= 10000` and the search is given up otherwise. -/
theorem code_long_block_closing (n : Nat) :
    find_closing_fence (long_block n) 4 (long_block n).length ['-', '-', '-']
      = if n ≤ 10000 then 4 + 2 * n else 0 := by
  have hsp := splitLines_long_block n
  have e : (['-', '-', '-'] ++ ['\n']) ++ ['b', 'o', 'd', 'y', '\n']
      = ['-', '-', '-'] ++ '\n' :: ['b', 'o', 'd', 'y', '\n'] := rfl
  rw [line_len_long_block, e, splitLines_line ['-', '-', '-'] (by decide)] at hsp
  have hls : LineStart (long_block n) 4 := by
    have h := lineStart_line_len (long_block n)
    rw [line_len_long_block] at h
    rcases h with h | h
    · exact h
    · exfalso
      have : 4 < (long_block n).length := by
        simp [long_block]
      omega
  have h := code_loop_found (long_block n) ['-', '-', '-'] 4 rfl (by decide)
    (['-', '-', '-'] ++ ['\n']) _ (by decide) (List.replicate n ['x', '\n'])
    ((long_block n).length - 4) 4 0 0 (le_refl _) (Or.inl rfl) (Or.inr hls) (by omega) (by omega)
    hsp (fun x hx => fence_line_x_line x hx)
  unfold find_closing_fence
  rw [h, List.length_replicate, length_x_lines]
  by_cases hn : n ≤ 10000
  · rw [if_pos hn, if_pos ⟨by omega, by omega⟩]
  · rw [if_neg hn, if_neg (fun hc => hn (by omega))]

/-- The dispatcher of `code.cpp` on `long_block n`: the block is found exactly when it has
at most 10000 content lines. -/
theorem code_long_block_found (n : Nat) :
    (extract_front_matter_cpp (long_block n)).found = decide (n ≤ 10000) := by
  have hfl := fence_line_long_block n
  have hne : (long_block n).length ≠ 0 := by
    simp [long_block]
  have hpep := pep723_opening_false_of_fence_line (long_block n) ['-', '-', '-'] (by decide)
    (by decide) hfl
  have hdet : detect_opening (long_block n) (long_block n).length
      = some (Opening.mk ['-', '-', '-'] "yaml" [] 4 false) := by
    rw [code_detect_opening_eq,
      detect_opening_of_fence_line (long_block n) ['-', '-', '-'] (by decide) hfl,
      line_len_long_block]
    rfl
  unfold extract_front_matter_cpp
  simp only [hne, beq_iff_eq, if_false, hpep, Bool.false_eq_true, hdet]
  have hcl : closing_start_of (long_block n) (long_block n).length
      (Opening.mk ['-', '-', '-'] "yaml" [] 4 false) = if n ≤ 10000 then 4 + 2 * n else 0 := by
    unfold closing_start_of
    simp only [Bool.false_eq_true, if_false]
    exact code_long_block_closing n
  rw [hcl]
  by_cases hn : n ≤ 10000
  · have h0 : ¬ (4 + 2 * n = 0) := by omega
    simp only [hn, if_true, h0, if_false, decide_True]
    rfl
  · simp only [hn, if_false, if_true, decide_False]
    rfl

end CodeCpp

/-- C6, failing input: `long_block 10001` opens with a valid bare `---` fence line and
has 10001 content lines `x` before its closing fence, so none of the first 10000 lines
after the opening line is a closing fence. `extract_front_matter_cpp` of
`extract_front_matter.cpp` returns `found = true`, with all 10001 lines as content; the
same function of `code.cpp` returns `found = false` on this text, and `found = true` with
one content line less. -/
theorem line_ceiling_not_enforced :
    fence_line ['-', '-', '-'] (long_block 10001) = true
    ∧ (splitLines ((long_block 10001).drop (line_len (long_block 10001)))).take 10001
      = List.replicate 10001 ['x', '\n']
    ∧ (∀ l ∈ (splitLines ((long_block 10001).drop (line_len (long_block 10001)))).take 10000,
        fence_line ['-', '-', '-'] l = false)
    ∧ (extract_front_matter_cpp (long_block 10001)).found = true
    ∧ (extract_front_matter_cpp (long_block 10001)).content = x_lines 10001
    ∧ (CodeCpp.extract_front_matter_cpp (long_block 10001)).found = false
    ∧ (CodeCpp.extract_front_matter_cpp (long_block 10000)).found = true := by
  have htake : ∀ k, k ≤ 10001 →
      (splitLines ((long_block 10001).drop (line_len (long_block 10001)))).take k
        = List.replicate k ['x', '\n'] := by
    intro k hk
    rw [splitLines_long_block, List.take_append_of_le_length
      (by rw [List.length_replicate]; exact hk), List.take_replicate, Nat.min_eq_left hk]
  refine ⟨fence_line_long_block 10001, htake 10001 (le_refl _), ?_, ?_, ?_, ?_, ?_⟩
  · rw [htake 10000 (by omega)]
    exact fun l hl => fence_line_x_line l hl
  · rw [long_block_found]
  · rw [long_block_found]
  · rw [CodeCpp.code_long_block_found]
    decide
  · rw [CodeCpp.code_long_block_found]
    decide

end FrontMatter
